import Mathlib

/-!
# otimapp: deadlock-based search (DBS), its A* planner and the ICBS conflict scan

A shallow embedding of `otimapp/src/solver.cpp`, `otimapp/src/dbs.cpp`,
`otimapp/src/agent.cpp`, `otimapp/include/fragment.hpp` and `mapf/src/icbs.cpp`.

Conventions of the embedding.

* A `Node*` is represented by the vertex id (`Node::id`); ids are unique per vertex, so
  pointer equality of vertices is equality of ids.
* `int` values of the low-level search (`g`, `f`, distances, agent ids) are natural numbers:
  they are never negative and are bounded by the graph size, so machine overflow plays no
  role. The counter of `DBS::countsSwapConlicts` and the field `f` of a DBS node that holds
  it are not bounded that way: they are integers, and an increment is reduced to the range of
  a 32-bit `int` (`wrapInt32`), as the two's-complement machine does.
* Wall-clock queries, the Mersenne twister and `std::priority_queue` are library code.  They
  are supplied by an `Oracle`; a counter `k` numbers the queries, each query advances it.
  Which entries the queue may hand to its comparator is stated apart, as `MayCompare`, over the
  record of the queue contents that `getPathLoopTraced` keeps.
* Loops that the source writes as `while` take a `fuel` argument; `none` means the fuel ran
  out, never a result of the program.
* The conflict count `f` of an ICBS node and the entries of the occupancy vector of the
  execution model are integers, as in the source.
-/

namespace Otimapp

/-! ## Graph and problem instance -/

/-- The part of `Graph` the solvers use: `getNodesSize()` and `Node::neighbor`. -/
structure Graph where
  nodesSize : Nat
  neighbor : Nat → List Nat

/-- A `Path` is a sequence of vertices. -/
abbrev Path := List Nat

/-- A `Plan` holds one path per agent. -/
abbrev Plan := List Path

/-- The part of `Problem` the solvers use: graph, starts, goals. `getNum()` is the length of
`config_s` (the constructor resizes `config_s` and `config_g` to `num_agents`). -/
structure Problem where
  G : Graph
  config_s : List Nat
  config_g : List Nat

namespace Problem

/-- The value of `Problem::getNum`. -/
def getNum (P : Problem) : Nat := P.config_s.length

/-- The value of `Problem::getStart` for `i < getNum()`; the source halts the process on any
other index and no caller passes one. -/
def getStart (P : Problem) (i : Nat) : Nat := P.config_s.getD i 0

/-- The value of `Problem::getGoal` for `i < getNum()`; the source halts the process on any
other index and no caller passes one. -/
def getGoal (P : Problem) (i : Nat) : Nat := P.config_g.getD i 0

end Problem

/-! ## A* search nodes -/

/-- The struct `Solver::AstarNode {v, g, f, p}`; `p = none` is the null parent pointer. Nodes
are never mutated after `createNewNode`, so the pointer is embedded as the value it points
to. -/
inductive AstarNode where
  | mk (v : Nat) (g : Nat) (f : Nat) (p : Option AstarNode) : AstarNode

namespace AstarNode

/-- Field `v`. -/
def v : AstarNode → Nat
  | mk v _ _ _ => v

/-- Field `g`. -/
def g : AstarNode → Nat
  | mk _ g _ _ => g

/-- Field `f`. -/
def f : AstarNode → Nat
  | mk _ _ f _ => f

/-- Field `p`. -/
def p : AstarNode → Option AstarNode
  | mk _ _ _ p => p

/-- The loop `while (n != nullptr) { path.push_back(n->v); n = n->p; }` of `getPath`: the
vertices from `n` back to the root. -/
def backtrack : AstarNode → List Nat
  | mk v _ _ none => [v]
  | mk v _ _ (some q) => v :: backtrack q

end AstarNode

/-- The type `CheckInvalidMove`: `checkInvalidMove child parent` forbids `parent → child`. -/
abbrev CheckInvalidMove := Nat → Nat → Bool

/-- The type `CompareAstarNodes`. -/
abbrev CompareAstarNodes := AstarNode → AstarNode → Bool

/-! ## Machine integers -/

/-- The value that a 32-bit `int` holds after an arithmetic result `x`: the representative of
`x` modulo `2^32` between `-2^31` and `2^31 - 1`. -/
def wrapInt32 (x : Int) : Int := (x + 2147483648) % 4294967296 - 2147483648

/-- The struct `DBS::Constraint`: agent `agent` must not move `parent → child`. -/
structure Constraint where
  agent : Nat
  parent : Nat
  child : Nat
deriving DecidableEq, Repr

/-- The struct `DBS::HighLevelNode`; `f` is an `int`. -/
structure HighLevelNode where
  paths : Plan
  constraints : List Constraint
  f : Int
  valid : Bool
deriving DecidableEq, Repr

/-- The type of the comparator handed to the high-level queue `Tree`. -/
abbrev CompareHighLevelNodes := HighLevelNode → HighLevelNode → Bool

/-! ## Library behaviour supplied from outside -/

/-- Answers of the library calls, numbered by the query counter.

* `overCompTime k`: the value of `Solver::overCompTime()` at query `k`.
* `shuffle k C`: the result of `std::shuffle(C.begin(), C.end(), *MT)` at query `k`.
* `top k compare OPEN`: the position, among the entries of the queue listed in insertion
  order, of the entry that `OPEN.top()` yields at query `k` (taken modulo the queue size).
* `topH k compare Tree`: the same for the high-level queue `Tree` of `DBS::run`.
* `deadline k`: whether the time limit handed to `TableFragment::registerNewPath` has
  elapsed at query `k`. -/
structure Oracle where
  overCompTime : Nat → Bool
  shuffle : Nat → List Nat → List Nat
  top : Nat → CompareAstarNodes → List AstarNode → Nat
  topH : Nat → CompareHighLevelNodes → List HighLevelNode → Nat
  deadline : Nat → Bool

/-! ## Solver state and the A* of `solver.cpp` -/

/-- The fields of `Solver` that the search reads: the problem, `distance_table[agent][id]`
and `table_goals[id]`. -/
structure Solver where
  P : Problem
  distance_table : List (List Nat)
  table_goals : List Bool

namespace Solver

/-- The method `Solver::pathDist(i, s)`: `distance_table[i][s->id]`. -/
def pathDist (S : Solver) (i : Nat) (s : Nat) : Nat :=
  (S.distance_table.getD i []).getD s 0

/-- The lambda `Solver::compareAstarNodesDefault`. -/
def compareAstarNodesDefault : CompareAstarNodes := fun a b =>
  if a.f ≠ b.f then decide (a.f > b.f)
  else if a.g ≠ b.g then decide (a.g < b.g)
  else false

/-- The inner `for (auto u : C)` of `getPath`: the entries pushed when `n` is expanded, in
push order. `CLOSE` is not written inside that loop. -/
def expand (S : Solver) (id : Nat) (checkInvalidNode : CheckInvalidMove)
    (CLOSE : List Bool) (n : AstarNode) (C : List Nat) : List AstarNode :=
  (C.filter (fun u => !(CLOSE.getD u false) && !(checkInvalidNode u n.v))).map
    (fun u => AstarNode.mk u (n.g + 1) (n.g + 1 + S.pathDist id u) (some n))

/-- The main loop of `Solver::getPath` together with the path reconstruction that follows it.
`OPEN` lists the queue entries in insertion order, `CLOSE` is the vector of closed flags and
`k` the query counter. The result is the returned path and the counter after the call. -/
def getPathLoop (S : Solver) (o : Oracle) (id : Nat) (checkInvalidNode : CheckInvalidMove)
    (compare : CompareAstarNodes) :
    Nat → List AstarNode → List Bool → Nat → Option (Path × Nat)
  | 0, _, _, _ => none
  | fuel + 1, OPEN, CLOSE, k =>
    if OPEN.isEmpty then some ([], k)
    else if o.overCompTime k then some ([], k + 1)
    else
      let i := o.top k compare OPEN % OPEN.length
      match OPEN.get? i with
      | none => none
      | some n =>
        let OPEN1 := OPEN.eraseIdx i
        if CLOSE.getD n.v false then
          getPathLoop S o id checkInvalidNode compare fuel OPEN1 CLOSE (k + 1)
        else
          let CLOSE1 := CLOSE.set n.v true
          if n.v = S.P.getGoal id then some (n.backtrack.reverse, k + 1)
          else
            let C := o.shuffle k (S.P.G.neighbor n.v)
            getPathLoop S o id checkInvalidNode compare fuel
              (OPEN1 ++ expand S id checkInvalidNode CLOSE1 n C) CLOSE1 (k + 1)

/-- The method `Solver::getPath(id, checkInvalidNode, compare)`: the queue starts with the
root entry `(s, 0, pathDist(id, s), nullptr)` and no vertex is closed. -/
def getPath (S : Solver) (o : Oracle) (fuel : Nat) (id : Nat)
    (checkInvalidNode : CheckInvalidMove) (compare : CompareAstarNodes) (k : Nat) :
    Option (Path × Nat) :=
  getPathLoop S o id checkInvalidNode compare fuel
    [AstarNode.mk (S.P.getStart id) 0 (S.pathDist id (S.P.getStart id)) none]
    (List.replicate S.P.G.nodesSize false) k

/-- The body of `for (auto m : n->neighbor)` in `createDistanceTable`, acting on the row
`distance_table[i]` and the FIFO queue `OPEN`; `d_n` is read before the loop. -/
def relax (d_n : Nat) (st : List Nat × List Nat) (m : Nat) : List Nat × List Nat :=
  if d_n + 1 ≥ st.1.getD m 0 then st else (st.1.set m (d_n + 1), st.2 ++ [m])

/-- The loop `while (!OPEN.empty())` of `createDistanceTable` for one agent. -/
def bfsLoop (G : Graph) : Nat → List Nat → List Nat → Option (List Nat)
  | 0, _, _ => none
  | _ + 1, row, [] => some row
  | fuel + 1, row, n :: OPEN =>
    let st := (G.neighbor n).foldl (relax (row.getD n 0)) (row, OPEN)
    bfsLoop G fuel st.1 st.2

/-- One round of the outer `for` of `createDistanceTable`: the breadth-first search from the
goal `g` on the row `row`. -/
def bfsRow (G : Graph) (fuel : Nat) (row : List Nat) (g : Nat) : Option (List Nat) :=
  bfsLoop G fuel (row.set g 0) [g]

/-- The rounds `i = 0, 1, ...` of `createDistanceTable` over the rows of the table, `goals`
being the goals of the agents whose rows are still to be filled. -/
def bfsRows (G : Graph) (fuel : Nat) : List (List Nat) → List Nat → Option (List (List Nat))
  | row :: rows, g :: goals =>
    match bfsRow G fuel row g with
    | none => none
    | some r =>
      match bfsRows G fuel rows goals with
      | none => none
      | some rs => some (r :: rs)
  | rows, _ => some rows

/-- The constructor `Solver::Solver(P)`: every distance is `G->getNodesSize()`, no vertex is
marked as a goal. -/
def init (P : Problem) : Solver where
  P := P
  distance_table := List.replicate P.getNum (List.replicate P.G.nodesSize P.G.nodesSize)
  table_goals := List.replicate P.G.nodesSize false

/-- The method `Solver::createDistanceTable`. -/
def createDistanceTable (S : Solver) (fuel : Nat) : Option Solver :=
  (bfsRows S.P.G fuel S.distance_table S.P.config_g).map
    (fun t => { S with distance_table := t })

/-- The loop `for (i ...) table_goals[P->getGoal(i)->id] = true` of `Solver::exec`. -/
def markGoals (S : Solver) : Solver :=
  { S with table_goals := S.P.config_g.foldl (fun tg g => tg.set g true) S.table_goals }

/-- The pre-processing of `Solver::exec` up to the call of `run`. -/
def preprocess (P : Problem) (fuel : Nat) : Option Solver :=
  ((init P).createDistanceTable fuel).map markGoals

end Solver

/-! ## Fragment table (`fragment.hpp`)

The header declares the table; the bodies of its methods are not part of the sources at hand
and are written here from section 4.4 of the specification. -/

/-- The struct `Fragment`: `agents[t]` is committed to the move `path[t] → path[t+1]`. -/
structure Fragment where
  path : List Nat
  agents : List Nat
deriving DecidableEq, Repr

namespace Fragment

/-- A fragment is a potential deadlock when its path is closed: `path.front() == path.back()`. -/
def isCycle (c : Fragment) : Bool := c.path.head? == c.path.getLast?

end Fragment

/-- The struct `TableFragment`: `t_from[v]` and `t_to[v]` hold the registered fragments whose
path starts, respectively ends, at `v`. -/
structure TableFragment where
  t_from : List (List Fragment)
  t_to : List (List Fragment)
  G : Graph
  max_fragment_size : Int

namespace TableFragment

/-- Modelled from the spec: the constructor `TableFragment(G, max_fragment_size)`, whose body
is missing; both indices have one empty slot per vertex. -/
def new (G : Graph) (max_fragment_size : Int) : TableFragment where
  t_from := List.replicate G.nodesSize []
  t_to := List.replicate G.nodesSize []
  G := G
  max_fragment_size := max_fragment_size

/-- The slot `t_from[v]`. -/
def fromAt (T : TableFragment) (v : Nat) : List Fragment := T.t_from.getD v []

/-- The slot `t_to[v]`. -/
def toAt (T : TableFragment) (v : Nat) : List Fragment := T.t_to.getD v []

/-- Modelled from the spec: `existDuplication`, whose body is missing; deduplication is by
equality of the pair `(path, agents)`, looked up among the fragments that start where `path`
starts. -/
def existDuplication (T : TableFragment) (path : List Nat) (agents : List Nat) : Bool :=
  (T.fromAt (path.headD 0)).any (fun c => c.path == path && c.agents == agents)

/-- Modelled from the spec: `isValidTopologyCondition`, whose body is missing; it only acts
when `max_fragment_size > 0` and then keeps a candidate only if its internal vertices do not
repeat. -/
def isValidTopologyCondition (T : TableFragment) (path : List Nat) : Bool :=
  if T.max_fragment_size > 0 then decide (path.tail.dropLast.Nodup) else true

/-- Modelled from the spec: `createNewFragment`, whose body is missing; the new entry goes
into `t_from[path.front()]` and `t_to[path.back()]`. -/
def createNewFragment (T : TableFragment) (path : List Nat) (agents : List Nat) :
    TableFragment :=
  { T with
    t_from := T.t_from.modify (fun l => l ++ [⟨path, agents⟩]) (path.headD 0)
    t_to := T.t_to.modify (fun l => l ++ [⟨path, agents⟩]) (path.getLastD 0) }

/-- Modelled from the spec: whether a candidate is rejected outright (steps 5 and the topology
condition of section 4.4): an agent occurs twice, or `max_fragment_size` is positive and
`|path|` exceeds it, or the topology condition fails. -/
def rejected (T : TableFragment) (path : List Nat) (agents : List Nat) : Bool :=
  !(decide agents.Nodup) ||
  (decide (T.max_fragment_size > 0) && decide ((path.length : Int) > T.max_fragment_size)) ||
  !(T.isValidTopologyCondition path)

/-- Modelled from the spec: the overload `getPotentialDeadlockIfExist(path, agents)`, whose
body is missing (step 4 of section 4.4): a closed candidate is a potential deadlock and is
handed back; any other candidate is registered unless it is a duplicate. -/
def getPotentialDeadlockIfExist (T : TableFragment) (path : List Nat) (agents : List Nat) :
    Option Fragment × TableFragment :=
  if T.rejected path agents then (none, T)
  else if (Fragment.mk path agents).isCycle then (some ⟨path, agents⟩, T)
  else if T.existDuplication path agents then (none, T)
  else (none, T.createNewFragment path agents)

/-- Modelled from the spec: the candidates that the unit `u → v` of agent `id` produces
(steps 1 to 3 of section 4.4), in the order left joins, right joins, two-sided joins. Only
fragments that do not mention `id` are joined. -/
def candidates (T : TableFragment) (id : Nat) (u v : Nat) : List Fragment :=
  let ls := (T.toAt u).filter (fun c => !(c.agents.contains id))
  let rs := (T.fromAt v).filter (fun c => !(c.agents.contains id))
  ls.map (fun c => ⟨c.path ++ [v], c.agents ++ [id]⟩) ++
  rs.map (fun c => ⟨u :: c.path, id :: c.agents⟩) ++
  (ls.map (fun c => rs.map (fun d => ⟨(c.path ++ [v]) ++ d.path.tail,
    (c.agents ++ [id]) ++ d.agents⟩))).flatten

/-- Modelled from the spec: step 4 run over a list of candidates. `res` is the deadlock found
so far; with `force = false` the first deadlock ends the registration at once (the flag in
the result says so), with `force = true` the remaining candidates are still registered. -/
def processCandidates (force : Bool) :
    List Fragment → Option Fragment → TableFragment → Option Fragment × TableFragment × Bool
  | [], res, T => (res, T, false)
  | c :: cs, res, T =>
    match T.getPotentialDeadlockIfExist c.path c.agents with
    | (some d, T1) =>
      if force then processCandidates force cs (res.orElse (fun _ => some d)) T1
      else (some d, T1, true)
    | (none, T1) => processCandidates force cs res T1

/-- Modelled from the spec: the contribution of the unit fragment `((u, v), (id))` itself; it
is entered into both indices unless it is already there. A fragment of one agent is never
reported as a deadlock. -/
def registerUnit (T : TableFragment) (id : Nat) (u v : Nat) : TableFragment :=
  if T.existDuplication [u, v] [id] then T else T.createNewFragment [u, v] [id]

/-- Modelled from the spec: the loop of `registerNewPath` over the units of the path;
`expired t` tells whether the deadline has passed when unit number `t` is reached, in which
case the registration is abandoned and no deadlock is reported (step 6). -/
def registerUnits (id : Nat) (force : Bool) (expired : Nat → Bool) :
    List (Nat × Nat) → Nat → Option Fragment → TableFragment → Option Fragment × TableFragment
  | [], _, res, T => (res, T)
  | (u, v) :: rest, t, res, T =>
    if expired t then (none, T)
    else
      match processCandidates force (T.candidates id u v) res T with
      | (res1, T1, true) => (res1, T1)
      | (res1, T1, false) =>
        registerUnits id force expired rest (t + 1) res1 (T1.registerUnit id u v)

/-- The moves `(path[t], path[t+1])` of a path, in order. -/
def moves (path : Path) : List (Nat × Nat) := path.zip path.tail

/-- Modelled from the spec: `registerNewPath(id, path, force, time_limit)`, whose body is
missing (section 4.4). The result is the potential deadlock (`none` for `nullptr`) and the
table after the call. -/
def registerNewPath (T : TableFragment) (id : Nat) (path : Path) (force : Bool)
    (expired : Nat → Bool) : Option Fragment × TableFragment :=
  registerUnits id force expired (moves path) 0 none T

end TableFragment

/-! ## The deadlock-avoiding A* of `solver.cpp` -/

namespace Solver

/-- The lambda `compare` of `Solver::getPrioritizedPath`. -/
def comparePrioritized (table : TableFragment) : CompareAstarNodes := fun a b =>
  if a.f ≠ b.f then decide (a.f > b.f)
  else
    let fragments_a := (table.fromAt a.v).length
    let fragments_b := (table.fromAt b.v).length
    if fragments_a ≠ fragments_b then decide (fragments_a > fragments_b)
    else if a.g ≠ b.g then decide (a.g < b.g)
    else decide (a.v < b.v)

/-- The lambda `checkInvalidNode` of `Solver::getPrioritizedPath`. -/
def checkPrioritized (S : Solver) (id : Nat) (table : TableFragment) : CheckInvalidMove :=
  fun child parent =>
    if child ≠ S.P.getGoal id ∧ S.table_goals.getD child false = true then true
    else (table.toAt parent).any (fun c => c.path.head? == some child)

/-- The method `Solver::getPrioritizedPath(id, paths, table)`; `paths` is not read. -/
def getPrioritizedPath (S : Solver) (o : Oracle) (fuel : Nat) (id : Nat) (_paths : Plan)
    (table : TableFragment) (k : Nat) : Option (Path × Nat) :=
  S.getPath o fuel id (S.checkPrioritized id table) (comparePrioritized table) k

end Solver

/-! ## DBS (`dbs.cpp`) -/

/-- The solver `DBS`: the base `Solver` and `max_fragment_size`. -/
structure DBS where
  S : Solver
  max_fragment_size : Int

/-- The members `solved`, `unsolvable` and `solution` after `DBS::run`. -/
structure Outcome where
  solved : Bool
  unsolvable : Bool
  solution : Plan
deriving DecidableEq, Repr

namespace DBS

/-- The loop `for (auto i : to_from_table[v->id]) { if (i == u->id) ++cnt; }` of
`DBS::countsSwapConlicts`, on the `int` counter `cnt`. -/
def countHits (u : Nat) : List Nat → Int → Int
  | [], cnt => cnt
  | i :: rest, cnt => countHits u rest (if i == u then wrapInt32 (cnt + 1) else cnt)

/-- The method `DBS::countsSwapConlicts`: the loop over the moves `u → v` of all paths, on the
pair (`to_from_table`, `cnt`). -/
def countsSwapConlictsAux : List (Nat × Nat) → List (List Nat) → Int → Int
  | [], _, cnt => cnt
  | (u, v) :: rest, to_from_table, cnt =>
    countsSwapConlictsAux rest (to_from_table.modify (fun l => l ++ [v]) u)
      (countHits u (to_from_table.getD v []) cnt)

/-- The method `DBS::countsSwapConlicts(paths)`; the result is an `int`. -/
def countsSwapConlicts (D : DBS) (paths : Plan) : Int :=
  countsSwapConlictsAux (paths.map TableFragment.moves).flatten
    (List.replicate D.S.P.G.nodesSize []) 0

/-- The lambda `checkInvalidMove` of `DBS::getConstrainedPath`; `constraints` are the
constraints of the node that concern agent `id`. -/
def checkConstrained (D : DBS) (id : Nat) (constraints : List Constraint) : CheckInvalidMove :=
  fun child parent =>
    if child ≠ D.S.P.getGoal id ∧ D.S.table_goals.getD child false = true then true
    else constraints.any (fun c => c.child == child && c.parent == parent)

/-- The table `from_to_table` of `DBS::getConstrainedPath`: for every vertex the targets of
the moves that the paths of the other agents make from it. -/
def fromToTable (D : DBS) (id : Nat) (paths : Plan) : List (List Nat) :=
  (paths.enum.filter (fun ip => ip.1 ≠ id)).foldl
    (fun tbl ip => (TableFragment.moves ip.2).foldl
      (fun tbl uv => tbl.modify (fun l => l ++ [uv.2]) uv.1) tbl)
    (List.replicate D.S.P.G.nodesSize [])

/-- The vertex `a->p->v`. The source reads it through the parent pointer without a null
check; for a root entry the value `0` stands for that undefined read. -/
def parentV (a : AstarNode) : Nat :=
  match a.p with
  | some q => q.v
  | none => 0

/-- The lambda `compare` of `DBS::getConstrainedPath`. -/
def compareConstrained (D : DBS) (id : Nat) (from_to_table : List (List Nat)) :
    CompareAstarNodes := fun a b =>
  if D.S.pathDist id a.v ≠ D.S.pathDist id b.v then
    decide (D.S.pathDist id a.v > D.S.pathDist id b.v)
  else
    let swap_a := (from_to_table.getD (parentV a) []).contains a.v
    let swap_b := (from_to_table.getD (parentV b) []).contains b.v
    if swap_a ≠ swap_b then decide (swap_a.toNat < swap_b.toNat)
    else if a.g ≠ b.g then decide (a.g < b.g)
    else false

/-- The method `DBS::getConstrainedPath(id, node)`. -/
def getConstrainedPath (D : DBS) (o : Oracle) (fuel : Nat) (id : Nat) (node : HighLevelNode)
    (k : Nat) : Option (Path × Nat) :=
  D.S.getPath o fuel id
    (D.checkConstrained id (node.constraints.filter (fun c => c.agent == id)))
    (D.compareConstrained id (D.fromToTable id node.paths)) k

/-- The loop `for (int i = 0; i < P->getNum(); ++i)` of `DBS::getInitialNode`, `is` being the
agents still to be planned. The result is the node and the query counter; the fragment table
is dropped at the end as in the source. -/
def getInitialNodeLoop (D : DBS) (o : Oracle) (fuel : Nat) :
    List Nat → HighLevelNode → TableFragment → Nat → Option (HighLevelNode × Nat)
  | [], n, _, k => some (n, k)
  | i :: is, n, table, k =>
    match D.S.getPrioritizedPath o fuel i n.paths table k with
    | none => none
    | some (p, k1) =>
      if p.isEmpty then
        match D.getConstrainedPath o fuel i n k1 with
        | none => none
        | some (q, k2) =>
          if q.isEmpty then some ({ n with valid := false }, k2)
          else
            getInitialNodeLoop D o fuel is { n with paths := n.paths ++ [q] }
              (table.registerNewPath i q true (fun t => o.deadline (k2 + t))).2 (k2 + q.length)
      else
        getInitialNodeLoop D o fuel is { n with paths := n.paths ++ [p] }
          (table.registerNewPath i p true (fun t => o.deadline (k1 + t))).2 (k1 + p.length)

/-- The method `DBS::getInitialNode`. -/
def getInitialNode (D : DBS) (o : Oracle) (fuel : Nat) (k : Nat) :
    Option (HighLevelNode × Nat) :=
  match D.getInitialNodeLoop o fuel (List.range D.S.P.getNum) ⟨[], [], 0, true⟩
      (TableFragment.new D.S.P.G D.max_fragment_size) k with
  | none => none
  | some (n, k1) => some ({ n with f := D.countsSwapConlicts n.paths }, k1)

/-- The method `DBS::invoke(n, c)`. -/
def invoke (D : DBS) (o : Oracle) (fuel : Nat) (n : HighLevelNode) (c : Constraint) (k : Nat) :
    Option (HighLevelNode × Nat) :=
  let m0 : HighLevelNode := ⟨n.paths, n.constraints ++ [c], 0, true⟩
  match D.getConstrainedPath o fuel c.agent m0 k with
  | none => none
  | some (p, k1) =>
    let paths := m0.paths.set c.agent p
    some (⟨paths, m0.constraints, D.countsSwapConlicts paths,
      !((paths.getD c.agent []).isEmpty)⟩, k1)

/-- The constraints `(c->agents[i], c->path[i], c->path[i + 1])` that `DBS::getConstraints`
builds from a potential deadlock `c`. -/
def constraintsOf (c : Fragment) : List Constraint :=
  (List.range c.agents.length).map
    (fun i => ⟨c.agents.getD i 0, c.path.getD i 0, c.path.getD (i + 1) 0⟩)

/-- The main loop of `DBS::getConstraints`, `is` being the agents still to be registered. -/
def getConstraintsLoop (o : Oracle) (paths : Plan) :
    List Nat → TableFragment → Nat → List Constraint × Nat
  | [], _, k => ([], k)
  | i :: is, table, k =>
    match table.registerNewPath i (paths.getD i []) false (fun t => o.deadline (k + t)) with
    | (some c, _) => (constraintsOf c, k + (paths.getD i []).length)
    | (none, table1) => getConstraintsLoop o paths is table1 (k + (paths.getD i []).length)

/-- The method `DBS::getConstraints(paths)`. -/
def getConstraints (D : DBS) (o : Oracle) (paths : Plan) (k : Nat) : List Constraint × Nat :=
  getConstraintsLoop o paths (List.range D.S.P.getNum)
    (TableFragment.new D.S.P.G D.max_fragment_size) k

/-- The lambda `compare` of `DBS::run`. -/
def compareHighLevel : CompareHighLevelNodes := fun a b =>
  if a.f ≠ b.f then decide (a.f > b.f) else false

/-- The loop `for (auto c : constraints)` of `DBS::run`: the valid children are pushed. -/
def pushChildren (D : DBS) (o : Oracle) (fuel : Nat) (n : HighLevelNode) :
    List Constraint → List HighLevelNode → Nat → Option (List HighLevelNode × Nat)
  | [], Tree, k => some (Tree, k)
  | c :: cs, Tree, k =>
    match D.invoke o fuel n c k with
    | none => none
    | some (m, k1) =>
      pushChildren D o fuel n cs (if m.valid then Tree ++ [m] else Tree) k1

/-- The high-level loop of `DBS::run` with the assignments that follow it. `Tree` lists the
queue entries in insertion order. -/
def runLoop (D : DBS) (o : Oracle) (fuel : Nat) :
    Nat → List HighLevelNode → Nat → Option Outcome
  | 0, _, _ => none
  | hfuel + 1, Tree, k =>
    if Tree.isEmpty then some ⟨false, true, []⟩
    else
      let i := o.topH k compareHighLevel Tree % Tree.length
      match Tree.get? i with
      | none => none
      | some n1 =>
        let Tree1 := Tree.eraseIdx i
        let (constraints, k1) := D.getConstraints o n1.paths (k + 1)
        if o.overCompTime k1 then some ⟨false, Tree1.isEmpty, []⟩
        else if constraints.isEmpty then some ⟨true, false, n1.paths⟩
        else
          match D.pushChildren o fuel n1 constraints Tree1 (k1 + 1) with
          | none => none
          | some (Tree2, k2) => runLoop D o fuel hfuel Tree2 k2

/-- The method `DBS::run`. `fuel` bounds every low-level search, `hfuel` the rounds of the
high-level loop. -/
def run (D : DBS) (o : Oracle) (fuel hfuel : Nat) (k : Nat) : Option Outcome :=
  match D.getInitialNode o fuel k with
  | none => none
  | some (n, k1) =>
    if !n.valid then some ⟨false, false, []⟩
    else runLoop D o fuel hfuel [n] k1

end DBS

/-! ## The conflict scan of ICBS (`icbs.cpp`) -/

namespace ICBS

/-- The struct `Conflict::Constraint {id, t, v, u}`; `u = none` is the null pointer. -/
structure Constraint where
  id : Nat
  t : Nat
  v : Nat
  u : Option Nat
deriving DecidableEq, Repr

/-- The part of an MDD node that the scan reads: its vertex and its list `prev`. -/
structure MDDNode where
  v : Nat
  prev : List Nat
deriving DecidableEq, Repr

/-- The part of an `MDD` that the scan reads: the cost `c` and the levels `body`. -/
structure MDD where
  c : Nat
  body : List (List MDDNode)
deriving DecidableEq, Repr

/-- Modelled from the spec: `Paths::get(i, t)`, whose class is missing; the position of agent
`i` at time `t`, an agent that has reached the end of its path staying on its last vertex. -/
def get (paths : Plan) (i t : Nat) : Nat :=
  (paths.getD i []).getD t ((paths.getD i []).getLastD 0)

/-- Modelled from the spec: `Paths::getMakespan()`, whose class is missing;
`makespan = max |P_i| - 1`. -/
def getMakespan (paths : Plan) : Nat :=
  (paths.map (fun p => p.length - 1)).foldl max 0

/-- The expression `mdds[i]->body[t].size()`. -/
def width (mdds : List MDD) (i t : Nat) : Nat :=
  (((mdds.getD i ⟨0, []⟩).body).getD t []).length

/-- The expression `mdds[i]->body[t][0]->prev.size()`. -/
def prevSize (mdds : List MDD) (i t : Nat) : Nat :=
  (((((mdds.getD i ⟨0, []⟩).body).getD t []).getD 0 ⟨0, []⟩).prev).length

/-- The statements that follow the detection of a conflict, the same for a vertex and for a
swap conflict: a cardinal conflict is returned at once (`Sum.inl`); otherwise the pair of
constraints is remembered as semi-cardinal if none is remembered yet and the test
`semiCardinal` holds, else as non-cardinal if none is remembered yet. -/
def remember (cardinal semiCardinal : Bool) (constraint_i constraint_j : Constraint)
    (semi non : List Constraint) : List Constraint ⊕ (List Constraint × List Constraint) :=
  if cardinal then Sum.inl [constraint_i, constraint_j]
  else if semi.isEmpty && semiCardinal then Sum.inr (semi ++ [constraint_i, constraint_j], non)
  else if non.isEmpty then Sum.inr (semi, non ++ [constraint_i, constraint_j])
  else Sum.inr (semi, non)

/-- The vertex-conflict block of the innermost loop of `ICBS::getPrioritizedConflict`. -/
def vertexBlock (paths : Plan) (mdds : List MDD) (t i j : Nat)
    (semi non : List Constraint) : List Constraint ⊕ (List Constraint × List Constraint) :=
  let c_i := (mdds.getD i ⟨0, []⟩).c
  let c_j := (mdds.getD j ⟨0, []⟩).c
  let w_i := if t ≤ c_i then width mdds i t else 0
  let w_j := if t ≤ c_j then width mdds j t else 0
  if get paths i t = get paths j t then
    remember
      (decide ((t ≤ c_i ∧ w_i = 1 ∧ t ≤ c_j ∧ w_j = 1) ∨ (t > c_i ∧ w_j = 1) ∨
        (t > c_j ∧ w_i = 1)))
      (decide (t > c_i ∨ t > c_j ∨ w_i = 1 ∨ w_j = 1))
      ⟨i, t, get paths i t, none⟩ ⟨j, t, get paths j t, none⟩ semi non
  else Sum.inr (semi, non)

/-- The swap-conflict block of the innermost loop of `ICBS::getPrioritizedConflict`. -/
def swapBlock (paths : Plan) (mdds : List MDD) (t i j : Nat)
    (semi non : List Constraint) : List Constraint ⊕ (List Constraint × List Constraint) :=
  let c_i := (mdds.getD i ⟨0, []⟩).c
  let c_j := (mdds.getD j ⟨0, []⟩).c
  let w_i := if t ≤ c_i then width mdds i t else 0
  let w_j := if t ≤ c_j then width mdds j t else 0
  if get paths i t = get paths j (t - 1) ∧ get paths j t = get paths i (t - 1) then
    remember
      (decide ((t ≤ c_i ∧ w_i = 1 ∧ prevSize mdds i t = 1) ∧
        (t ≤ c_j ∧ w_j = 1 ∧ prevSize mdds j t = 1)))
      (decide (t > c_i ∨ t > c_j ∨ (w_i = 1 ∧ prevSize mdds i t = 1) ∨
        (w_j = 1 ∧ prevSize mdds j t = 1)))
      ⟨i, t, get paths i t, some (get paths i (t - 1))⟩
      ⟨j, t, get paths j t, some (get paths j (t - 1))⟩ semi non
  else Sum.inr (semi, non)

/-- The body of the innermost loop of `ICBS::getPrioritizedConflict` for one `(t, i, j)`:
the vertex-conflict block, then the swap-conflict block; either the function returns
(`Sum.inl`) or the two remembered lists are carried on. -/
def scanStep (paths : Plan) (mdds : List MDD) (t i j : Nat)
    (semi non : List Constraint) : List Constraint ⊕ (List Constraint × List Constraint) :=
  match vertexBlock paths mdds t i j semi non with
  | Sum.inl r => Sum.inl r
  | Sum.inr (semi1, non1) => swapBlock paths mdds t i j semi1 non1

/-- The triples `(t, i, j)` in the order the three nested loops visit them:
`t = 1..makespan`, `i = 0..num-1`, `j = i+1..num-1`. -/
def scanOrder (num makespan : Nat) : List (Nat × Nat × Nat) :=
  (List.range makespan).flatMap (fun s =>
    (List.range num).flatMap (fun i =>
      (List.range (num - (i + 1))).map (fun d => (s + 1, i, i + 1 + d))))

/-- The three nested loops of `ICBS::getPrioritizedConflict` with the choice that follows
them. -/
def scan (paths : Plan) (mdds : List MDD) :
    List (Nat × Nat × Nat) → List Constraint → List Constraint → List Constraint
  | [], semi, non => if !semi.isEmpty then semi else if !non.isEmpty then non else []
  | (t, i, j) :: rest, semi, non =>
    match scanStep paths mdds t i j semi non with
    | Sum.inl r => r
    | Sum.inr (semi1, non1) => scan paths mdds rest semi1 non1

/-- The method `ICBS::getPrioritizedConflict(h_node)`; `num` is `P->getNum()`, `paths` the
paths of the node and `mdds` its entry `MDDTable[h_node->id]`. -/
def getPrioritizedConflict (num : Nat) (paths : Plan) (mdds : List MDD) : List Constraint :=
  scan paths mdds (scanOrder num (getMakespan paths)) [] []

end ICBS

/-! ## The agent of the execution model (`agent.cpp`) -/

/-- The enumeration `Agent::Mode`. -/
inductive Mode where
  | CONTRACTED
  | EXTENDED
deriving DecidableEq, Repr

/-- The class `Agent`: `{id, t, mode, head, tail, path}`; `none` is the null pointer. -/
structure Agent where
  id : Int
  t : Nat
  mode : Mode
  head : Option Nat
  tail : Option Nat
  path : Path
deriving DecidableEq, Repr

namespace Agent

/-- The constructor `Agent(id, path)`; `path[0]` of an empty path, an out-of-range read in the
source, is rendered as `none`. -/
def new (id : Int) (path : Path) : Agent :=
  ⟨id, 0, Mode.CONTRACTED, none, path.head?, path⟩

/-- The method `Agent::getNextNode`. -/
def getNextNode (a : Agent) : Option Nat :=
  if (a.t : Int) < (a.path.length : Int) - 1 then a.path.get? (a.t + 1) else none

/-- The method `Agent::isFinished`. -/
def isFinished (a : Agent) : Bool :=
  a.mode == Mode.CONTRACTED && decide ((a.t : Int) = (a.path.length : Int) - 1)

/-- The method `Agent::activate(occupancy)`: the agent and the occupancy vector after the
call; `none` when the source would dereference a null pointer. `NIL` is the constant of that
name, which is not defined in the sources at hand; `occupancy` has one entry per vertex. -/
def activate (NIL : Int) (a : Agent) (occupancy : List Int) : Option (Agent × List Int) :=
  if a.isFinished then some (a, occupancy)
  else if a.mode = Mode.EXTENDED then
    match a.tail with
    | none => none
    | some tl =>
      some ({ a with mode := Mode.CONTRACTED, tail := a.head, head := none },
        occupancy.set tl NIL)
  else
    match a.getNextNode with
    | none => none
    | some v =>
      if occupancy.getD v NIL = NIL then
        some ({ a with mode := Mode.EXTENDED, head := some v, t := a.t + 1 },
          occupancy.set v a.id)
      else some (a, occupancy)

/-- The states that an agent built from `path` reaches by calls of `activate`, each with any
occupancy vector. -/
inductive Reach (NIL : Int) (id : Int) (path : Path) : Agent → Prop
  | init : Reach NIL id path (Agent.new id path)
  | step {a a1 : Agent} {occ occ1 : List Int} :
      Reach NIL id path a → activate NIL a occ = some (a1, occ1) → Reach NIL id path a1

end Agent

namespace Agent

/-- One call `agents[i]->activate(occupancy)` on a team of agents that share the occupancy
vector: the team and the vector after the call. -/
def activateAt (NIL : Int) (agents : List Agent) (occupancy : List Int) (i : Nat) :
    Option (List Agent × List Int) :=
  match agents.get? i with
  | none => none
  | some a =>
    match activate NIL a occupancy with
    | none => none
    | some (a1, occupancy1) => some (agents.set i a1, occupancy1)

/-- The states that a team reaches from `(agents0, occ0)` by calls of `activate` on any of
its agents, in any order. -/
inductive ReachAll (NIL : Int) (agents0 : List Agent) (occ0 : List Int) :
    List Agent → List Int → Prop
  | init : ReachAll NIL agents0 occ0 agents0 occ0
  | step {agents agents1 : List Agent} {occ occ1 : List Int} {i : Nat} :
      ReachAll NIL agents0 occ0 agents occ →
      activateAt NIL agents occ i = some (agents1, occ1) →
      ReachAll NIL agents0 occ0 agents1 occ1

/-- What holds of a team and its occupancy vector in every reachable state: every agent sits
where its path and `t` say, ids are pairwise different and different from `NIL`, and a vertex
carries the id of an agent exactly when it is the tail or the head of that agent. -/
structure SysInv (NIL : Int) (agents : List Agent) (occ : List Int) : Prop where
  agentOK : ∀ i a, agents.get? i = some a →
    a.id ≠ NIL ∧ (∀ x ∈ a.path, x < occ.length) ∧ a.t < a.path.length ∧
    (a.mode = Mode.CONTRACTED → a.tail = a.path.get? a.t ∧ a.head = none) ∧
    (a.mode = Mode.EXTENDED → 1 ≤ a.t ∧ a.tail = a.path.get? (a.t - 1) ∧
      a.head = a.path.get? a.t ∧ a.head ≠ a.tail)
  idsDistinct : ∀ i j a b, agents.get? i = some a → agents.get? j = some b → i ≠ j →
    a.id ≠ b.id
  occOK : ∀ i a v, agents.get? i = some a → v < occ.length →
    (occ.getD v NIL = a.id ↔ (a.tail = some v ∨ a.head = some v))

end Agent

/-! ## Concrete instances used to exercise the definitions -/

/-- The 3x3 grid of the tests: ids `0..8` row by row, orthogonal neighbours. -/
def grid3 : Graph where
  nodesSize := 9
  neighbor := fun v =>
    (if 3 ≤ v ∧ v < 9 then [v - 3] else []) ++ (if v % 3 ≠ 0 ∧ v < 9 then [v - 1] else []) ++
    (if v % 3 ≠ 2 ∧ v < 9 then [v + 1] else []) ++ (if v < 6 then [v + 3] else [])

/-- A linear scan for an entry that no entry of the list beats under `cmp`: the position and
the entry itself. The scan runs from the back; the entry in hand is replaced when the next
entry beats it. -/
def bestIdx {α : Type} (cmp : α → α → Bool) : List α → Option (Nat × α)
  | [] => none
  | x :: rest =>
    match bestIdx cmp rest with
    | none => some (0, x)
    | some (i, a) => if cmp a x then some (0, x) else some (i + 1, a)

/-- An oracle without time-out that leaves neighbour lists in place and answers `top()` by the
linear scan `bestIdx`. -/
def plainOracle : Oracle where
  overCompTime := fun _ => false
  shuffle := fun _ C => C
  top := fun _ compare OPEN => ((bestIdx compare OPEN).map Prod.fst).getD 0
  topH := fun _ compare Tree => ((bestIdx compare Tree).map Prod.fst).getD 0
  deadline := fun _ => false

/-! ## Notions used to state the properties -/

/-- Every neighbour of a vertex of the graph is a vertex of the graph. -/
def Graph.WF (G : Graph) : Prop :=
  ∀ v, v < G.nodesSize → ∀ u ∈ G.neighbor v, u < G.nodesSize

/-- Neighbour lists are symmetric: the graph is undirected. -/
def Graph.Symmetric (G : Graph) : Prop :=
  ∀ v, v < G.nodesSize → ∀ u ∈ G.neighbor v, v ∈ G.neighbor u

/-- The total length of the neighbour lists. -/
def Graph.degSum (G : Graph) : Nat :=
  ((List.range G.nodesSize).map (fun v => (G.neighbor v).length)).sum

/-- `Walk G chk s m v`: a sequence of `m` graph moves `x → y`, each with `chk y x = false`,
leads from `s` to `v`. -/
inductive Walk (G : Graph) (chk : CheckInvalidMove) (s : Nat) : Nat → Nat → Prop
  | refl : Walk G chk s 0 s
  | step {m v u : Nat} : Walk G chk s m v → u ∈ G.neighbor v → chk u v = false →
      Walk G chk s (m + 1) u

/-- A path of the graph from `s` to `g` that uses allowed moves only: it starts at `s`, ends
at `g`, and every move `x → y` on it goes to a neighbour with `chk y x = false`. -/
def IsAllowedPath (G : Graph) (chk : CheckInvalidMove) (s g : Nat) (q : Path) : Prop :=
  q.head? = some s ∧ q.getLast? = some g ∧
  List.Chain' (fun x y => y ∈ G.neighbor x ∧ chk y x = false) q

/-- The total length of the neighbour lists of the vertices of `L` that are not closed; with
the size of the queue it bounds the number of rounds that the search still makes. -/
def Solver.openDeg (G : Graph) (CLOSE : List Bool) (L : List Nat) : Nat :=
  (L.map (fun v => if CLOSE.getD v false then 0 else (G.neighbor v).length)).sum

/-- What holds of every entry `y` of the queue: `y.g` allowed moves lead from the start to
its vertex, its back-pointers list `y.g + 1` vertices, `y.f = y.g + h(y.v)`, and the vertex
belongs to the graph. -/
structure Solver.NodeOK (S : Solver) (id : Nat) (chk : CheckInvalidMove) (y : AstarNode) :
    Prop where
  walk : Walk S.P.G chk (S.P.getStart id) y.g y.v
  len : y.backtrack.length = y.g + 1
  f_eq : y.f = y.g + S.pathDist id y.v
  inRange : y.v < S.P.G.nodesSize

/-- The invariant of the main loop of `getPath` behind its completeness: the goal is not
closed, and every vertex that an allowed move reaches from a closed vertex, and the start
itself, is closed or waits in the queue. -/
structure Solver.SearchInv (S : Solver) (id : Nat) (chk : CheckInvalidMove)
    (O : List AstarNode) (C : List Bool) : Prop where
  len : C.length = S.P.G.nodesSize
  nodes : ∀ y ∈ O, S.NodeOK id chk y
  goalOpen : C.getD (S.P.getGoal id) false = false
  closedStep : ∀ x, C.getD x false = true → ∀ u ∈ S.P.G.neighbor x, chk u x = false →
    C.getD u false = true ∨ ∃ y ∈ O, y.v = u
  startSeen : C.getD (S.P.getStart id) false = true ∨ ∃ y ∈ O, y.v = S.P.getStart id

/-- The predicate that forbids no move: walks under it are the walks of the graph. -/
def noCheck : CheckInvalidMove := fun _ _ => false

/-- `IsShortest G chk s m v`: `m` is the least number of allowed moves from `s` to `v`. -/
def IsShortest (G : Graph) (chk : CheckInvalidMove) (s m v : Nat) : Prop :=
  Walk G chk s m v ∧ ∀ m1, Walk G chk s m1 v → m ≤ m1

/-- The invariant of the loop of `createDistanceTable` for the goal `g`: entries never exceed
`|V|`, the goal has distance 0, an entry below `|V|` is the length of a walk from the goal,
and every vertex outside the queue has relaxed all its neighbours. -/
structure Solver.BfsInv (G : Graph) (g : Nat) (row : List Nat) (OPEN : List Nat) : Prop where
  len : row.length = G.nodesSize
  le : ∀ v, row.getD v 0 ≤ G.nodesSize
  goal0 : row.getD g 0 = 0
  sound : ∀ v, v < G.nodesSize → row.getD v 0 < G.nodesSize → Walk G noCheck g (row.getD v 0) v
  relaxed : ∀ x, x < G.nodesSize → x ∈ OPEN ∨
    ∀ m ∈ G.neighbor x, row.getD m 0 ≤ row.getD x 0 + 1
  queueRange : ∀ x ∈ OPEN, x < G.nodesSize

/-- The invariant of the inner loop of `createDistanceTable` while the neighbours of the
popped vertex `n` are relaxed; `done` lists the neighbours already treated. -/
structure Solver.RelaxInv (G : Graph) (g n : Nat) (d_n : Nat) (done : List Nat)
    (st : List Nat × List Nat) : Prop where
  len : st.1.length = G.nodesSize
  le : ∀ v, st.1.getD v 0 ≤ G.nodesSize
  goal0 : st.1.getD g 0 = 0
  sound : ∀ v, v < G.nodesSize → st.1.getD v 0 < G.nodesSize →
    Walk G noCheck g (st.1.getD v 0) v
  relaxed : ∀ x, x < G.nodesSize → x ≠ n → x ∈ st.2 ∨
    ∀ m ∈ G.neighbor x, st.1.getD m 0 ≤ st.1.getD x 0 + 1
  queueRange : ∀ x ∈ st.2, x < G.nodesSize
  fixed : st.1.getD n 0 = d_n
  treated : ∀ m ∈ done, st.1.getD m 0 ≤ d_n + 1

/-- The contract of `std::priority_queue::top` for the comparator `cmp`: no entry of the queue
is ranked above the entry that `top()` yields. -/
def TopRespects (o : Oracle) (cmp : CompareAstarNodes) : Prop :=
  ∀ (k : Nat) (O : List AstarNode) (n : AstarNode),
    O.get? (o.top k cmp O % O.length) = some n → ∀ y ∈ O, cmp n y = false

/-- The invariant of the main loop of `getPath` behind the optimality of the default search:
an allowed move out of a closed vertex `x` leads to a closed vertex or to a queue entry whose
`g` is at most one more than the length of any allowed walk to `x`. -/
structure Solver.OptInv (S : Solver) (id : Nat) (chk : CheckInvalidMove)
    (O : List AstarNode) (C : List Bool) : Prop where
  len : C.length = S.P.G.nodesSize
  nodes : ∀ y ∈ O, S.NodeOK id chk y
  closedStep : ∀ x m, C.getD x false = true → Walk S.P.G chk (S.P.getStart id) m x →
    ∀ u ∈ S.P.G.neighbor x, chk u x = false →
    C.getD u false = true ∨ ∃ y ∈ O, y.v = u ∧ y.g ≤ m + 1
  startSeen : C.getD (S.P.getStart id) false = true ∨
    ∃ y ∈ O, y.v = S.P.getStart id ∧ y.g = 0

/-- The high-level nodes that `DBS::run` can hold: a valid initial node, and every valid child
that `invoke` builds from such a node and a constraint. -/
inductive DBS.ValidNode (D : DBS) (o : Oracle) (fuel : Nat) : HighLevelNode → Prop
  | initial {n : HighLevelNode} {k k1 : Nat} :
      D.getInitialNode o fuel k = some (n, k1) → n.valid = true → DBS.ValidNode D o fuel n
  | child {n m : HighLevelNode} {c : Constraint} {k k1 : Nat} :
      DBS.ValidNode D o fuel n → D.invoke o fuel n c k = some (m, k1) → m.valid = true →
      DBS.ValidNode D o fuel m

/-- A plan with one path per agent, each non-empty, from the agent's start to its goal, every
entry followed by one of its neighbours. -/
def DBS.PlanOK (D : DBS) (paths : Plan) : Prop :=
  paths.length = D.S.P.getNum ∧
  ∀ i, i < D.S.P.getNum →
    paths.getD i [] ≠ [] ∧
    (paths.getD i []).head? = some (D.S.P.getStart i) ∧
    (paths.getD i []).getLast? = some (D.S.P.getGoal i) ∧
    ∀ t, t + 1 < (paths.getD i []).length →
      (paths.getD i []).getD (t + 1) 0 ∈ D.S.P.G.neighbor ((paths.getD i []).getD t 0)

/-- Well-formedness of a fragment table: both indices have one slot per vertex, every entry
of `t_from[v]` starts at `v` and is also entered in `t_to` under its last vertex, and every
entry of `t_to[v]` ends at `v` and is also entered in `t_from` under its first vertex. -/
structure TableFragment.WFT (T : TableFragment) : Prop where
  len_from : T.t_from.length = T.G.nodesSize
  len_to : T.t_to.length = T.G.nodesSize
  from_ok : ∀ v, ∀ c ∈ T.fromAt v,
    c.path.head? = some v ∧ ∃ w, c.path.getLast? = some w ∧ c ∈ T.toAt w
  to_ok : ∀ v, ∀ c ∈ T.toAt v,
    c.path.getLast? = some v ∧ ∃ w, c.path.head? = some w ∧ c ∈ T.fromAt w

/-- Every entry of the first table is an entry of the second, in both indices. -/
def TableFragment.Sub (T T1 : TableFragment) : Prop :=
  (∀ v, ∀ c ∈ T.fromAt v, c ∈ T1.fromAt v) ∧ (∀ v, ∀ c ∈ T.toAt v, c ∈ T1.toAt v)

/-- The table that `getConstraints` holds when it comes to agent `i`: the fresh table after
the paths of the agents `0..i-1` have been registered with `force = false`, without
deadline. -/
def DBS.tableAfter (D : DBS) (paths : Plan) : Nat → TableFragment
  | 0 => TableFragment.new D.S.P.G D.max_fragment_size
  | i + 1 => ((DBS.tableAfter D paths i).registerNewPath i (paths.getD i []) false
      (fun _ => false)).2

/-- The fragment `c` is entered in the table `T`: under its first vertex in `t_from` and under
its last vertex in `t_to`. -/
def TableFragment.Has (T : TableFragment) (c : Fragment) : Prop :=
  ∃ a b, c.path.head? = some a ∧ c.path.getLast? = some b ∧ c ∈ T.fromAt a ∧ c ∈ T.toAt b

/-- The first and the last vertex of the fragment are vertices below `N`. -/
def Fragment.EndsIn (N : Nat) (c : Fragment) : Prop :=
  ∃ a b, c.path.head? = some a ∧ c.path.getLast? = some b ∧ a < N ∧ b < N

/-- A move `src → dst` that agent `agent` makes somewhere on its registered path. -/
structure Move where
  agent : Nat
  src : Nat
  dst : Nat
deriving DecidableEq, Repr

/-- The moves follow one another from the vertex `x` on: each starts where the one before
ends. -/
def Linked : Nat → List Move → Prop
  | _, [] => True
  | x, m :: ms => m.src = x ∧ Linked m.dst ms

/-- The vertex where a sequence of moves that starts at `x` ends. -/
def endOf : Nat → List Move → Nat
  | x, [] => x
  | _, m :: ms => endOf m.dst ms

/-- The fragment `(path, agents)` that a sequence of moves from `x` spells out. -/
def chainFrag (x : Nat) (ms : List Move) : Fragment :=
  ⟨x :: ms.map Move.dst, ms.map Move.agent⟩

/-- The move is a move of a path registered for its agent. -/
def InRegs (regs : List (Nat × Path)) (m : Move) : Prop :=
  ∃ p, (m.agent, p) ∈ regs ∧ (m.src, m.dst) ∈ TableFragment.moves p

/-- The table holds the fragment of every non-empty linked sequence of registered moves by
pairwise different agents. -/
def TableFragment.Closed (T : TableFragment) (regs : List (Nat × Path)) : Prop :=
  ∀ x ms, ms ≠ [] → Linked x ms → (ms.map Move.agent).Nodup → (∀ m ∈ ms, InRegs regs m) →
    T.Has (chainFrag x ms)

/-- Registrations `(agent, path)` made one after another with `force = false` and without
deadline; `none` as soon as one of them reports a potential deadlock. -/
def TableFragment.registerAll : TableFragment → List (Nat × Path) → Option TableFragment
  | T, [] => some T
  | T, (a, p) :: rest =>
    match T.registerNewPath a p false (fun _ => false) with
    | (none, T1) => TableFragment.registerAll T1 rest
    | (some _, _) => none

/-- The 8x8 grid of the test `selfLoop`: ids `0..63` row by row, orthogonal neighbours. -/
def grid8 : Graph where
  nodesSize := 64
  neighbor := fun v =>
    (if 8 ≤ v ∧ v < 64 then [v - 8] else []) ++ (if v % 8 ≠ 0 ∧ v < 64 then [v - 1] else []) ++
    (if v % 8 ≠ 7 ∧ v < 64 then [v + 1] else []) ++ (if v < 56 then [v + 8] else [])

/-- Every entry of the table, in either index, satisfies `P`. -/
def TableFragment.All (P : Fragment → Prop) (T : TableFragment) : Prop :=
  (∀ v, ∀ c ∈ T.fromAt v, P c) ∧ (∀ v, ∀ c ∈ T.toAt v, P c)

/-- The tables that arise from the fresh table for `G` by calls of `registerNewPath`, with
any arguments. -/
inductive TableFragment.Reach (G : Graph) (m : Int) : TableFragment → Prop
  | fresh : TableFragment.Reach G m (TableFragment.new G m)
  | register {T : TableFragment} (id : Nat) (path : Path) (force : Bool)
      (expired : Nat → Bool) : TableFragment.Reach G m T →
      TableFragment.Reach G m (T.registerNewPath id path force expired).2

/-- The tables that arise from the fresh table for `G` by calls of `registerNewPath` whose
paths consist of vertices of `G`. -/
inductive TableFragment.ReachIn (G : Graph) (m : Int) : TableFragment → Prop
  | fresh : TableFragment.ReachIn G m (TableFragment.new G m)
  | register {T : TableFragment} (id : Nat) (path : Path) (force : Bool)
      (expired : Nat → Bool) : TableFragment.ReachIn G m T →
      (∀ x ∈ path, x < G.nodesSize) →
      TableFragment.ReachIn G m (T.registerNewPath id path force expired).2

/-- No slot of the table holds a fragment twice. -/
def TableFragment.NodupSlots (T : TableFragment) : Prop :=
  ∀ v, (T.fromAt v).Nodup ∧ (T.toAt v).Nodup

/-- A ring of four vertices `0 - 1 - 2 - 3 - 0`. -/
def ring4 : Graph where
  nodesSize := 4
  neighbor := fun v =>
    if v = 0 then [1, 3] else if v = 1 then [0, 2] else if v = 2 then [1, 3]
    else if v = 3 then [2, 0] else []

/-- Two agents on the ring: agent 0 goes from `0` to `2`, agent 1 from `1` to `0`. -/
def ringProblem : Problem := ⟨ring4, [0, 1], [2, 0]⟩

/-- The solver state for `ringProblem` after the pre-processing of `Solver::exec`. -/
def ringSolver : Solver where
  P := ringProblem
  distance_table := [[2, 1, 0, 1], [0, 1, 2, 1]]
  table_goals := [true, false, true, false]

/-- DBS on `ringProblem` with unbounded fragments. -/
def ringDBS : DBS := ⟨ringSolver, -1⟩

/-- An oracle like `plainOracle` whose time budget is used up from query `K` on. -/
def clockOracle (K : Nat) : Oracle where
  overCompTime := fun k => decide (K ≤ k)
  shuffle := fun _ C => C
  top := fun _ compare OPEN => ((bestIdx compare OPEN).map Prod.fst).getD 0
  topH := fun _ compare Tree => ((bestIdx compare Tree).map Prod.fst).getD 0
  deadline := fun _ => false

/-- The back-pointers of the queue entry `y` list no vertex twice, and all of them but `y.v`
itself are closed. -/
def Solver.Simple (C : List Bool) (y : AstarNode) : Prop :=
  y.backtrack.Nodup ∧ ∀ x ∈ y.backtrack.tail, C.getD x false = true

/-- A corridor of three vertices `0 - 1 - 2`. -/
def corridor : Graph where
  nodesSize := 3
  neighbor := fun v => if v = 0 then [1] else if v = 1 then [0, 2] else if v = 2 then [1] else []

/-- Two agents that have to pass each other in the corridor: agent 0 goes from `0` to `2`,
agent 1 from `2` to `0`. -/
def corridorProblem : Problem := ⟨corridor, [0, 2], [2, 0]⟩

/-- The solver state for `corridorProblem` after the pre-processing of `Solver::exec`. -/
def corridorSolver : Solver where
  P := corridorProblem
  distance_table := [[2, 1, 0], [0, 1, 2]]
  table_goals := [true, false, true]

/-- DBS on `corridorProblem` with unbounded fragments. -/
def corridorDBS : DBS := ⟨corridorSolver, -1⟩

namespace ICBS

/-- A conflict that the scan of `getPrioritizedConflict` meets, with the outcome of the two
tests that the source applies to it (`cardinal`: the test of the "cardinal conflicts" branch,
`semi`: the test of the "semi-cardinal conflicts" branch) and with its pair of constraints
`[constraint_i, constraint_j]`. -/
structure Event where
  cardinal : Bool
  semi : Bool
  pair : List Constraint
deriving DecidableEq, Repr

/-- The vertex conflict of the agents `i` and `j` at time `t`, if there is one. -/
def vertexEvent (paths : Plan) (mdds : List MDD) (t i j : Nat) : Option Event :=
  let c_i := (mdds.getD i ⟨0, []⟩).c
  let c_j := (mdds.getD j ⟨0, []⟩).c
  let w_i := if t ≤ c_i then width mdds i t else 0
  let w_j := if t ≤ c_j then width mdds j t else 0
  if get paths i t = get paths j t then
    some ⟨decide ((t ≤ c_i ∧ w_i = 1 ∧ t ≤ c_j ∧ w_j = 1) ∨ (t > c_i ∧ w_j = 1) ∨
        (t > c_j ∧ w_i = 1)),
      decide (t > c_i ∨ t > c_j ∨ w_i = 1 ∨ w_j = 1),
      [⟨i, t, get paths i t, none⟩, ⟨j, t, get paths j t, none⟩]⟩
  else none

/-- The swap conflict of the agents `i` and `j` at time `t`, if there is one. -/
def swapEvent (paths : Plan) (mdds : List MDD) (t i j : Nat) : Option Event :=
  let c_i := (mdds.getD i ⟨0, []⟩).c
  let c_j := (mdds.getD j ⟨0, []⟩).c
  let w_i := if t ≤ c_i then width mdds i t else 0
  let w_j := if t ≤ c_j then width mdds j t else 0
  if get paths i t = get paths j (t - 1) ∧ get paths j t = get paths i (t - 1) then
    some ⟨decide ((t ≤ c_i ∧ w_i = 1 ∧ prevSize mdds i t = 1) ∧
        (t ≤ c_j ∧ w_j = 1 ∧ prevSize mdds j t = 1)),
      decide (t > c_i ∨ t > c_j ∨ (w_i = 1 ∧ prevSize mdds i t = 1) ∨
        (w_j = 1 ∧ prevSize mdds j t = 1)),
      [⟨i, t, get paths i t, some (get paths i (t - 1))⟩,
       ⟨j, t, get paths j t, some (get paths j (t - 1))⟩]⟩
  else none

/-- The conflicts of the paths in scan order: the triples `(t, i, j)` in the given order, for
each triple the vertex conflict before the swap conflict. -/
def events (paths : Plan) (mdds : List MDD) (L : List (Nat × Nat × Nat)) : List Event :=
  L.flatMap (fun tij =>
    (vertexEvent paths mdds tij.1 tij.2.1 tij.2.2).toList ++
    (swapEvent paths mdds tij.1 tij.2.1 tij.2.2).toList)

/-- The choice among the conflicts as the specification words it: the first cardinal conflict
if there is one, else the first semi-cardinal conflict if there is one, else the first
conflict, else nothing. -/
def choice (es : List Event) : List Constraint :=
  match es.find? (fun e => e.cardinal) with
  | some e => e.pair
  | none =>
    match es.find? (fun e => e.semi) with
    | some e => e.pair
    | none =>
      match es.head? with
      | some e => e.pair
      | none => []

/-- The statements of `remember` on a classified conflict. -/
def absorb (e : Event) (semi non : List Constraint) :
    List Constraint ⊕ (List Constraint × List Constraint) :=
  if e.cardinal then Sum.inl e.pair
  else if semi.isEmpty && e.semi then Sum.inr (semi ++ e.pair, non)
  else if non.isEmpty then Sum.inr (semi, non ++ e.pair)
  else Sum.inr (semi, non)

/-- The scan, run over the list of conflicts instead of the triples `(t, i, j)`. -/
def scanEvents : List Event → List Constraint → List Constraint → List Constraint
  | [], semi, non => if !semi.isEmpty then semi else if !non.isEmpty then non else []
  | e :: es, semi, non =>
    match absorb e semi non with
    | Sum.inl r => r
    | Sum.inr (semi1, non1) => scanEvents es semi1 non1

end ICBS

namespace ICBS

/-- The struct `HighLevelNode` of CBS as `ICBS::solve` builds it:
`{id, paths, constraints, makespan, soc, f, valid}`; `f` counts the conflicts of `paths`. -/
structure HighLevelNode where
  id : Nat
  paths : Plan
  constraints : List Constraint
  makespan : Nat
  soc : Nat
  f : Int
  valid : Bool
deriving DecidableEq, Repr

end ICBS

namespace ICBS

/-- The members of the class `MDD` that `ICBS::getConstrainedPath` uses. The class is not part
of the sources at hand, so they are left open: the flag `valid`, the method `update`, the
constructor `MDD(c, id, P, constraints)` and the method `getPath()`. -/
structure MDDOps where
  valid : MDD → Bool
  update : MDD → List Constraint → MDD
  build : Nat → Nat → List Constraint → MDD
  getPath : MDD → Path

/-- The loop `while (true) { ++c; ... }` of `ICBS::getConstrainedPath`, entered with the cost
`c`; the result is the first valid MDD. -/
def escalate (ops : MDDOps) (id : Nat) (constraints : List Constraint) : Nat → Nat → Option MDD
  | 0, _ => none
  | fuel + 1, c =>
    let c1 := c + 1
    let new_mdd := ops.build c1 id constraints
    if ops.valid new_mdd then some new_mdd else escalate ops id constraints fuel c1

/-- The method `ICBS::getConstrainedPath(h_node, id)`: the returned path and the entry
`MDDTable[h_node->id]` after the call, `mdds` being that entry before the call. The source
reads the last constraint of the node without a check; for a node without constraints the
result is `none`. -/
def getConstrainedPath (ops : MDDOps) (fuel : Nat) (h_node : HighLevelNode) (mdds : List MDD)
    (id : Nat) : Option (Path × List MDD) :=
  match h_node.constraints.getLast? with
  | none => none
  | some last_constraint =>
    let mdd := ops.update (mdds.getD id ⟨0, []⟩) [last_constraint]
    if ops.valid mdd then some (ops.getPath mdd, mdds.set id mdd)
    else
      let c := max mdd.c last_constraint.t
      match escalate ops id h_node.constraints fuel c with
      | none => none
      | some new_mdd => some (ops.getPath new_mdd, mdds.set id new_mdd)

/-- A stand-in for the class `MDD` used to run `getConstrainedPath` on an example: an MDD is
valid from cost 4 on, `update` turns the cost-2 MDD into an invalid one of the same cost, and
the path of an MDD of cost `c` is `0, 1, ..., c`. -/
def countingOps : MDDOps where
  valid := fun m => decide (4 ≤ m.c)
  update := fun m _ => m
  build := fun c _ _ => ⟨c, []⟩
  getPath := fun m => List.range (m.c + 1)

end ICBS

/-- The table and the query counter with which the loop of `getConstraints` comes to agent
`a + j`, when it was at agent `a` with the table `T` and the counter `k` and the `j`
registrations in between reported nothing. -/
def DBS.regState (o : Oracle) (paths : Plan) :
    Nat → Nat → TableFragment → Nat → TableFragment × Nat
  | 0, _, T, k => (T, k)
  | j + 1, a, T, k =>
    DBS.regState o paths j (a + 1)
      (T.registerNewPath a (paths.getD a []) false (fun t => o.deadline (k + t))).2
      (k + (paths.getD a []).length)

/-- What the registration of the path of agent `a + j` returns in that state. -/
def DBS.regOut (o : Oracle) (paths : Plan) (j a : Nat) (T : TableFragment) (k : Nat) :
    Option Fragment :=
  ((DBS.regState o paths j a T k).1.registerNewPath (a + j) (paths.getD (a + j) []) false
    (fun t => o.deadline ((DBS.regState o paths j a T k).2 + t))).1

/-- The fragment spells out a non-empty linked sequence of moves of registered paths. -/
def Fragment.IsChain (regs : List (Nat × Path)) (c : Fragment) : Prop :=
  ∃ x ms, ms ≠ [] ∧ c = chainFrag x ms ∧ Linked x ms ∧ ∀ m ∈ ms, InRegs regs m

/-- The table holds the fragment of every non-empty linked sequence of registered moves by
pairwise different agents that visits no vertex twice. -/
def TableFragment.SimpleClosed (T : TableFragment) (regs : List (Nat × Path)) : Prop :=
  ∀ x ms, ms ≠ [] → Linked x ms → (ms.map Move.agent).Nodup → (x :: ms.map Move.dst).Nodup →
    (∀ m ∈ ms, InRegs regs m) → T.Has (chainFrag x ms)

/-- The tables that hold the fragments of the registered paths `regs`: the fresh table for `G`
after registrations of paths of vertices of `G`, made one after another, none of them
abandoned at its deadline, and each of them either made with `force = true`, as
`DBS::getInitialNode` makes them, or without a report. -/
inductive TableFragment.Registered (G : Graph) (m : Int) :
    List (Nat × Path) → TableFragment → Prop
  | fresh : TableFragment.Registered G m [] (TableFragment.new G m)
  | register {regs : List (Nat × Path)} {T : TableFragment} (a : Nat) (p : Path)
      (force : Bool) (expired : Nat → Bool) : TableFragment.Registered G m regs T →
      (∀ x ∈ p, x < G.nodesSize) → (∀ t, expired t = false) →
      (force = true ∨ (T.registerNewPath a p force expired).1 = none) →
      TableFragment.Registered G m (regs ++ [(a, p)]) (T.registerNewPath a p force expired).2

/-- The node that `Solver::getPath` creates first, `createNewNode(s, 0, pathDist(id, s),
nullptr)`: the only one with a null parent pointer. -/
def Solver.rootNode (S : Solver) (id : Nat) : AstarNode :=
  AstarNode.mk (S.P.getStart id) 0 (S.pathDist id (S.P.getStart id)) none

/-- The contents of `OPEN` after each `OPEN.push` of one `for (auto u : C)` loop of `getPath`
that starts on the contents `Q` and pushes the entries `X` one by one. -/
def Solver.afterPushes (Q X : List AstarNode) : List (List AstarNode) :=
  (List.range X.length).map (fun j => Q ++ X.take (j + 1))

/-- The main loop of `Solver::getPath` as in `getPathLoop`, with a record of what the queue
holds whenever one of its operations runs: the contents of `OPEN` before each
`OPEN.top(); OPEN.pop()` and after each `OPEN.push`, in the order of the run. The second
component is the result of `getPathLoop`. -/
def Solver.getPathLoopTraced (S : Solver) (o : Oracle) (id : Nat)
    (checkInvalidNode : CheckInvalidMove) (compare : CompareAstarNodes) :
    Nat → List AstarNode → List Bool → Nat → List (List AstarNode) × Option (Path × Nat)
  | 0, _, _, _ => ([], none)
  | fuel + 1, OPEN, CLOSE, k =>
    if OPEN.isEmpty then ([], some ([], k))
    else if o.overCompTime k then ([], some ([], k + 1))
    else
      let i := o.top k compare OPEN % OPEN.length
      match OPEN.get? i with
      | none => ([OPEN], none)
      | some n =>
        let OPEN1 := OPEN.eraseIdx i
        if CLOSE.getD n.v false then
          let r := Solver.getPathLoopTraced S o id checkInvalidNode compare fuel OPEN1 CLOSE
            (k + 1)
          (OPEN :: r.1, r.2)
        else
          let CLOSE1 := CLOSE.set n.v true
          if n.v = S.P.getGoal id then ([OPEN], some (n.backtrack.reverse, k + 1))
          else
            let C := o.shuffle k (S.P.G.neighbor n.v)
            let X := Solver.expand S id checkInvalidNode CLOSE1 n C
            let r := Solver.getPathLoopTraced S o id checkInvalidNode compare fuel
              (OPEN1 ++ X) CLOSE1 (k + 1)
            (OPEN :: (Solver.afterPushes OPEN1 X ++ r.1), r.2)

/-- The method `Solver::getPath` with the record of the queue contents: the first entry is the
queue after `OPEN.push(n)` of the initial node, the rest is the record of the main loop. -/
def Solver.getPathTraced (S : Solver) (o : Oracle) (fuel : Nat) (id : Nat)
    (checkInvalidNode : CheckInvalidMove) (compare : CompareAstarNodes) (k : Nat) :
    List (List AstarNode) × Option (Path × Nat) :=
  let r := Solver.getPathLoopTraced S o id checkInvalidNode compare fuel [S.rootNode id]
    (List.replicate S.P.G.nodesSize false) k
  ([S.rootNode id] :: r.1, r.2)

/-- The entries that `std::priority_queue` may hand to its comparator while it works on the
contents `Q` (after a push, before a pop): two entries of `Q`, and none at all when `Q` has a
single entry, since `push_heap` and `pop_heap` make at most `log |Q|` and `2 log |Q|`
comparisons. -/
def MayCompare (Q : List AstarNode) (a b : AstarNode) : Prop :=
  2 ≤ Q.length ∧ a ∈ Q ∧ b ∈ Q

/-- The lambda `compare` of `DBS::getConstrainedPath` with its reads through the parent
pointers made explicit: when the distances tie it reads `a->p->v` and `b->p->v`, and the
value is `none` if one of the two parent pointers is null. -/
def DBS.compareConstrainedRead (D : DBS) (id : Nat) (from_to_table : List (List Nat))
    (a b : AstarNode) : Option Bool :=
  if D.S.pathDist id a.v ≠ D.S.pathDist id b.v then
    some (decide (D.S.pathDist id a.v > D.S.pathDist id b.v))
  else
    match a.p, b.p with
    | some pa, some pb =>
      let swap_a := (from_to_table.getD pa.v []).contains a.v
      let swap_b := (from_to_table.getD pb.v []).contains b.v
      if swap_a ≠ swap_b then some (decide (swap_a.toNat < swap_b.toNat))
      else if a.g ≠ b.g then some (decide (a.g < b.g))
      else some false
    | _, _ => none


/-- Two agents on the 3x3 grid that exchange the corners `0` and `2`. -/
def demoProblem : Problem := ⟨grid3, [0, 2], [2, 0]⟩

/-- The solver state for `demoProblem` after the pre-processing of `Solver::exec`. -/
def demoSolver : Solver where
  P := demoProblem
  distance_table := [[2, 1, 0, 3, 2, 1, 4, 3, 2], [0, 1, 2, 1, 2, 3, 2, 3, 4]]
  table_goals := [true, false, true, false, false, false, false, false, false]

/-- DBS on `demoProblem` with unbounded fragments. -/
def demoDBS : DBS := ⟨demoSolver, -1⟩

end Otimapp

/-! # Theorems -/

namespace Otimapp

/-! ## Properties of the A* nodes that reach the queue -/

theorem AstarNode.backtrack_ne_nil (n : AstarNode) : n.backtrack ≠ [] := by
  cases n with
  | mk v g f p => cases p <;> simp [AstarNode.backtrack]

theorem AstarNode.backtrack_head (n : AstarNode) : n.backtrack.head? = some n.v := by
  cases n with
  | mk v g f p => cases p <;> simp [AstarNode.backtrack, AstarNode.v]

theorem AstarNode.backtrack_child (u g f : Nat) (n : AstarNode) :
    (AstarNode.mk u g f (some n)).backtrack = u :: n.backtrack := by
  simp [AstarNode.backtrack]

namespace Solver

theorem mem_expand {S : Solver} {id : Nat} {chk : CheckInvalidMove} {CLOSE : List Bool}
    {n m : AstarNode} {C : List Nat} (h : m ∈ expand S id chk CLOSE n C) :
    ∃ u, u ∈ C ∧ CLOSE.getD u false = false ∧ chk u n.v = false ∧
      m = AstarNode.mk u (n.g + 1) (n.g + 1 + S.pathDist id u) (some n) := by
  unfold expand at h
  rcases List.mem_map.1 h with ⟨u, hu, rfl⟩
  rcases List.mem_filter.1 hu with ⟨huC, hcond⟩
  simp only [Bool.and_eq_true, Bool.not_eq_true'] at hcond
  exact ⟨u, huC, hcond.1, hcond.2, rfl⟩

/-- Any property of search nodes that holds for every queue entry and passes from an expanded
node to the entries pushed for it holds for the node whose back-pointers give the result. -/
theorem getPathLoop_node_inv (S : Solver) (o : Oracle) (id : Nat) (chk : CheckInvalidMove)
    (cmp : CompareAstarNodes) (Q : AstarNode → Prop)
    (hstep : ∀ (n : AstarNode) (k u : Nat), Q n → u ∈ o.shuffle k (S.P.G.neighbor n.v) →
      chk u n.v = false → Q (AstarNode.mk u (n.g + 1) (n.g + 1 + S.pathDist id u) (some n))) :
    ∀ (fuel : Nat) (OPEN : List AstarNode) (CLOSE : List Bool) (k : Nat) (p : Path) (k1 : Nat),
      (∀ n ∈ OPEN, Q n) → getPathLoop S o id chk cmp fuel OPEN CLOSE k = some (p, k1) →
      p = [] ∨ ∃ n, Q n ∧ n.v = S.P.getGoal id ∧ p = n.backtrack.reverse := by
  intro fuel
  induction fuel with
  | zero => intro OPEN CLOSE k p k1 _ h; simp [getPathLoop] at h
  | succ fuel ih =>
    intro OPEN CLOSE k p k1 hQ h
    unfold getPathLoop at h
    split at h
    · simp only [Option.some.injEq, Prod.mk.injEq] at h; exact Or.inl h.1.symm
    · split at h
      · simp only [Option.some.injEq, Prod.mk.injEq] at h; exact Or.inl h.1.symm
      · simp only at h
        split at h
        · exact absurd h (by simp)
        · rename_i n hn
          have hnO : n ∈ OPEN := List.get?_mem hn
          have hQ1 : ∀ m ∈ OPEN.eraseIdx (o.top k cmp OPEN % OPEN.length), Q m :=
            fun m hm => hQ m (List.mem_of_mem_eraseIdx hm)
          split at h
          · exact ih _ _ _ _ _ hQ1 h
          · split at h
            · rename_i hg
              simp only [Option.some.injEq, Prod.mk.injEq] at h
              exact Or.inr ⟨n, hQ n hnO, hg, h.1.symm⟩
            · refine ih _ _ _ _ _ ?_ h
              intro m hm
              rcases List.mem_append.1 hm with hm | hm
              · exact hQ1 m hm
              · rcases mem_expand hm with ⟨u, huC, _, hchk, rfl⟩
                exact hstep n k u (hQ n hnO) huC hchk

/-- Consecutive entries of a list whose neighbours are all related are related. -/
theorem chain_getD {R : Nat → Nat → Prop} {l : List Nat} (h : List.Chain' R l) (t : Nat)
    (ht : t + 1 < l.length) : R (l.getD t 0) (l.getD (t + 1) 0) := by
  have h1 := (List.chain'_iff_get.1 h) t (by omega)
  have e1 : l.getD t 0 = l.get ⟨t, by omega⟩ := by
    simp [List.getD_eq_getElem?_getD, List.getElem?_eq_getElem (show t < l.length by omega)]
  have e2 : l.getD (t + 1) 0 = l.get ⟨t + 1, ht⟩ := by
    simp [List.getD_eq_getElem?_getD, List.getElem?_eq_getElem ht]
  rw [e1, e2]; exact h1

/-- The back-pointers of the node that gives the result only follow moves that the predicate
allows. -/
theorem getPath_chain_not_blocked (S : Solver) (o : Oracle) (fuel id : Nat)
    (chk : CheckInvalidMove) (cmp : CompareAstarNodes) (k : Nat) (p : Path) (k1 : Nat)
    (h : S.getPath o fuel id chk cmp k = some (p, k1)) :
    List.Chain' (fun a b => chk b a = false) p := by
  have key := getPathLoop_node_inv S o id chk cmp
    (fun n => List.Chain' (fun c q => chk c q = false) n.backtrack)
    (by
      intro n k u hn _ hchk
      rw [AstarNode.backtrack_child, List.chain'_cons']
      refine ⟨?_, hn⟩
      intro y hy
      rw [AstarNode.backtrack_head] at hy
      cases hy
      exact hchk)
    fuel _ _ k p k1
    (by
      intro n hn
      simp only [List.mem_singleton] at hn
      subst hn
      simp [AstarNode.backtrack])
    h
  rcases key with rfl | ⟨n, hn, _, rfl⟩
  · exact List.chain'_nil
  · rw [List.chain'_reverse]
    exact hn

/-- **C3.** For every agent `id`, move predicate `checkInvalidNode` and comparator, a path `p`
returned by `Solver::getPath` contains no forbidden move: for every `t` with
`0 ≤ t < |p| - 1`, `checkInvalidNode(p[t+1], p[t])` is false. -/
theorem C3_getPath_moves_not_blocked (S : Solver) (o : Oracle) (fuel id : Nat)
    (checkInvalidNode : CheckInvalidMove) (compare : CompareAstarNodes) (k : Nat) (p : Path)
    (k1 : Nat) (h : S.getPath o fuel id checkInvalidNode compare k = some (p, k1)) :
    ∀ t, t + 1 < p.length → checkInvalidNode (p.getD (t + 1) 0) (p.getD t 0) = false := by
  intro t ht
  exact chain_getD (getPath_chain_not_blocked S o fuel id checkInvalidNode compare k p k1 h) t ht

/-- Witness for C3: agent 0 of the demo instance with every move into vertex 1 forbidden. -/
theorem C3_getPath_moves_not_blocked_witness :
    demoSolver.getPath plainOracle 40 0 (fun child _ => child == 1) compareAstarNodesDefault 0
      = some ([0, 3, 4, 5, 2], 5) ∧
    ∀ t, t + 1 < [0, 3, 4, 5, 2].length →
      (fun (child _ : Nat) => child == 1) (([0, 3, 4, 5, 2] : Path).getD (t + 1) 0)
        (([0, 3, 4, 5, 2] : Path).getD t 0) = false :=
  ⟨by decide, C3_getPath_moves_not_blocked demoSolver plainOracle 40 0 (fun child _ => child == 1)
    compareAstarNodesDefault 0 [0, 3, 4, 5, 2] 5 (by decide)⟩

/-! ### Termination and completeness of the search -/

/-- The closed flag of a vertex after `CLOSE[v] = true`. -/
theorem getD_set_true (CLOSE : List Bool) (v u : Nat) (hv : v < CLOSE.length) :
    (CLOSE.set v true).getD u false = (CLOSE.getD u false || decide (u = v)) := by
  simp only [List.getD_eq_getElem?_getD, List.getElem?_set]
  by_cases h : v = u
  · subst h; simp [hv]
  · have h' : ¬ u = v := fun e => h e.symm
    simp [h, h']

theorem getD_true_lt (CLOSE : List Bool) (u : Nat) (h : CLOSE.getD u false = true) :
    u < CLOSE.length := by
  by_contra hc
  rw [List.getD_eq_getElem?_getD, List.getElem?_eq_none (by omega)] at h
  simp at h

/-- An entry of a list is the erased one or survives the erasure. -/
theorem mem_eraseIdx_or {α : Type} : ∀ (l : List α) (i : Nat) (a : α), l.get? i = some a →
    ∀ y ∈ l, y = a ∨ y ∈ l.eraseIdx i
  | [], _, _, h, _, _ => by simp at h
  | x :: l, 0, a, h, y, hy => by
    simp only [List.get?_cons_zero, Option.some.injEq] at h
    rcases List.mem_cons.1 hy with rfl | hy
    · exact Or.inl h
    · exact Or.inr (by simpa using hy)
  | x :: l, i + 1, a, h, y, hy => by
    simp only [List.get?_cons_succ] at h
    rcases List.mem_cons.1 hy with rfl | hy
    · exact Or.inr (by simp)
    · rcases mem_eraseIdx_or l i a h y hy with e | e
      · exact Or.inl e
      · exact Or.inr (by simp [e])

theorem openDeg_set_le (G : Graph) (CLOSE : List Bool) (v : Nat) (hv : v < CLOSE.length) :
    ∀ L : List Nat, openDeg G (CLOSE.set v true) L ≤ openDeg G CLOSE L := by
  intro L
  induction L with
  | nil => simp [openDeg]
  | cons x L ih =>
    simp only [openDeg, List.map_cons, List.sum_cons] at ih ⊢
    have : (if (CLOSE.set v true).getD x false = true then 0 else (G.neighbor x).length) ≤
        (if CLOSE.getD x false = true then 0 else (G.neighbor x).length) := by
      rw [getD_set_true CLOSE v x hv]
      cases CLOSE.getD x false <;> by_cases hx : x = v <;> simp [hx]
    omega

theorem openDeg_set_lt (G : Graph) (CLOSE : List Bool) (v : Nat) (hv : v < CLOSE.length)
    (hc : CLOSE.getD v false = false) :
    ∀ L : List Nat, v ∈ L →
      openDeg G (CLOSE.set v true) L + (G.neighbor v).length ≤ openDeg G CLOSE L := by
  intro L
  induction L with
  | nil => intro h; simp at h
  | cons x L ih =>
    intro hmem
    have hle := openDeg_set_le G CLOSE v hv L
    simp only [openDeg, List.map_cons, List.sum_cons] at ih hle ⊢
    by_cases hx : x = v
    · subst hx
      rw [getD_set_true CLOSE x x hv, hc]
      simp only [decide_True, Bool.or_true, if_true, Bool.false_eq_true, if_false]
      omega
    · have hvL : v ∈ L := by
        rcases List.mem_cons.1 hmem with e | e
        · exact absurd e.symm hx
        · exact e
      have h1 := ih hvL
      have : (if (CLOSE.set v true).getD x false = true then 0 else (G.neighbor x).length) ≤
          (if CLOSE.getD x false = true then 0 else (G.neighbor x).length) := by
        rw [getD_set_true CLOSE v x hv]
        cases CLOSE.getD x false <;> simp [hx]
      omega

theorem length_expand_le (S : Solver) (id : Nat) (chk : CheckInvalidMove) (CLOSE : List Bool)
    (n : AstarNode) (C : List Nat) : (expand S id chk CLOSE n C).length ≤ C.length := by
  unfold expand
  rw [List.length_map]
  exact List.length_filter_le _ _

theorem mem_expand_of (S : Solver) (id : Nat) (chk : CheckInvalidMove) (CLOSE : List Bool)
    (n : AstarNode) (C : List Nat) (u : Nat) (hu : u ∈ C) (hc : CLOSE.getD u false = false)
    (hchk : chk u n.v = false) :
    AstarNode.mk u (n.g + 1) (n.g + 1 + S.pathDist id u) (some n) ∈ expand S id chk CLOSE n C := by
  unfold expand
  refine List.mem_map.2 ⟨u, List.mem_filter.2 ⟨hu, ?_⟩, rfl⟩
  simp only [hc, hchk, Bool.not_false, Bool.and_self]

/-- Loop rule for the search without time-out on a well-formed graph: an invariant `I` of
the pair (queue, closed flags) that survives both kinds of round yields a result as soon as
the fuel covers the potential, and the result stems either from a drained queue or from a
popped entry on the goal. -/
theorem getPathLoop_total (S : Solver) (o : Oracle) (id : Nat) (chk : CheckInvalidMove)
    (cmp : CompareAstarNodes) (hshuf : ∀ k l, (o.shuffle k l).Perm l)
    (htime : ∀ k, o.overCompTime k = false) (I : List AstarNode → List Bool → Prop)
    (hbasic : ∀ O C, I O C → C.length = S.P.G.nodesSize ∧ ∀ y ∈ O, y.v < S.P.G.nodesSize)
    (hskip : ∀ O C k n, I O C → O.get? (o.top k cmp O % O.length) = some n →
      C.getD n.v false = true → I (O.eraseIdx (o.top k cmp O % O.length)) C)
    (hexp : ∀ O C k n, I O C → O.get? (o.top k cmp O % O.length) = some n →
      C.getD n.v false = false → n.v ≠ S.P.getGoal id →
      I (O.eraseIdx (o.top k cmp O % O.length) ++
        expand S id chk (C.set n.v true) n (o.shuffle k (S.P.G.neighbor n.v))) (C.set n.v true)) :
    ∀ (fuel : Nat) (O : List AstarNode) (C : List Bool) (k : Nat), I O C →
      O.length + openDeg S.P.G C (List.range S.P.G.nodesSize) + 1 ≤ fuel →
      ∃ p k1, getPathLoop S o id chk cmp fuel O C k = some (p, k1) ∧
        ((p = [] ∧ ∃ C1, I [] C1) ∨
         (∃ O1 C1 k0 n, I O1 C1 ∧ O1.get? (o.top k0 cmp O1 % O1.length) = some n ∧
            C1.getD n.v false = false ∧ n.v = S.P.getGoal id ∧ p = n.backtrack.reverse)) := by
  intro fuel
  induction fuel with
  | zero => intro O C k _ h; omega
  | succ fuel ih =>
    intro O C k hI hfuel
    unfold getPathLoop
    by_cases hO : O.isEmpty = true
    · have : O = [] := List.isEmpty_iff.1 hO
      subst this
      exact ⟨[], k, by simp, Or.inl ⟨rfl, C, hI⟩⟩
    · rw [if_neg hO, htime k]
      simp only [Bool.false_eq_true, if_false]
      have hne : O ≠ [] := fun e => hO (by simp [e])
      have hlen : 0 < O.length := List.length_pos.2 hne
      have hi : o.top k cmp O % O.length < O.length := Nat.mod_lt _ hlen
      obtain ⟨n, hn⟩ : ∃ n, O.get? (o.top k cmp O % O.length) = some n :=
        ⟨O.get ⟨_, hi⟩, List.get?_eq_get hi⟩
      rw [hn]
      simp only
      have hnO : n ∈ O := List.get?_mem hn
      obtain ⟨hCl, hOv⟩ := hbasic O C hI
      have hlenE : (O.eraseIdx (o.top k cmp O % O.length)).length = O.length - 1 := by
        rw [List.length_eraseIdx, if_pos hi]
      by_cases hc : C.getD n.v false = true
      · rw [if_pos hc]
        exact ih _ C (k + 1) (hskip O C k n hI hn hc) (by omega)
      · rw [if_neg hc]
        have hc' : C.getD n.v false = false := by simpa using hc
        by_cases hg : n.v = S.P.getGoal id
        · rw [if_pos hg]
          exact ⟨_, _, rfl, Or.inr ⟨O, C, k, n, hI, hn, hc', hg, rfl⟩⟩
        · rw [if_neg hg]
          refine ih _ _ (k + 1) (hexp O C k n hI hn hc' hg) ?_
          have hv : n.v < C.length := by rw [hCl]; exact hOv n hnO
          have h1 := openDeg_set_lt S.P.G C n.v hv hc' (List.range S.P.G.nodesSize)
            (List.mem_range.2 (hOv n hnO))
          have h2 := length_expand_le S id chk (C.set n.v true) n
            (o.shuffle k (S.P.G.neighbor n.v))
          have h3 : (o.shuffle k (S.P.G.neighbor n.v)).length = (S.P.G.neighbor n.v).length :=
            (hshuf k _).length_eq
          rw [List.length_append]
          omega

theorem NodeOK.root (S : Solver) (id : Nat) (chk : CheckInvalidMove)
    (hs : S.P.getStart id < S.P.G.nodesSize) :
    S.NodeOK id chk (AstarNode.mk (S.P.getStart id) 0 (S.pathDist id (S.P.getStart id)) none) :=
  ⟨Walk.refl, by simp [AstarNode.backtrack, AstarNode.g], by simp [AstarNode.f, AstarNode.g,
    AstarNode.v], hs⟩

theorem NodeOK.child (S : Solver) (id : Nat) (chk : CheckInvalidMove) (hWF : S.P.G.WF)
    (n : AstarNode) (u : Nat) (hn : S.NodeOK id chk n) (hu : u ∈ S.P.G.neighbor n.v)
    (hchk : chk u n.v = false) :
    S.NodeOK id chk (AstarNode.mk u (n.g + 1) (n.g + 1 + S.pathDist id u) (some n)) :=
  ⟨Walk.step hn.walk hu hchk, by simp [AstarNode.backtrack, AstarNode.g, hn.len],
    by simp [AstarNode.f, AstarNode.g, AstarNode.v], hWF n.v hn.inRange u hu⟩

theorem searchInv_init (S : Solver) (id : Nat) (chk : CheckInvalidMove)
    (hs : S.P.getStart id < S.P.G.nodesSize) :
    S.SearchInv id chk
      [AstarNode.mk (S.P.getStart id) 0 (S.pathDist id (S.P.getStart id)) none]
      (List.replicate S.P.G.nodesSize false) := by
  have hrep : ∀ v, (List.replicate S.P.G.nodesSize false).getD v false = false := by
    intro v
    rw [List.getD_eq_getElem?_getD, List.getElem?_replicate]
    split <;> rfl
  refine ⟨by simp, ?_, hrep _, ?_, Or.inr ⟨_, List.mem_singleton.2 rfl, rfl⟩⟩
  · intro y hy
    rw [List.mem_singleton.1 hy]
    exact NodeOK.root S id chk hs
  · intro x hx
    rw [hrep x] at hx
    exact absurd hx (by simp)

theorem searchInv_skip (S : Solver) (id : Nat) (chk : CheckInvalidMove)
    (O : List AstarNode) (C : List Bool) (i : Nat) (n : AstarNode)
    (hI : S.SearchInv id chk O C) (hn : O.get? i = some n) (hc : C.getD n.v false = true) :
    S.SearchInv id chk (O.eraseIdx i) C := by
  refine ⟨hI.len, fun y hy => hI.nodes y (List.mem_of_mem_eraseIdx hy), hI.goalOpen, ?_, ?_⟩
  · intro x hx u hu hchk
    rcases hI.closedStep x hx u hu hchk with h | ⟨y, hy, hyv⟩
    · exact Or.inl h
    · rcases mem_eraseIdx_or O i n hn y hy with e | e
      · left; rw [← hyv, e]; exact hc
      · exact Or.inr ⟨y, e, hyv⟩
  · rcases hI.startSeen with h | ⟨y, hy, hyv⟩
    · exact Or.inl h
    · rcases mem_eraseIdx_or O i n hn y hy with e | e
      · left; rw [← hyv, e]; exact hc
      · exact Or.inr ⟨y, e, hyv⟩

theorem searchInv_expand (S : Solver) (id : Nat) (chk : CheckInvalidMove) (hWF : S.P.G.WF)
    (O : List AstarNode) (C : List Bool) (i : Nat) (n : AstarNode) (L : List Nat)
    (hL : L.Perm (S.P.G.neighbor n.v))
    (hI : S.SearchInv id chk O C) (hn : O.get? i = some n) (hg : n.v ≠ S.P.getGoal id) :
    S.SearchInv id chk (O.eraseIdx i ++ Solver.expand S id chk (C.set n.v true) n L)
      (C.set n.v true) := by
  have hnO : n ∈ O := List.get?_mem hn
  have hnOK := hI.nodes n hnO
  have hv : n.v < C.length := by rw [hI.len]; exact hnOK.inRange
  have hset : ∀ u, (C.set n.v true).getD u false = (C.getD u false || decide (u = n.v)) :=
    fun u => getD_set_true C n.v u hv
  have hkeep : ∀ u, (∃ y ∈ O, y.v = u) → (C.set n.v true).getD u false = true ∨
      ∃ y ∈ O.eraseIdx i ++ Solver.expand S id chk (C.set n.v true) n L, y.v = u := by
    rintro u ⟨y, hy, hyv⟩
    rcases mem_eraseIdx_or O i n hn y hy with e | e
    · left; rw [hset, ← hyv, e]; simp
    · exact Or.inr ⟨y, List.mem_append_left _ e, hyv⟩
  refine ⟨by simp [hI.len], ?_, ?_, ?_, ?_⟩
  · intro y hy
    rcases List.mem_append.1 hy with hy | hy
    · exact hI.nodes y (List.mem_of_mem_eraseIdx hy)
    · rcases mem_expand hy with ⟨u, huL, _, hchk, rfl⟩
      exact NodeOK.child S id chk hWF n u hnOK (hL.subset huL) hchk
  · rw [hset, hI.goalOpen]
    have : ¬ S.P.getGoal id = n.v := fun e => hg e.symm
    simp [this]
  · intro x hx u hu hchk
    rw [hset] at hx
    by_cases hxn : x = n.v
    · subst hxn
      by_cases hcu : (C.set n.v true).getD u false = true
      · exact Or.inl hcu
      · right
        have hcu' : (C.set n.v true).getD u false = false := by
          cases h : (C.set n.v true).getD u false
          · rfl
          · exact absurd h hcu
        exact ⟨_, List.mem_append_right _
          (mem_expand_of S id chk _ n L u (hL.symm.subset hu) hcu' hchk), rfl⟩
    · have hx' : C.getD x false = true := by
        cases h : C.getD x false
        · rw [h] at hx; simp [hxn] at hx
        · rfl
      rcases hI.closedStep x hx' u hu hchk with h | h
      · left; rw [hset, h]; rfl
      · exact hkeep u h
  · rcases hI.startSeen with h | h
    · left; rw [hset, h]; rfl
    · exact hkeep _ h

/-- Once the queue is drained, every vertex that allowed moves reach from the start is
closed. -/
theorem SearchInv.drained (S : Solver) (id : Nat) (chk : CheckInvalidMove) (C : List Bool)
    (hI : S.SearchInv id chk [] C) :
    ∀ m v, Walk S.P.G chk (S.P.getStart id) m v → C.getD v false = true := by
  intro m v hw
  induction hw with
  | refl =>
    rcases hI.startSeen with h | ⟨y, hy, _⟩
    · exact h
    · simp at hy
  | step _ hu hchk ih =>
    rcases hI.closedStep _ ih _ hu hchk with h | ⟨y, hy, _⟩
    · exact h
    · simp at hy

theorem openDeg_replicate (G : Graph) (n : Nat) (L : List Nat) :
    openDeg G (List.replicate n false) L = (L.map (fun v => (G.neighbor v).length)).sum := by
  unfold openDeg
  congr 1
  apply List.map_congr_left
  intro v _
  rw [List.getD_eq_getElem?_getD, List.getElem?_replicate]
  split <;> simp

/-- With the start on the goal the first round returns the one-vertex path. -/
theorem getPath_start_eq_goal (S : Solver) (o : Oracle) (fuel id : Nat)
    (chk : CheckInvalidMove) (cmp : CompareAstarNodes) (k : Nat)
    (htime : o.overCompTime k = false) (hsg : S.P.getStart id = S.P.getGoal id) :
    S.getPath o (fuel + 1) id chk cmp k = some ([S.P.getStart id], k + 1) := by
  have hrep : (List.replicate S.P.G.nodesSize false).getD (S.P.getStart id) false = false := by
    rw [List.getD_eq_getElem?_getD, List.getElem?_replicate]
    split <;> rfl
  unfold getPath getPathLoop
  simp only [List.isEmpty_cons, Bool.false_eq_true, if_false, htime, List.length_singleton,
    Nat.mod_one, List.get?_cons_zero, AstarNode.v, hrep, hsg, if_true]
  simp [AstarNode.backtrack]

/-- **C4.** Without time-out, on a well-formed graph and with enough fuel, `Solver::getPath`
returns, and the returned path is empty if and only if the goal cannot be reached from the
start by graph moves `v → u` with `checkInvalidNode(u, v)` false; this for every comparator,
every answer of the queue and every shuffle. With the start on the goal the result is the
one-vertex path. -/
theorem C4_getPath_empty_iff_unreachable (S : Solver) (o : Oracle) (id : Nat)
    (checkInvalidNode : CheckInvalidMove) (compare : CompareAstarNodes) (k : Nat)
    (hWF : S.P.G.WF) (hs : S.P.getStart id < S.P.G.nodesSize)
    (hshuf : ∀ k l, (o.shuffle k l).Perm l) (htime : ∀ k, o.overCompTime k = false)
    (fuel : Nat) (hfuel : S.P.G.degSum + 2 ≤ fuel) :
    ∃ p k1, S.getPath o fuel id checkInvalidNode compare k = some (p, k1) ∧
      (p = [] ↔ ¬ ∃ m, Walk S.P.G checkInvalidNode (S.P.getStart id) m (S.P.getGoal id)) ∧
      (S.P.getStart id = S.P.getGoal id → p = [S.P.getStart id]) := by
  have hrun := getPathLoop_total S o id checkInvalidNode compare hshuf htime
    (S.SearchInv id checkInvalidNode)
    (fun O C hI => ⟨hI.len, fun y hy => (hI.nodes y hy).inRange⟩)
    (fun O C k n hI hn hc => searchInv_skip S id checkInvalidNode O C _ n hI hn hc)
    (fun O C k n hI hn _ hg =>
      searchInv_expand S id checkInvalidNode hWF O C _ n _ (hshuf k _) hI hn hg)
    fuel _ _ k (searchInv_init S id checkInvalidNode hs)
    (by rw [openDeg_replicate]; simp only [List.length_singleton]; unfold Graph.degSum at hfuel
        omega)
  obtain ⟨p, k1, hp, hcases⟩ := hrun
  refine ⟨p, k1, hp, ?_, ?_⟩
  · rcases hcases with ⟨rfl, C1, hI⟩ | ⟨O1, C1, k0, n, hI, hn, _, hg, rfl⟩
    · refine ⟨fun _ => ?_, fun _ => rfl⟩
      rintro ⟨m, hw⟩
      have := SearchInv.drained S id checkInvalidNode C1 hI m _ hw
      rw [hI.goalOpen] at this
      exact absurd this (by simp)
    · have hne : n.backtrack.reverse ≠ [] := by
        simpa using AstarNode.backtrack_ne_nil n
      refine ⟨fun h => absurd h hne, fun h => absurd ⟨n.g, ?_⟩ h⟩
      rw [← hg]
      exact (hI.nodes n (List.get?_mem hn)).walk
  · intro hsg
    obtain ⟨f0, rfl⟩ : ∃ f0, fuel = f0 + 1 := ⟨fuel - 1, by omega⟩
    have hp1 : S.getPath o (f0 + 1) id checkInvalidNode compare k = some (p, k1) := hp
    rw [getPath_start_eq_goal S o f0 id checkInvalidNode compare k (htime k) hsg] at hp1
    simp only [Option.some.injEq, Prod.mk.injEq] at hp1
    have hp := hp1
    exact hp.1.symm

theorem grid3_WF : grid3.WF := by
  unfold Graph.WF
  decide

/-- Witness for C4: agent 0 of the demo instance with every move into vertex 1 forbidden. -/
theorem C4_getPath_empty_iff_unreachable_witness :
    ∃ p k1, demoSolver.getPath plainOracle 40 0 (fun child _ => child == 1)
        compareAstarNodesDefault 0 = some (p, k1) ∧
      (p = [] ↔ ¬ ∃ m, Walk demoSolver.P.G (fun child _ => child == 1)
        (demoSolver.P.getStart 0) m (demoSolver.P.getGoal 0)) ∧
      (demoSolver.P.getStart 0 = demoSolver.P.getGoal 0 → p = [demoSolver.P.getStart 0]) :=
  C4_getPath_empty_iff_unreachable demoSolver plainOracle 0 (fun child _ => child == 1)
    compareAstarNodesDefault 0 grid3_WF (by decide) (fun _ l => List.Perm.refl l)
    (fun _ => rfl) 40 (by decide)

/-! ### The distance table -/

theorem getD_set_nat (row : List Nat) (m u a : Nat) (hm : m < row.length) :
    (row.set m a).getD u 0 = if u = m then a else row.getD u 0 := by
  simp only [List.getD_eq_getElem?_getD, List.getElem?_set]
  by_cases h : m = u
  · subst h; simp [hm]
  · have h' : ¬ u = m := fun e => h e.symm
    simp [h, h']

theorem sum_set_nat : ∀ (row : List Nat) (m a : Nat), m < row.length →
    (row.set m a).sum + row.getD m 0 = row.sum + a
  | [], _, _, h => by simp at h
  | x :: row, 0, a, _ => by simp [List.getD_eq_getElem?_getD]; omega
  | x :: row, m + 1, a, h => by
    have ih := sum_set_nat row m a (by simpa using h)
    simp only [List.getD_eq_getElem?_getD, List.set_cons_succ, List.sum_cons,
      List.getElem?_cons_succ] at ih ⊢
    omega

theorem getD_lt_length_of_pos (row : List Nat) (m : Nat) (h : 0 < row.getD m 0) :
    m < row.length := by
  by_contra hc
  rw [List.getD_eq_getElem?_getD, List.getElem?_eq_none (by omega)] at h
  simp at h

/-- A vertex reached by a walk from a vertex of a well-formed graph is a vertex of it. -/
theorem Walk.inRange {G : Graph} {chk : CheckInvalidMove} {s m v : Nat} (hWF : G.WF)
    (hs : s < G.nodesSize) (h : Walk G chk s m v) : v < G.nodesSize := by
  induction h with
  | refl => exact hs
  | step _ hu _ ih => exact hWF _ ih _ hu

/-- One relaxation keeps the inner invariant and does not raise the potential. -/
theorem RelaxInv.step (G : Graph) (hWF : G.WF) (g n d_n : Nat) (hn : n < G.nodesSize)
    (done : List Nat) (st : List Nat × List Nat) (m : Nat) (hm : m ∈ G.neighbor n)
    (hJ : RelaxInv G g n d_n done st) :
    RelaxInv G g n d_n (done ++ [m]) (relax d_n st m) ∧
      (relax d_n st m).2.length + (relax d_n st m).1.sum ≤ st.2.length + st.1.sum := by
  unfold relax
  by_cases hcond : d_n + 1 ≥ st.1.getD m 0
  · rw [if_pos hcond]
    refine ⟨⟨hJ.len, hJ.le, hJ.goal0, hJ.sound, hJ.relaxed, hJ.queueRange, hJ.fixed, ?_⟩,
      le_refl _⟩
    intro x hx
    rcases List.mem_append.1 hx with hx | hx
    · exact hJ.treated x hx
    · rw [List.mem_singleton.1 hx]; exact hcond
  · rw [if_neg hcond]
    have hlt : d_n + 1 < st.1.getD m 0 := by omega
    have hmlen : m < st.1.length := getD_lt_length_of_pos _ _ (by omega)
    have hmN : m < G.nodesSize := hWF n hn m hm
    have hdn : d_n + 1 < G.nodesSize := lt_of_lt_of_le hlt (hJ.le m)
    have hset : ∀ u, (st.1.set m (d_n + 1)).getD u 0 =
        if u = m then d_n + 1 else st.1.getD u 0 := fun u => getD_set_nat _ _ _ _ hmlen
    have hmono : ∀ u, (st.1.set m (d_n + 1)).getD u 0 ≤ st.1.getD u 0 := by
      intro u
      rw [hset]
      split
      · rename_i h; rw [h]; omega
      · exact le_refl _
    have hnm : n ≠ m := by
      intro e
      rw [← e, hJ.fixed] at hlt
      omega
    have hgm : g ≠ m := by
      intro e
      rw [← e, hJ.goal0] at hlt
      omega
    refine ⟨⟨by simp [hJ.len], fun v => le_trans (hmono v) (hJ.le v), ?_, ?_, ?_, ?_, ?_, ?_⟩, ?_⟩
    · simp only
      rw [hset, if_neg hgm]; exact hJ.goal0
    · intro v hv hvd
      simp only at hvd ⊢
      rw [hset] at hvd ⊢
      by_cases hvm : v = m
      · rw [if_pos hvm]
        subst hvm
        have hw : Walk G noCheck g d_n n := by
          have := hJ.sound n hn (by rw [hJ.fixed]; omega)
          rwa [hJ.fixed] at this
        exact Walk.step hw hm rfl
      · rw [if_neg hvm] at hvd ⊢
        exact hJ.sound v hv hvd
    · intro x hx hxn
      simp only
      by_cases hxm : x = m
      · left; rw [hxm]; simp
      · rcases hJ.relaxed x hx hxn with h | h
        · left; exact List.mem_append_left _ h
        · right
          intro m1 hm1
          have := h m1 hm1
          have h1 := hmono m1
          rw [hset x, if_neg hxm]
          omega
    · intro x hx
      simp only at hx
      rcases List.mem_append.1 hx with hx | hx
      · exact hJ.queueRange x hx
      · rw [List.mem_singleton.1 hx]; exact hmN
    · simp only
      rw [hset, if_neg hnm]; exact hJ.fixed
    · intro x hx
      simp only
      rcases List.mem_append.1 hx with hx | hx
      · exact le_trans (hmono x) (hJ.treated x hx)
      · rw [List.mem_singleton.1 hx, hset, if_pos rfl]
    · have := sum_set_nat st.1 m (d_n + 1) hmlen
      simp only [List.length_append, List.length_singleton]
      omega

/-- The whole inner loop keeps the inner invariant and does not raise the potential. -/
theorem RelaxInv.foldl (G : Graph) (hWF : G.WF) (g n d_n : Nat) (hn : n < G.nodesSize) :
    ∀ (L done : List Nat) (st : List Nat × List Nat), (∀ m ∈ L, m ∈ G.neighbor n) →
      RelaxInv G g n d_n done st →
      RelaxInv G g n d_n (done ++ L) (L.foldl (relax d_n) st) ∧
        (L.foldl (relax d_n) st).2.length + (L.foldl (relax d_n) st).1.sum ≤
          st.2.length + st.1.sum := by
  intro L
  induction L with
  | nil => intro done st _ hJ; simpa using hJ
  | cons m L ih =>
    intro done st hL hJ
    have h1 := RelaxInv.step G hWF g n d_n hn done st m (hL m (List.mem_cons_self _ _)) hJ
    have h2 := ih (done ++ [m]) (relax d_n st m)
      (fun x hx => hL x (List.mem_cons_of_mem _ hx)) h1.1
    simp only [List.foldl_cons]
    refine ⟨?_, le_trans h2.2 h1.2⟩
    have : done ++ m :: L = done ++ [m] ++ L := by simp
    rw [this]
    exact h2.1

/-- The loop of `createDistanceTable` ends as soon as the fuel covers the potential, and the
invariant holds of the final row with an empty queue. -/
theorem bfsLoop_total (G : Graph) (hWF : G.WF) (g : Nat) :
    ∀ (fuel : Nat) (row OPEN : List Nat), BfsInv G g row OPEN →
      OPEN.length + row.sum + 1 ≤ fuel →
      ∃ r, bfsLoop G fuel row OPEN = some r ∧ BfsInv G g r [] := by
  intro fuel
  induction fuel with
  | zero => intro row OPEN _ h; omega
  | succ fuel ih =>
    intro row OPEN hI hfuel
    cases OPEN with
    | nil => exact ⟨row, by simp [bfsLoop], hI⟩
    | cons n OPEN =>
      have hn : n < G.nodesSize := hI.queueRange n (List.mem_cons_self _ _)
      have hJ0 : RelaxInv G g n (row.getD n 0) [] (row, OPEN) := by
        refine ⟨hI.len, hI.le, hI.goal0, hI.sound, ?_, ?_, rfl, by simp⟩
        · intro x hx hxn
          rcases hI.relaxed x hx with h | h
          · rcases List.mem_cons.1 h with e | e
            · exact absurd e hxn
            · exact Or.inl e
          · exact Or.inr h
        · intro x hx
          exact hI.queueRange x (List.mem_cons_of_mem _ hx)
      have hJ := RelaxInv.foldl G hWF g n (row.getD n 0) hn (G.neighbor n) [] (row, OPEN)
        (fun m hm => hm) hJ0
      simp only [List.nil_append] at hJ
      obtain ⟨hJ1, hpot⟩ := hJ
      simp only [bfsLoop]
      refine ih _ _ ⟨hJ1.len, hJ1.le, hJ1.goal0, hJ1.sound, ?_, hJ1.queueRange⟩ ?_
      · intro x hx
        by_cases hxn : x = n
        · right
          subst hxn
          intro m hm
          rw [hJ1.fixed]
          exact hJ1.treated m hm
        · exact hJ1.relaxed x hx hxn
      · simp only [List.length_cons] at hfuel
        omega

theorem sum_replicate_nat (n a : Nat) : (List.replicate n a).sum = n * a := by
  induction n with
  | zero => simp
  | succ n ih => simp [List.replicate_succ, ih, Nat.succ_mul]; omega

/-- The row as `bfsRow` starts the loop on it satisfies the invariant of the loop. -/
theorem bfsInv_init (G : Graph) (g : Nat) (hg : g < G.nodesSize) :
    BfsInv G g ((List.replicate G.nodesSize G.nodesSize).set g 0) [g] := by
  have hlen : g < (List.replicate G.nodesSize G.nodesSize).length := by simpa using hg
  have hrep : ∀ v, (List.replicate G.nodesSize G.nodesSize).getD v 0 ≤ G.nodesSize := by
    intro v
    rw [List.getD_eq_getElem?_getD, List.getElem?_replicate]
    split <;> simp
  have hrep2 : ∀ v, v < G.nodesSize →
      (List.replicate G.nodesSize G.nodesSize).getD v 0 = G.nodesSize := by
    intro v hv
    rw [List.getD_eq_getElem?_getD, List.getElem?_replicate, if_pos hv]
    rfl
  have hset := fun u => getD_set_nat (List.replicate G.nodesSize G.nodesSize) g u 0 hlen
  refine ⟨by simp, ?_, by rw [hset, if_pos rfl], ?_, ?_, ?_⟩
  · intro v
    rw [hset]
    split
    · omega
    · exact hrep v
  · intro v hv hvd
    rw [hset] at hvd ⊢
    by_cases hvg : v = g
    · rw [if_pos hvg, hvg]; exact Walk.refl
    · rw [if_neg hvg, hrep2 v hv] at hvd
      omega
  · intro x hx
    by_cases hxg : x = g
    · left; simp [hxg]
    · right
      intro m _
      rw [hset x, if_neg hxg, hrep2 x hx]
      have := hset m
      have h2 := hrep m
      rw [this]
      split <;> omega
  · intro x hx
    rw [List.mem_singleton.1 hx]; exact hg

/-- The search from one goal returns, and its row satisfies the invariant with an empty
queue. -/
theorem bfsRow_total (G : Graph) (hWF : G.WF) (g : Nat) (hg : g < G.nodesSize) (fuel : Nat)
    (hfuel : G.nodesSize * G.nodesSize + 2 ≤ fuel) :
    ∃ r, bfsRow G fuel (List.replicate G.nodesSize G.nodesSize) g = some r ∧ BfsInv G g r [] := by
  unfold bfsRow
  apply bfsLoop_total G hWF g fuel _ _ (bfsInv_init G g hg)
  have hlen : g < (List.replicate G.nodesSize G.nodesSize).length := by simpa using hg
  have h1 := sum_set_nat (List.replicate G.nodesSize G.nodesSize) g 0 hlen
  rw [sum_replicate_nat] at h1
  simp only [List.length_singleton]
  omega

/-- With an empty queue no entry exceeds the length of a walk from the goal. -/
theorem BfsInv.upper (G : Graph) (hWF : G.WF) (g : Nat) (hg : g < G.nodesSize)
    (row : List Nat) (hI : BfsInv G g row []) :
    ∀ m v, Walk G noCheck g m v → row.getD v 0 ≤ m := by
  intro m v hw
  induction hw with
  | refl => rw [hI.goal0]
  | step hw hu _ ih =>
    rcases hI.relaxed _ (Walk.inRange hWF hg hw) with h | h
    · simp at h
    · have := h _ hu
      omega

end Solver

/-! ### Walks: shortest walks are short, walks of an undirected graph can be reversed -/

theorem Walk.prepend {G : Graph} {chk : CheckInvalidMove} {s u m v : Nat}
    (h : Walk G chk s m v) (hs : s ∈ G.neighbor u) (hchk : chk s u = false) :
    Walk G chk u (m + 1) v := by
  induction h with
  | refl => exact Walk.step Walk.refl hs hchk
  | step _ hu hc ih => exact Walk.step ih hu hc

theorem Walk.reverse {G : Graph} {s m v : Nat} (hWF : G.WF) (hSym : G.Symmetric)
    (hs : s < G.nodesSize) (h : Walk G noCheck s m v) : Walk G noCheck v m s := by
  induction h with
  | refl => exact Walk.refl
  | step hw hu _ ih =>
    have hv := Solver.Walk.inRange hWF hs hw
    exact Walk.prepend ih (hSym _ hv _ hu) rfl

theorem IsShortest.pred {G : Graph} {chk : CheckInvalidMove} {s m u : Nat}
    (h : IsShortest G chk s (m + 1) u) : ∃ v, IsShortest G chk s m v := by
  obtain ⟨hw, hmin⟩ := h
  cases hw with
  | step hw1 hu hc =>
    refine ⟨_, hw1, ?_⟩
    intro m1 hm1
    have := hmin (m1 + 1) (Walk.step hm1 hu hc)
    omega

theorem IsShortest.below {G : Graph} {chk : CheckInvalidMove} {s : Nat} :
    ∀ (m v : Nat), IsShortest G chk s m v → ∀ j, j ≤ m → ∃ x, IsShortest G chk s j x := by
  intro m
  induction m with
  | zero =>
    intro v h j hj
    have : j = 0 := by omega
    subst this
    exact ⟨v, h⟩
  | succ m ih =>
    intro v h j hj
    by_cases hjm : j = m + 1
    · subst hjm; exact ⟨v, h⟩
    · obtain ⟨w, hw⟩ := IsShortest.pred h
      exact ih w hw j (by omega)

/-- A shortest walk in a graph of `|V|` vertices makes fewer than `|V|` moves: the vertices at
distances `0, 1, ..., m` are pairwise different. -/
theorem IsShortest.lt_nodesSize {G : Graph} {chk : CheckInvalidMove} {s m v : Nat}
    (hWF : G.WF) (hs : s < G.nodesSize) (h : IsShortest G chk s m v) : m < G.nodesSize := by
  by_contra hc
  have hex : ∀ j : Fin (G.nodesSize + 1), ∃ x : Fin G.nodesSize,
      IsShortest G chk s j.1 x.1 := by
    intro j
    obtain ⟨x, hx⟩ := IsShortest.below m v h j.1 (by have := j.2; omega)
    exact ⟨⟨x, Solver.Walk.inRange hWF hs hx.1⟩, hx⟩
  choose f hf using hex
  have hinj : Function.Injective f := by
    intro a b hab
    have ha := hf a
    have hb := hf b
    rw [hab] at ha
    have h1 := ha.2 _ hb.1
    have h2 := hb.2 _ ha.1
    exact Fin.ext (by omega)
  have := Fintype.card_le_of_injective f hinj
  simp at this

namespace Solver

/-- The rounds of `createDistanceTable` all end, and each row satisfies the invariant of its
search with an empty queue. -/
theorem bfsRows_total (G : Graph) (hWF : G.WF) (fuel : Nat)
    (hfuel : G.nodesSize * G.nodesSize + 2 ≤ fuel) :
    ∀ (rows : List (List Nat)) (goals : List Nat),
      (∀ r ∈ rows, r = List.replicate G.nodesSize G.nodesSize) →
      (∀ g ∈ goals, g < G.nodesSize) → rows.length = goals.length →
      ∃ t, bfsRows G fuel rows goals = some t ∧
        ∀ i, i < goals.length → BfsInv G (goals.getD i 0) (t.getD i []) [] := by
  intro rows
  induction rows with
  | nil =>
    intro goals _ _ hlen
    have : goals = [] := List.length_eq_zero.1 hlen.symm
    subst this
    exact ⟨[], by simp [bfsRows], fun i hi => absurd hi (by simp)⟩
  | cons row rows ih =>
    intro goals hrows hgoals hlen
    cases goals with
    | nil => simp at hlen
    | cons g goals =>
      have hrow : row = List.replicate G.nodesSize G.nodesSize := hrows row (List.mem_cons_self _ _)
      obtain ⟨r, hr, hrI⟩ := bfsRow_total G hWF g (hgoals g (List.mem_cons_self _ _)) fuel hfuel
      obtain ⟨t, ht, htI⟩ := ih goals (fun x hx => hrows x (List.mem_cons_of_mem _ hx))
        (fun x hx => hgoals x (List.mem_cons_of_mem _ hx)) (by simpa using hlen)
      refine ⟨r :: t, by simp [bfsRows, hrow, hr, ht], ?_⟩
      intro i hi
      cases i with
      | zero => simpa using hrI
      | succ i =>
        have := htI i (by simpa using hi)
        simpa using this

/-- **C6.** After `createDistanceTable` on a well-formed graph with symmetric neighbour lists,
for every agent `i` and vertex `v`: `distance_table[i][v]` is the length of a shortest path
from `v` to `goal_i` when one exists (0 for `v = goal_i`), and `|V|` when `goal_i` cannot be
reached from `v`. The call returns once the fuel is at least `|V|² + 2`. -/
theorem C6_createDistanceTable_correct (P : Problem) (hWF : P.G.WF) (hSym : P.G.Symmetric)
    (hgoals : ∀ g ∈ P.config_g, g < P.G.nodesSize) (hnum : P.config_g.length = P.getNum)
    (fuel : Nat) (hfuel : P.G.nodesSize * P.G.nodesSize + 2 ≤ fuel) :
    ∃ S, (Solver.init P).createDistanceTable fuel = some S ∧
      ∀ i v, i < P.getNum → v < P.G.nodesSize →
        (∀ m, IsShortest P.G noCheck v m (P.getGoal i) → S.pathDist i v = m) ∧
        (v = P.getGoal i → S.pathDist i v = 0) ∧
        ((¬ ∃ m, Walk P.G noCheck v m (P.getGoal i)) → S.pathDist i v = P.G.nodesSize) := by
  obtain ⟨t, ht, htI⟩ := bfsRows_total P.G hWF fuel hfuel
    (List.replicate P.getNum (List.replicate P.G.nodesSize P.G.nodesSize)) P.config_g
    (fun r hr => (List.mem_replicate.1 hr).2) hgoals (by simp [hnum])
  refine ⟨{ Solver.init P with distance_table := t }, ?_, ?_⟩
  · simp only [createDistanceTable, Solver.init]
    rw [ht]
    rfl
  · intro i v hi hv
    have hI := htI i (by rw [hnum]; exact hi)
    have hgi : P.getGoal i < P.G.nodesSize := by
      unfold Problem.getGoal
      rw [List.getD_eq_getElem?_getD, List.getElem?_eq_getElem (by rw [hnum]; exact hi)]
      exact hgoals _ (List.getElem_mem _)
    have hpd : ∀ S : Solver, S.distance_table = t → S.P = P →
        S.pathDist i v = (t.getD i []).getD v 0 := by
      intro S h1 _
      simp [pathDist, h1]
    rw [hpd _ rfl rfl]
    change BfsInv P.G (P.getGoal i) (t.getD i []) [] at hI
    have hup := BfsInv.upper P.G hWF _ hgi _ hI
    refine ⟨?_, ?_, ?_⟩
    · intro m hm
      have hrev : Walk P.G noCheck (P.getGoal i) m v := Walk.reverse hWF hSym hv hm.1
      have h1 := hup m v hrev
      have h2 : m < P.G.nodesSize := IsShortest.lt_nodesSize hWF hv hm
      have h3 := hI.sound v hv (by omega)
      have h4 := hm.2 _ (Walk.reverse hWF hSym hgi h3)
      omega
    · intro hvg
      rw [hvg]
      exact hI.goal0
    · intro hno
      by_contra hne
      have hlt : (t.getD i []).getD v 0 < P.G.nodesSize := by
        have := hI.le v
        omega
      exact hno ⟨_, Walk.reverse hWF hSym hgi (hI.sound v hv hlt)⟩

theorem grid3_Symmetric : grid3.Symmetric := by
  unfold Graph.Symmetric
  decide

/-- Witness for C6: the demo instance on the 3x3 grid. -/
theorem C6_createDistanceTable_correct_witness :
    ∃ S, (Solver.init demoProblem).createDistanceTable 83 = some S ∧
      ∀ i v, i < demoProblem.getNum → v < demoProblem.G.nodesSize →
        (∀ m, IsShortest demoProblem.G noCheck v m (demoProblem.getGoal i) →
          S.pathDist i v = m) ∧
        (v = demoProblem.getGoal i → S.pathDist i v = 0) ∧
        ((¬ ∃ m, Walk demoProblem.G noCheck v m (demoProblem.getGoal i)) →
          S.pathDist i v = demoProblem.G.nodesSize) :=
  C6_createDistanceTable_correct demoProblem grid3_WF grid3_Symmetric (by decide) (by decide)
    83 (by decide)

/-! ### Shape and optimality of the returned path -/

/-- Loop rule for the search, time-outs included: a non-empty result stems from a popped
entry on the goal, taken from a state that satisfies the invariant. -/
theorem getPathLoop_partial (S : Solver) (o : Oracle) (id : Nat) (chk : CheckInvalidMove)
    (cmp : CompareAstarNodes) (I : List AstarNode → List Bool → Prop)
    (hskip : ∀ O C k n, I O C → O.get? (o.top k cmp O % O.length) = some n →
      C.getD n.v false = true → I (O.eraseIdx (o.top k cmp O % O.length)) C)
    (hexp : ∀ O C k n, I O C → O.get? (o.top k cmp O % O.length) = some n →
      C.getD n.v false = false → n.v ≠ S.P.getGoal id →
      I (O.eraseIdx (o.top k cmp O % O.length) ++
        expand S id chk (C.set n.v true) n (o.shuffle k (S.P.G.neighbor n.v))) (C.set n.v true)) :
    ∀ (fuel : Nat) (O : List AstarNode) (C : List Bool) (k : Nat) (p : Path) (k1 : Nat),
      I O C → getPathLoop S o id chk cmp fuel O C k = some (p, k1) →
      p = [] ∨
        ∃ O1 C1 k0 n, I O1 C1 ∧ O1.get? (o.top k0 cmp O1 % O1.length) = some n ∧
          C1.getD n.v false = false ∧ n.v = S.P.getGoal id ∧ p = n.backtrack.reverse := by
  intro fuel
  induction fuel with
  | zero => intro O C k p k1 _ h; simp [getPathLoop] at h
  | succ fuel ih =>
    intro O C k p k1 hI h
    unfold getPathLoop at h
    split at h
    · simp only [Option.some.injEq, Prod.mk.injEq] at h; exact Or.inl h.1.symm
    · split at h
      · simp only [Option.some.injEq, Prod.mk.injEq] at h; exact Or.inl h.1.symm
      · simp only at h
        split at h
        · exact absurd h (by simp)
        · rename_i n hn
          split at h
          · rename_i hc
            exact ih _ _ _ _ _ (hskip O C k n hI hn hc) h
          · rename_i hc
            have hc' : C.getD n.v false = false := by simpa using hc
            split at h
            · rename_i hg
              simp only [Option.some.injEq, Prod.mk.injEq] at h
              exact Or.inr ⟨O, C, k, n, hI, hn, hc', hg, h.1.symm⟩
            · rename_i hg
              exact ih _ _ _ _ _ (hexp O C k n hI hn hc' hg) h

/-- A non-empty result of `getPath` starts at the start, ends at the goal and moves along
edges of the graph that the predicate allows. -/
theorem getPath_shape (S : Solver) (o : Oracle) (fuel id : Nat) (chk : CheckInvalidMove)
    (cmp : CompareAstarNodes) (k : Nat) (p : Path) (k1 : Nat)
    (hshuf : ∀ k l, (o.shuffle k l).Perm l)
    (h : S.getPath o fuel id chk cmp k = some (p, k1)) (hp : p ≠ []) :
    IsAllowedPath S.P.G chk (S.P.getStart id) (S.P.getGoal id) p := by
  have key := getPathLoop_node_inv S o id chk cmp
    (fun n => n.backtrack.getLast? = some (S.P.getStart id) ∧
      List.Chain' (fun c q => c ∈ S.P.G.neighbor q ∧ chk c q = false) n.backtrack)
    (by
      intro n k u hn hu hchk
      rw [AstarNode.backtrack_child]
      refine ⟨?_, ?_⟩
      · have hne := AstarNode.backtrack_ne_nil n
        cases hb : n.backtrack with
        | nil => exact absurd hb hne
        | cons x l =>
          rw [List.getLast?_cons_cons, ← hb]
          exact hn.1
      · rw [List.chain'_cons']
        refine ⟨?_, hn.2⟩
        intro y hy
        rw [AstarNode.backtrack_head] at hy
        cases hy
        exact ⟨(hshuf k _).subset hu, hchk⟩)
    fuel _ _ k p k1
    (by
      intro n hn
      simp only [List.mem_singleton] at hn
      subst hn
      simp [AstarNode.backtrack])
    h
  rcases key with rfl | ⟨n, hn, hg, rfl⟩
  · exact absurd rfl hp
  · refine ⟨?_, ?_, ?_⟩
    · rw [List.head?_reverse]; exact hn.1
    · rw [List.getLast?_reverse, AstarNode.backtrack_head, hg]
    · rw [List.chain'_reverse]
      exact hn.2

end Solver

/-- An allowed path with `m + 1` entries is a walk of `m` moves. -/
theorem walk_of_chain (G : Graph) (chk : CheckInvalidMove) :
    ∀ (q : List Nat) (s g : Nat), (s :: q).getLast? = some g →
      List.Chain' (fun x y => y ∈ G.neighbor x ∧ chk y x = false) (s :: q) →
      Walk G chk s q.length g := by
  intro q
  induction q with
  | nil =>
    intro s g hl _
    simp only [List.getLast?_singleton, Option.some.injEq] at hl
    subst hl
    exact Walk.refl
  | cons x q ih =>
    intro s g hl hc
    rw [List.chain'_cons] at hc
    have hl' : (x :: q).getLast? = some g := by
      rw [List.getLast?_cons_cons] at hl
      exact hl
    exact Walk.prepend (ih x g hl' hc.2) hc.1.1 hc.1.2

theorem IsAllowedPath.walk {G : Graph} {chk : CheckInvalidMove} {s g : Nat} {q : Path}
    (h : IsAllowedPath G chk s g q) : Walk G chk s (q.length - 1) g := by
  obtain ⟨hh, hl, hc⟩ := h
  cases q with
  | nil => simp at hh
  | cons x q =>
    simp only [List.head?_cons, Option.some.injEq] at hh
    subst hh
    simpa using walk_of_chain G chk q x g hl hc

namespace Solver

theorem compareAstarNodesDefault_false {a b : AstarNode}
    (h : compareAstarNodesDefault a b = false) : a.f ≤ b.f := by
  unfold compareAstarNodesDefault at h
  by_cases hf : a.f ≠ b.f
  · rw [if_pos hf] at h
    simp only [gt_iff_lt, decide_eq_false_iff_not, not_lt] at h
    exact h
  · have : a.f = b.f := by simpa using hf
    omega

theorem optInv_init (S : Solver) (id : Nat) (chk : CheckInvalidMove)
    (hs : S.P.getStart id < S.P.G.nodesSize) :
    S.OptInv id chk
      [AstarNode.mk (S.P.getStart id) 0 (S.pathDist id (S.P.getStart id)) none]
      (List.replicate S.P.G.nodesSize false) := by
  have hrep : ∀ v, (List.replicate S.P.G.nodesSize false).getD v false = false := by
    intro v
    rw [List.getD_eq_getElem?_getD, List.getElem?_replicate]
    split <;> rfl
  refine ⟨by simp, ?_, ?_, Or.inr ⟨_, List.mem_singleton.2 rfl, rfl, rfl⟩⟩
  · intro y hy
    rw [List.mem_singleton.1 hy]
    exact NodeOK.root S id chk hs
  · intro x m hx
    rw [hrep x] at hx
    exact absurd hx (by simp)

theorem optInv_skip (S : Solver) (id : Nat) (chk : CheckInvalidMove)
    (O : List AstarNode) (C : List Bool) (i : Nat) (n : AstarNode)
    (hI : S.OptInv id chk O C) (hn : O.get? i = some n) (hc : C.getD n.v false = true) :
    S.OptInv id chk (O.eraseIdx i) C := by
  refine ⟨hI.len, fun y hy => hI.nodes y (List.mem_of_mem_eraseIdx hy), ?_, ?_⟩
  · intro x m hx hw u hu hchk
    rcases hI.closedStep x m hx hw u hu hchk with h | ⟨y, hy, hyv, hyg⟩
    · exact Or.inl h
    · rcases mem_eraseIdx_or O i n hn y hy with e | e
      · left; rw [← hyv, e]; exact hc
      · exact Or.inr ⟨y, e, hyv, hyg⟩
  · rcases hI.startSeen with h | ⟨y, hy, hyv, hyg⟩
    · exact Or.inl h
    · rcases mem_eraseIdx_or O i n hn y hy with e | e
      · left; rw [← hyv, e]; exact hc
      · exact Or.inr ⟨y, e, hyv, hyg⟩

/-- Under a consistent heuristic every unclosed vertex `t` that allowed moves reach has a
queue entry that ranks at least as well as a walk to `t` would. -/
theorem OptInv.frontier (S : Solver) (id : Nat) (chk : CheckInvalidMove) (hWF : S.P.G.WF)
    (hs : S.P.getStart id < S.P.G.nodesSize)
    (hcons : ∀ v, v < S.P.G.nodesSize → ∀ u ∈ S.P.G.neighbor v,
      S.pathDist id v ≤ S.pathDist id u + 1)
    (O : List AstarNode) (C : List Bool) (hI : S.OptInv id chk O C) :
    ∀ m t, Walk S.P.G chk (S.P.getStart id) m t → C.getD t false = false →
      ∃ y ∈ O, y.g + S.pathDist id y.v ≤ m + S.pathDist id t := by
  intro m t hw
  induction hw with
  | refl =>
    intro hc
    rcases hI.startSeen with h | ⟨y, hy, hyv, hyg⟩
    · rw [hc] at h; exact absurd h (by simp)
    · exact ⟨y, hy, by rw [hyv, hyg]⟩
  | step hw hu hchk ih =>
    rename_i m v u
    intro hc
    by_cases hv : C.getD v false = true
    · rcases hI.closedStep v m hv hw u hu hchk with h | ⟨y, hy, hyv, hyg⟩
      · rw [hc] at h; exact absurd h (by simp)
      · exact ⟨y, hy, by rw [hyv]; omega⟩
    · have hv' : C.getD v false = false := by simpa using hv
      obtain ⟨y, hy, hle⟩ := ih hv'
      have := hcons v (Walk.inRange hWF hs hw) u hu
      exact ⟨y, hy, by omega⟩

theorem optInv_expand (S : Solver) (id : Nat) (chk : CheckInvalidMove) (hWF : S.P.G.WF)
    (O : List AstarNode) (C : List Bool) (i : Nat) (n : AstarNode) (L : List Nat)
    (hL : L.Perm (S.P.G.neighbor n.v))
    (hI : S.OptInv id chk O C) (hn : O.get? i = some n)
    (hopt : ∀ m, Walk S.P.G chk (S.P.getStart id) m n.v → n.g ≤ m) :
    S.OptInv id chk (O.eraseIdx i ++ Solver.expand S id chk (C.set n.v true) n L)
      (C.set n.v true) := by
  have hnO : n ∈ O := List.get?_mem hn
  have hnOK := hI.nodes n hnO
  have hv : n.v < C.length := by rw [hI.len]; exact hnOK.inRange
  have hset : ∀ u, (C.set n.v true).getD u false = (C.getD u false || decide (u = n.v)) :=
    fun u => getD_set_true C n.v u hv
  have hkeep : ∀ u b, (∃ y ∈ O, y.v = u ∧ y.g ≤ b) → (C.set n.v true).getD u false = true ∨
      ∃ y ∈ O.eraseIdx i ++ Solver.expand S id chk (C.set n.v true) n L, y.v = u ∧ y.g ≤ b := by
    rintro u b ⟨y, hy, hyv, hyg⟩
    rcases mem_eraseIdx_or O i n hn y hy with e | e
    · left; rw [hset, ← hyv, e]; simp
    · exact Or.inr ⟨y, List.mem_append_left _ e, hyv, hyg⟩
  refine ⟨by simp [hI.len], ?_, ?_, ?_⟩
  · intro y hy
    rcases List.mem_append.1 hy with hy | hy
    · exact hI.nodes y (List.mem_of_mem_eraseIdx hy)
    · rcases mem_expand hy with ⟨u, huL, _, hchk, rfl⟩
      exact NodeOK.child S id chk hWF n u hnOK (hL.subset huL) hchk
  · intro x m hx hw u hu hchk
    rw [hset] at hx
    by_cases hxn : x = n.v
    · subst hxn
      by_cases hcu : (C.set n.v true).getD u false = true
      · exact Or.inl hcu
      · right
        have hcu' : (C.set n.v true).getD u false = false := by
          cases h : (C.set n.v true).getD u false
          · rfl
          · exact absurd h hcu
        refine ⟨_, List.mem_append_right _
          (mem_expand_of S id chk _ n L u (hL.symm.subset hu) hcu' hchk), rfl, ?_⟩
        have := hopt m hw
        show n.g + 1 ≤ m + 1
        omega
    · have hx' : C.getD x false = true := by
        cases h : C.getD x false
        · rw [h] at hx; simp [hxn] at hx
        · rfl
      rcases hI.closedStep x m hx' hw u hu hchk with h | h
      · left; rw [hset, h]; rfl
      · exact hkeep u _ h
  · rcases hI.startSeen with h | ⟨y, hy, hyv, hyg⟩
    · left; rw [hset, h]; rfl
    · rcases hkeep _ 0 ⟨y, hy, hyv, by omega⟩ with h | ⟨z, hz, hzv, hzg⟩
      · exact Or.inl h
      · exact Or.inr ⟨z, hz, hzv, by omega⟩

/-- An entry that the queue yields while its vertex is not closed has the least `g` that any
allowed walk to its vertex can have, provided the heuristic is consistent and the queue
honours the default comparator. -/
theorem OptInv.top_optimal (S : Solver) (o : Oracle) (id : Nat) (chk : CheckInvalidMove)
    (hWF : S.P.G.WF) (hs : S.P.getStart id < S.P.G.nodesSize)
    (hcons : ∀ v, v < S.P.G.nodesSize → ∀ u ∈ S.P.G.neighbor v,
      S.pathDist id v ≤ S.pathDist id u + 1)
    (hTop : TopRespects o compareAstarNodesDefault)
    (O : List AstarNode) (C : List Bool) (k : Nat) (n : AstarNode) (hI : S.OptInv id chk O C)
    (hn : O.get? (o.top k compareAstarNodesDefault O % O.length) = some n)
    (hc : C.getD n.v false = false) :
    ∀ m, Walk S.P.G chk (S.P.getStart id) m n.v → n.g ≤ m := by
  intro m hw
  obtain ⟨y, hy, hle⟩ := OptInv.frontier S id chk hWF hs hcons O C hI m n.v hw hc
  have h1 := compareAstarNodesDefault_false (hTop k O n hn y hy)
  rw [(hI.nodes n (List.get?_mem hn)).f_eq, (hI.nodes y hy).f_eq] at h1
  omega

/-- With a consistent heuristic and a queue that honours the default comparator, a non-empty
result of `getPath` has no more moves than any allowed walk from the start to the goal. -/
theorem getPath_optimal (S : Solver) (o : Oracle) (fuel id : Nat) (chk : CheckInvalidMove)
    (k : Nat) (p : Path) (k1 : Nat) (hWF : S.P.G.WF) (hs : S.P.getStart id < S.P.G.nodesSize)
    (hcons : ∀ v, v < S.P.G.nodesSize → ∀ u ∈ S.P.G.neighbor v,
      S.pathDist id v ≤ S.pathDist id u + 1)
    (hshuf : ∀ k l, (o.shuffle k l).Perm l) (hTop : TopRespects o compareAstarNodesDefault)
    (h : S.getPath o fuel id chk compareAstarNodesDefault k = some (p, k1)) (hp : p ≠ []) :
    ∀ m, Walk S.P.G chk (S.P.getStart id) m (S.P.getGoal id) → p.length ≤ m + 1 := by
  have key := getPathLoop_partial S o id chk compareAstarNodesDefault (S.OptInv id chk)
    (fun O C k n hI hn hc => optInv_skip S id chk O C _ n hI hn hc)
    (fun O C k n hI hn hc _ => optInv_expand S id chk hWF O C _ n _ (hshuf k _) hI hn
      (OptInv.top_optimal S o id chk hWF hs hcons hTop O C k n hI hn hc))
    fuel _ _ k p k1 (optInv_init S id chk hs) h
  rcases key with rfl | ⟨O1, C1, k0, n, hI, hn, hc, hg, rfl⟩
  · exact absurd rfl hp
  · intro m hw
    rw [← hg] at hw
    have := OptInv.top_optimal S o id chk hWF hs hcons hTop O1 C1 k0 n hI hn hc m hw
    rw [List.length_reverse, (hI.nodes n (List.get?_mem hn)).len]
    omega

end Solver

/-! ### The linear scan honours the contract of the queue -/

theorem bestIdx_spec {α : Type} (cmp : α → α → Bool) (hirr : ∀ a, cmp a a = false)
    (hnt : ∀ a x b, cmp a x = true → cmp a b = false → cmp x b = false) :
    ∀ l : List α, l ≠ [] →
      ∃ i a, bestIdx cmp l = some (i, a) ∧ l.get? i = some a ∧ ∀ b ∈ l, cmp a b = false := by
  intro l
  induction l with
  | nil => intro h; exact absurd rfl h
  | cons x rest ih =>
    intro _
    by_cases hr : rest = []
    · subst hr
      exact ⟨0, x, by simp [bestIdx], by simp, by simp [hirr]⟩
    · obtain ⟨i, a, hb, hg, hall⟩ := ih hr
      by_cases hc : cmp a x = true
      · refine ⟨0, x, by simp [bestIdx, hb, hc], by simp, ?_⟩
        intro b hbm
        rcases List.mem_cons.1 hbm with e | e
        · rw [e]; exact hirr x
        · exact hnt a x b hc (hall b e)
      · have hc' : cmp a x = false := by simpa using hc
        refine ⟨i + 1, a, by simp [bestIdx, hb, hc'], by simpa using hg, ?_⟩
        intro b hbm
        rcases List.mem_cons.1 hbm with e | e
        · rw [e]; exact hc'
        · exact hall b e

namespace Solver

theorem compareAstarNodesDefault_iff (a b : AstarNode) :
    compareAstarNodesDefault a b = true ↔ a.f > b.f ∨ (a.f = b.f ∧ a.g < b.g) := by
  unfold compareAstarNodesDefault
  by_cases hf : a.f = b.f
  · by_cases hg : a.g = b.g
    · simp [hf, hg]
    · simp [hf, hg]
  · simp [hf]

theorem compareAstarNodesDefault_iff_false (a b : AstarNode) :
    compareAstarNodesDefault a b = false ↔ ¬ (a.f > b.f ∨ (a.f = b.f ∧ a.g < b.g)) := by
  rw [← compareAstarNodesDefault_iff]
  simp

/-- The scanning oracle honours the contract of the queue for the default comparator. -/
theorem plainOracle_topRespects : TopRespects plainOracle compareAstarNodesDefault := by
  intro k O n hn y hy
  have hne : O ≠ [] := by
    intro e
    subst e
    simp at hy
  obtain ⟨i, a, hb, hg, hall⟩ := bestIdx_spec compareAstarNodesDefault
    (fun a => by rw [compareAstarNodesDefault_iff_false]; omega)
    (fun a x b h1 h2 => by
      rw [compareAstarNodesDefault_iff] at h1
      rw [compareAstarNodesDefault_iff_false] at h2 ⊢
      omega) O hne
  have hi : i < O.length := by
    rcases List.get?_eq_some.1 hg with ⟨h, _⟩
    exact h
  have htop : plainOracle.top k compareAstarNodesDefault O = i := by
    simp [plainOracle, hb]
  rw [htop, Nat.mod_eq_of_lt hi, hg] at hn
  cases hn
  exact hall y hy

/-- The flags written by `markGoals`. -/
theorem markGoals_getD : ∀ (goals : List Nat) (tg : List Bool) (v : Nat),
    (∀ g ∈ goals, g < tg.length) →
    (goals.foldl (fun tg g => tg.set g true) tg).getD v false =
      (tg.getD v false || decide (v ∈ goals)) := by
  intro goals
  induction goals with
  | nil => intro tg v _; simp
  | cons g goals ih =>
    intro tg v hg
    simp only [List.foldl_cons]
    rw [ih (tg.set g true) v (by
      intro x hx
      simpa using hg x (List.mem_cons_of_mem _ hx)),
      getD_set_true tg g v (hg g (List.mem_cons_self _ _))]
    by_cases hvg : v = g
    · simp [hvg]
    · simp [hvg]

/-- The pre-processing of `Solver::exec` returns; every row of its distance table satisfies
the invariant of the breadth-first search with an empty queue, and `table_goals` flags exactly
the goals. -/
theorem preprocess_spec (P : Problem) (hWF : P.G.WF)
    (hgoals : ∀ g ∈ P.config_g, g < P.G.nodesSize) (hnum : P.config_g.length = P.getNum)
    (fuel : Nat) (hfuel : P.G.nodesSize * P.G.nodesSize + 2 ≤ fuel) :
    ∃ S, Solver.preprocess P fuel = some S ∧ S.P = P ∧
      (∀ i, i < P.getNum → BfsInv P.G (P.getGoal i) (S.distance_table.getD i []) []) ∧
      (∀ v, S.table_goals.getD v false = decide (v ∈ P.config_g)) := by
  obtain ⟨t, ht, htI⟩ := bfsRows_total P.G hWF fuel hfuel
    (List.replicate P.getNum (List.replicate P.G.nodesSize P.G.nodesSize)) P.config_g
    (fun r hr => (List.mem_replicate.1 hr).2) hgoals (by simp [hnum])
  refine ⟨markGoals { Solver.init P with distance_table := t }, ?_, rfl, ?_, ?_⟩
  · simp only [preprocess, createDistanceTable, Solver.init]
    rw [ht]
    rfl
  · intro i hi
    exact htI i (by rw [hnum]; exact hi)
  · intro v
    simp only [markGoals, Solver.init]
    rw [markGoals_getD _ _ _ (by simpa using hgoals)]
    rw [List.getD_eq_getElem?_getD, List.getElem?_replicate]
    split <;> simp

/-- On an undirected graph the distance table is a consistent heuristic. -/
theorem BfsInv.consistent (G : Graph) (hWF : G.WF) (hSym : G.Symmetric) (g : Nat)
    (row : List Nat) (hI : BfsInv G g row []) :
    ∀ v, v < G.nodesSize → ∀ u ∈ G.neighbor v, row.getD v 0 ≤ row.getD u 0 + 1 := by
  intro v hv u hu
  rcases hI.relaxed u (hWF v hv u hu) with h | h
  · simp at h
  · exact h v (hSym v hv u hu)

/-- **C5.** With the default comparator `compareAstarNodesDefault`, a queue that honours it,
and the distance table of the pre-processing as heuristic (well-formed undirected graph),
every non-empty path returned by `Solver::getPath` is an allowed start-to-goal path and has
the minimum number of entries, hence of moves, among all start-to-goal paths that use only
moves not forbidden by the predicate; this for every shuffle. -/
theorem C5_default_getPath_shortest (P : Problem) (hWF : P.G.WF) (hSym : P.G.Symmetric)
    (hgoals : ∀ g ∈ P.config_g, g < P.G.nodesSize) (hnum : P.config_g.length = P.getNum)
    (fuel0 : Nat) (hfuel0 : P.G.nodesSize * P.G.nodesSize + 2 ≤ fuel0)
    (S : Solver) (hS : Solver.preprocess P fuel0 = some S)
    (o : Oracle) (hshuf : ∀ k l, (o.shuffle k l).Perm l)
    (hTop : TopRespects o compareAstarNodesDefault)
    (id : Nat) (hid : id < P.getNum) (hs : P.getStart id < P.G.nodesSize)
    (checkInvalidNode : CheckInvalidMove) (fuel k : Nat) (p : Path) (k1 : Nat)
    (h : S.getPath o fuel id checkInvalidNode compareAstarNodesDefault k = some (p, k1))
    (hp : p ≠ []) :
    IsAllowedPath P.G checkInvalidNode (P.getStart id) (P.getGoal id) p ∧
    ∀ q, IsAllowedPath P.G checkInvalidNode (P.getStart id) (P.getGoal id) q →
      p.length ≤ q.length := by
  obtain ⟨S1, hS1, hP, hrows, _⟩ := preprocess_spec P hWF hgoals hnum fuel0 hfuel0
  rw [hS] at hS1
  cases hS1
  subst hP
  refine ⟨getPath_shape S o fuel id checkInvalidNode _ k p k1 hshuf h hp, ?_⟩
  intro q hq
  have hcons := BfsInv.consistent S.P.G hWF hSym _ _ (hrows id hid)
  have hopt := getPath_optimal S o fuel id checkInvalidNode k p k1 hWF hs hcons hshuf hTop h hp
    (q.length - 1) hq.walk
  have hq0 : q ≠ [] := by
    intro e
    have := hq.1
    rw [e] at this
    simp at this
  have := List.length_pos.2 hq0
  omega

/-- The demo solver state is the result of the pre-processing on the demo instance. -/
theorem demoSolver_preprocess : Solver.preprocess demoProblem 83 = some demoSolver := by
  rfl

/-- Witness for C5: agent 0 of the demo instance with every move into vertex 1 forbidden. -/
theorem C5_default_getPath_shortest_witness :
    IsAllowedPath demoProblem.G (fun child _ => child == 1) (demoProblem.getStart 0)
      (demoProblem.getGoal 0) [0, 3, 4, 5, 2] ∧
    ∀ q, IsAllowedPath demoProblem.G (fun child _ => child == 1) (demoProblem.getStart 0)
      (demoProblem.getGoal 0) q → ([0, 3, 4, 5, 2] : Path).length ≤ q.length :=
  C5_default_getPath_shortest demoProblem grid3_WF grid3_Symmetric (by decide) (by decide)
    83 (by decide) demoSolver demoSolver_preprocess plainOracle (fun _ l => List.Perm.refl l)
    plainOracle_topRespects 0 (by decide) (by decide) (fun child _ => child == 1) 40 0
    [0, 3, 4, 5, 2] 5 (by decide) (by decide)

end Solver

namespace Solver

/-- After the pre-processing `table_goals` flags exactly the goals of the agents. -/
theorem preprocess_goals (P : Problem) (hgoals : ∀ g ∈ P.config_g, g < P.G.nodesSize)
    (fuel : Nat) (S : Solver) (hS : Solver.preprocess P fuel = some S) :
    S.P = P ∧ ∀ v, S.table_goals.getD v false = decide (v ∈ P.config_g) := by
  simp only [preprocess, createDistanceTable, Option.map_map, Option.map_eq_some'] at hS
  obtain ⟨t, _, rfl⟩ := hS
  refine ⟨rfl, ?_⟩
  intro v
  simp only [Function.comp, markGoals, Solver.init]
  rw [markGoals_getD _ _ _ (by simpa using hgoals)]
  rw [List.getD_eq_getElem?_getD, List.getElem?_replicate]
  split <;> simp

end Solver

namespace DBS

/-- **C7.** For every high-level node and agent `id`, a path `p` returned by
`DBS::getConstrainedPath(id, node)` contains no move `p[t] → p[t+1]` equal to
`parent → child` of a constraint of `node.constraints` whose agent is `id`, and no entry
`p[t+1]` is the goal of an agent unless it is the goal of `id` itself. The solver state is the
one that the pre-processing of `Solver::exec` leaves. -/
theorem C7_getConstrainedPath_respects (P : Problem)
    (hgoals : ∀ g ∈ P.config_g, g < P.G.nodesSize) (hnum : P.config_g.length = P.getNum)
    (fuel0 : Nat) (D : DBS) (hS : Solver.preprocess P fuel0 = some D.S)
    (o : Oracle) (fuel id : Nat) (node : HighLevelNode) (k : Nat) (p : Path) (k1 : Nat)
    (h : D.getConstrainedPath o fuel id node k = some (p, k1)) :
    ∀ t, t + 1 < p.length →
      (∀ c ∈ node.constraints, c.agent = id →
        ¬ (c.parent = p.getD t 0 ∧ c.child = p.getD (t + 1) 0)) ∧
      (∀ j, j < P.getNum → p.getD (t + 1) 0 = P.getGoal j →
        p.getD (t + 1) 0 = P.getGoal id) := by
  obtain ⟨hP, htg⟩ := Solver.preprocess_goals P hgoals fuel0 D.S hS
  intro t ht
  have hchk := Solver.chain_getD (Solver.getPath_chain_not_blocked D.S o fuel id _ _ k p k1 h) t ht
  unfold checkConstrained at hchk
  split at hchk
  · exact absurd hchk (by simp)
  · rename_i hcond
    refine ⟨?_, ?_⟩
    · intro c hc hca hmove
      have hmem : c ∈ node.constraints.filter (fun c => c.agent == id) :=
        List.mem_filter.2 ⟨hc, by simp [hca]⟩
      rw [List.any_eq_false] at hchk
      have := hchk c hmem
      simp [hmove.1, hmove.2] at this
    · intro j hj hgj
      by_contra hne
      apply hcond
      rw [hP]
      refine ⟨hne, ?_⟩
      rw [htg, hgj]
      simp only [decide_eq_true_eq]
      unfold Problem.getGoal
      rw [List.getD_eq_getElem?_getD, List.getElem?_eq_getElem (by rw [hnum]; exact hj)]
      exact List.getElem_mem _

/-- Witness for C7: agent 0 of the demo instance, forbidden to move `0 → 1`. -/
theorem C7_getConstrainedPath_respects_witness :
    demoDBS.getConstrainedPath plainOracle 40 0
        ⟨[[0, 1, 2], [2, 1, 0]], [⟨0, 0, 1⟩, ⟨1, 2, 1⟩], 0, true⟩ 0 =
      some ([0, 3, 4, 5, 2], 5) ∧
    ∀ t, t + 1 < ([0, 3, 4, 5, 2] : Path).length →
      (∀ c ∈ ([⟨0, 0, 1⟩, ⟨1, 2, 1⟩] : List Constraint), c.agent = 0 →
        ¬ (c.parent = ([0, 3, 4, 5, 2] : Path).getD t 0 ∧
          c.child = ([0, 3, 4, 5, 2] : Path).getD (t + 1) 0)) ∧
      (∀ j, j < demoProblem.getNum →
        ([0, 3, 4, 5, 2] : Path).getD (t + 1) 0 = demoProblem.getGoal j →
        ([0, 3, 4, 5, 2] : Path).getD (t + 1) 0 = demoProblem.getGoal 0) :=
  ⟨by decide, C7_getConstrainedPath_respects demoProblem (by decide) (by decide) 83 demoDBS
    Solver.demoSolver_preprocess plainOracle 40 0
    ⟨[[0, 1, 2], [2, 1, 0]], [⟨0, 0, 1⟩, ⟨1, 2, 1⟩], 0, true⟩ 0 [0, 3, 4, 5, 2] 5 (by decide)⟩

end DBS

namespace ICBS

theorem remember_inl (a b : Bool) (ci cj : Constraint) (semi non r : List Constraint)
    (h : remember a b ci cj semi non = Sum.inl r) : r ≠ [] := by
  unfold remember at h
  split at h
  · cases h; simp
  · split at h
    · cases h
    · split at h <;> cases h

theorem remember_inr (a b : Bool) (ci cj : Constraint) (semi non semi1 non1 : List Constraint)
    (h : remember a b ci cj semi non = Sum.inr (semi1, non1)) : ¬ (semi1 = [] ∧ non1 = []) := by
  unfold remember at h
  rintro ⟨rfl, rfl⟩
  split at h
  · cases h
  · split at h
    · simp at h
    · split at h
      · simp at h
      · rename_i hne
        simp only [Sum.inr.injEq, Prod.mk.injEq] at h
        rw [h.2] at hne
        simp at hne

theorem scanStep_inl (paths : Plan) (mdds : List MDD) (t i j : Nat)
    (semi non r : List Constraint) (h : scanStep paths mdds t i j semi non = Sum.inl r) :
    r ≠ [] := by
  unfold scanStep at h
  split at h
  · rename_i r1 heq
    cases h
    unfold vertexBlock at heq
    simp only at heq
    split at heq
    · exact remember_inl _ _ _ _ _ _ _ heq
    · cases heq
  · unfold swapBlock at h
    simp only at h
    split at h
    · exact remember_inl _ _ _ _ _ _ _ h
    · cases h

theorem scanStep_inr (paths : Plan) (mdds : List MDD) (t i j : Nat)
    (semi non semi1 non1 : List Constraint)
    (h : scanStep paths mdds t i j semi non = Sum.inr (semi1, non1))
    (hs : semi1 = []) (hn : non1 = []) :
    semi = [] ∧ non = [] ∧ get paths i t ≠ get paths j t ∧
      ¬ (get paths i t = get paths j (t - 1) ∧ get paths j t = get paths i (t - 1)) := by
  unfold scanStep at h
  split at h
  · cases h
  · rename_i s1 n1 heq
    unfold swapBlock at h
    simp only at h
    split at h
    · exact absurd ⟨hs, hn⟩ (remember_inr _ _ _ _ _ _ _ _ h)
    · rename_i hsw
      simp only [Sum.inr.injEq, Prod.mk.injEq] at h
      obtain ⟨rfl, rfl⟩ := h
      unfold vertexBlock at heq
      simp only at heq
      split at heq
      · exact absurd ⟨hs, hn⟩ (remember_inr _ _ _ _ _ _ _ _ heq)
      · rename_i hv
        simp only [Sum.inr.injEq, Prod.mk.injEq] at heq
        obtain ⟨rfl, rfl⟩ := heq
        exact ⟨hs, hn, hv, hsw⟩

/-- An empty result of the scan means that nothing was remembered and that no visited triple
shows a vertex or a swap conflict. -/
theorem scan_nil (paths : Plan) (mdds : List MDD) :
    ∀ (L : List (Nat × Nat × Nat)) (semi non : List Constraint),
      scan paths mdds L semi non = [] →
      semi = [] ∧ non = [] ∧ ∀ tij ∈ L,
        get paths tij.2.1 tij.1 ≠ get paths tij.2.2 tij.1 ∧
        ¬ (get paths tij.2.1 tij.1 = get paths tij.2.2 (tij.1 - 1) ∧
           get paths tij.2.2 tij.1 = get paths tij.2.1 (tij.1 - 1)) := by
  intro L
  induction L with
  | nil =>
    intro semi non h
    unfold scan at h
    split at h
    · rename_i hs
      rw [h] at hs
      simp at hs
    · rename_i hs
      split at h
      · rename_i hn
        rw [h] at hn
        simp at hn
      · rename_i hn
        refine ⟨?_, ?_, by simp⟩
        · simpa using hs
        · simpa using hn
  | cons x L ih =>
    intro semi non h
    obtain ⟨t, i, j⟩ := x
    unfold scan at h
    split at h
    · rename_i r heq
      exact absurd h (scanStep_inl _ _ _ _ _ _ _ _ heq)
    · rename_i s1 n1 heq
      obtain ⟨hs, hn, hL⟩ := ih s1 n1 h
      obtain ⟨h1, h2, h3, h4⟩ := scanStep_inr _ _ _ _ _ _ _ _ _ heq hs hn
      refine ⟨h1, h2, ?_⟩
      intro tij htij
      rcases List.mem_cons.1 htij with e | e
      · subst e; exact ⟨h3, h4⟩
      · exact hL tij e

theorem mem_scanOrder (num makespan t i j : Nat) (ht1 : 1 ≤ t) (ht : t ≤ makespan)
    (hij : i < j) (hj : j < num) : (t, i, j) ∈ scanOrder num makespan := by
  unfold scanOrder
  simp only [List.mem_flatMap, List.mem_range, List.mem_map, Prod.mk.injEq]
  exact ⟨t - 1, by omega, i, by omega, j - (i + 1), by omega, by omega, rfl, by omega⟩

/-- **C8 (as amended).** When `getPrioritizedConflict` returns no constraint for a node, the
paths of the node show, for every pair of agents `i ≠ j`, no vertex conflict
`P_i(t) = P_j(t)` and no swap conflict at any `t` in `[1, makespan]`; at `t = 0`, which the
scan does not visit, there is no vertex conflict provided the first entries of the paths are
pairwise different. -/
theorem C8_no_conflict_when_empty (num : Nat) (paths : Plan) (mdds : List MDD)
    (h : getPrioritizedConflict num paths mdds = []) :
    (∀ t i j, 1 ≤ t → t ≤ getMakespan paths → i < num → j < num → i ≠ j →
      get paths i t ≠ get paths j t ∧
      ¬ (get paths i t = get paths j (t - 1) ∧ get paths j t = get paths i (t - 1))) ∧
    ((∀ i j, i < num → j < num → i ≠ j → get paths i 0 ≠ get paths j 0) →
      ∀ t i j, t ≤ getMakespan paths → i < num → j < num → i ≠ j →
        get paths i t ≠ get paths j t) := by
  obtain ⟨_, _, hall⟩ := scan_nil paths mdds _ _ _ h
  have main : ∀ t i j, 1 ≤ t → t ≤ getMakespan paths → i < num → j < num → i ≠ j →
      get paths i t ≠ get paths j t ∧
      ¬ (get paths i t = get paths j (t - 1) ∧ get paths j t = get paths i (t - 1)) := by
    intro t i j ht1 ht hi hj hij
    rcases Nat.lt_or_gt_of_ne hij with hlt | hgt
    · exact hall (t, i, j) (mem_scanOrder num _ t i j ht1 ht hlt hj)
    · have := hall (t, j, i) (mem_scanOrder num _ t j i ht1 ht hgt hi)
      exact ⟨fun e => this.1 e.symm, fun e => this.2 ⟨e.2, e.1⟩⟩
  refine ⟨main, ?_⟩
  intro h0 t i j ht hi hj hij
  by_cases ht0 : t = 0
  · subst ht0; exact h0 i j hi hj hij
  · exact (main t i j (by omega) ht hi hj hij).1

/-- Witness for C8: two agents that cross the 3x3 grid on different rows. -/
theorem C8_no_conflict_when_empty_witness :
    (∀ t i j, 1 ≤ t → t ≤ getMakespan [[0, 1, 2], [3, 4, 5]] → i < 2 → j < 2 → i ≠ j →
      get [[0, 1, 2], [3, 4, 5]] i t ≠ get [[0, 1, 2], [3, 4, 5]] j t ∧
      ¬ (get [[0, 1, 2], [3, 4, 5]] i t = get [[0, 1, 2], [3, 4, 5]] j (t - 1) ∧
         get [[0, 1, 2], [3, 4, 5]] j t = get [[0, 1, 2], [3, 4, 5]] i (t - 1))) ∧
    ((∀ i j, i < 2 → j < 2 → i ≠ j →
        get [[0, 1, 2], [3, 4, 5]] i 0 ≠ get [[0, 1, 2], [3, 4, 5]] j 0) →
      ∀ t i j, t ≤ getMakespan [[0, 1, 2], [3, 4, 5]] → i < 2 → j < 2 → i ≠ j →
        get [[0, 1, 2], [3, 4, 5]] i t ≠ get [[0, 1, 2], [3, 4, 5]] j t) :=
  C8_no_conflict_when_empty 2 [[0, 1, 2], [3, 4, 5]] [] (by decide)

/-- Counterexample to C8 as stated: two agents that share the start vertex `0`. The scan
returns no constraint although the paths show the vertex conflict `P_0(0) = P_1(0)` at
`t = 0`, which lies in `[0, makespan]`. -/
theorem C8_counterexample :
    getPrioritizedConflict 2 [[0, 1], [0, 3]]
        [⟨1, [[⟨0, []⟩], [⟨1, [0]⟩]]⟩, ⟨1, [[⟨0, []⟩], [⟨3, [0]⟩]]⟩] = [] ∧
    ¬ (∀ t i j, t ≤ getMakespan [[0, 1], [0, 3]] → i < 2 → j < 2 → i ≠ j →
        get [[0, 1], [0, 3]] i t ≠ get [[0, 1], [0, 3]] j t) := by
  refine ⟨by decide, ?_⟩
  intro hall
  exact hall 0 0 1 (by decide) (by decide) (by decide) (by decide) (by decide)

end ICBS

namespace DBS

/-- The facts of `PlanOK` for one path. -/
theorem pathOK_of_getPath (S : Solver) (o : Oracle) (fuel id : Nat) (chk : CheckInvalidMove)
    (cmp : CompareAstarNodes) (k : Nat) (p : Path) (k1 : Nat)
    (hshuf : ∀ k l, (o.shuffle k l).Perm l)
    (h : S.getPath o fuel id chk cmp k = some (p, k1)) (hp : p ≠ []) :
    p ≠ [] ∧ p.head? = some (S.P.getStart id) ∧ p.getLast? = some (S.P.getGoal id) ∧
      ∀ t, t + 1 < p.length → p.getD (t + 1) 0 ∈ S.P.G.neighbor (p.getD t 0) := by
  obtain ⟨h1, h2, h3⟩ := Solver.getPath_shape S o fuel id chk cmp k p k1 hshuf h hp
  refine ⟨hp, h1, h2, ?_⟩
  intro t ht
  exact (Solver.chain_getD h3 t ht).1

theorem getD_append_nat {α : Type} (l : List α) (a d : α) (i : Nat) :
    (l ++ [a]).getD i d = if i < l.length then l.getD i d else if i = l.length then a else d := by
  simp only [List.getD_eq_getElem?_getD]
  by_cases h : i < l.length
  · rw [if_pos h, List.getElem?_append_left h]
  · rw [if_neg h, List.getElem?_append_right (by omega)]
    by_cases h2 : i = l.length
    · rw [if_pos h2, h2]; simp
    · rw [if_neg h2]
      have : i - l.length ≠ 0 := by omega
      obtain ⟨j, hj⟩ : ∃ j, i - l.length = j + 1 := ⟨i - l.length - 1, by omega⟩
      rw [hj]; simp

/-- The loop of `getInitialNode`: if the node it returns is valid, a path has been appended
for each agent in turn, and each appended path has the shape of `PlanOK`. -/
theorem getInitialNodeLoop_ok (D : DBS) (o : Oracle) (fuel : Nat)
    (hshuf : ∀ k l, (o.shuffle k l).Perm l) :
    ∀ (len a : Nat) (n : HighLevelNode) (table : TableFragment) (k : Nat)
      (n1 : HighLevelNode) (k1 : Nat),
      n.paths.length = a →
      (∀ i, i < a → n.paths.getD i [] ≠ [] ∧
        (n.paths.getD i []).head? = some (D.S.P.getStart i) ∧
        (n.paths.getD i []).getLast? = some (D.S.P.getGoal i) ∧
        ∀ t, t + 1 < (n.paths.getD i []).length →
          (n.paths.getD i []).getD (t + 1) 0 ∈ D.S.P.G.neighbor ((n.paths.getD i []).getD t 0)) →
      D.getInitialNodeLoop o fuel (List.range' a len) n table k = some (n1, k1) →
      n1.valid = true →
      n1.paths.length = a + len ∧
      (∀ i, i < a + len → n1.paths.getD i [] ≠ [] ∧
        (n1.paths.getD i []).head? = some (D.S.P.getStart i) ∧
        (n1.paths.getD i []).getLast? = some (D.S.P.getGoal i) ∧
        ∀ t, t + 1 < (n1.paths.getD i []).length →
          (n1.paths.getD i []).getD (t + 1) 0 ∈
            D.S.P.G.neighbor ((n1.paths.getD i []).getD t 0)) := by
  intro len
  induction len with
  | zero =>
    intro a n table k n1 k1 hlen hok h _
    simp only [List.range'_zero, getInitialNodeLoop, Option.some.injEq, Prod.mk.injEq] at h
    obtain ⟨rfl, _⟩ := h
    exact ⟨hlen, hok⟩
  | succ len ih =>
    intro a n table k n1 k1 hlen hok h hvalid
    have hext : ∀ (q : Path), (q ≠ [] ∧ q.head? = some (D.S.P.getStart a) ∧
        q.getLast? = some (D.S.P.getGoal a) ∧
        ∀ t, t + 1 < q.length → q.getD (t + 1) 0 ∈ D.S.P.G.neighbor (q.getD t 0)) →
        ∀ i, i < a + 1 → (n.paths ++ [q]).getD i [] ≠ [] ∧
          ((n.paths ++ [q]).getD i []).head? = some (D.S.P.getStart i) ∧
          ((n.paths ++ [q]).getD i []).getLast? = some (D.S.P.getGoal i) ∧
          ∀ t, t + 1 < ((n.paths ++ [q]).getD i []).length →
            ((n.paths ++ [q]).getD i []).getD (t + 1) 0 ∈
              D.S.P.G.neighbor (((n.paths ++ [q]).getD i []).getD t 0) := by
      intro q hq i hi
      rw [getD_append_nat]
      by_cases hia : i < n.paths.length
      · rw [if_pos hia]; exact hok i (by omega)
      · rw [if_neg hia, if_pos (by omega)]
        have : i = a := by omega
        subst this
        exact hq
    rw [List.range'_succ] at h
    unfold getInitialNodeLoop at h
    split at h
    · cases h
    · rename_i p k2 hp
      split at h
      · split at h
        · cases h
        · rename_i q k3 hq
          split at h
          · simp only [Option.some.injEq, Prod.mk.injEq] at h
            rw [← h.1] at hvalid
            simp at hvalid
          · rename_i hqe
            have hq0 : q ≠ [] := by simpa using hqe
            have := ih (a + 1) _ _ _ n1 k1 (by simp [hlen])
              (hext q (pathOK_of_getPath D.S o fuel a _ _ _ q k3 hshuf hq hq0)) h hvalid
            rw [show a + (len + 1) = a + 1 + len by omega]
            exact this
      · rename_i hpe
        have hp0 : p ≠ [] := by simpa using hpe
        have := ih (a + 1) _ _ _ n1 k1 (by simp [hlen])
          (hext p (pathOK_of_getPath D.S o fuel a _ _ _ p k2 hshuf hp hp0)) h hvalid
        rw [show a + (len + 1) = a + 1 + len by omega]
        exact this

/-- Every node that `DBS::run` can hold carries a plan of the shape `PlanOK`. -/
theorem ValidNode.planOK (D : DBS) (o : Oracle) (fuel : Nat)
    (hshuf : ∀ k l, (o.shuffle k l).Perm l) (n : HighLevelNode) (hn : D.ValidNode o fuel n) :
    D.PlanOK n.paths := by
  induction hn with
  | @initial n k k1 hinit hvalid =>
    unfold getInitialNode at hinit
    split at hinit
    · cases hinit
    · rename_i n0 k0 hloop
      simp only [Option.some.injEq, Prod.mk.injEq] at hinit
      obtain ⟨rfl, _⟩ := hinit
      rw [List.range_eq_range'] at hloop
      have := getInitialNodeLoop_ok D o fuel hshuf D.S.P.getNum 0 ⟨[], [], 0, true⟩ _ _ n0 k0 rfl
        (fun i hi => absurd hi (by omega)) hloop hvalid
      simp only [Nat.zero_add] at this
      exact this
  | @child n m c k k1 _ hinv hvalid ih =>
    unfold invoke at hinv
    simp only at hinv
    split at hinv
    · cases hinv
    · rename_i p k2 hp
      simp only [Option.some.injEq, Prod.mk.injEq] at hinv
      obtain ⟨rfl, _⟩ := hinv
      simp only at hvalid ⊢
      have hca : c.agent < n.paths.length := by
        by_contra hc
        rw [List.set_eq_of_length_le (by omega), List.getD_eq_getElem?_getD,
          List.getElem?_eq_none (by omega)] at hvalid
        simp at hvalid
      have hgetp : (n.paths.set c.agent p).getD c.agent [] = p := by
        simp [List.getD_eq_getElem?_getD, hca]
      rw [hgetp] at hvalid
      have hp0 : p ≠ [] := by simpa using hvalid
      refine ⟨by simpa using ih.1, ?_⟩
      intro i hi
      by_cases hic : i = c.agent
      · subst hic
        rw [hgetp]
        exact pathOK_of_getPath D.S o fuel _ _ _ _ p k2 hshuf hp hp0
      · have : (n.paths.set c.agent p).getD i [] = n.paths.getD i [] := by
          simp only [List.getD_eq_getElem?_getD]
          rw [List.getElem?_set_ne (fun e => hic e.symm)]
        rw [this]
        exact ih.2 i hi

end DBS

namespace DBS

/-- The children that `DBS::run` pushes are nodes that `run` can hold. -/
theorem pushChildren_valid (D : DBS) (o : Oracle) (fuel : Nat) (n : HighLevelNode)
    (hn : D.ValidNode o fuel n) :
    ∀ (cs : List Constraint) (Tree : List HighLevelNode) (k : Nat)
      (Tree2 : List HighLevelNode) (k2 : Nat),
      (∀ x ∈ Tree, D.ValidNode o fuel x) →
      D.pushChildren o fuel n cs Tree k = some (Tree2, k2) →
      ∀ x ∈ Tree2, D.ValidNode o fuel x := by
  intro cs
  induction cs with
  | nil =>
    intro Tree k Tree2 k2 hT h
    simp only [pushChildren, Option.some.injEq, Prod.mk.injEq] at h
    rw [← h.1]; exact hT
  | cons c cs ih =>
    intro Tree k Tree2 k2 hT h
    unfold pushChildren at h
    split at h
    · cases h
    · rename_i m k1 hm
      refine ih _ _ _ _ ?_ h
      intro x hx
      by_cases hv : m.valid = true
      · rw [if_pos hv] at hx
        rcases List.mem_append.1 hx with hx | hx
        · exact hT x hx
        · rw [List.mem_singleton.1 hx]
          exact ValidNode.child hn hm hv
      · rw [if_neg hv] at hx
        exact hT x hx

/-- When the high-level loop ends with `solved`, the solution is the plan of a node that the
loop popped, and `getConstraints` returned no constraint for that plan in that round. -/
theorem runLoop_solved (D : DBS) (o : Oracle) (fuel : Nat) :
    ∀ (hfuel : Nat) (Tree : List HighLevelNode) (k : Nat) (out : Outcome),
      (∀ x ∈ Tree, D.ValidNode o fuel x) →
      D.runLoop o fuel hfuel Tree k = some out → out.solved = true →
      ∃ n k0, D.ValidNode o fuel n ∧ out.solution = n.paths ∧
        (D.getConstraints o n.paths k0).1 = [] := by
  intro hfuel
  induction hfuel with
  | zero => intro Tree k out _ h; simp [runLoop] at h
  | succ hfuel ih =>
    intro Tree k out hT h hs
    unfold runLoop at h
    split at h
    · simp only [Option.some.injEq] at h
      rw [← h] at hs
      simp at hs
    · simp only at h
      split at h
      · cases h
      · rename_i n1 hn1
        have hv1 : D.ValidNode o fuel n1 := hT n1 (List.get?_mem hn1)
        split at h
        · simp only [Option.some.injEq] at h
          rw [← h] at hs
          simp at hs
        · split at h
          · rename_i hce
            simp only [Option.some.injEq] at h
            refine ⟨n1, k + 1, hv1, by rw [← h], ?_⟩
            simpa using hce
          · split at h
            · cases h
            · rename_i Tree2 k2 hpush
              refine ih Tree2 k2 out ?_ h hs
              exact pushChildren_valid D o fuel n1 hv1 _ _ _ _ _
                (fun x hx => hT x (List.mem_of_mem_eraseIdx hx)) hpush

theorem run_solved (D : DBS) (o : Oracle) (fuel hfuel k : Nat) (out : Outcome)
    (h : D.run o fuel hfuel k = some out) (hs : out.solved = true) :
    ∃ n k0, D.ValidNode o fuel n ∧ out.solution = n.paths ∧
      (D.getConstraints o n.paths k0).1 = [] := by
  unfold run at h
  split at h
  · cases h
  · rename_i n k1 hinit
    split at h
    · simp only [Option.some.injEq] at h
      rw [← h] at hs
      simp at hs
    · rename_i hv
      have hv' : n.valid = true := by simpa using hv
      refine runLoop_solved D o fuel hfuel [n] k1 out ?_ h hs
      intro x hx
      rw [List.mem_singleton.1 hx]
      exact ValidNode.initial hinit hv'

/-- **C2.** For every valid DBS high-level node (the initial node and every valid child built
by `invoke`), and hence for every plan returned by `DBS::run`, there is one path per agent,
and the path of agent `i` is non-empty, starts at `start_i`, ends at `goal_i`, and each of its
entries is followed by one of its graph neighbours (`PlanOK`). The shuffle is any
permutation. -/
theorem C2_valid_node_paths (D : DBS) (o : Oracle) (fuel : Nat)
    (hshuf : ∀ k l, (o.shuffle k l).Perm l) :
    (∀ n, D.ValidNode o fuel n → D.PlanOK n.paths) ∧
    (∀ hfuel k out, D.run o fuel hfuel k = some out → out.solved = true →
      D.PlanOK out.solution) := by
  refine ⟨fun n hn => ValidNode.planOK D o fuel hshuf n hn, ?_⟩
  intro hfuel k out h hs
  obtain ⟨n, _, hn, hsol, _⟩ := run_solved D o fuel hfuel k out h hs
  rw [hsol]
  exact ValidNode.planOK D o fuel hshuf n hn

/-- The run of DBS on the demo instance. -/
theorem demoDBS_run : demoDBS.run plainOracle 40 10 0 =
    some ⟨true, false, [[0, 1, 2], [2, 5, 4, 3, 0]]⟩ := by
  decide

/-- Witness for C2: the run on the demo instance is solved and its plan has the shape. -/
theorem C2_valid_node_paths_witness :
    demoDBS.run plainOracle 40 10 0 = some ⟨true, false, [[0, 1, 2], [2, 5, 4, 3, 0]]⟩ ∧
    demoDBS.PlanOK [[0, 1, 2], [2, 5, 4, 3, 0]] :=
  ⟨demoDBS_run, (C2_valid_node_paths demoDBS plainOracle 40 (fun _ l => List.Perm.refl l)).2 10 0
    ⟨true, false, [[0, 1, 2], [2, 5, 4, 3, 0]]⟩ demoDBS_run rfl⟩

end DBS

/-! ## The fragment table -/

namespace TableFragment

theorem getD_modify_append {α : Type} (tbl : List (List α)) (i j : Nat) (c : α) :
    (tbl.modify (fun l => l ++ [c]) i).getD j [] =
      if i = j ∧ i < tbl.length then tbl.getD j [] ++ [c] else tbl.getD j [] := by
  simp only [List.getD_eq_getElem?_getD, List.getElem?_modify]
  by_cases hij : i = j
  · subst hij
    by_cases hi : i < tbl.length
    · simp [hi, List.getElem?_eq_getElem hi]
    · simp [hi, List.getElem?_eq_none (Nat.le_of_not_lt hi)]
  · cases h : tbl[j]? <;> simp [hij]

theorem mem_getD_modify_append {α : Type} (tbl : List (List α)) (i j : Nat) (c x : α) :
    x ∈ (tbl.modify (fun l => l ++ [c]) i).getD j [] ↔
      x ∈ tbl.getD j [] ∨ (x = c ∧ i = j ∧ i < tbl.length) := by
  rw [getD_modify_append]
  by_cases h : i = j ∧ i < tbl.length
  · rw [if_pos h]
    simp only [List.mem_append, List.mem_singleton]
    constructor
    · rintro (h1 | h1)
      · exact Or.inl h1
      · exact Or.inr ⟨h1, h⟩
    · rintro (h1 | h1)
      · exact Or.inl h1
      · exact Or.inr h1.1
  · rw [if_neg h]
    constructor
    · exact Or.inl
    · rintro (h1 | h1)
      · exact h1
      · exact absurd h1.2 h

theorem mem_getD_lt {α : Type} (tbl : List (List α)) (j : Nat) (x : α)
    (h : x ∈ tbl.getD j []) : j < tbl.length := by
  by_contra hc
  rw [List.getD_eq_getElem?_getD, List.getElem?_eq_none (by omega)] at h
  simp at h

theorem Sub.refl (T : TableFragment) : T.Sub T := ⟨fun _ _ h => h, fun _ _ h => h⟩

theorem Sub.trans {T T1 T2 : TableFragment} (h1 : T.Sub T1) (h2 : T1.Sub T2) : T.Sub T2 :=
  ⟨fun v c h => h2.1 v c (h1.1 v c h), fun v c h => h2.2 v c (h1.2 v c h)⟩

theorem mem_fromAt_createNewFragment (T : TableFragment) (path agents : List Nat) (v : Nat)
    (c : Fragment) :
    c ∈ (T.createNewFragment path agents).fromAt v ↔
      c ∈ T.fromAt v ∨ (c = ⟨path, agents⟩ ∧ path.headD 0 = v ∧ path.headD 0 < T.t_from.length) := by
  unfold fromAt createNewFragment
  exact mem_getD_modify_append _ _ _ _ _

theorem mem_toAt_createNewFragment (T : TableFragment) (path agents : List Nat) (v : Nat)
    (c : Fragment) :
    c ∈ (T.createNewFragment path agents).toAt v ↔
      c ∈ T.toAt v ∨
        (c = ⟨path, agents⟩ ∧ path.getLastD 0 = v ∧ path.getLastD 0 < T.t_to.length) := by
  unfold toAt createNewFragment
  exact mem_getD_modify_append _ _ _ _ _

theorem createNewFragment_sub (T : TableFragment) (path agents : List Nat) :
    T.Sub (T.createNewFragment path agents) :=
  ⟨fun v c h => (mem_fromAt_createNewFragment T path agents v c).2 (Or.inl h),
   fun v c h => (mem_toAt_createNewFragment T path agents v c).2 (Or.inl h)⟩

theorem headD_of_head? {l : List Nat} {a : Nat} (h : l.head? = some a) : l.headD 0 = a := by
  cases l with
  | nil => simp at h
  | cons x l => simpa using h

theorem getLastD_of_getLast? {l : List Nat} {a : Nat} (h : l.getLast? = some a) :
    l.getLastD 0 = a := by
  rw [List.getLastD_eq_getLast?, h]
  rfl

/-- Entering a fragment whose end vertices belong to the graph keeps the table well-formed. -/
theorem WFT.createNewFragment {T : TableFragment} (hT : T.WFT) (path agents : List Nat)
    (a b : Nat) (ha : path.head? = some a) (hb : path.getLast? = some b)
    (haN : a < T.G.nodesSize) (hbN : b < T.G.nodesSize) :
    (T.createNewFragment path agents).WFT := by
  have hhd := headD_of_head? ha
  have hld := getLastD_of_getLast? hb
  refine ⟨?_, ?_, ?_, ?_⟩
  · simp [TableFragment.createNewFragment, List.length_modify, hT.len_from]
  · simp [TableFragment.createNewFragment, List.length_modify, hT.len_to]
  · intro v c hc
    rcases (mem_fromAt_createNewFragment T path agents v c).1 hc with h | ⟨rfl, hv, _⟩
    · obtain ⟨h1, w, h2, h3⟩ := hT.from_ok v c h
      exact ⟨h1, w, h2, (createNewFragment_sub T path agents).2 w c h3⟩
    · refine ⟨by rw [← hv, hhd]; exact ha, b, hb, ?_⟩
      exact (mem_toAt_createNewFragment T path agents b _).2
        (Or.inr ⟨rfl, hld, by rw [hld, hT.len_to]; exact hbN⟩)
  · intro v c hc
    rcases (mem_toAt_createNewFragment T path agents v c).1 hc with h | ⟨rfl, hv, _⟩
    · obtain ⟨h1, w, h2, h3⟩ := hT.to_ok v c h
      exact ⟨h1, w, h2, (createNewFragment_sub T path agents).1 w c h3⟩
    · refine ⟨by rw [← hv, hld]; exact hb, a, ha, ?_⟩
      exact (mem_fromAt_createNewFragment T path agents a _).2
        (Or.inr ⟨rfl, hhd, by rw [hhd, hT.len_from]; exact haN⟩)

theorem WFT.new (G : Graph) (m : Int) : (TableFragment.new G m).WFT := by
  have hrep : ∀ v, (List.replicate G.nodesSize ([] : List Fragment)).getD v [] = [] := by
    intro v
    rw [List.getD_eq_getElem?_getD, List.getElem?_replicate]
    split <;> rfl
  refine ⟨by simp [TableFragment.new], by simp [TableFragment.new], ?_, ?_⟩
  · intro v c hc
    simp only [fromAt, TableFragment.new, hrep] at hc
    simp at hc
  · intro v c hc
    simp only [toAt, TableFragment.new, hrep] at hc
    simp at hc

end TableFragment

namespace TableFragment

theorem has_mono {T T1 : TableFragment} (h : T.Sub T1) {c : Fragment} (hc : T.Has c) :
    T1.Has c := by
  obtain ⟨a, b, h1, h2, h3, h4⟩ := hc
  exact ⟨a, b, h1, h2, h.1 a c h3, h.2 b c h4⟩

theorem mem_candidates (T : TableFragment) (id u v : Nat) (c : Fragment) :
    c ∈ T.candidates id u v ↔
      (∃ L ∈ T.toAt u, id ∉ L.agents ∧ c = ⟨L.path ++ [v], L.agents ++ [id]⟩) ∨
      (∃ R ∈ T.fromAt v, id ∉ R.agents ∧ c = ⟨u :: R.path, id :: R.agents⟩) ∨
      (∃ L ∈ T.toAt u, ∃ R ∈ T.fromAt v, id ∉ L.agents ∧ id ∉ R.agents ∧
        c = ⟨(L.path ++ [v]) ++ R.path.tail, (L.agents ++ [id]) ++ R.agents⟩) := by
  unfold candidates
  simp only [List.mem_append, List.mem_map, List.mem_filter, List.mem_flatten,
    Bool.not_eq_true', List.contains_eq_any_beq, List.any_eq_false, beq_iff_eq]
  constructor
  · rintro ((⟨L, ⟨hL, hid⟩, rfl⟩ | ⟨R, ⟨hR, hid⟩, rfl⟩) | ⟨l, ⟨L, ⟨hL, hidL⟩, rfl⟩, hc⟩)
    · exact Or.inl ⟨L, hL, fun h => hid id h rfl, rfl⟩
    · exact Or.inr (Or.inl ⟨R, hR, fun h => hid id h rfl, rfl⟩)
    · simp only [List.mem_map, List.mem_filter, Bool.not_eq_true', List.any_eq_false,
        beq_iff_eq] at hc
      obtain ⟨R, ⟨hR, hidR⟩, rfl⟩ := hc
      exact Or.inr (Or.inr ⟨L, hL, R, hR, fun h => hidL id h rfl, fun h => hidR id h rfl, rfl⟩)
  · rintro (⟨L, hL, hid, rfl⟩ | ⟨R, hR, hid, rfl⟩ | ⟨L, hL, R, hR, hidL, hidR, rfl⟩)
    · exact Or.inl (Or.inl ⟨L, ⟨hL, fun x hx e => hid (e ▸ hx)⟩, rfl⟩)
    · exact Or.inl (Or.inr ⟨R, ⟨hR, fun x hx e => hid (e ▸ hx)⟩, rfl⟩)
    · refine Or.inr ⟨_, ⟨L, ⟨hL, fun x hx e => hidL (e ▸ hx)⟩, rfl⟩, ?_⟩
      simp only [List.mem_map, List.mem_filter, Bool.not_eq_true', List.any_eq_false,
        beq_iff_eq]
      exact ⟨R, ⟨hR, fun x hx e => hidR (e ▸ hx)⟩, rfl⟩

/-- A table with more entries yields more candidates. -/
theorem candidates_mono {T T1 : TableFragment} (h : T.Sub T1) (id u v : Nat) (c : Fragment)
    (hc : c ∈ T.candidates id u v) : c ∈ T1.candidates id u v := by
  rw [mem_candidates] at hc ⊢
  rcases hc with ⟨L, hL, hid, rfl⟩ | ⟨R, hR, hid, rfl⟩ | ⟨L, hL, R, hR, hidL, hidR, rfl⟩
  · exact Or.inl ⟨L, h.2 u L hL, hid, rfl⟩
  · exact Or.inr (Or.inl ⟨R, h.1 v R hR, hid, rfl⟩)
  · exact Or.inr (Or.inr ⟨L, h.2 u L hL, R, h.1 v R hR, hidL, hidR, rfl⟩)

theorem candidates_agent (T : TableFragment) (id u v : Nat) (c : Fragment)
    (hc : c ∈ T.candidates id u v) : id ∈ c.agents := by
  rw [mem_candidates] at hc
  rcases hc with ⟨L, _, _, rfl⟩ | ⟨R, _, _, rfl⟩ | ⟨L, _, R, _, _, _, rfl⟩ <;> simp

theorem head?_append_of_head? {l : List Nat} {a : Nat} (h : l.head? = some a) (l2 : List Nat) :
    (l ++ l2).head? = some a := by
  cases l with
  | nil => simp at h
  | cons x l => simpa using h

theorem getLast?_append_of_getLast? {l : List Nat} {a : Nat} (h : l.getLast? = some a)
    (l1 : List Nat) : (l1 ++ l).getLast? = some a := by
  rw [List.getLast?_append, h]
  rfl

theorem append_tail_of_head? {l : List Nat} {v : Nat} (h : l.head? = some v) :
    [v] ++ l.tail = l := by
  cases l with
  | nil => simp at h
  | cons x l =>
    simp only [List.head?_cons, Option.some.injEq] at h
    simp [h]

/-- In a well-formed table the candidates of a unit between two vertices of the graph start
and end at vertices of the graph. -/
theorem candidates_endsIn {T : TableFragment} (hT : T.WFT) (id u v : Nat)
    (hu : u < T.G.nodesSize) (hv : v < T.G.nodesSize) (c : Fragment)
    (hc : c ∈ T.candidates id u v) : c.EndsIn T.G.nodesSize := by
  have hfromlt : ∀ w d, d ∈ T.fromAt w → w < T.G.nodesSize := by
    intro w d hd
    rw [← hT.len_from]; exact mem_getD_lt _ _ _ hd
  have htolt : ∀ w d, d ∈ T.toAt w → w < T.G.nodesSize := by
    intro w d hd
    rw [← hT.len_to]; exact mem_getD_lt _ _ _ hd
  rw [mem_candidates] at hc
  rcases hc with ⟨L, hL, _, rfl⟩ | ⟨R, hR, _, rfl⟩ | ⟨L, hL, R, hR, _, _, rfl⟩
  · obtain ⟨_, w, hw, hLw⟩ := hT.to_ok u L hL
    exact ⟨w, v, head?_append_of_head? hw _, by simp, hfromlt w L hLw, hv⟩
  · obtain ⟨_, w, hw, hRw⟩ := hT.from_ok v R hR
    refine ⟨u, w, by simp, ?_, hu, htolt w R hRw⟩
    have := getLast?_append_of_getLast? hw [u]
    simpa using this
  · obtain ⟨_, w, hw, hLw⟩ := hT.to_ok u L hL
    obtain ⟨hRh, x, hx, hRx⟩ := hT.from_ok v R hR
    refine ⟨w, x, ?_, ?_, hfromlt w L hLw, htolt x R hRx⟩
    · simp only [List.append_assoc]
      exact head?_append_of_head? hw _
    · simp only [List.append_assoc]
      rw [append_tail_of_head? hRh]
      exact getLast?_append_of_getLast? hx _

theorem rejected_congr {T T1 : TableFragment} (h : T1.max_fragment_size = T.max_fragment_size)
    (path agents : List Nat) : T1.rejected path agents = T.rejected path agents := by
  simp [rejected, isValidTopologyCondition, h]

/-- With unbounded fragment size a candidate is rejected only for a repeated agent. -/
theorem rejected_unbounded {T : TableFragment} (h : T.max_fragment_size ≤ 0)
    (path agents : List Nat) (hn : agents.Nodup) : T.rejected path agents = false := by
  have h1 : ¬ T.max_fragment_size > 0 := by omega
  simp [rejected, isValidTopologyCondition, h1, hn]

/-- One call of `getPotentialDeadlockIfExist(path, agents)` on a well-formed table. -/
theorem getPotentialDeadlockIfExist_spec {T : TableFragment} (hT : T.WFT)
    (path agents : List Nat) (hends : (Fragment.mk path agents).EndsIn T.G.nodesSize)
    (r : Option Fragment) (T1 : TableFragment)
    (h : T.getPotentialDeadlockIfExist path agents = (r, T1)) :
    T.Sub T1 ∧ T1.WFT ∧ T1.max_fragment_size = T.max_fragment_size ∧ T1.G = T.G ∧
    (∀ d, r = some d → d = ⟨path, agents⟩ ∧ d.isCycle = true) ∧
    (r = none → T.rejected path agents = true ∨
      ((Fragment.mk path agents).isCycle = false ∧ T1.Has ⟨path, agents⟩)) := by
  obtain ⟨a, b, ha, hb, haN, hbN⟩ := hends
  simp only at ha hb
  unfold getPotentialDeadlockIfExist at h
  split at h
  · rename_i hrej
    simp only [Prod.mk.injEq] at h
    obtain ⟨rfl, rfl⟩ := h
    exact ⟨Sub.refl _, hT, rfl, rfl, fun d hd => (by cases hd), fun _ => Or.inl hrej⟩
  · split at h
    · rename_i hcyc
      simp only [Prod.mk.injEq] at h
      obtain ⟨rfl, rfl⟩ := h
      refine ⟨Sub.refl _, hT, rfl, rfl, ?_, fun hn => by cases hn⟩
      intro d hd
      cases hd
      exact ⟨rfl, hcyc⟩
    · rename_i hcyc
      have hcyc' : (Fragment.mk path agents).isCycle = false := by simpa using hcyc
      split at h
      · rename_i hdup
        simp only [Prod.mk.injEq] at h
        obtain ⟨rfl, rfl⟩ := h
        refine ⟨Sub.refl _, hT, rfl, rfl, fun d hd => (by cases hd), fun _ => Or.inr ⟨hcyc', ?_⟩⟩
        unfold existDuplication at hdup
        rw [List.any_eq_true] at hdup
        obtain ⟨c, hc, hceq⟩ := hdup
        simp only [Bool.and_eq_true, beq_iff_eq] at hceq
        have hce : c = ⟨path, agents⟩ := by
          cases c
          simp only [Fragment.mk.injEq]
          exact hceq
        subst hce
        rw [headD_of_head? ha] at hc
        obtain ⟨_, w, hw, hcw⟩ := hT.from_ok a _ hc
        exact ⟨a, w, ha, hw, hc, hcw⟩
      · simp only [Prod.mk.injEq] at h
        obtain ⟨rfl, rfl⟩ := h
        refine ⟨createNewFragment_sub T path agents,
          WFT.createNewFragment hT path agents a b ha hb haN hbN, rfl, rfl,
          fun d hd => (by cases hd), fun _ => Or.inr ⟨hcyc', a, b, ha, hb, ?_, ?_⟩⟩
        · exact (mem_fromAt_createNewFragment T path agents a _).2
            (Or.inr ⟨rfl, headD_of_head? ha, by rw [headD_of_head? ha, hT.len_from]; exact haN⟩)
        · exact (mem_toAt_createNewFragment T path agents b _).2
            (Or.inr ⟨rfl, getLastD_of_getLast? hb,
              by rw [getLastD_of_getLast? hb, hT.len_to]; exact hbN⟩)

end TableFragment

namespace TableFragment

/-- The candidates of one unit run through step 4 on a well-formed table. -/
theorem processCandidates_spec (force : Bool) :
    ∀ (cs : List Fragment) (T : TableFragment) (res r : Option Fragment) (T1 : TableFragment)
      (b : Bool), T.WFT → (∀ c ∈ cs, c.EndsIn T.G.nodesSize) →
      processCandidates force cs res T = (r, T1, b) →
      T.Sub T1 ∧ T1.WFT ∧ T1.max_fragment_size = T.max_fragment_size ∧ T1.G = T.G ∧
      (∀ d, r = some d → res = some d ∨ (d ∈ cs ∧ d.isCycle = true)) ∧
      (b = true → ∃ d, r = some d ∧ d ∈ cs ∧ d.isCycle = true) ∧
      (force = false → b = false → r = res ∧ ∀ c ∈ cs,
        T.rejected c.path c.agents = true ∨ (c.isCycle = false ∧ T1.Has c)) := by
  intro cs
  induction cs with
  | nil =>
    intro T res r T1 b hT _ h
    simp only [processCandidates, Prod.mk.injEq] at h
    obtain ⟨rfl, rfl, rfl⟩ := h
    exact ⟨Sub.refl _, hT, rfl, rfl, fun d hd => Or.inl hd, fun hb => (by cases hb),
      fun _ _ => ⟨rfl, fun c hc => (by cases hc)⟩⟩
  | cons c cs ih =>
    intro T res r T1 b hT hends h
    unfold processCandidates at h
    have hc_ends : (Fragment.mk c.path c.agents).EndsIn T.G.nodesSize :=
      hends c (List.mem_cons_self _ _)
    split at h
    · rename_i d T0 hg
      obtain ⟨hsub, hT0, hmax, hG, hsome, _⟩ :=
        getPotentialDeadlockIfExist_spec hT c.path c.agents hc_ends _ _ hg
      obtain ⟨hd, hdc⟩ := hsome d rfl
      have hdc' : d = c := by rw [hd]
      by_cases hf : force = true
      · rw [if_pos hf] at h
        obtain ⟨hsub2, hT1, hmax2, hG2, hsome2, hb2, _⟩ := ih T0 _ r T1 b hT0
          (fun x hx => by rw [hG]; exact hends x (List.mem_cons_of_mem _ hx)) h
        refine ⟨Sub.trans hsub hsub2, hT1, by rw [hmax2, hmax], by rw [hG2, hG], ?_, ?_, ?_⟩
        · intro e he
          rcases hsome2 e he with h1 | ⟨h1, h2⟩
          · cases res with
            | none =>
              simp only [Option.orElse] at h1
              cases h1
              exact Or.inr ⟨by rw [hdc']; exact List.mem_cons_self _ _, hdc⟩
            | some x =>
              simp only [Option.orElse] at h1
              exact Or.inl h1
          · exact Or.inr ⟨List.mem_cons_of_mem _ h1, h2⟩
        · intro hb
          obtain ⟨e, he, hmem, hcyc⟩ := hb2 hb
          exact ⟨e, he, List.mem_cons_of_mem _ hmem, hcyc⟩
        · intro hff
          rw [hff] at hf
          cases hf
      · rw [if_neg hf] at h
        simp only [Prod.mk.injEq] at h
        obtain ⟨rfl, rfl, rfl⟩ := h
        refine ⟨hsub, hT0, hmax, hG, ?_, ?_, ?_⟩
        · intro e he
          cases he
          exact Or.inr ⟨by rw [hdc']; exact List.mem_cons_self _ _, hdc⟩
        · intro _
          exact ⟨d, rfl, by rw [hdc']; exact List.mem_cons_self _ _, hdc⟩
        · intro _ hb
          cases hb
    · rename_i T0 hg
      obtain ⟨hsub, hT0, hmax, hG, _, hnone⟩ :=
        getPotentialDeadlockIfExist_spec hT c.path c.agents hc_ends _ _ hg
      obtain ⟨hsub2, hT1, hmax2, hG2, hsome2, hb2, hb3⟩ := ih T0 res r T1 b hT0
        (fun x hx => by rw [hG]; exact hends x (List.mem_cons_of_mem _ hx)) h
      refine ⟨Sub.trans hsub hsub2, hT1, by rw [hmax2, hmax], by rw [hG2, hG], ?_, ?_, ?_⟩
      · intro e he
        rcases hsome2 e he with h1 | ⟨h1, h2⟩
        · exact Or.inl h1
        · exact Or.inr ⟨List.mem_cons_of_mem _ h1, h2⟩
      · intro hb
        obtain ⟨e, he, hmem, hcyc⟩ := hb2 hb
        exact ⟨e, he, List.mem_cons_of_mem _ hmem, hcyc⟩
      · intro hff hb
        obtain ⟨hr, hall⟩ := hb3 hff hb
        refine ⟨hr, ?_⟩
        intro x hx
        rcases List.mem_cons.1 hx with rfl | hx
        · rcases hnone rfl with h1 | ⟨h1, h2⟩
          · exact Or.inl h1
          · exact Or.inr ⟨h1, has_mono hsub2 h2⟩
        · rcases hall x hx with h1 | h1
          · left
            rw [← rejected_congr hmax]
            exact h1
          · exact Or.inr h1

/-- The unit fragment of a move between two vertices of the graph is entered and the table
stays well-formed. -/
theorem registerUnit_spec {T : TableFragment} (hT : T.WFT) (id u v : Nat)
    (hu : u < T.G.nodesSize) (hv : v < T.G.nodesSize) :
    T.Sub (T.registerUnit id u v) ∧ (T.registerUnit id u v).WFT ∧
    (T.registerUnit id u v).max_fragment_size = T.max_fragment_size ∧
    (T.registerUnit id u v).G = T.G ∧ (T.registerUnit id u v).Has ⟨[u, v], [id]⟩ := by
  unfold registerUnit
  split
  · rename_i hdup
    refine ⟨Sub.refl _, hT, rfl, rfl, ?_⟩
    unfold existDuplication at hdup
    rw [List.any_eq_true] at hdup
    obtain ⟨c, hc, hceq⟩ := hdup
    simp only [Bool.and_eq_true, beq_iff_eq] at hceq
    have hce : c = ⟨[u, v], [id]⟩ := by
      cases c
      simp only [Fragment.mk.injEq]
      exact hceq
    subst hce
    simp only [List.headD_cons] at hc
    obtain ⟨_, w, hw, hcw⟩ := hT.from_ok u _ hc
    exact ⟨u, w, rfl, hw, hc, hcw⟩
  · refine ⟨createNewFragment_sub T _ _,
      WFT.createNewFragment hT [u, v] [id] u v rfl rfl hu hv, rfl, rfl, u, v, rfl, rfl, ?_, ?_⟩
    · exact (mem_fromAt_createNewFragment T _ _ u _).2
        (Or.inr ⟨rfl, rfl, by simp only [List.headD_cons]; rw [hT.len_from]; exact hu⟩)
    · exact (mem_toAt_createNewFragment T _ _ v _).2
        (Or.inr ⟨rfl, rfl, by
          show ([u, v] : List Nat).getLastD 0 < T.t_to.length
          rw [hT.len_to]; exact hv⟩)

end TableFragment

namespace TableFragment

/-- The loop of `registerNewPath` over the units of a path inside the graph, with
`force = false`: the table grows and stays well-formed; a reported fragment is a closed
candidate that mentions the agent; and when nothing is reported and no deadline passes,
every unit and every candidate that is not rejected has been entered, none of them closed. -/
theorem registerUnits_spec (id : Nat) (expired : Nat → Bool) :
    ∀ (ms : List (Nat × Nat)) (T : TableFragment) (t : Nat) (res r : Option Fragment)
      (T1 : TableFragment), T.WFT →
      (∀ uv ∈ ms, uv.1 < T.G.nodesSize ∧ uv.2 < T.G.nodesSize) →
      registerUnits id false expired ms t res T = (r, T1) →
      T.Sub T1 ∧ T1.WFT ∧ T1.max_fragment_size = T.max_fragment_size ∧ T1.G = T.G ∧
      (∀ d, r = some d → res = some d ∨
        (d.isCycle = true ∧ id ∈ d.agents ∧ d.EndsIn T.G.nodesSize)) ∧
      ((∀ t, expired t = false) → res = none → r = none →
        ∀ uv ∈ ms, T1.Has ⟨[uv.1, uv.2], [id]⟩ ∧
          ∀ c ∈ T.candidates id uv.1 uv.2,
            T.rejected c.path c.agents = true ∨ (c.isCycle = false ∧ T1.Has c)) := by
  intro ms
  induction ms with
  | nil =>
    intro T t res r T1 hT _ h
    simp only [registerUnits, Prod.mk.injEq] at h
    obtain ⟨rfl, rfl⟩ := h
    exact ⟨Sub.refl _, hT, rfl, rfl, fun d hd => Or.inl hd,
      fun _ _ _ uv huv => (by cases huv)⟩
  | cons m ms ih =>
    intro T t res r T1 hT hrange h
    obtain ⟨u, v⟩ := m
    have huv := hrange (u, v) (List.mem_cons_self _ _)
    simp only at huv
    unfold registerUnits at h
    split at h
    · rename_i hexp
      simp only [Prod.mk.injEq] at h
      obtain ⟨rfl, rfl⟩ := h
      refine ⟨Sub.refl _, hT, rfl, rfl, fun d hd => (by cases hd), ?_⟩
      intro hall
      rw [hall t] at hexp
      cases hexp
    · have hcands : ∀ c ∈ T.candidates id u v, c.EndsIn T.G.nodesSize :=
        fun c hc => candidates_endsIn hT id u v huv.1 huv.2 c hc
      split at h
      · rename_i res1 T0 hpc
        simp only [Prod.mk.injEq] at h
        obtain ⟨rfl, rfl⟩ := h
        obtain ⟨hsub, hT0, hmax, hG, _, hb, _⟩ :=
          processCandidates_spec false _ T res _ _ _ hT hcands hpc
        obtain ⟨d, hd, hdm, hdc⟩ := hb rfl
        refine ⟨hsub, hT0, hmax, hG, ?_, ?_⟩
        · intro e he
          rw [hd] at he
          cases he
          exact Or.inr ⟨hdc, candidates_agent T id u v d hdm, hcands d hdm⟩
        · intro _ _ hr
          rw [hd] at hr
          cases hr
      · rename_i res1 T0 hpc
        obtain ⟨hsub, hT0, hmax, hG, _, _, hb⟩ :=
          processCandidates_spec false _ T res _ _ _ hT hcands hpc
        obtain ⟨hres1, hall⟩ := hb rfl rfl
        subst hres1
        obtain ⟨hsubU, hTU, hmaxU, hGU, hhasU⟩ :=
          registerUnit_spec hT0 id u v (by rw [hG]; exact huv.1) (by rw [hG]; exact huv.2)
        obtain ⟨hsub2, hT1, hmax2, hG2, hsome2, hnone2⟩ := ih _ (t + 1) res1 r T1 hTU
          (fun x hx => by
            rw [hGU, hG]; exact hrange x (List.mem_cons_of_mem _ hx)) h
        have hsubT : T.Sub (T0.registerUnit id u v) := Sub.trans hsub hsubU
        refine ⟨Sub.trans hsubT hsub2, hT1, by rw [hmax2, hmaxU, hmax], by rw [hG2, hGU, hG],
          ?_, ?_⟩
        · intro d hd
          rcases hsome2 d hd with h1 | ⟨h1, h2, h3⟩
          · exact Or.inl h1
          · rw [hGU, hG] at h3
            exact Or.inr ⟨h1, h2, h3⟩
        intro hexp hres hr x hx
        rcases List.mem_cons.1 hx with rfl | hx
        · refine ⟨has_mono hsub2 hhasU, ?_⟩
          intro c hc
          rcases hall c hc with h1 | ⟨h1, h2⟩
          · exact Or.inl h1
          · exact Or.inr ⟨h1, has_mono (Sub.trans hsubU hsub2) h2⟩
        · obtain ⟨h1, h2⟩ := hnone2 hexp hres hr x hx
          refine ⟨h1, ?_⟩
          intro c hc
          rcases h2 c (candidates_mono hsubT id x.1 x.2 c hc) with h3 | h3
          · left
            rw [← rejected_congr (show (T0.registerUnit id u v).max_fragment_size =
              T.max_fragment_size by rw [hmaxU, hmax])]
            exact h3
          · exact Or.inr h3

theorem mem_moves_range (path : Path) (N : Nat) (hp : ∀ x ∈ path, x < N) :
    ∀ uv ∈ moves path, uv.1 < N ∧ uv.2 < N := by
  intro uv huv
  unfold moves at huv
  obtain ⟨a, b⟩ := uv
  have h := List.of_mem_zip huv
  exact ⟨hp a h.1, hp b (List.mem_of_mem_tail h.2)⟩

/-- The call `registerNewPath(id, path, false, ...)` for a path inside the graph. -/
theorem registerNewPath_spec {T : TableFragment} (hT : T.WFT) (id : Nat) (path : Path)
    (expired : Nat → Bool) (hp : ∀ x ∈ path, x < T.G.nodesSize)
    (r : Option Fragment) (T1 : TableFragment)
    (h : T.registerNewPath id path false expired = (r, T1)) :
    T.Sub T1 ∧ T1.WFT ∧ T1.max_fragment_size = T.max_fragment_size ∧ T1.G = T.G ∧
    (∀ d, r = some d → d.isCycle = true ∧ id ∈ d.agents ∧
      ∃ x, d.path.head? = some x ∧ d.path.getLast? = some x) ∧
    ((∀ t, expired t = false) → r = none →
      ∀ uv ∈ moves path, T1.Has ⟨[uv.1, uv.2], [id]⟩ ∧
        ∀ c ∈ T.candidates id uv.1 uv.2,
          T.rejected c.path c.agents = true ∨ (c.isCycle = false ∧ T1.Has c)) := by
  unfold registerNewPath at h
  obtain ⟨h1, h2, h3, h4, h5, h6⟩ := registerUnits_spec id expired (moves path) T 0 none r T1 hT
    (mem_moves_range path _ hp) h
  refine ⟨h1, h2, h3, h4, ?_, fun hexp hr => h6 hexp rfl hr⟩
  intro d hd
  rcases h5 d hd with h | ⟨h7, h8, a, b, ha, hb, _, _⟩
  · cases h
  · refine ⟨h7, h8, a, ha, ?_⟩
    unfold Fragment.isCycle at h7
    rw [ha, hb] at h7
    simp only [beq_iff_eq, Option.some.injEq] at h7
    rw [hb, h7]

end TableFragment

namespace TableFragment

/-- **C9.** Swap deadlock detection, for a well-formed table with unbounded fragment size and
no deadline: if a path of agent `a` with a move `u → v` has been registered and `nullptr` was
returned, and then a path of another agent `b` with the move `v → u` is registered with
`force = false`, the second call returns a fragment whose path is closed (front = back). All
vertices of the two paths belong to the graph. -/
theorem C9_swap_deadlock (T : TableFragment) (hT : T.WFT) (hmax : T.max_fragment_size ≤ 0)
    (a b u v : Nat) (hab : a ≠ b) (p q : Path)
    (hp : ∀ x ∈ p, x < T.G.nodesSize) (hq : ∀ x ∈ q, x < T.G.nodesSize)
    (hpm : (u, v) ∈ moves p) (hqm : (v, u) ∈ moves q) (T1 : TableFragment)
    (h1 : T.registerNewPath a p false (fun _ => false) = (none, T1)) :
    ∃ d T2, T1.registerNewPath b q false (fun _ => false) = (some d, T2) ∧
      ∃ x, d.path.head? = some x ∧ d.path.getLast? = some x := by
  obtain ⟨_, hT1, hmax1, hG1, _, hnone1⟩ := registerNewPath_spec hT a p _ hp none T1 h1
  obtain ⟨hunit, _⟩ := hnone1 (fun _ => rfl) rfl (u, v) hpm
  obtain ⟨x, y, hx, hy, _, hto⟩ := hunit
  simp only [List.getLast?_cons_cons, List.getLast?_singleton, Option.some.injEq] at hy
  subst hy
  cases hres : T1.registerNewPath b q false (fun _ => false) with
  | mk r T2 =>
    obtain ⟨_, _, _, _, hsome2, hnone2⟩ :=
      registerNewPath_spec hT1 b q _ (by rw [hG1]; exact hq) r T2 hres
    cases r with
    | some d => exact ⟨d, T2, rfl, (hsome2 d rfl).2.2⟩
    | none =>
      exfalso
      obtain ⟨_, hall⟩ := hnone2 (fun _ => rfl) rfl (v, u) hqm
      have hcand : (⟨[u, v] ++ [u], [a] ++ [b]⟩ : Fragment) ∈ T1.candidates b v u := by
        rw [mem_candidates]
        exact Or.inl ⟨⟨[u, v], [a]⟩, hto, by simp [Ne.symm hab], rfl⟩
      rcases hall _ hcand with h | ⟨h, _⟩
      · rw [rejected_unbounded (by rw [hmax1]; exact hmax) _ _ (by simp [hab])] at h
        cases h
      · simp [Fragment.isCycle] at h

/-- Witness for C9: the test `swapDeadlock`, paths `[0,1,2]` of agent 1 and `[3,2,1]` of
agent 2 on the 3x3 grid. -/
theorem C9_swap_deadlock_witness :
    ∃ d T2, ((TableFragment.new grid3 (-1)).registerNewPath 1 [0, 1, 2] false
        (fun _ => false)).2.registerNewPath 2 [3, 2, 1] false (fun _ => false) = (some d, T2) ∧
      ∃ x, d.path.head? = some x ∧ d.path.getLast? = some x :=
  C9_swap_deadlock (TableFragment.new grid3 (-1)) (WFT.new grid3 (-1)) (by decide) 1 2 1 2
    (by decide) [0, 1, 2] [3, 2, 1] (by decide) (by decide) (by decide) (by decide) _
    (by rfl)

end TableFragment

namespace TableFragment

theorem getPotentialDeadlockIfExist_some (T : TableFragment) (path agents : List Nat)
    (d : Fragment) (T1 : TableFragment)
    (h : T.getPotentialDeadlockIfExist path agents = (some d, T1)) : d = ⟨path, agents⟩ := by
  unfold getPotentialDeadlockIfExist at h
  split at h
  · cases h
  · split at h
    · simp only [Prod.mk.injEq, Option.some.injEq] at h
      exact h.1.symm
    · split at h <;> cases h

theorem processCandidates_some (force : Bool) :
    ∀ (cs : List Fragment) (res : Option Fragment) (T : TableFragment) (r : Option Fragment)
      (T1 : TableFragment) (b : Bool), processCandidates force cs res T = (r, T1, b) →
      ∀ d, r = some d → res = some d ∨ d ∈ cs := by
  intro cs
  induction cs with
  | nil =>
    intro res T r T1 b h d hd
    simp only [processCandidates, Prod.mk.injEq] at h
    rw [← h.1] at hd
    exact Or.inl hd
  | cons c cs ih =>
    intro res T r T1 b h d hd
    unfold processCandidates at h
    split at h
    · rename_i e T0 hg
      have he : e = c := by
        rw [getPotentialDeadlockIfExist_some T c.path c.agents e T0 hg]
      split at h
      · rcases ih _ _ _ _ _ h d hd with h1 | h1
        · cases res with
          | none =>
            simp only [Option.orElse, Option.some.injEq] at h1
            exact Or.inr (by rw [← h1, he]; exact List.mem_cons_self _ _)
          | some x =>
            simp only [Option.orElse] at h1
            exact Or.inl h1
        · exact Or.inr (List.mem_cons_of_mem _ h1)
      · simp only [Prod.mk.injEq] at h
        rw [← h.1] at hd
        simp only [Option.some.injEq] at hd
        exact Or.inr (by rw [← hd, he]; exact List.mem_cons_self _ _)
    · rcases ih _ _ _ _ _ h d hd with h1 | h1
      · exact Or.inl h1
      · exact Or.inr (List.mem_cons_of_mem _ h1)

theorem registerUnits_some (id : Nat) (force : Bool) (expired : Nat → Bool) :
    ∀ (ms : List (Nat × Nat)) (t : Nat) (res : Option Fragment) (T : TableFragment)
      (r : Option Fragment) (T1 : TableFragment),
      registerUnits id force expired ms t res T = (r, T1) →
      ∀ d, r = some d → res = some d ∨ id ∈ d.agents := by
  intro ms
  induction ms with
  | nil =>
    intro t res T r T1 h d hd
    simp only [registerUnits, Prod.mk.injEq] at h
    rw [← h.1] at hd
    exact Or.inl hd
  | cons m ms ih =>
    intro t res T r T1 h d hd
    obtain ⟨u, v⟩ := m
    unfold registerUnits at h
    split at h
    · simp only [Prod.mk.injEq] at h
      rw [← h.1] at hd
      cases hd
    · split at h
      · rename_i res1 T0 hpc
        simp only [Prod.mk.injEq] at h
        rw [← h.1] at hd
        rcases processCandidates_some force _ _ _ _ _ _ hpc d hd with h1 | h1
        · exact Or.inl h1
        · exact Or.inr (candidates_agent T id u v d h1)
      · rename_i res1 T0 hpc
        rcases ih _ _ _ _ _ h d hd with h1 | h1
        · rcases processCandidates_some force _ _ _ _ _ _ hpc d h1 with h2 | h2
          · exact Or.inl h2
          · exact Or.inr (candidates_agent T id u v d h2)
        · exact Or.inr h1

/-- A fragment that `registerNewPath` hands back mentions the agent of the call. -/
theorem registerNewPath_some (T : TableFragment) (id : Nat) (path : Path) (force : Bool)
    (expired : Nat → Bool) (d : Fragment) (T1 : TableFragment)
    (h : T.registerNewPath id path force expired = (some d, T1)) : id ∈ d.agents := by
  rcases registerUnits_some id force expired _ _ _ _ _ _ h d rfl with h1 | h1
  · cases h1
  · exact h1

end TableFragment

namespace DBS

theorem constraintsOf_ne_nil (c : Fragment) (h : c.agents ≠ []) : constraintsOf c ≠ [] := by
  unfold constraintsOf
  intro e
  have := congrArg List.length e
  simp only [List.length_map, List.length_range, List.length_nil] at this
  exact h (List.length_eq_zero.1 this)

/-- When the loop of `getConstraints` yields no constraint and no deadline passes, every
registration of the loop returned `nullptr`. -/
theorem getConstraintsLoop_nil (D : DBS) (o : Oracle) (hdl : ∀ k, o.deadline k = false)
    (paths : Plan) :
    ∀ (len a k : Nat),
      (getConstraintsLoop o paths (List.range' a len) (D.tableAfter paths a) k).1 = [] →
      ∀ i, a ≤ i → i < a + len →
        ((D.tableAfter paths i).registerNewPath i (paths.getD i []) false
          (fun _ => false)).1 = none := by
  have hfun : ∀ k, (fun t => o.deadline (k + t)) = (fun _ => false) := by
    intro k
    funext t
    exact hdl _
  intro len
  induction len with
  | zero => intro a k _ i h1 h2; omega
  | succ len ih =>
    intro a k h i h1 h2
    rw [List.range'_succ] at h
    unfold getConstraintsLoop at h
    rw [hfun k] at h
    split at h
    · rename_i c T1 hreg
      exfalso
      have := TableFragment.registerNewPath_some _ _ _ _ _ _ _ hreg
      exact constraintsOf_ne_nil c (List.ne_nil_of_mem this) h
    · rename_i T1 hreg
      by_cases hia : i = a
      · subst hia
        rw [hreg]
      · have hta : D.tableAfter paths (a + 1) = T1 := by
          simp only [tableAfter]
          rw [hreg]
        rw [← hta] at h
        exact ih (a + 1) _ h i (by omega) (by omega)

/-- **C1.** Whenever `DBS::run` ends with `solved = true` and no deadline expired during
fragment registration, `getConstraints` returns the empty list for the returned solution
(whatever the query counter), and registering the paths of the solution in index order with
`force = false` into a fresh fragment table returns `nullptr` for every agent. -/
theorem C1_solved_plan_has_no_deadlock (D : DBS) (o : Oracle) (fuel hfuel k : Nat)
    (out : Outcome) (hrun : D.run o fuel hfuel k = some out) (hsolved : out.solved = true)
    (hdl : ∀ k, o.deadline k = false) :
    (∀ k0, (D.getConstraints o out.solution k0).1 = []) ∧
    ∀ i, i < D.S.P.getNum →
      ((D.tableAfter out.solution i).registerNewPath i (out.solution.getD i []) false
        (fun _ => false)).1 = none := by
  obtain ⟨n, k0, _, hsol, hnil⟩ := run_solved D o fuel hfuel k out hrun hsolved
  rw [hsol]
  unfold getConstraints at hnil
  rw [List.range_eq_range'] at hnil
  have hall := getConstraintsLoop_nil D o hdl n.paths D.S.P.getNum 0 k0 hnil
  have hregs : ∀ i, i < D.S.P.getNum →
      ((D.tableAfter n.paths i).registerNewPath i (n.paths.getD i []) false
        (fun _ => false)).1 = none := fun i hi => hall i (by omega) (by omega)
  refine ⟨?_, hregs⟩
  intro k1
  unfold getConstraints
  rw [List.range_eq_range']
  have hfun : ∀ k, (fun t => o.deadline (k + t)) = (fun _ => false) := by
    intro k
    funext t
    exact hdl _
  have key : ∀ (len a k : Nat), (∀ i, a ≤ i → i < a + len →
      ((D.tableAfter n.paths i).registerNewPath i (n.paths.getD i []) false
        (fun _ => false)).1 = none) →
      (getConstraintsLoop o n.paths (List.range' a len) (D.tableAfter n.paths a) k).1 = [] := by
    intro len
    induction len with
    | zero => intro a k _; simp [getConstraintsLoop]
    | succ len ih =>
      intro a k h
      rw [List.range'_succ]
      unfold getConstraintsLoop
      rw [hfun k]
      have ha := h a (by omega) (by omega)
      split
      · rename_i c T1 hreg
        rw [hreg] at ha
        cases ha
      · rename_i T1 hreg
        have hta : D.tableAfter n.paths (a + 1) = T1 := by
          simp only [tableAfter]
          rw [hreg]
        rw [← hta]
        exact ih (a + 1) _ (fun i h1 h2 => h i (by omega) (by omega))
  exact key D.S.P.getNum 0 k1 (fun i _ h2 => hregs i (by omega))

/-- Witness for C1: the run on the demo instance. -/
theorem C1_solved_plan_has_no_deadlock_witness :
    (∀ k0, (demoDBS.getConstraints plainOracle [[0, 1, 2], [2, 5, 4, 3, 0]] k0).1 = []) ∧
    ∀ i, i < demoDBS.S.P.getNum →
      ((demoDBS.tableAfter [[0, 1, 2], [2, 5, 4, 3, 0]] i).registerNewPath i
        (([[0, 1, 2], [2, 5, 4, 3, 0]] : Plan).getD i []) false (fun _ => false)).1 = none :=
  C1_solved_plan_has_no_deadlock demoDBS plainOracle 40 10 0
    ⟨true, false, [[0, 1, 2], [2, 5, 4, 3, 0]]⟩ demoDBS_run rfl (fun _ => rfl)

end DBS

/-! ### Chains of registered moves -/

theorem Linked.append : ∀ (l l2 : List Move) (x : Nat),
    Linked x (l ++ l2) ↔ Linked x l ∧ Linked (endOf x l) l2
  | [], l2, x => by simp [Linked, endOf]
  | m :: l, l2, x => by
    have ih := Linked.append l l2 m.dst
    show m.src = x ∧ Linked m.dst (l ++ l2) ↔
      (m.src = x ∧ Linked m.dst l) ∧ Linked (endOf m.dst l) l2
    rw [ih]
    exact and_assoc.symm

theorem endOf_append : ∀ (l l2 : List Move) (x : Nat),
    endOf x (l ++ l2) = endOf (endOf x l) l2
  | [], _, _ => by simp [endOf]
  | m :: l, l2, x => by
    show endOf m.dst (l ++ l2) = endOf (endOf m.dst l) l2
    exact endOf_append l l2 m.dst

theorem chainFrag_getLast? : ∀ (ms : List Move) (x : Nat),
    (chainFrag x ms).path.getLast? = some (endOf x ms)
  | [], x => by simp [chainFrag, endOf]
  | m :: ms, x => by
    have ih := chainFrag_getLast? ms m.dst
    simp only [chainFrag, List.map_cons, endOf] at ih ⊢
    rw [List.getLast?_cons_cons]
    exact ih

theorem chainFrag_head? (ms : List Move) (x : Nat) : (chainFrag x ms).path.head? = some x := by
  simp [chainFrag]

theorem inRegs_mono {regs regs2 : List (Nat × Path)} (h : ∀ r ∈ regs, r ∈ regs2) {m : Move}
    (hm : InRegs regs m) : InRegs regs2 m := by
  obtain ⟨p, hp, hmv⟩ := hm
  exact ⟨p, h _ hp, hmv⟩

namespace TableFragment

theorem Has.from_to {T : TableFragment} {x : Nat} {ms : List Move}
    (h : T.Has (chainFrag x ms)) :
    chainFrag x ms ∈ T.fromAt x ∧ chainFrag x ms ∈ T.toAt (endOf x ms) := by
  obtain ⟨a, b, ha, hb, h1, h2⟩ := h
  rw [chainFrag_head?] at ha
  rw [chainFrag_getLast?] at hb
  cases ha
  cases hb
  exact ⟨h1, h2⟩

/-- The fragment of a linked sequence `l1 ++ [m] ++ l2` is the unit of `m`, or one of the
candidates that the unit of `m` produces from the fragments of `l1` and `l2`. -/
theorem chain_is_candidate (T : TableFragment) (x : Nat) (l1 l2 : List Move) (m : Move)
    (hlink : Linked x (l1 ++ [m] ++ l2))
    (hnd : ((l1 ++ [m] ++ l2).map Move.agent).Nodup)
    (h1 : l1 ≠ [] → T.Has (chainFrag x l1)) (h2 : l2 ≠ [] → T.Has (chainFrag m.dst l2))
    (hne : l1 ≠ [] ∨ l2 ≠ []) :
    chainFrag x (l1 ++ [m] ++ l2) ∈ T.candidates m.agent m.src m.dst := by
  rw [Linked.append, Linked.append] at hlink
  obtain ⟨⟨hl1, hm⟩, hl2⟩ := hlink
  simp only [Linked, and_true] at hm
  have hnot1 : m.agent ∉ l1.map Move.agent := by
    intro hmem
    simp only [List.map_append, List.map_cons, List.map_nil, List.append_assoc] at hnd
    have := (List.nodup_append.1 hnd).2.2 hmem
    exact this (by simp)
  have hnot2 : m.agent ∉ l2.map Move.agent := by
    intro hmem
    simp only [List.map_append, List.map_cons, List.map_nil, List.append_assoc] at hnd
    have h3 := (List.nodup_append.1 hnd).2.1
    simp only [List.singleton_append, List.nodup_cons] at h3
    exact h3.1 hmem
  rw [mem_candidates]
  by_cases e1 : l1 = []
  · subst e1
    have e2 : l2 ≠ [] := by
      rcases hne with h | h
      · exact absurd rfl h
      · exact h
    simp only [endOf] at hm
    right; left
    refine ⟨chainFrag m.dst l2, (Has.from_to (h2 e2)).1, hnot2, ?_⟩
    simp [chainFrag, hm]
  · have hL := (Has.from_to (h1 e1)).2
    rw [← hm] at hL
    by_cases e2 : l2 = []
    · subst e2
      left
      refine ⟨chainFrag x l1, hL, hnot1, ?_⟩
      simp [chainFrag]
    · right; right
      refine ⟨chainFrag x l1, hL, chainFrag m.dst l2, (Has.from_to (h2 e2)).1, hnot1, hnot2, ?_⟩
      simp [chainFrag]

end TableFragment

namespace TableFragment

theorem inRegs_of_ne {regs : List (Nat × Path)} {a : Nat} {p : Path} {m : Move}
    (h : InRegs (regs ++ [(a, p)]) m) (hne : m.agent ≠ a) : InRegs regs m := by
  obtain ⟨p1, hp1, hmv⟩ := h
  rcases List.mem_append.1 hp1 with h1 | h1
  · exact ⟨p1, h1, hmv⟩
  · simp only [List.mem_singleton, Prod.mk.injEq] at h1
    exact absurd h1.1 hne

/-- A sequence of moves with pairwise different agents, one of them `a`, splits around the
move of `a`. -/
theorem split_at_agent (ms : List Move) (a : Nat) (ha : a ∈ ms.map Move.agent)
    (hnd : (ms.map Move.agent).Nodup) :
    ∃ l1 m l2, ms = l1 ++ [m] ++ l2 ∧ m.agent = a ∧
      (∀ y ∈ l1, y.agent ≠ a) ∧ (∀ y ∈ l2, y.agent ≠ a) := by
  obtain ⟨m, hm, hma⟩ := List.mem_map.1 ha
  obtain ⟨l1, l2, rfl⟩ := List.append_of_mem hm
  refine ⟨l1, m, l2, by simp, hma, ?_, ?_⟩
  · intro y hy hya
    simp only [List.map_append, List.map_cons] at hnd
    have := (List.nodup_append.1 hnd).2.2 (List.mem_map.2 ⟨y, hy, hya⟩)
    exact this (by simp [hma])
  · intro y hy hya
    simp only [List.map_append, List.map_cons] at hnd
    have h3 := (List.nodup_append.1 hnd).2.1
    simp only [List.nodup_cons] at h3
    exact h3.1 (List.mem_map.2 ⟨y, hy, by rw [hya, hma]⟩)

/-- A registration that reports nothing keeps the table closed under chaining, now with the
moves of the new path included (unbounded fragment size, no deadline). -/
theorem Closed.register {T : TableFragment} (hT : T.WFT) (hmax : T.max_fragment_size ≤ 0)
    (regs : List (Nat × Path)) (hcl : T.Closed regs) (a : Nat) (p : Path)
    (hp : ∀ x ∈ p, x < T.G.nodesSize) (T1 : TableFragment)
    (h : T.registerNewPath a p false (fun _ => false) = (none, T1)) :
    T1.Closed (regs ++ [(a, p)]) := by
  obtain ⟨hsub, _, _, _, _, hnone⟩ := registerNewPath_spec hT a p _ hp none T1 h
  have hspec := hnone (fun _ => rfl) rfl
  intro x ms hne hlink hnd hin
  by_cases ha : a ∈ ms.map Move.agent
  · obtain ⟨l1, m, l2, rfl, hma, hl1, hl2⟩ := split_at_agent ms a ha hnd
    have hinm := hin m (by simp)
    obtain ⟨p1, hp1, hmv⟩ := hinm
    have hin1 : ∀ y ∈ l1, InRegs regs y := fun y hy =>
      inRegs_of_ne (hin y (by simp [hy])) (hl1 y hy)
    have hin2 : ∀ y ∈ l2, InRegs regs y := fun y hy =>
      inRegs_of_ne (hin y (by simp [hy])) (hl2 y hy)
    rcases List.mem_append.1 hp1 with hold | hnew
    · refine has_mono hsub (hcl x _ hne hlink hnd ?_)
      intro y hy
      simp only [List.mem_append, List.mem_singleton] at hy
      rcases hy with (hy | hy) | hy
      · exact hin1 y hy
      · rw [hy]; exact ⟨p1, hold, hmv⟩
      · exact hin2 y hy
    · simp only [List.mem_singleton, Prod.mk.injEq] at hnew
      obtain ⟨_, rfl⟩ := hnew
      obtain ⟨hunit, hcands⟩ := hspec (m.src, m.dst) hmv
      have hlink' := hlink
      rw [Linked.append, Linked.append] at hlink'
      obtain ⟨⟨hk1, hkm⟩, hk2⟩ := hlink'
      simp only [Linked, and_true] at hkm
      have hend : endOf x (l1 ++ [m]) = m.dst := by
        rw [endOf_append]
        rfl
      rw [hend] at hk2
      have hnd1 : (l1.map Move.agent).Nodup := by
        simp only [List.map_append, List.append_assoc] at hnd
        exact (List.nodup_append.1 hnd).1
      have hnd2 : (l2.map Move.agent).Nodup := by
        simp only [List.map_append, List.append_assoc] at hnd
        exact (List.nodup_append.1 (List.nodup_append.1 hnd).2.1).2.1
      by_cases hboth : l1 = [] ∧ l2 = []
      · obtain ⟨rfl, rfl⟩ := hboth
        simp only [endOf] at hkm
        have : chainFrag x ([] ++ [m] ++ []) = ⟨[m.src, m.dst], [m.agent]⟩ := by
          simp [chainFrag, hkm]
        rw [this, hma]
        exact hunit
      · have hne2 : l1 ≠ [] ∨ l2 ≠ [] := by
          by_contra hc
          push_neg at hc
          exact hboth hc
        have hc := chain_is_candidate T x l1 l2 m hlink hnd
          (fun e => hcl x l1 e hk1 hnd1 hin1) (fun e => hcl m.dst l2 e hk2 hnd2 hin2) hne2
        rw [hma] at hc
        rcases hcands _ hc with hrej | ⟨_, hhas⟩
        · have hnr := rejected_unbounded hmax (chainFrag x (l1 ++ [m] ++ l2)).path
            (chainFrag x (l1 ++ [m] ++ l2)).agents hnd
          rw [hnr] at hrej
          cases hrej
        · exact hhas
  · refine has_mono hsub (hcl x ms hne hlink hnd ?_)
    intro y hy
    exact inRegs_of_ne (hin y hy) (fun e => ha (List.mem_map.2 ⟨y, hy, e⟩))

/-- Registrations that all report nothing leave a well-formed table that is closed under
chaining of the registered moves. -/
theorem registerAll_closed :
    ∀ (regs done : List (Nat × Path)) (T T1 : TableFragment), T.WFT →
      T.max_fragment_size ≤ 0 → T.Closed done →
      (∀ r ∈ regs, ∀ x ∈ r.2, x < T.G.nodesSize) →
      T.registerAll regs = some T1 →
      T1.WFT ∧ T1.max_fragment_size ≤ 0 ∧ T1.G = T.G ∧ T1.Closed (done ++ regs) := by
  intro regs
  induction regs with
  | nil =>
    intro done T T1 hT hmax hcl _ h
    simp only [registerAll, Option.some.injEq] at h
    subst h
    exact ⟨hT, hmax, rfl, by simpa using hcl⟩
  | cons r regs ih =>
    intro done T T1 hT hmax hcl hrange h
    obtain ⟨a, p⟩ := r
    unfold registerAll at h
    split at h
    · rename_i T0 hreg
      have hp : ∀ x ∈ p, x < T.G.nodesSize := hrange (a, p) (List.mem_cons_self _ _)
      obtain ⟨_, hT0, hmax0, hG0, _, _⟩ := registerNewPath_spec hT a p _ hp none T0 hreg
      have hcl0 := Closed.register hT hmax done hcl a p hp T0 hreg
      obtain ⟨h1, h2, h3, h4⟩ := ih (done ++ [(a, p)]) T0 T1 hT0 (by rw [hmax0]; exact hmax) hcl0
        (fun r hr => by rw [hG0]; exact hrange r (List.mem_cons_of_mem _ hr)) h
      refine ⟨h1, h2, by rw [h3, hG0], ?_⟩
      simpa using h4
    · cases h

end TableFragment

namespace TableFragment

/-- **C10.** Rotational deadlock detection, for a well-formed table with unbounded fragment
size and no deadline: paths of pairwise different agents are registered one after another
with `force = false` and every earlier call returned `nullptr` (`registerAll`); the moves of
the registered paths and of the final path `q` of agent `b` contain a directed cycle of
`k ≥ 2` moves that belong to `k` different agents, one of them `b`. Then the final call
returns a fragment whose path is closed (front = back). All vertices of the paths belong to
the graph. -/
theorem C10_rotational_deadlock (T : TableFragment) (hT : T.WFT)
    (hmax : T.max_fragment_size ≤ 0) (regs : List (Nat × Path)) (b : Nat) (q : Path)
    (hagents : (regs.map Prod.fst ++ [b]).Nodup)
    (hrange : ∀ r ∈ regs, ∀ x ∈ r.2, x < T.G.nodesSize) (hq : ∀ x ∈ q, x < T.G.nodesSize)
    (T1 : TableFragment) (hregs : T.registerAll regs = some T1)
    (x : Nat) (ms : List Move) (hk : 2 ≤ ms.length) (hlink : Linked x ms)
    (hcyc : endOf x ms = x) (hnd : (ms.map Move.agent).Nodup)
    (hin : ∀ m ∈ ms, InRegs (regs ++ [(b, q)]) m) (hb : b ∈ ms.map Move.agent) :
    ∃ d T2, T1.registerNewPath b q false (fun _ => false) = (some d, T2) ∧
      ∃ y, d.path.head? = some y ∧ d.path.getLast? = some y := by
  have hcl0 : T.Closed [] := by
    intro y l hne _ _ hin0
    obtain ⟨m, hm⟩ := List.exists_mem_of_ne_nil l hne
    obtain ⟨_, hp, _⟩ := hin0 m hm
    simp at hp
  obtain ⟨hT1, hmax1, hG1, hcl1⟩ := registerAll_closed regs [] T T1 hT hmax hcl0 hrange hregs
  simp only [List.nil_append] at hcl1
  obtain ⟨l1, m, l2, rfl, hma, hl1, hl2⟩ := split_at_agent ms b hb hnd
  have hbnot : b ∉ regs.map Prod.fst := by
    intro hmem
    have := (List.nodup_append.1 hagents).2.2 hmem
    exact this (by simp)
  have hmq : (m.src, m.dst) ∈ moves q := by
    obtain ⟨p1, hp1, hmv⟩ := hin m (by simp)
    rcases List.mem_append.1 hp1 with h | h
    · exact absurd (List.mem_map.2 ⟨_, h, hma⟩) hbnot
    · simp only [List.mem_singleton, Prod.mk.injEq] at h
      rw [← h.2]; exact hmv
  have hlink' := hlink
  rw [Linked.append, Linked.append] at hlink'
  obtain ⟨⟨hk1, hkm⟩, hk2⟩ := hlink'
  simp only [Linked, and_true] at hkm
  have hend : endOf x (l1 ++ [m]) = m.dst := by
    rw [endOf_append]
    rfl
  rw [hend] at hk2
  have hcyc2 : endOf m.dst l2 = x := by
    rw [endOf_append, hend] at hcyc
    exact hcyc
  have hrot_ne : l2 ++ l1 ≠ [] := by
    intro e
    have := congrArg List.length e
    simp only [List.length_append, List.length_cons, List.length_nil] at hk this
    omega
  have hrot_link : Linked m.dst (l2 ++ l1) := by
    rw [Linked.append, hcyc2]
    exact ⟨hk2, hk1⟩
  have hrot_end : endOf m.dst (l2 ++ l1) = m.src := by
    rw [endOf_append, hcyc2, hkm]
  have hperm : ((l2 ++ l1).map Move.agent ++ [b]).Perm ((l1 ++ [m] ++ l2).map Move.agent) := by
    simp only [List.map_append, List.map_cons, List.map_nil, hma]
    rw [List.append_assoc (l2.map Move.agent) (l1.map Move.agent) [b]]
    exact List.perm_append_comm
  have hnd_all : ((l2 ++ l1).map Move.agent ++ [b]).Nodup := hperm.nodup_iff.2 hnd
  have hrot_nd : ((l2 ++ l1).map Move.agent).Nodup := (List.nodup_append.1 hnd_all).1
  have hrot_in : ∀ y ∈ l2 ++ l1, InRegs regs y := by
    intro y hy
    rcases List.mem_append.1 hy with h | h
    · exact inRegs_of_ne (hin y (by simp [h])) (hl2 y h)
    · exact inRegs_of_ne (hin y (by simp [h])) (hl1 y h)
  have hhas := hcl1 m.dst (l2 ++ l1) hrot_ne hrot_link hrot_nd hrot_in
  have hto := (Has.from_to hhas).2
  rw [hrot_end] at hto
  have hbrot : b ∉ (chainFrag m.dst (l2 ++ l1)).agents := by
    intro hmem
    obtain ⟨y, hy, hya⟩ := List.mem_map.1 hmem
    rcases List.mem_append.1 hy with h | h
    · exact hl2 y h hya
    · exact hl1 y h hya
  have hcand : (⟨(chainFrag m.dst (l2 ++ l1)).path ++ [m.dst],
      (chainFrag m.dst (l2 ++ l1)).agents ++ [b]⟩ : Fragment) ∈
      T1.candidates b m.src m.dst := by
    rw [mem_candidates]
    exact Or.inl ⟨_, hto, hbrot, rfl⟩
  cases hres : T1.registerNewPath b q false (fun _ => false) with
  | mk r T2 =>
    obtain ⟨_, _, _, _, hsome2, hnone2⟩ :=
      registerNewPath_spec hT1 b q _ (by rw [hG1]; exact hq) r T2 hres
    cases r with
    | some d => exact ⟨d, T2, rfl, (hsome2 d rfl).2.2⟩
    | none =>
      exfalso
      obtain ⟨_, hall⟩ := hnone2 (fun _ => rfl) rfl (m.src, m.dst) hmq
      rcases hall _ hcand with h | ⟨h, _⟩
      · have hnr := rejected_unbounded hmax1 ((chainFrag m.dst (l2 ++ l1)).path ++ [m.dst])
          ((chainFrag m.dst (l2 ++ l1)).agents ++ [b]) hnd_all
        rw [hnr] at h
        cases h
      · have hcy : (Fragment.mk ((chainFrag m.dst (l2 ++ l1)).path ++ [m.dst])
            ((chainFrag m.dst (l2 ++ l1)).agents ++ [b])).isCycle = true := by
          unfold Fragment.isCycle
          simp only [chainFrag, List.cons_append, List.head?_cons]
          rw [← List.cons_append, List.getLast?_append]
          simp
        rw [hcy] at h
        cases h

/-- Witness for C10: the test `cycleDeadlock`, paths `[0,3,6]`, `[3,4,5]`, `[7,4,1]` of the
agents 1, 2, 3 and then `[2,1,0]` of agent 4 on the 3x3 grid; the cycle is
`0 → 3 → 4 → 1 → 0`. -/
theorem C10_rotational_deadlock_witness :
    ∃ d T2, (((((TableFragment.new grid3 (-1)).registerNewPath 1 [0, 3, 6] false
        (fun _ => false)).2.registerNewPath 2 [3, 4, 5] false
        (fun _ => false)).2.registerNewPath 3 [7, 4, 1] false
        (fun _ => false)).2).registerNewPath 4 [2, 1, 0] false (fun _ => false) = (some d, T2) ∧
      ∃ y, d.path.head? = some y ∧ d.path.getLast? = some y :=
  C10_rotational_deadlock (TableFragment.new grid3 (-1)) (WFT.new grid3 (-1)) (by decide)
    [(1, [0, 3, 6]), (2, [3, 4, 5]), (3, [7, 4, 1])] 4 [2, 1, 0] (by decide) (by decide)
    (by decide) _ (by rfl) 0 [⟨1, 0, 3⟩, ⟨2, 3, 4⟩, ⟨3, 4, 1⟩, ⟨4, 1, 0⟩] (by decide)
    ⟨rfl, rfl, rfl, rfl, trivial⟩ (by decide) (by decide)
    (by
      intro m hm
      simp only [List.mem_cons, List.mem_singleton, List.not_mem_nil, or_false] at hm
      rcases hm with rfl | rfl | rfl | rfl
      · exact ⟨[0, 3, 6], by decide, by decide⟩
      · exact ⟨[3, 4, 5], by decide, by decide⟩
      · exact ⟨[7, 4, 1], by decide, by decide⟩
      · exact ⟨[2, 1, 0], by decide, by decide⟩)
    (by decide)

end TableFragment

/-! ### What the table holds after any registrations -/

namespace TableFragment

theorem all_createNewFragment {P : Fragment → Prop} {T : TableFragment} (h : T.All P)
    (path agents : List Nat) (hp : P ⟨path, agents⟩) :
    (T.createNewFragment path agents).All P := by
  constructor
  · intro v c hc
    rcases (mem_fromAt_createNewFragment T path agents v c).1 hc with h1 | ⟨h1, _, _⟩
    · exact h.1 v c h1
    · rw [h1]; exact hp
  · intro v c hc
    rcases (mem_toAt_createNewFragment T path agents v c).1 hc with h1 | ⟨h1, _, _⟩
    · exact h.2 v c h1
    · rw [h1]; exact hp

theorem all_new (P : Fragment → Prop) (G : Graph) (m : Int) : (TableFragment.new G m).All P := by
  constructor
  · intro v c hc
    have hl := mem_getD_lt _ _ _ hc
    simp only [fromAt, TableFragment.new, List.getD_eq_getElem?_getD, List.getElem?_replicate] at hc
    split at hc <;> simp at hc
  · intro v c hc
    have hl := mem_getD_lt _ _ _ hc
    simp only [toAt, TableFragment.new, List.getD_eq_getElem?_getD, List.getElem?_replicate] at hc
    split at hc <;> simp at hc

theorem nodup_of_not_rejected {T : TableFragment} {path agents : List Nat}
    (h : T.rejected path agents = false) : agents.Nodup := by
  simp only [rejected, Bool.or_eq_false_iff, Bool.not_eq_false', decide_eq_true_eq] at h
  exact h.1.1

theorem getPotentialDeadlockIfExist_cases (T : TableFragment) (path agents : List Nat) :
    (T.getPotentialDeadlockIfExist path agents = (none, T)) ∨
    (T.rejected path agents = false ∧
      T.getPotentialDeadlockIfExist path agents = (some ⟨path, agents⟩, T)) ∨
    (T.rejected path agents = false ∧ T.existDuplication path agents = false ∧
      T.getPotentialDeadlockIfExist path agents = (none, T.createNewFragment path agents)) := by
  unfold getPotentialDeadlockIfExist
  by_cases h1 : T.rejected path agents = true
  · left; rw [if_pos h1]
  · rw [if_neg h1]
    have h1f : T.rejected path agents = false := by simpa using h1
    by_cases h2 : (Fragment.mk path agents).isCycle = true
    · right; left; rw [if_pos h2]; exact ⟨h1f, rfl⟩
    · rw [if_neg h2]
      by_cases h3 : T.existDuplication path agents = true
      · left; rw [if_pos h3]
      · right; right; rw [if_neg h3]
        exact ⟨h1f, by simpa using h3, rfl⟩

theorem all_getPotentialDeadlockIfExist {P : Fragment → Prop} {T : TableFragment}
    (h : T.All P) (path agents : List Nat) (hp : agents.Nodup → P ⟨path, agents⟩) :
    (T.getPotentialDeadlockIfExist path agents).2.All P ∧
    ∀ d, (T.getPotentialDeadlockIfExist path agents).1 = some d →
      d = ⟨path, agents⟩ ∧ agents.Nodup := by
  rcases getPotentialDeadlockIfExist_cases T path agents with h1 | ⟨hr, h1⟩ | ⟨hr, _, h1⟩
  · rw [h1]; exact ⟨h, fun d hd => by cases hd⟩
  · rw [h1]
    refine ⟨h, fun d hd => ?_⟩
    simp only [Option.some.injEq] at hd
    exact ⟨hd.symm, nodup_of_not_rejected hr⟩
  · rw [h1]
    exact ⟨all_createNewFragment h path agents (hp (nodup_of_not_rejected hr)),
      fun d hd => by cases hd⟩

theorem all_processCandidates {P : Fragment → Prop} (force : Bool) :
    ∀ (cs : List Fragment) (res : Option Fragment) (T : TableFragment), T.All P →
      (∀ c ∈ cs, c.agents.Nodup → P c) →
      (processCandidates force cs res T).2.1.All P ∧
      ∀ d, (processCandidates force cs res T).1 = some d →
        res = some d ∨ (d ∈ cs ∧ d.agents.Nodup)
  | [], res, T, h, _ => by
    simp only [processCandidates]
    exact ⟨h, fun d hd => Or.inl hd⟩
  | c :: cs, res, T, h, hp => by
    have hg := all_getPotentialDeadlockIfExist h c.path c.agents
      (hp c (List.mem_cons_self _ _))
    simp only [processCandidates]
    rcases hgp : T.getPotentialDeadlockIfExist c.path c.agents with ⟨r0, T0⟩
    rw [hgp] at hg
    have hcs : ∀ x ∈ cs, x.agents.Nodup → P x := fun x hx => hp x (List.mem_cons_of_mem _ hx)
    cases r0 with
    | none =>
      simp only
      have ih := all_processCandidates force cs res T0 hg.1 hcs
      refine ⟨ih.1, fun d hd => ?_⟩
      rcases ih.2 d hd with h1 | ⟨h1, h2⟩
      · exact Or.inl h1
      · exact Or.inr ⟨List.mem_cons_of_mem _ h1, h2⟩
    | some d0 =>
      simp only
      have hd0 := hg.2 d0 rfl
      have hd0c : d0 = c := hd0.1
      cases force with
      | false =>
        simp only [Bool.false_eq_true, if_false]
        refine ⟨hg.1, fun d hd => ?_⟩
        simp only [Option.some.injEq] at hd
        right
        rw [← hd, hd0c]
        exact ⟨List.mem_cons_self _ _, hd0.2⟩
      | true =>
        simp only [if_true]
        have ih := all_processCandidates true cs (res.orElse (fun _ => some d0)) T0 hg.1 hcs
        refine ⟨ih.1, fun d hd => ?_⟩
        rcases ih.2 d hd with h1 | ⟨h1, h2⟩
        · cases res with
          | none =>
            simp only [Option.orElse, Option.some.injEq] at h1
            right
            rw [← h1, hd0c]
            exact ⟨List.mem_cons_self _ _, hd0.2⟩
          | some r => exact Or.inl h1
        · exact Or.inr ⟨List.mem_cons_of_mem _ h1, h2⟩

theorem all_registerUnit {P : Fragment → Prop} {T : TableFragment} (h : T.All P)
    (id u v : Nat) (hp : P ⟨[u, v], [id]⟩) : (T.registerUnit id u v).All P := by
  unfold registerUnit
  split
  · exact h
  · exact all_createNewFragment h _ _ hp

/-- A candidate joins a registered fragment with the new move, so it names the agent of the
move and the agents of that fragment. -/
theorem candidates_two_agents {T : TableFragment}
    (h : T.All (fun c => c.agents.Nodup ∧ c.agents ≠ [])) (id u v : Nat) (c : Fragment)
    (hc : c ∈ T.candidates id u v) : 2 ≤ c.agents.length := by
  have hlen : ∀ l : List Nat, l ≠ [] → 1 ≤ l.length := fun l hl =>
    List.length_pos.2 hl
  rcases (mem_candidates T id u v c).1 hc with ⟨L, hL, _, rfl⟩ | ⟨R, hR, _, rfl⟩ |
    ⟨L, hL, R, hR, _, _, rfl⟩
  · have := hlen _ (h.2 u L hL).2
    simp only [List.length_append, List.length_singleton]
    omega
  · have := hlen _ (h.1 v R hR).2
    simp only [List.length_cons]
    omega
  · have := hlen _ (h.2 u L hL).2
    simp only [List.length_append, List.length_singleton]
    omega

theorem registerUnits_agents (id : Nat) (force : Bool) (expired : Nat → Bool) :
    ∀ (ms : List (Nat × Nat)) (t : Nat) (res : Option Fragment) (T : TableFragment),
      T.All (fun c => c.agents.Nodup ∧ c.agents ≠ []) →
      (registerUnits id force expired ms t res T).2.All
        (fun c => c.agents.Nodup ∧ c.agents ≠ []) ∧
      ∀ d, (registerUnits id force expired ms t res T).1 = some d →
        res = some d ∨ (d.agents.Nodup ∧ 2 ≤ d.agents.length)
  | [], t, res, T, h => by
    simp only [registerUnits]
    exact ⟨h, fun d hd => Or.inl hd⟩
  | (u, v) :: rest, t, res, T, h => by
    simp only [registerUnits]
    by_cases he : expired t = true
    · rw [if_pos he]
      exact ⟨h, fun d hd => by cases hd⟩
    · rw [if_neg he]
      have hpc := all_processCandidates (P := fun c => c.agents.Nodup ∧ c.agents ≠ []) force
        (T.candidates id u v) res T h
        (fun c hc hn => ⟨hn, List.ne_nil_of_mem (candidates_agent T id u v c hc)⟩)
      rcases hpr : processCandidates force (T.candidates id u v) res T with ⟨r1, T1, b⟩
      rw [hpr] at hpc
      have hr1 : ∀ d, r1 = some d → res = some d ∨ (d.agents.Nodup ∧ 2 ≤ d.agents.length) := by
        intro d hd
        rcases hpc.2 d hd with h1 | ⟨h1, h2⟩
        · exact Or.inl h1
        · exact Or.inr ⟨h2, candidates_two_agents h id u v d h1⟩
      cases b with
      | true => exact ⟨hpc.1, hr1⟩
      | false =>
        simp only
        have ih := registerUnits_agents id force expired rest (t + 1) r1 (T1.registerUnit id u v)
          (all_registerUnit hpc.1 id u v ⟨List.nodup_singleton _, by simp⟩)
        refine ⟨ih.1, fun d hd => ?_⟩
        rcases ih.2 d hd with h1 | h1
        · exact hr1 d h1
        · exact Or.inr h1

theorem Reach.agents {G : Graph} {m : Int} {T : TableFragment} (h : TableFragment.Reach G m T) :
    T.All (fun c => c.agents.Nodup ∧ c.agents ≠ []) := by
  induction h with
  | fresh => exact all_new _ G m
  | register id path force expired _ ih =>
    exact (registerUnits_agents id force expired (moves path) 0 none _ ih).1

theorem candidates_nil_of_all {T : TableFragment} {id : Nat}
    (h : T.All (fun c => id ∈ c.agents)) (u v : Nat) : T.candidates id u v = [] := by
  have h1 : (T.toAt u).filter (fun c => !(c.agents.contains id)) = [] := by
    rw [List.filter_eq_nil_iff]
    intro c hc
    have := h.2 u c hc
    simp [this]
  have h2 : (T.fromAt v).filter (fun c => !(c.agents.contains id)) = [] := by
    rw [List.filter_eq_nil_iff]
    intro c hc
    have := h.1 v c hc
    simp [this]
  simp only [candidates, h1, h2, List.map_nil, List.flatten_nil, List.append_nil]

theorem registerUnits_own (id : Nat) (force : Bool) (expired : Nat → Bool) :
    ∀ (ms : List (Nat × Nat)) (t : Nat) (T : TableFragment),
      T.All (fun c => id ∈ c.agents) →
      (registerUnits id force expired ms t none T).1 = none
  | [], t, T, _ => by simp only [registerUnits]
  | (u, v) :: rest, t, T, h => by
    simp only [registerUnits]
    by_cases he : expired t = true
    · rw [if_pos he]
    · rw [if_neg he, candidates_nil_of_all h u v]
      simp only [processCandidates]
      exact registerUnits_own id force expired rest (t + 1) (T.registerUnit id u v)
        (all_registerUnit h id u v (by simp))

/-- C11: registering the path of a single agent into a fresh table reports no potential
deadlock, whatever the path (it may return to a vertex that it has visited), the flag `force`
and the deadline; and in every table reached from a fresh one by registrations, every entry
lists pairwise different agents, and a potential deadlock that a further registration reports
lists pairwise different agents, at least two of them. -/
theorem C11_self_loop_tolerance (G : Graph) (m : Int) :
    (∀ (id : Nat) (path : Path) (force : Bool) (expired : Nat → Bool),
      ((TableFragment.new G m).registerNewPath id path force expired).1 = none) ∧
    ∀ T, TableFragment.Reach G m T →
      (∀ v, (∀ c ∈ T.fromAt v, c.agents.Nodup) ∧ (∀ c ∈ T.toAt v, c.agents.Nodup)) ∧
      ∀ (id : Nat) (path : Path) (force : Bool) (expired : Nat → Bool) (d : Fragment),
        (T.registerNewPath id path force expired).1 = some d →
        d.agents.Nodup ∧ 2 ≤ d.agents.length := by
  refine ⟨fun id path force expired => ?_, fun T hT => ⟨fun v => ?_, ?_⟩⟩
  · exact registerUnits_own id force expired (moves path) 0 _ (all_new _ G m)
  · exact ⟨fun c hc => (hT.agents.1 v c hc).1, fun c hc => (hT.agents.2 v c hc).1⟩
  · intro id path force expired d hd
    rcases (registerUnits_agents id force expired (moves path) 0 none T hT.agents).2 d hd
      with h1 | h1
    · cases h1
    · exact h1

theorem C11_self_loop_tolerance_witness :
    ((TableFragment.new grid8 (-1)).registerNewPath 0 [8, 9, 17, 16, 8] false
      (fun _ => false)).1 = none ∧
    ((((TableFragment.new grid8 (-1)).registerNewPath 0 [8, 9, 17, 16, 8] false
      (fun _ => false)).2.registerNewPath 1 [17, 9] false (fun _ => false)).1 =
        some ⟨[9, 17, 9], [0, 1]⟩ ∧
      ([0, 1] : List Nat).Nodup ∧ 2 ≤ ([0, 1] : List Nat).length) :=
  ⟨(C11_self_loop_tolerance grid8 (-1)).1 0 [8, 9, 17, 16, 8] false (fun _ => false),
    by decide,
    ((C11_self_loop_tolerance grid8 (-1)).2 _
      (TableFragment.Reach.register 0 [8, 9, 17, 16, 8] false (fun _ => false)
        TableFragment.Reach.fresh)).2 1 [17, 9] false (fun _ => false) ⟨[9, 17, 9], [0, 1]⟩
      (by decide)⟩

end TableFragment

/-! ### No fragment is entered twice -/

namespace TableFragment

theorem existDuplication_iff (T : TableFragment) (path agents : List Nat) :
    T.existDuplication path agents = true ↔
      (⟨path, agents⟩ : Fragment) ∈ T.fromAt (path.headD 0) := by
  simp only [existDuplication, List.any_eq_true, Bool.and_eq_true, beq_iff_eq]
  constructor
  · rintro ⟨c, hc, h1, h2⟩
    have : c = ⟨path, agents⟩ := by cases c; simp only at h1 h2; rw [h1, h2]
    rw [← this]; exact hc
  · intro h
    exact ⟨_, h, rfl, rfl⟩

theorem nodupSlots_createNewFragment {T : TableFragment} (hT : T.WFT) (hn : T.NodupSlots)
    (path agents : List Nat) (a : Nat) (ha : path.head? = some a)
    (hd : T.existDuplication path agents = false) :
    (T.createNewFragment path agents).NodupSlots := by
  have hnot : (⟨path, agents⟩ : Fragment) ∉ T.fromAt (path.headD 0) := by
    intro h
    rw [(existDuplication_iff T path agents).2 h] at hd
    cases hd
  intro v
  constructor
  · show ((T.t_from.modify (fun l => l ++ [⟨path, agents⟩]) (path.headD 0)).getD v []).Nodup
    rw [getD_modify_append]
    split
    · rename_i h
      rw [List.nodup_append]
      refine ⟨(hn v).1, List.nodup_singleton _, ?_⟩
      intro x hx hx2
      rw [List.mem_singleton] at hx2
      rw [hx2, ← h.1] at hx
      exact hnot hx
    · exact (hn v).1
  · show ((T.t_to.modify (fun l => l ++ [⟨path, agents⟩]) (path.getLastD 0)).getD v []).Nodup
    rw [getD_modify_append]
    split
    · rw [List.nodup_append]
      refine ⟨(hn v).2, List.nodup_singleton _, ?_⟩
      intro x hx hx2
      rw [List.mem_singleton] at hx2
      rw [hx2] at hx
      obtain ⟨_, w, hw, hin⟩ := hT.to_ok v _ hx
      have hwa : w = a := by
        have h1 : some w = some a := hw.symm.trans ha
        exact Option.some.inj h1
      rw [hwa, ← headD_of_head? ha] at hin
      exact hnot hin
    · exact (hn v).2

theorem getPotentialDeadlockIfExist_tidy {T : TableFragment} (hT : T.WFT)
    (hn : T.NodupSlots) (path agents : List Nat)
    (hends : (Fragment.mk path agents).EndsIn T.G.nodesSize) :
    (T.getPotentialDeadlockIfExist path agents).2.WFT ∧
    (T.getPotentialDeadlockIfExist path agents).2.NodupSlots ∧
    (T.getPotentialDeadlockIfExist path agents).2.G = T.G := by
  rcases getPotentialDeadlockIfExist_cases T path agents with h1 | ⟨_, h1⟩ | ⟨_, hd, h1⟩
  · rw [h1]; exact ⟨hT, hn, rfl⟩
  · rw [h1]; exact ⟨hT, hn, rfl⟩
  · rw [h1]
    obtain ⟨a, b, ha, hb, haN, hbN⟩ := hends
    exact ⟨hT.createNewFragment path agents a b ha hb haN hbN,
      nodupSlots_createNewFragment hT hn path agents a ha hd, rfl⟩

theorem processCandidates_tidy (force : Bool) :
    ∀ (cs : List Fragment) (res : Option Fragment) (T : TableFragment), T.WFT →
      T.NodupSlots → (∀ c ∈ cs, c.EndsIn T.G.nodesSize) →
      (processCandidates force cs res T).2.1.WFT ∧
      (processCandidates force cs res T).2.1.NodupSlots ∧
      (processCandidates force cs res T).2.1.G = T.G
  | [], res, T, hT, hn, _ => by
    simp only [processCandidates]
    exact ⟨hT, hn, trivial⟩
  | c :: cs, res, T, hT, hn, hc => by
    have hg := getPotentialDeadlockIfExist_tidy hT hn c.path c.agents
      (hc c (List.mem_cons_self _ _))
    simp only [processCandidates]
    rcases hgp : T.getPotentialDeadlockIfExist c.path c.agents with ⟨r0, T0⟩
    rw [hgp] at hg
    have hcs : ∀ x ∈ cs, x.EndsIn T0.G.nodesSize := fun x hx => by
      rw [hg.2.2]; exact hc x (List.mem_cons_of_mem _ hx)
    cases r0 with
    | none =>
      simp only
      have ih := processCandidates_tidy force cs res T0 hg.1 hg.2.1 hcs
      exact ⟨ih.1, ih.2.1, ih.2.2.trans hg.2.2⟩
    | some d0 =>
      simp only
      cases force with
      | false =>
        simp only [Bool.false_eq_true, if_false]
        exact hg
      | true =>
        simp only [if_true]
        have ih := processCandidates_tidy true cs (res.orElse (fun _ => some d0)) T0 hg.1
          hg.2.1 hcs
        exact ⟨ih.1, ih.2.1, ih.2.2.trans hg.2.2⟩

theorem registerUnit_tidy {T : TableFragment} (hT : T.WFT) (hn : T.NodupSlots) (id u v : Nat)
    (hu : u < T.G.nodesSize) (hv : v < T.G.nodesSize) :
    (T.registerUnit id u v).WFT ∧ (T.registerUnit id u v).NodupSlots ∧
    (T.registerUnit id u v).G = T.G := by
  unfold registerUnit
  by_cases hd : T.existDuplication [u, v] [id] = true
  · rw [if_pos hd]; exact ⟨hT, hn, rfl⟩
  · rw [if_neg hd]
    exact ⟨hT.createNewFragment [u, v] [id] u v rfl rfl hu hv,
      nodupSlots_createNewFragment hT hn [u, v] [id] u rfl (by simpa using hd), rfl⟩

theorem registerUnits_tidy (id : Nat) (force : Bool) (expired : Nat → Bool) :
    ∀ (ms : List (Nat × Nat)) (t : Nat) (res : Option Fragment) (T : TableFragment),
      T.WFT → T.NodupSlots → (∀ uv ∈ ms, uv.1 < T.G.nodesSize ∧ uv.2 < T.G.nodesSize) →
      (registerUnits id force expired ms t res T).2.WFT ∧
      (registerUnits id force expired ms t res T).2.NodupSlots ∧
      (registerUnits id force expired ms t res T).2.G = T.G
  | [], t, res, T, hT, hn, _ => by
    simp only [registerUnits]
    exact ⟨hT, hn, trivial⟩
  | (u, v) :: rest, t, res, T, hT, hn, hr => by
    simp only [registerUnits]
    by_cases he : expired t = true
    · rw [if_pos he]
      exact ⟨hT, hn, rfl⟩
    · rw [if_neg he]
      have huv := hr (u, v) (List.mem_cons_self _ _)
      have hpc := processCandidates_tidy force (T.candidates id u v) res T hT hn
        (fun c hc => candidates_endsIn hT id u v huv.1 huv.2 c hc)
      rcases hpr : processCandidates force (T.candidates id u v) res T with ⟨r1, T1, b⟩
      rw [hpr] at hpc
      cases b with
      | true => exact hpc
      | false =>
        simp only
        have hru := registerUnit_tidy hpc.1 hpc.2.1 id u v (by rw [hpc.2.2]; exact huv.1)
          (by rw [hpc.2.2]; exact huv.2)
        have ih := registerUnits_tidy id force expired rest (t + 1) r1 (T1.registerUnit id u v)
          hru.1 hru.2.1 (fun uv huv1 => by
            rw [hru.2.2, hpc.2.2]; exact hr uv (List.mem_cons_of_mem _ huv1))
        exact ⟨ih.1, ih.2.1, ih.2.2.trans (hru.2.2.trans hpc.2.2)⟩

theorem nodupSlots_new (G : Graph) (m : Int) : (TableFragment.new G m).NodupSlots := by
  intro v
  have h1 : (TableFragment.new G m).fromAt v = [] := by
    simp only [fromAt, TableFragment.new, List.getD_eq_getElem?_getD, List.getElem?_replicate]
    split <;> rfl
  have h2 : (TableFragment.new G m).toAt v = [] := by
    simp only [toAt, TableFragment.new, List.getD_eq_getElem?_getD, List.getElem?_replicate]
    split <;> rfl
  rw [h1, h2]
  exact ⟨List.nodup_nil, List.nodup_nil⟩

theorem ReachIn.tidy {G : Graph} {m : Int} {T : TableFragment}
    (h : TableFragment.ReachIn G m T) : T.WFT ∧ T.NodupSlots ∧ T.G = G := by
  induction h with
  | fresh => exact ⟨WFT.new G m, nodupSlots_new G m, rfl⟩
  | @register T0 id path force expired _ hp ih =>
    have h := registerUnits_tidy id force expired (moves path) 0 none T0 ih.1 ih.2.1
      (mem_moves_range path _ (by rw [ih.2.2]; exact hp))
    exact ⟨h.1, h.2.1, h.2.2.trans ih.2.2⟩

/-- C12: a fragment `(path, agents)` that is already in the table is not entered again, neither
as a candidate nor as a unit: both indices stay as they are. Hence in every table reached from
a fresh one by registering paths of the graph no slot holds a fragment twice, a fragment is
found in one slot of each index only, and every fragment of the table occurs exactly once in
`t_from[path.front()]` and exactly once in `t_to[path.back()]`. -/
theorem C12_fragment_table_idempotence (G : Graph) (m : Int) :
    (∀ (T : TableFragment) (path agents : List Nat), T.existDuplication path agents = true →
      (T.getPotentialDeadlockIfExist path agents).2 = T) ∧
    (∀ (T : TableFragment) (id u v : Nat), T.existDuplication [u, v] [id] = true →
      T.registerUnit id u v = T) ∧
    ∀ T, TableFragment.ReachIn G m T →
      (∀ v, (T.fromAt v).Nodup ∧ (T.toAt v).Nodup) ∧
      (∀ v w c, (c ∈ T.fromAt v → c ∈ T.fromAt w → v = w) ∧
        (c ∈ T.toAt v → c ∈ T.toAt w → v = w)) ∧
      ∀ c, (∃ v, c ∈ T.fromAt v ∨ c ∈ T.toAt v) →
        ∃ a b, c.path.head? = some a ∧ c.path.getLast? = some b ∧
          (T.fromAt a).count c = 1 ∧ (T.toAt b).count c = 1 := by
  refine ⟨fun T path agents hd => ?_, fun T id u v hd => ?_, fun T hT => ?_⟩
  · rcases getPotentialDeadlockIfExist_cases T path agents with h1 | ⟨_, h1⟩ | ⟨_, h2, _⟩
    · rw [h1]
    · rw [h1]
    · rw [hd] at h2; cases h2
  · unfold registerUnit
    rw [if_pos hd]
  · obtain ⟨hW, hN, _⟩ := hT.tidy
    refine ⟨hN, fun v w c => ⟨fun h1 h2 => ?_, fun h1 h2 => ?_⟩, ?_⟩
    · have e1 := (hW.from_ok v c h1).1
      have e2 := (hW.from_ok w c h2).1
      exact Option.some.inj (e1.symm.trans e2)
    · have e1 := (hW.to_ok v c h1).1
      have e2 := (hW.to_ok w c h2).1
      exact Option.some.inj (e1.symm.trans e2)
    · rintro c ⟨v, hc | hc⟩
      · obtain ⟨h1, w, h2, h3⟩ := hW.from_ok v c hc
        exact ⟨v, w, h1, h2, List.count_eq_one_of_mem (hN v).1 hc,
          List.count_eq_one_of_mem (hN w).2 h3⟩
      · obtain ⟨h1, w, h2, h3⟩ := hW.to_ok v c hc
        exact ⟨w, v, h2, h1, List.count_eq_one_of_mem (hN w).1 h3,
          List.count_eq_one_of_mem (hN v).2 hc⟩

theorem C12_fragment_table_idempotence_witness :
    ∃ a b, (Fragment.mk [0, 1, 2] [0, 1]).path.head? = some a ∧
      (Fragment.mk [0, 1, 2] [0, 1]).path.getLast? = some b ∧
      ((((((TableFragment.new grid3 (-1)).registerNewPath 0 [0, 1] false
        (fun _ => false)).2.registerNewPath 1 [1, 2] false
        (fun _ => false)).2.registerNewPath 1 [1, 2] true
        (fun _ => false)).2.registerNewPath 0 [0, 1] false
        (fun _ => false)).2.fromAt a).count ⟨[0, 1, 2], [0, 1]⟩ = 1 ∧
      ((((((TableFragment.new grid3 (-1)).registerNewPath 0 [0, 1] false
        (fun _ => false)).2.registerNewPath 1 [1, 2] false
        (fun _ => false)).2.registerNewPath 1 [1, 2] true
        (fun _ => false)).2.registerNewPath 0 [0, 1] false
        (fun _ => false)).2.toAt b).count ⟨[0, 1, 2], [0, 1]⟩ = 1 :=
  ((C12_fragment_table_idempotence grid3 (-1)).2.2 _
    (TableFragment.ReachIn.register 0 [0, 1] false (fun _ => false)
      (TableFragment.ReachIn.register 1 [1, 2] true (fun _ => false)
        (TableFragment.ReachIn.register 1 [1, 2] false (fun _ => false)
          (TableFragment.ReachIn.register 0 [0, 1] false (fun _ => false)
            TableFragment.ReachIn.fresh (by decide)) (by decide)) (by decide))
      (by decide))).2.2 ⟨[0, 1, 2], [0, 1]⟩ ⟨0, Or.inl (by decide)⟩

end TableFragment

/-! ### The flags after `DBS::run` -/

namespace DBS

/-- C13: when the time budget is found exhausted at the first check of the high-level loop,
the only node has already been popped, so the open list is empty and `DBS::run` ends with
`solved = false` and `unsolvable = true`, although no node has been expanded. -/
theorem C13_timeout_sets_unsolvable (D : DBS) (o : Oracle) (fuel hfuel k k1 : Nat)
    (n : HighLevelNode) (hinit : D.getInitialNode o fuel k = some (n, k1))
    (hvalid : n.valid = true)
    (htime : o.overCompTime (D.getConstraints o n.paths (k1 + 1)).2 = true) :
    D.run o fuel (hfuel + 1) k = some ⟨false, true, []⟩ := by
  have hi : o.topH k1 compareHighLevel [n] % [n].length = 0 := by
    simp only [List.length_singleton, Nat.mod_one]
  simp only [run, hinit, hvalid, Bool.not_true, Bool.false_eq_true, if_false, runLoop,
    List.isEmpty_cons, hi, List.get?_cons_zero, List.eraseIdx_cons_zero, htime, if_true,
    List.isEmpty_nil]

theorem C13_timeout_sets_unsolvable_witness :
    ringDBS.getInitialNode (clockOracle 12) 40 0 = some (⟨[[0, 3, 2], [1, 0]], [], 0, true⟩, 10) ∧
    ringDBS.run plainOracle 40 10 0 = some ⟨true, false, [[0, 3, 2], [1, 0]]⟩ ∧
    ringDBS.run (clockOracle 12) 40 (9 + 1) 0 = some ⟨false, true, []⟩ :=
  ⟨by decide, by decide,
    C13_timeout_sets_unsolvable ringDBS (clockOracle 12) 40 9 0 10
      ⟨[[0, 3, 2], [1, 0]], [], 0, true⟩ (by decide) rfl (by decide)⟩

end DBS

/-! ### The returned path visits no vertex twice -/

namespace Solver

theorem simple_expand (S : Solver) (id : Nat) (chk : CheckInvalidMove)
    (O : List AstarNode) (C : List Bool) (i : Nat) (n : AstarNode) (L : List Nat)
    (hv : n.v < C.length) (hO : ∀ y ∈ O, Simple C y) (hn : O.get? i = some n) :
    ∀ y ∈ O.eraseIdx i ++ Solver.expand S id chk (C.set n.v true) n L,
      Simple (C.set n.v true) y := by
  have hset : ∀ u, (C.set n.v true).getD u false = (C.getD u false || decide (u = n.v)) :=
    fun u => getD_set_true C n.v u hv
  have hmono : ∀ u, C.getD u false = true → (C.set n.v true).getD u false = true := by
    intro u hu
    rw [hset, hu]; rfl
  intro y hy
  rcases List.mem_append.1 hy with hy | hy
  · have h := hO y (List.mem_of_mem_eraseIdx hy)
    exact ⟨h.1, fun x hx => hmono x (h.2 x hx)⟩
  · rcases mem_expand hy with ⟨u, _, hcu, _, rfl⟩
    have hn1 := hO n (List.get?_mem hn)
    have hclosed : ∀ x ∈ n.backtrack, (C.set n.v true).getD x false = true := by
      intro x hx
      have hhead := AstarNode.backtrack_head n
      cases hb : n.backtrack with
      | nil => rw [hb] at hx; cases hx
      | cons a t =>
        rw [hb] at hx hhead
        simp only [List.head?_cons, Option.some.injEq] at hhead
        rcases List.mem_cons.1 hx with e | e
        · rw [hset, e, hhead]; simp
        · exact hmono x (hn1.2 x (by rw [hb]; exact e))
    unfold Simple
    rw [AstarNode.backtrack_child]
    refine ⟨List.nodup_cons.2 ⟨fun hmem => ?_, hn1.1⟩, fun x hx => hclosed x hx⟩
    have := hclosed u hmem
    rw [hcu] at this
    cases this

/-- With a sufficient budget of rounds and no time-out the search ends: with the empty path
if no allowed walk leads to the goal, and otherwise with a path of allowed moves from the
start to the goal that visits no vertex twice. -/
theorem getPath_result (S : Solver) (o : Oracle) (id : Nat) (chk : CheckInvalidMove)
    (cmp : CompareAstarNodes) (k : Nat) (hWF : S.P.G.WF)
    (hs : S.P.getStart id < S.P.G.nodesSize)
    (hshuf : ∀ k l, (o.shuffle k l).Perm l) (htime : ∀ k, o.overCompTime k = false)
    (fuel : Nat) (hfuel : S.P.G.degSum + 2 ≤ fuel) :
    ∃ p k1, S.getPath o fuel id chk cmp k = some (p, k1) ∧
      ((p = [] ∧ ¬ ∃ m, Walk S.P.G chk (S.P.getStart id) m (S.P.getGoal id)) ∨
       (IsAllowedPath S.P.G chk (S.P.getStart id) (S.P.getGoal id) p ∧ p.Nodup)) := by
  have hrun := getPathLoop_total S o id chk cmp hshuf htime
    (fun O C => S.SearchInv id chk O C ∧ ∀ y ∈ O, Simple C y)
    (fun O C hI => ⟨hI.1.len, fun y hy => (hI.1.nodes y hy).inRange⟩)
    (fun O C k n hI hn hc => ⟨searchInv_skip S id chk O C _ n hI.1 hn hc,
      fun y hy => hI.2 y (List.mem_of_mem_eraseIdx hy)⟩)
    (fun O C k n hI hn _ hg =>
      ⟨searchInv_expand S id chk hWF O C _ n _ (hshuf k _) hI.1 hn hg,
        simple_expand S id chk O C _ n _
          (by rw [hI.1.len]; exact (hI.1.nodes n (List.get?_mem hn)).inRange) hI.2 hn⟩)
    fuel _ _ k
    ⟨searchInv_init S id chk hs, fun y hy => by
      rw [List.mem_singleton] at hy
      rw [hy]
      exact ⟨by simp [AstarNode.backtrack], by simp [AstarNode.backtrack]⟩⟩
    (by rw [openDeg_replicate]; simp only [List.length_singleton]; unfold Graph.degSum at hfuel
        omega)
  obtain ⟨p, k1, hp, hcases⟩ := hrun
  refine ⟨p, k1, hp, ?_⟩
  rcases hcases with ⟨rfl, C1, hI, _⟩ | ⟨O1, C1, k0, n, hI, hn, _, hg, rfl⟩
  · left
    refine ⟨rfl, ?_⟩
    rintro ⟨m, hw⟩
    have := SearchInv.drained S id chk C1 hI m _ hw
    rw [hI.goalOpen] at this
    exact absurd this (by simp)
  · right
    have hne : n.backtrack.reverse ≠ [] := by
      simpa using AstarNode.backtrack_ne_nil n
    exact ⟨getPath_shape S o fuel id chk cmp k _ k1 hshuf hp hne,
      List.nodup_reverse.2 (hI.2 n (List.get?_mem hn)).1⟩

end Solver

/-! ### Two agents that must pass each other in a corridor -/

theorem corridor_WF : corridor.WF := by
  unfold Graph.WF
  decide

theorem walk_stays (G : Graph) (chk : CheckInvalidMove) (s : Nat) (P : Nat → Prop) (hs : P s)
    (hstep : ∀ v u, P v → u ∈ G.neighbor v → chk u v = false → P u) :
    ∀ m v, Walk G chk s m v → P v := by
  intro m v hw
  induction hw with
  | refl => exact hs
  | step _ hu hchk ih => exact hstep _ _ ih hu hchk

theorem corridor_path_02 (chk : CheckInvalidMove) (p : Path)
    (h : IsAllowedPath corridor chk 0 2 p) (hn : p.Nodup) : p = [0, 1, 2] := by
  obtain ⟨hh, hl, hc⟩ := h
  rcases p with _ | ⟨a, _ | ⟨b, _ | ⟨c, _ | ⟨d, t⟩⟩⟩⟩
  · simp at hh
  · simp at hh hl; omega
  · simp only [List.head?_cons, Option.some.injEq] at hh
    subst hh
    simp [corridor] at hc hl
    omega
  · simp only [List.head?_cons, Option.some.injEq] at hh
    subst hh
    simp only [List.chain'_cons, corridor] at hc
    obtain ⟨⟨hb, _⟩, ⟨hc2, _⟩, _⟩ := hc
    simp at hb
    subst hb
    simp at hc2 hl
    rw [hl]
  · simp only [List.head?_cons, Option.some.injEq] at hh
    subst hh
    simp only [List.chain'_cons, corridor] at hc
    obtain ⟨⟨hb, _⟩, ⟨hc2, _⟩, ⟨hd, _⟩, _⟩ := hc
    simp at hb
    subst hb
    simp at hc2
    rcases hc2 with rfl | rfl
    · simp at hn
    · simp at hd
      subst hd
      simp at hn

theorem corridor_path_20 (chk : CheckInvalidMove) (p : Path)
    (h : IsAllowedPath corridor chk 2 0 p) (hn : p.Nodup) : p = [2, 1, 0] := by
  obtain ⟨hh, hl, hc⟩ := h
  rcases p with _ | ⟨a, _ | ⟨b, _ | ⟨c, _ | ⟨d, t⟩⟩⟩⟩
  · simp at hh
  · simp at hh hl; omega
  · simp only [List.head?_cons, Option.some.injEq] at hh
    subst hh
    simp [corridor] at hc hl
    omega
  · simp only [List.head?_cons, Option.some.injEq] at hh
    subst hh
    simp only [List.chain'_cons, corridor] at hc
    obtain ⟨⟨hb, _⟩, ⟨hc2, _⟩, _⟩ := hc
    simp at hb
    subst hb
    simp at hc2 hl
    rw [hl]
  · simp only [List.head?_cons, Option.some.injEq] at hh
    subst hh
    simp only [List.chain'_cons, corridor] at hc
    obtain ⟨⟨hb, _⟩, ⟨hc2, _⟩, ⟨hd, _⟩, _⟩ := hc
    simp at hb
    subst hb
    simp at hc2
    rcases hc2 with rfl | rfl
    · simp at hd
      subst hd
      simp at hn
    · simp at hn

namespace DBS

theorem corridor_fuel {fuel : Nat} (h : 6 ≤ fuel) : corridorSolver.P.G.degSum + 2 ≤ fuel := by
  have : corridorSolver.P.G.degSum = 4 := by decide
  omega

/-- Agent 0 plans first, on an empty table: its path is the corridor itself. -/
theorem corridor_first (o : Oracle) (hshuf : ∀ k l, (o.shuffle k l).Perm l)
    (htime : ∀ k, o.overCompTime k = false) (fuel : Nat) (hfuel : 6 ≤ fuel) (k : Nat)
    (paths : Plan) :
    ∃ k1, corridorSolver.getPrioritizedPath o fuel 0 paths
      (TableFragment.new corridor (-1)) k = some ([0, 1, 2], k1) := by
  obtain ⟨p, k1, hp, h | ⟨hpath, hnd⟩⟩ := Solver.getPath_result corridorSolver o 0
    (corridorSolver.checkPrioritized 0 (TableFragment.new corridor (-1)))
    (Solver.comparePrioritized (TableFragment.new corridor (-1))) k corridor_WF (by decide)
    hshuf htime fuel (corridor_fuel hfuel)
  · exfalso
    apply h.2
    exact ⟨2, Walk.step (Walk.step Walk.refl (u := 1) (by decide) (by decide)) (by decide)
      (by decide)⟩
  · have : p = [0, 1, 2] := corridor_path_02 _ p hpath hnd
    exact ⟨k1, by rw [← this]; exact hp⟩

/-- Agent 1 finds no deadlock-avoiding path: its first move would oppose the last move of
agent 0. -/
theorem corridor_second_blocked (o : Oracle) (hshuf : ∀ k l, (o.shuffle k l).Perm l)
    (htime : ∀ k, o.overCompTime k = false) (fuel : Nat) (hfuel : 6 ≤ fuel) (k : Nat)
    (paths : Plan) :
    ∃ k1, corridorSolver.getPrioritizedPath o fuel 1 paths
      ((TableFragment.new corridor (-1)).registerNewPath 0 [0, 1, 2] true (fun _ => false)).2 k
        = some ([], k1) := by
  obtain ⟨p, k1, hp, h | ⟨hpath, _⟩⟩ := Solver.getPath_result corridorSolver o 1
    (corridorSolver.checkPrioritized 1
      ((TableFragment.new corridor (-1)).registerNewPath 0 [0, 1, 2] true (fun _ => false)).2)
    (Solver.comparePrioritized
      ((TableFragment.new corridor (-1)).registerNewPath 0 [0, 1, 2] true (fun _ => false)).2)
    k corridor_WF (by decide) hshuf htime fuel (corridor_fuel hfuel)
  · exact ⟨k1, by rw [h.1] at hp; exact hp⟩
  · exfalso
    have hw := hpath.walk
    have := walk_stays _ _ _ (fun v => v = 2) rfl (fun v u hv hu hchk => by
      subst hv
      have hu1 : u = 1 := by simpa [corridorSolver, corridorProblem, corridor] using hu
      subst hu1
      have hc : corridorSolver.checkPrioritized 1
        ((TableFragment.new corridor (-1)).registerNewPath 0 [0, 1, 2] true
          (fun _ => false)).2 1 2 = true := by decide
      rw [hc] at hchk
      cases hchk) _ _ hw
    exact absurd this (by decide)

/-- The fall-back search of agent 1 honours no fragment: its path is the corridor, backwards. -/
theorem corridor_second (o : Oracle) (hshuf : ∀ k l, (o.shuffle k l).Perm l)
    (htime : ∀ k, o.overCompTime k = false) (fuel : Nat) (hfuel : 6 ≤ fuel) (k : Nat) :
    ∃ k1, corridorDBS.getConstrainedPath o fuel 1 ⟨[[0, 1, 2]], [], 0, true⟩ k
      = some ([2, 1, 0], k1) := by
  obtain ⟨p, k1, hp, h | ⟨hpath, hnd⟩⟩ := Solver.getPath_result corridorSolver o 1
    (corridorDBS.checkConstrained 1 [])
    (corridorDBS.compareConstrained 1 (corridorDBS.fromToTable 1 [[0, 1, 2]])) k corridor_WF
    (by decide) hshuf htime fuel (corridor_fuel hfuel)
  · exfalso
    apply h.2
    exact ⟨2, Walk.step (Walk.step Walk.refl (u := 1) (by decide) (by decide)) (by decide)
      (by decide)⟩
  · have : p = [2, 1, 0] := corridor_path_20 _ p hpath hnd
    exact ⟨k1, by rw [← this]; exact hp⟩

/-- Neither agent has a path once its move of the swap is forbidden. -/
theorem corridor_child_0 (o : Oracle) (hshuf : ∀ k l, (o.shuffle k l).Perm l)
    (htime : ∀ k, o.overCompTime k = false) (fuel : Nat) (hfuel : 6 ≤ fuel) (k : Nat) :
    ∃ k1, corridorDBS.getConstrainedPath o fuel 0
      ⟨[[0, 1, 2], [2, 1, 0]], [⟨0, 1, 2⟩], 0, true⟩ k = some ([], k1) := by
  obtain ⟨p, k1, hp, h | ⟨hpath, _⟩⟩ := Solver.getPath_result corridorSolver o 0
    (corridorDBS.checkConstrained 0 [⟨0, 1, 2⟩])
    (corridorDBS.compareConstrained 0 (corridorDBS.fromToTable 0 [[0, 1, 2], [2, 1, 0]])) k
    corridor_WF (by decide) hshuf htime fuel (corridor_fuel hfuel)
  · exact ⟨k1, by rw [h.1] at hp; exact hp⟩
  · exfalso
    have hw := hpath.walk
    have := walk_stays _ _ _ (fun v => v = 0 ∨ v = 1) (Or.inl rfl) (fun v u hv hu hchk => by
      rcases hv with rfl | rfl
      · have hu1 : u = 1 := by simpa [corridorSolver, corridorProblem, corridor] using hu
        exact Or.inr hu1
      · have hu1 : u = 0 ∨ u = 2 := by
          simpa [corridorSolver, corridorProblem, corridor] using hu
        rcases hu1 with rfl | rfl
        · exact Or.inl rfl
        · have hc : corridorDBS.checkConstrained 0 [⟨0, 1, 2⟩] 2 1 = true := by decide
          rw [hc] at hchk
          cases hchk) _ _ hw
    revert this
    decide

theorem corridor_child_1 (o : Oracle) (hshuf : ∀ k l, (o.shuffle k l).Perm l)
    (htime : ∀ k, o.overCompTime k = false) (fuel : Nat) (hfuel : 6 ≤ fuel) (k : Nat) :
    ∃ k1, corridorDBS.getConstrainedPath o fuel 1
      ⟨[[0, 1, 2], [2, 1, 0]], [⟨1, 2, 1⟩], 0, true⟩ k = some ([], k1) := by
  obtain ⟨p, k1, hp, h | ⟨hpath, _⟩⟩ := Solver.getPath_result corridorSolver o 1
    (corridorDBS.checkConstrained 1 [⟨1, 2, 1⟩])
    (corridorDBS.compareConstrained 1 (corridorDBS.fromToTable 1 [[0, 1, 2], [2, 1, 0]])) k
    corridor_WF (by decide) hshuf htime fuel (corridor_fuel hfuel)
  · exact ⟨k1, by rw [h.1] at hp; exact hp⟩
  · exfalso
    have hw := hpath.walk
    have := walk_stays _ _ _ (fun v => v = 2) rfl (fun v u hv hu hchk => by
      subst hv
      have hu1 : u = 1 := by simpa [corridorSolver, corridorProblem, corridor] using hu
      subst hu1
      have hc : corridorDBS.checkConstrained 1 [⟨1, 2, 1⟩] 1 2 = true := by decide
      rw [hc] at hchk
      cases hchk) _ _ hw
    exact absurd this (by decide)

end DBS

namespace DBS

theorem getInitialNodeLoop_step (D : DBS) (o : Oracle) (fuel i : Nat) (is : List Nat)
    (n : HighLevelNode) (table : TableFragment) (k : Nat) (p : Path) (k1 : Nat)
    (h : D.S.getPrioritizedPath o fuel i n.paths table k = some (p, k1)) (hp : p ≠ []) :
    D.getInitialNodeLoop o fuel (i :: is) n table k =
      D.getInitialNodeLoop o fuel is { n with paths := n.paths ++ [p] }
        (table.registerNewPath i p true (fun t => o.deadline (k1 + t))).2 (k1 + p.length) := by
  have he : p.isEmpty = false := by
    cases p with
    | nil => exact absurd rfl hp
    | cons a t => rfl
  simp only [getInitialNodeLoop, h, he, Bool.false_eq_true, if_false]

theorem getInitialNodeLoop_fallback (D : DBS) (o : Oracle) (fuel i : Nat) (is : List Nat)
    (n : HighLevelNode) (table : TableFragment) (k k1 : Nat) (q : Path) (k2 : Nat)
    (h : D.S.getPrioritizedPath o fuel i n.paths table k = some ([], k1))
    (h2 : D.getConstrainedPath o fuel i n k1 = some (q, k2)) (hq : q ≠ []) :
    D.getInitialNodeLoop o fuel (i :: is) n table k =
      D.getInitialNodeLoop o fuel is { n with paths := n.paths ++ [q] }
        (table.registerNewPath i q true (fun t => o.deadline (k2 + t))).2 (k2 + q.length) := by
  have he : q.isEmpty = false := by
    cases q with
    | nil => exact absurd rfl hq
    | cons a t => rfl
  simp only [getInitialNodeLoop, h, h2, he, List.isEmpty_nil, Bool.false_eq_true, if_false,
    if_true]

theorem getConstraintsLoop_congr (o : Oracle) (hdl : ∀ k, o.deadline k = false) (paths : Plan) :
    ∀ (is : List Nat) (table : TableFragment) (k k0 : Nat),
      (getConstraintsLoop o paths is table k).1 =
        (getConstraintsLoop plainOracle paths is table k0).1
  | [], _, _, _ => rfl
  | i :: is, table, k, k0 => by
    have hd : (fun t => o.deadline (k + t)) = fun _ => false := funext fun t => hdl _
    have hd0 : (fun t => plainOracle.deadline (k0 + t)) = fun _ => false := rfl
    simp only [getConstraintsLoop, hd, hd0]
    rcases table.registerNewPath i (paths.getD i []) false (fun _ => false) with ⟨r, T1⟩
    cases r with
    | none => exact getConstraintsLoop_congr o hdl paths is T1 _ _
    | some c => rfl

/-- An `invoke` whose search finds no path yields an invalid child. -/
theorem invoke_invalid (D : DBS) (o : Oracle) (fuel : Nat) (n : HighLevelNode) (c : Constraint)
    (k k1 : Nat) (hc : c.agent < n.paths.length)
    (h : D.getConstrainedPath o fuel c.agent ⟨n.paths, n.constraints ++ [c], 0, true⟩ k =
      some ([], k1)) :
    ∃ m, D.invoke o fuel n c k = some (m, k1) ∧ m.valid = false ∧
      m.paths.getD c.agent [0] = [] := by
  refine ⟨_, by simp only [invoke, h]; rfl, ?_, ?_⟩
  · simp only [List.getD_eq_getElem?_getD, List.getElem?_set_self hc, Option.getD_some,
      List.isEmpty_nil, Bool.not_true]
  · simp only [List.getD_eq_getElem?_getD, List.getElem?_set_self hc, Option.getD_some]

theorem pushChildren_invalid (D : DBS) (o : Oracle) (fuel : Nat) (n m : HighLevelNode)
    (c : Constraint) (cs : List Constraint) (Tree : List HighLevelNode) (k k1 : Nat)
    (h : D.invoke o fuel n c k = some (m, k1)) (hm : m.valid = false) :
    D.pushChildren o fuel n (c :: cs) Tree k = D.pushChildren o fuel n cs Tree k1 := by
  simp only [pushChildren, h, hm, Bool.false_eq_true, if_false]

theorem runLoop_expand_single (D : DBS) (o : Oracle) (fuel hfuel : Nat) (n : HighLevelNode)
    (k : Nat) (Tree2 : List HighLevelNode) (k2 : Nat)
    (htime : ∀ k, o.overCompTime k = false)
    (hcs : (D.getConstraints o n.paths (k + 1)).1 ≠ [])
    (hpush : D.pushChildren o fuel n (D.getConstraints o n.paths (k + 1)).1 []
      ((D.getConstraints o n.paths (k + 1)).2 + 1) = some (Tree2, k2)) :
    D.runLoop o fuel (hfuel + 1) [n] k = D.runLoop o fuel hfuel Tree2 k2 := by
  have hi : o.topH k compareHighLevel [n] % [n].length = 0 := by
    simp only [List.length_singleton, Nat.mod_one]
  have he : (D.getConstraints o n.paths (k + 1)).1.isEmpty = false := by
    cases h : (D.getConstraints o n.paths (k + 1)).1 with
    | nil => exact absurd h hcs
    | cons a t => rfl
  simp only [runLoop, List.isEmpty_cons, hi, List.get?_cons_zero, List.eraseIdx_cons_zero,
    htime, he, hpush, Bool.false_eq_true, if_false]

theorem corridor_initial (o : Oracle) (hshuf : ∀ k l, (o.shuffle k l).Perm l)
    (htime : ∀ k, o.overCompTime k = false) (hdl : ∀ k, o.deadline k = false)
    (fuel : Nat) (hfuel : 6 ≤ fuel) (k : Nat) :
    ∃ k1, corridorDBS.getInitialNode o fuel k =
      some (⟨[[0, 1, 2], [2, 1, 0]], [], 2, true⟩, k1) := by
  have hd : ∀ k, (fun t => o.deadline (k + t)) = fun _ => false :=
    fun k => funext fun t => hdl _
  obtain ⟨k1, h1⟩ := corridor_first o hshuf htime fuel hfuel k []
  obtain ⟨k2, h2⟩ := corridor_second_blocked o hshuf htime fuel hfuel (k1 + 3) [[0, 1, 2]]
  obtain ⟨k3, h3⟩ := corridor_second o hshuf htime fuel hfuel k2
  refine ⟨k3 + 3, ?_⟩
  have e1 := getInitialNodeLoop_step corridorDBS o fuel 0 [1] ⟨[], [], 0, true⟩
    (TableFragment.new corridor (-1)) k [0, 1, 2] k1 h1 (by simp)
  rw [hd] at e1
  have e2 := getInitialNodeLoop_fallback corridorDBS o fuel 1 [] ⟨[[0, 1, 2]], [], 0, true⟩
    ((TableFragment.new corridor (-1)).registerNewPath 0 [0, 1, 2] true (fun _ => false)).2
    (k1 + 3) k2 [2, 1, 0] k3 h2 h3 (by simp)
  have e : corridorDBS.getInitialNodeLoop o fuel (List.range corridorDBS.S.P.getNum)
      ⟨[], [], 0, true⟩ (TableFragment.new corridorDBS.S.P.G corridorDBS.max_fragment_size) k =
      some (⟨[[0, 1, 2], [2, 1, 0]], [], 0, true⟩, k3 + 3) := e1.trans e2
  unfold getInitialNode
  rw [e]
  rfl

end DBS

namespace DBS

/-- C14: on the corridor `0 - 1 - 2` with agent 0 from `0` to `2` and agent 1 from `2` to `0`,
for every order in which neighbours are shuffled and every answer of the queues, without
time-out: the initial node is valid with the paths `0,1,2` and `2,1,0`; the swap deadlock on
the edge `1 - 2` yields one constraint per agent; both children are invalid, the path of the
constrained agent being empty; and `DBS::run` ends with `solved = false` and
`unsolvable = true`. -/
theorem C14_corridor_unsolvable (o : Oracle) (hshuf : ∀ k l, (o.shuffle k l).Perm l)
    (htime : ∀ k, o.overCompTime k = false) (hdl : ∀ k, o.deadline k = false)
    (fuel hfuel k : Nat) (hfuel6 : 6 ≤ fuel) (hh : 2 ≤ hfuel) :
    ∃ n k1, corridorDBS.getInitialNode o fuel k = some (n, k1) ∧ n.valid = true ∧
      n.paths = [[0, 1, 2], [2, 1, 0]] ∧
      (∀ k2, (corridorDBS.getConstraints o n.paths k2).1 = [⟨0, 1, 2⟩, ⟨1, 2, 1⟩]) ∧
      (∀ c ∈ [(⟨0, 1, 2⟩ : Constraint), ⟨1, 2, 1⟩], ∀ k2, ∃ m k3,
        corridorDBS.invoke o fuel n c k2 = some (m, k3) ∧ m.valid = false ∧
        m.paths.getD c.agent [0] = []) ∧
      corridorDBS.run o fuel hfuel k = some ⟨false, true, []⟩ := by
  obtain ⟨k1, hinit⟩ := corridor_initial o hshuf htime hdl fuel hfuel6 k
  have hcs : ∀ k2, (corridorDBS.getConstraints o [[0, 1, 2], [2, 1, 0]] k2).1 =
      [⟨0, 1, 2⟩, ⟨1, 2, 1⟩] := by
    intro k2
    unfold getConstraints
    rw [getConstraintsLoop_congr o hdl _ _ _ k2 0]
    decide
  have hinv0 : ∀ k2, ∃ m k3, corridorDBS.invoke o fuel
      ⟨[[0, 1, 2], [2, 1, 0]], [], 2, true⟩ ⟨0, 1, 2⟩ k2 = some (m, k3) ∧ m.valid = false ∧
      m.paths.getD 0 [0] = [] := by
    intro k2
    obtain ⟨k3, h3⟩ := corridor_child_0 o hshuf htime fuel hfuel6 k2
    obtain ⟨m, hm⟩ := invoke_invalid corridorDBS o fuel ⟨[[0, 1, 2], [2, 1, 0]], [], 2, true⟩
      ⟨0, 1, 2⟩ k2 k3 (by decide) h3
    exact ⟨m, k3, hm⟩
  have hinv1 : ∀ k2, ∃ m k3, corridorDBS.invoke o fuel
      ⟨[[0, 1, 2], [2, 1, 0]], [], 2, true⟩ ⟨1, 2, 1⟩ k2 = some (m, k3) ∧ m.valid = false ∧
      m.paths.getD 1 [0] = [] := by
    intro k2
    obtain ⟨k3, h3⟩ := corridor_child_1 o hshuf htime fuel hfuel6 k2
    obtain ⟨m, hm⟩ := invoke_invalid corridorDBS o fuel ⟨[[0, 1, 2], [2, 1, 0]], [], 2, true⟩
      ⟨1, 2, 1⟩ k2 k3 (by decide) h3
    exact ⟨m, k3, hm⟩
  refine ⟨_, k1, hinit, rfl, rfl, hcs, ?_, ?_⟩
  · intro c hc k2
    simp only [List.mem_cons, List.mem_singleton, List.not_mem_nil, or_false] at hc
    rcases hc with rfl | rfl
    · exact hinv0 k2
    · exact hinv1 k2
  · obtain ⟨h1, rfl⟩ : ∃ h1, hfuel = h1 + 1 + 1 := ⟨hfuel - 2, by omega⟩
    obtain ⟨m0, ka, ha, hva, _⟩ := hinv0
      ((corridorDBS.getConstraints o [[0, 1, 2], [2, 1, 0]] (k1 + 1)).2 + 1)
    obtain ⟨m1, kb, hb, hvb, _⟩ := hinv1 ka
    have hpush : corridorDBS.pushChildren o fuel ⟨[[0, 1, 2], [2, 1, 0]], [], 2, true⟩
        (corridorDBS.getConstraints o [[0, 1, 2], [2, 1, 0]] (k1 + 1)).1 []
        ((corridorDBS.getConstraints o [[0, 1, 2], [2, 1, 0]] (k1 + 1)).2 + 1) =
        some ([], kb) := by
      rw [hcs, pushChildren_invalid _ _ _ _ _ _ _ _ _ _ ha hva,
        pushChildren_invalid _ _ _ _ _ _ _ _ _ _ hb hvb]
      rfl
    have hstep := runLoop_expand_single corridorDBS o fuel (h1 + 1)
      ⟨[[0, 1, 2], [2, 1, 0]], [], 2, true⟩ k1 [] kb htime
      (by rw [hcs]; exact List.cons_ne_nil _ _) hpush
    unfold run
    rw [hinit]
    simp only [Bool.not_true, Bool.false_eq_true, if_false]
    rw [hstep]
    rfl

theorem C14_corridor_unsolvable_witness :
    ∃ n k1, corridorDBS.getInitialNode plainOracle 6 0 = some (n, k1) ∧ n.valid = true ∧
      n.paths = [[0, 1, 2], [2, 1, 0]] ∧
      (∀ k2, (corridorDBS.getConstraints plainOracle n.paths k2).1 =
        [⟨0, 1, 2⟩, ⟨1, 2, 1⟩]) ∧
      (∀ c ∈ [(⟨0, 1, 2⟩ : Constraint), ⟨1, 2, 1⟩], ∀ k2, ∃ m k3,
        corridorDBS.invoke plainOracle 6 n c k2 = some (m, k3) ∧ m.valid = false ∧
        m.paths.getD c.agent [0] = []) ∧
      corridorDBS.run plainOracle 6 2 0 = some ⟨false, true, []⟩ :=
  C14_corridor_unsolvable plainOracle (fun _ l => List.Perm.refl l) (fun _ => rfl)
    (fun _ => rfl) 6 2 0 (by decide) (by decide)

end DBS

/-- The solver state of the ring instance is what the pre-processing produces. -/
theorem ringSolver_preprocess : Solver.preprocess ringProblem 40 = some ringSolver := by
  rfl

/-- The solver state of the corridor instance is what the pre-processing produces. -/
theorem corridorSolver_preprocess :
    Solver.preprocess corridorProblem 40 = some corridorSolver := by
  rfl

/-! ### The choice among the conflicts -/

namespace ICBS

theorem vertexBlock_eq (paths : Plan) (mdds : List MDD) (t i j : Nat)
    (semi non : List Constraint) :
    vertexBlock paths mdds t i j semi non =
      match vertexEvent paths mdds t i j with
      | none => Sum.inr (semi, non)
      | some e => absorb e semi non := by
  unfold vertexBlock vertexEvent
  by_cases h : get paths i t = get paths j t
  · simp only [h, if_true]
    rfl
  · simp only [h, if_false]

theorem swapBlock_eq (paths : Plan) (mdds : List MDD) (t i j : Nat)
    (semi non : List Constraint) :
    swapBlock paths mdds t i j semi non =
      match swapEvent paths mdds t i j with
      | none => Sum.inr (semi, non)
      | some e => absorb e semi non := by
  unfold swapBlock swapEvent
  by_cases h : get paths i t = get paths j (t - 1) ∧ get paths j t = get paths i (t - 1)
  · simp only [h, and_self, if_true]
    rfl
  · simp only [h, if_false]

theorem scanEvents_append_of_inr : ∀ (es1 es2 : List Event) (semi non : List Constraint),
    scanEvents (es1 ++ es2) semi non =
      match es1 with
      | [] => scanEvents es2 semi non
      | e :: rest =>
        match absorb e semi non with
        | Sum.inl r => r
        | Sum.inr (semi1, non1) => scanEvents (rest ++ es2) semi1 non1
  | [], _, _, _ => rfl
  | _ :: _, _, _, _ => rfl

theorem scan_eq_scanEvents (paths : Plan) (mdds : List MDD) :
    ∀ (L : List (Nat × Nat × Nat)) (semi non : List Constraint),
      scan paths mdds L semi non = scanEvents (events paths mdds L) semi non
  | [], semi, non => rfl
  | (t, i, j) :: rest, semi, non => by
    have ih := scan_eq_scanEvents paths mdds rest
    have hev : events paths mdds ((t, i, j) :: rest) =
        ((vertexEvent paths mdds t i j).toList ++ (swapEvent paths mdds t i j).toList) ++
          events paths mdds rest := by
      simp only [events, List.flatMap_cons]
    rw [hev]
    simp only [scan, scanStep, vertexBlock_eq, swapBlock_eq]
    cases hv : vertexEvent paths mdds t i j with
    | none =>
      cases hs : swapEvent paths mdds t i j with
      | none => simp only [Option.toList, List.nil_append]; exact ih semi non
      | some e2 =>
        simp only [Option.toList, List.nil_append, List.singleton_append, scanEvents]
        cases absorb e2 semi non with
        | inl r => rfl
        | inr sn => exact ih sn.1 sn.2
    | some e1 =>
      simp only [Option.toList, List.singleton_append, List.cons_append, scanEvents]
      cases absorb e1 semi non with
      | inl r => rfl
      | inr sn =>
        simp only
        cases hs : swapEvent paths mdds t i j with
        | none => simp only [List.nil_append]; exact ih sn.1 sn.2
        | some e2 =>
          simp only [List.singleton_append, scanEvents]
          cases absorb e2 sn.1 sn.2 with
          | inl r => rfl
          | inr sn2 => exact ih sn2.1 sn2.2

theorem events_pair_length (paths : Plan) (mdds : List MDD) (L : List (Nat × Nat × Nat)) :
    ∀ e ∈ events paths mdds L, e.pair.length = 2 := by
  intro e he
  simp only [events, List.mem_flatMap, List.mem_append, Option.mem_toList] at he
  obtain ⟨tij, _, h | h⟩ := he
  · unfold vertexEvent at h
    simp only at h
    split at h
    · simp only [Option.mem_def, Option.some.injEq] at h
      rw [← h]; rfl
    · cases h
  · unfold swapEvent at h
    simp only at h
    split at h
    · simp only [Option.mem_def, Option.some.injEq] at h
      rw [← h]; rfl
    · cases h

/-- What the scan returns from any state of its two remembered lists. -/
theorem scanEvents_spec : ∀ (es : List Event) (semi non : List Constraint),
    (∀ e ∈ es, e.pair ≠ []) →
    scanEvents es semi non =
      match es.find? (fun e => e.cardinal) with
      | some e => e.pair
      | none =>
        if semi ≠ [] then semi
        else
          match es.find? (fun e => e.semi) with
          | some e => e.pair
          | none => if non ≠ [] then non else (es.head?.map Event.pair).getD []
  | [], semi, non, _ => by
    cases semi <;> cases non <;> simp [scanEvents]
  | e :: es, semi, non, hp => by
    have hpe : e.pair ≠ [] := hp e (List.mem_cons_self _ _)
    have ih := fun s n => scanEvents_spec es s n (fun x hx => hp x (List.mem_cons_of_mem _ hx))
    cases hc : e.cardinal with
    | true =>
      simp only [scanEvents, absorb, hc, if_true, List.find?_cons_of_pos]
    | false =>
      simp only [scanEvents, absorb, hc, Bool.false_eq_true, if_false, List.find?_cons_of_neg,
        not_false_eq_true]
      cases hs : e.semi with
      | true =>
        cases semi with
        | nil =>
          simp only [List.isEmpty_nil, Bool.and_self, if_true, List.nil_append, ih,
            ne_eq, not_true_eq_false, if_false, List.find?_cons_of_pos, hs, hpe,
            not_false_eq_true]
        | cons a s =>
          simp only [List.isEmpty_cons, Bool.false_and, Bool.false_eq_true, if_false,
            ne_eq, reduceCtorEq, not_false_eq_true, if_true]
          cases non with
          | nil =>
            simp only [List.isEmpty_nil, if_true, ih, ne_eq, reduceCtorEq, not_false_eq_true]
          | cons b n =>
            simp only [List.isEmpty_cons, Bool.false_eq_true, if_false, ih, ne_eq,
              reduceCtorEq, not_false_eq_true, if_true]
      | false =>
        have hf : List.find? (fun e => e.semi) (e :: es) = List.find? (fun e => e.semi) es := by
          simp only [List.find?_cons, hs]
        rw [hf]
        simp only [Bool.and_false, Bool.false_eq_true, if_false]
        cases non with
        | nil =>
          simp only [List.isEmpty_nil, if_true, List.nil_append, ih, ne_eq, hpe,
            not_false_eq_true, not_true_eq_false, if_false, List.head?_cons, Option.map_some',
            Option.getD_some]
        | cons b n =>
          simp only [List.isEmpty_cons, Bool.false_eq_true, if_false, ih, ne_eq,
            reduceCtorEq, not_false_eq_true, if_true]

/-- The method returns the choice that the specification describes. -/
theorem getPrioritizedConflict_eq_choice (num : Nat) (paths : Plan) (mdds : List MDD) :
    getPrioritizedConflict num paths mdds =
      choice (events paths mdds (scanOrder num (getMakespan paths))) := by
  unfold getPrioritizedConflict
  rw [scan_eq_scanEvents, scanEvents_spec _ _ _ (fun e he h => by
    have := events_pair_length paths mdds _ e he
    rw [h] at this
    cases this)]
  unfold choice
  cases (events paths mdds (scanOrder num (getMakespan paths))).find? (fun e => e.cardinal) with
  | some e => rfl
  | none =>
    simp only [ne_eq, not_true_eq_false, if_false]
    cases (events paths mdds (scanOrder num (getMakespan paths))).find? (fun e => e.semi) with
    | some e => rfl
    | none =>
      simp only
      cases (events paths mdds (scanOrder num (getMakespan paths))).head? <;> rfl

end ICBS

namespace ICBS

theorem mem_scanOrder_iff (num makespan t i j : Nat) :
    (t, i, j) ∈ scanOrder num makespan ↔ 1 ≤ t ∧ t ≤ makespan ∧ i < j ∧ j < num := by
  constructor
  · intro h
    unfold scanOrder at h
    simp only [List.mem_flatMap, List.mem_range, List.mem_map, Prod.mk.injEq] at h
    obtain ⟨s, hs, i1, hi1, d, hd, h1, h2, h3⟩ := h
    omega
  · rintro ⟨h1, h2, h3, h4⟩
    exact mem_scanOrder num makespan t i j h1 h2 h3 h4

theorem vertexEvent_eq_none (paths : Plan) (mdds : List MDD) (t i j : Nat) :
    vertexEvent paths mdds t i j = none ↔ get paths i t ≠ get paths j t := by
  unfold vertexEvent
  by_cases h : get paths i t = get paths j t
  · simp [h]
  · simp [h]

theorem swapEvent_eq_none (paths : Plan) (mdds : List MDD) (t i j : Nat) :
    swapEvent paths mdds t i j = none ↔
      ¬ (get paths i t = get paths j (t - 1) ∧ get paths j t = get paths i (t - 1)) := by
  unfold swapEvent
  by_cases h : get paths i t = get paths j (t - 1) ∧ get paths j t = get paths i (t - 1)
  · simp [h]
  · simp [h]

theorem events_eq_nil (paths : Plan) (mdds : List MDD) (L : List (Nat × Nat × Nat)) :
    events paths mdds L = [] ↔ ∀ tij ∈ L,
      get paths tij.2.1 tij.1 ≠ get paths tij.2.2 tij.1 ∧
      ¬ (get paths tij.2.1 tij.1 = get paths tij.2.2 (tij.1 - 1) ∧
         get paths tij.2.2 tij.1 = get paths tij.2.1 (tij.1 - 1)) := by
  unfold events
  rw [List.flatMap_eq_nil_iff]
  refine forall_congr' fun tij => forall_congr' fun _ => ?_
  rw [List.append_eq_nil, ← vertexEvent_eq_none paths mdds, ← swapEvent_eq_none paths mdds]
  constructor
  · rintro ⟨h1, h2⟩
    constructor
    · cases h : vertexEvent paths mdds tij.1 tij.2.1 tij.2.2 with
      | none => rfl
      | some e => rw [h] at h1; cases h1
    · cases h : swapEvent paths mdds tij.1 tij.2.1 tij.2.2 with
      | none => rfl
      | some e => rw [h] at h2; cases h2
  · rintro ⟨h1, h2⟩
    rw [h1, h2]
    exact ⟨rfl, rfl⟩

theorem choice_mem (es : List Event) (h : es ≠ []) : ∃ e ∈ es, choice es = e.pair := by
  unfold choice
  cases h1 : es.find? (fun e => e.cardinal) with
  | some e => exact ⟨e, List.mem_of_find?_eq_some h1, rfl⟩
  | none =>
    cases h2 : es.find? (fun e => e.semi) with
    | some e => exact ⟨e, List.mem_of_find?_eq_some h2, rfl⟩
    | none =>
      cases es with
      | nil => exact absurd rfl h
      | cons e rest => exact ⟨e, List.mem_cons_self _ _, rfl⟩

/-- C15: if at some `t` in `[1, makespan]` two agents `i < j` are in a vertex conflict, or in
a swap conflict with one predecessor each, and level `t` exists in both MDDs and has width 1,
then the scan returns the pair of constraints of a cardinal conflict, namely of the first
conflict in scan order (`t` ascending, then `i`, then `j`, vertex before swap) that passes the
cardinal test, whatever conflicts precede it. -/
theorem C15_cardinal_shortcut (num : Nat) (paths : Plan) (mdds : List MDD) (t i j : Nat)
    (ht1 : 1 ≤ t) (ht : t ≤ getMakespan paths) (hij : i < j) (hj : j < num)
    (hci : t ≤ (mdds.getD i ⟨0, []⟩).c) (hcj : t ≤ (mdds.getD j ⟨0, []⟩).c)
    (hwi : width mdds i t = 1) (hwj : width mdds j t = 1)
    (h : get paths i t = get paths j t ∨
      (get paths i t = get paths j (t - 1) ∧ get paths j t = get paths i (t - 1) ∧
        prevSize mdds i t = 1 ∧ prevSize mdds j t = 1)) :
    ∃ es1 e es2, events paths mdds (scanOrder num (getMakespan paths)) = es1 ++ e :: es2 ∧
      (∀ x ∈ es1, x.cardinal = false) ∧ e.cardinal = true ∧
      getPrioritizedConflict num paths mdds = e.pair ∧ e.pair.length = 2 := by
  have hmem := mem_scanOrder num (getMakespan paths) t i j ht1 ht hij hj
  have hex : ∃ e0 ∈ events paths mdds (scanOrder num (getMakespan paths)),
      e0.cardinal = true := by
    rcases h with h | ⟨h1, h2, h3, h4⟩
    · have hv : ∃ e, vertexEvent paths mdds t i j = some e ∧ e.cardinal = true := by
        refine ⟨_, by unfold vertexEvent; exact if_pos h, ?_⟩
        simp only [decide_eq_true_eq]
        exact Or.inl ⟨hci, by rw [if_pos hci]; exact hwi, hcj, by rw [if_pos hcj]; exact hwj⟩
      obtain ⟨e, hv, hc⟩ := hv
      refine ⟨e, ?_, hc⟩
      simp only [events, List.mem_flatMap, List.mem_append, Option.mem_toList]
      exact ⟨(t, i, j), hmem, Or.inl hv⟩
    · have hv : ∃ e, swapEvent paths mdds t i j = some e ∧ e.cardinal = true := by
        refine ⟨_, by unfold swapEvent; exact if_pos ⟨h1, h2⟩, ?_⟩
        simp only [decide_eq_true_eq]
        exact ⟨⟨hci, by rw [if_pos hci]; exact hwi, h3⟩,
          ⟨hcj, by rw [if_pos hcj]; exact hwj, h4⟩⟩
      obtain ⟨e, hv, hc⟩ := hv
      refine ⟨e, ?_, hc⟩
      simp only [events, List.mem_flatMap, List.mem_append, Option.mem_toList]
      exact ⟨(t, i, j), hmem, Or.inr hv⟩
  obtain ⟨e0, he0, hc0⟩ := hex
  cases hf : (events paths mdds (scanOrder num (getMakespan paths))).find?
      (fun e => e.cardinal) with
  | none =>
    rw [List.find?_eq_none] at hf
    exact absurd hc0 (hf e0 he0)
  | some e =>
    obtain ⟨hce, es1, es2, hes, hes1⟩ := List.find?_eq_some.1 hf
    refine ⟨es1, e, es2, hes, fun x hx => by simpa using hes1 x hx, hce, ?_,
      events_pair_length paths mdds _ e (List.mem_of_find?_eq_some hf)⟩
    rw [getPrioritizedConflict_eq_choice]
    unfold choice
    rw [hf]

theorem C15_cardinal_shortcut_witness :
    ∃ es1 e es2, events [[0, 1, 2, 5], [4, 1, 2, 3]]
        [⟨3, [[⟨0, []⟩], [⟨1, [0]⟩, ⟨3, [0]⟩], [⟨2, [1]⟩], [⟨5, [2]⟩]]⟩,
         ⟨3, [[⟨4, []⟩], [⟨1, [4]⟩], [⟨2, [1]⟩], [⟨3, [2]⟩]]⟩]
        (scanOrder 2 (getMakespan [[0, 1, 2, 5], [4, 1, 2, 3]])) = es1 ++ e :: es2 ∧
      (∀ x ∈ es1, x.cardinal = false) ∧ e.cardinal = true ∧
      getPrioritizedConflict 2 [[0, 1, 2, 5], [4, 1, 2, 3]]
        [⟨3, [[⟨0, []⟩], [⟨1, [0]⟩, ⟨3, [0]⟩], [⟨2, [1]⟩], [⟨5, [2]⟩]]⟩,
         ⟨3, [[⟨4, []⟩], [⟨1, [4]⟩], [⟨2, [1]⟩], [⟨3, [2]⟩]]⟩] = e.pair ∧
      e.pair.length = 2 :=
  C15_cardinal_shortcut 2 [[0, 1, 2, 5], [4, 1, 2, 3]]
    [⟨3, [[⟨0, []⟩], [⟨1, [0]⟩, ⟨3, [0]⟩], [⟨2, [1]⟩], [⟨5, [2]⟩]]⟩,
     ⟨3, [[⟨4, []⟩], [⟨1, [4]⟩], [⟨2, [1]⟩], [⟨3, [2]⟩]]⟩] 2 0 1
    (by decide) (by decide) (by decide) (by decide) (by decide) (by decide) (by decide)
    (by decide) (Or.inl (by decide))

/-- C20: when no conflict of the paths passes the cardinal test, the scan returns the pair of
constraints of the first conflict in scan order that passes the semi-cardinal test if there
is one, otherwise that of the first conflict in scan order, otherwise the empty list; and the
result is empty if and only if no two agents are in a vertex or swap conflict at any `t` in
`[1, makespan]`. -/
theorem C20_choice_without_cardinal (num : Nat) (paths : Plan) (mdds : List MDD)
    (hno : ∀ e ∈ events paths mdds (scanOrder num (getMakespan paths)), e.cardinal = false) :
    (∀ es1 e es2, events paths mdds (scanOrder num (getMakespan paths)) = es1 ++ e :: es2 →
      (∀ x ∈ es1, x.semi = false) → e.semi = true →
      getPrioritizedConflict num paths mdds = e.pair) ∧
    ((∀ x ∈ events paths mdds (scanOrder num (getMakespan paths)), x.semi = false) →
      ∀ e es2, events paths mdds (scanOrder num (getMakespan paths)) = e :: es2 →
      getPrioritizedConflict num paths mdds = e.pair) ∧
    (events paths mdds (scanOrder num (getMakespan paths)) = [] →
      getPrioritizedConflict num paths mdds = []) ∧
    (getPrioritizedConflict num paths mdds = [] ↔
      ∀ t i j, 1 ≤ t → t ≤ getMakespan paths → i < j → j < num →
        get paths i t ≠ get paths j t ∧
        ¬ (get paths i t = get paths j (t - 1) ∧ get paths j t = get paths i (t - 1))) := by
  have hcard : (events paths mdds (scanOrder num (getMakespan paths))).find?
      (fun e => e.cardinal) = none := by
    rw [List.find?_eq_none]
    intro x hx
    rw [hno x hx]
    simp
  have hnil : getPrioritizedConflict num paths mdds = [] ↔
      events paths mdds (scanOrder num (getMakespan paths)) = [] := by
    rw [getPrioritizedConflict_eq_choice]
    constructor
    · intro h
      by_contra hne
      obtain ⟨e, he, hch⟩ := choice_mem _ hne
      have := events_pair_length paths mdds _ e he
      rw [← hch, h] at this
      cases this
    · intro h
      rw [h]
      rfl
  refine ⟨?_, ?_, hnil.2, ?_⟩
  · intro es1 e es2 hes hes1 hsemi
    have hf : (events paths mdds (scanOrder num (getMakespan paths))).find?
        (fun e => e.semi) = some e :=
      List.find?_eq_some.2 ⟨hsemi, es1, es2, hes, fun x hx => by simp [hes1 x hx]⟩
    rw [getPrioritizedConflict_eq_choice]
    unfold choice
    rw [hcard, hf]
  · intro hall e es2 hes
    have hf : (events paths mdds (scanOrder num (getMakespan paths))).find?
        (fun e => e.semi) = none := by
      rw [List.find?_eq_none]
      intro x hx
      rw [hall x hx]
      simp
    rw [getPrioritizedConflict_eq_choice]
    unfold choice
    rw [hcard, hf, hes]
    rfl
  · rw [hnil, events_eq_nil]
    constructor
    · intro h t i j ht1 ht hij hj
      exact h (t, i, j) (mem_scanOrder num _ t i j ht1 ht hij hj)
    · rintro h ⟨t, i, j⟩ hmem
      obtain ⟨h1, h2, h3, h4⟩ := (mem_scanOrder_iff num _ t i j).1 hmem
      exact h t i j h1 h2 h3 h4

theorem C20_choice_without_cardinal_witness :
    getPrioritizedConflict 2 [[0, 1, 2], [4, 5, 2]]
      [⟨2, [[⟨0, []⟩], [⟨1, [0]⟩], [⟨2, [1]⟩, ⟨2, [1]⟩]]⟩,
       ⟨2, [[⟨4, []⟩], [⟨5, [4]⟩], [⟨2, [5]⟩]]⟩] =
      (Event.mk false true [⟨0, 2, 2, none⟩, ⟨1, 2, 2, none⟩]).pair :=
  (C20_choice_without_cardinal 2 [[0, 1, 2], [4, 5, 2]]
    [⟨2, [[⟨0, []⟩], [⟨1, [0]⟩], [⟨2, [1]⟩, ⟨2, [1]⟩]]⟩,
     ⟨2, [[⟨4, []⟩], [⟨5, [4]⟩], [⟨2, [5]⟩]]⟩] (by decide)).1 []
    ⟨false, true, [⟨0, 2, 2, none⟩, ⟨1, 2, 2, none⟩]⟩ [] (by decide) (by decide) rfl

end ICBS

/-! ### Arithmetic of `int` values -/

namespace ICBS

end ICBS

/-! ### What `countsSwapConlicts` counts -/

namespace DBS

end DBS

/-! ### The agent of the execution model -/

namespace Agent

/-- What holds of every state that `activate` reaches: a contracted agent sits on `path[t]`,
an extended agent has its tail on `path[t - 1]` and its head on `path[t]`. -/
theorem Reach.inv {NIL id : Int} {path : Path} (hne : path ≠ []) {a : Agent}
    (h : Reach NIL id path a) :
    a.path = path ∧ a.id = id ∧ a.t < path.length ∧
    (a.mode = Mode.CONTRACTED → a.tail = path.get? a.t ∧ a.head = none) ∧
    (a.mode = Mode.EXTENDED → 1 ≤ a.t ∧ a.tail = path.get? (a.t - 1) ∧
      a.head = path.get? a.t) := by
  induction h with
  | init =>
    refine ⟨rfl, rfl, List.length_pos.2 hne, fun _ => ⟨?_, rfl⟩, fun h => by cases h⟩
    cases path with
    | nil => exact absurd rfl hne
    | cons x l => rfl
  | @step a a1 occ occ1 _ hstep ih =>
    obtain ⟨hp, hid, ht, hC, hE⟩ := ih
    unfold activate at hstep
    by_cases hfin : a.isFinished = true
    · rw [if_pos hfin] at hstep
      simp only [Option.some.injEq, Prod.mk.injEq] at hstep
      rw [← hstep.1]
      exact ⟨hp, hid, ht, hC, hE⟩
    · rw [if_neg hfin] at hstep
      by_cases hm : a.mode = Mode.EXTENDED
      · rw [if_pos hm] at hstep
        cases htl : a.tail with
        | none => rw [htl] at hstep; cases hstep
        | some tl =>
          rw [htl] at hstep
          simp only [Option.some.injEq, Prod.mk.injEq] at hstep
          rw [← hstep.1]
          exact ⟨hp, hid, ht, fun _ => ⟨(hE hm).2.2, rfl⟩, fun h => by cases h⟩
      · rw [if_neg hm] at hstep
        have hmC : a.mode = Mode.CONTRACTED := by
          cases hmode : a.mode with
          | CONTRACTED => rfl
          | EXTENDED => exact absurd hmode hm
        cases hnext : a.getNextNode with
        | none => rw [hnext] at hstep; cases hstep
        | some v =>
          rw [hnext] at hstep
          simp only at hstep
          unfold getNextNode at hnext
          rw [hp] at hnext
          split at hnext
          · rename_i hlt
            split at hstep
            · simp only [Option.some.injEq, Prod.mk.injEq] at hstep
              rw [← hstep.1]
              refine ⟨hp, hid, (by simp only; omega), fun h => (by cases h), fun _ => ?_⟩
              simp only [Nat.add_sub_cancel]
              exact ⟨by omega, (hC hmC).1, hnext.symm⟩
            · simp only [Option.some.injEq, Prod.mk.injEq] at hstep
              rw [← hstep.1]
              exact ⟨hp, hid, ht, hC, hE⟩
          · cases hnext

/-- C18 (as amended): for an agent built from a non-empty path, in every state that calls of
`activate` reach, `isFinished()` holds if and only if the agent is contracted and
`t = |path| - 1`; its tail is then the goal, the last vertex of the path. If the goal occurs
on the path only as the last entry, `isFinished()` holds if and only if the agent is
contracted with its tail on the goal. On a finished agent `activate` changes neither the
agent nor the occupancy vector. -/
theorem C18_isFinished_iff (NIL id : Int) (path : Path) (hne : path ≠ []) (a : Agent)
    (ha : Reach NIL id path a) :
    (a.isFinished = true ↔ a.mode = Mode.CONTRACTED ∧ a.t + 1 = path.length) ∧
    (a.isFinished = true → a.tail = path.getLast?) ∧
    ((∀ i, i + 1 < path.length → path.get? i ≠ path.getLast?) →
      (a.isFinished = true ↔ a.mode = Mode.CONTRACTED ∧ a.tail = path.getLast?)) ∧
    (a.isFinished = true → ∀ occ, activate NIL a occ = some (a, occ)) := by
  obtain ⟨hp, _, ht, hC, _⟩ := ha.inv hne
  have hiff : a.isFinished = true ↔ a.mode = Mode.CONTRACTED ∧ a.t + 1 = path.length := by
    unfold isFinished
    rw [hp]
    simp only [Bool.and_eq_true, beq_iff_eq, decide_eq_true_eq]
    constructor
    · rintro ⟨h1, h2⟩; exact ⟨h1, by omega⟩
    · rintro ⟨h1, h2⟩; exact ⟨h1, by omega⟩
  have hlast : a.t + 1 = path.length → path.get? a.t = path.getLast? := by
    intro h
    rw [List.getLast?_eq_getElem?, List.get?_eq_getElem?]
    congr 1
    omega
  refine ⟨hiff, fun h => ?_, fun honly => ⟨fun h => ?_, fun h => ?_⟩, fun h occ => ?_⟩
  · obtain ⟨h1, h2⟩ := hiff.1 h
    rw [(hC h1).1]
    exact hlast h2
  · obtain ⟨h1, h2⟩ := hiff.1 h
    exact ⟨h1, by rw [(hC h1).1]; exact hlast h2⟩
  · refine hiff.2 ⟨h.1, ?_⟩
    by_contra hlen
    have := honly a.t (by omega)
    rw [← (hC h.1).1] at this
    exact this h.2
  · unfold activate
    rw [if_pos h]

theorem C18_isFinished_iff_witness :
    ((Agent.mk 7 2 Mode.CONTRACTED none (some 2) [0, 1, 2]).isFinished = true ↔
      (Agent.mk 7 2 Mode.CONTRACTED none (some 2) [0, 1, 2]).mode = Mode.CONTRACTED ∧
      (Agent.mk 7 2 Mode.CONTRACTED none (some 2) [0, 1, 2]).t + 1 =
        ([0, 1, 2] : Path).length) ∧
    ((Agent.mk 7 2 Mode.CONTRACTED none (some 2) [0, 1, 2]).isFinished = true →
      (Agent.mk 7 2 Mode.CONTRACTED none (some 2) [0, 1, 2]).tail =
        ([0, 1, 2] : Path).getLast?) ∧
    ((∀ i, i + 1 < ([0, 1, 2] : Path).length →
        ([0, 1, 2] : Path).get? i ≠ ([0, 1, 2] : Path).getLast?) →
      ((Agent.mk 7 2 Mode.CONTRACTED none (some 2) [0, 1, 2]).isFinished = true ↔
        (Agent.mk 7 2 Mode.CONTRACTED none (some 2) [0, 1, 2]).mode = Mode.CONTRACTED ∧
        (Agent.mk 7 2 Mode.CONTRACTED none (some 2) [0, 1, 2]).tail =
          ([0, 1, 2] : Path).getLast?)) ∧
    ((Agent.mk 7 2 Mode.CONTRACTED none (some 2) [0, 1, 2]).isFinished = true →
      ∀ occ, activate (-1) (Agent.mk 7 2 Mode.CONTRACTED none (some 2) [0, 1, 2]) occ =
        some (Agent.mk 7 2 Mode.CONTRACTED none (some 2) [0, 1, 2], occ)) :=
  C18_isFinished_iff (-1) 7 [0, 1, 2] (by decide) _
    (@Reach.step (-1) 7 [0, 1, 2] ⟨7, 2, Mode.EXTENDED, some 2, some 1, [0, 1, 2]⟩ _
      [-1, 7, 7] [-1, -1, 7]
      (@Reach.step (-1) 7 [0, 1, 2] ⟨7, 1, Mode.CONTRACTED, none, some 1, [0, 1, 2]⟩ _
        [-1, 7, -1] [-1, 7, 7]
        (@Reach.step (-1) 7 [0, 1, 2] ⟨7, 1, Mode.EXTENDED, some 1, some 0, [0, 1, 2]⟩ _
          [7, 7, -1] [-1, 7, -1]
          (@Reach.step (-1) 7 [0, 1, 2] (Agent.new 7 [0, 1, 2]) _ [7, -1, -1] [7, 7, -1]
            Reach.init (by decide))
          (by decide))
        (by decide))
      (by decide))

/-- Counterexample to C18 as stated: an agent whose path `2, 1, 2` returns to its first
vertex. Right after construction it is contracted with its tail on the goal `2`, but it is not
finished, and `activate` moves it. -/
theorem C18_counterexample :
    (Agent.new 7 [2, 1, 2]).mode = Mode.CONTRACTED ∧
    (Agent.new 7 [2, 1, 2]).tail = ([2, 1, 2] : Path).getLast? ∧
    (Agent.new 7 [2, 1, 2]).isFinished = false ∧
    activate (-1) (Agent.new 7 [2, 1, 2]) [-1, -1, 7] =
      some (⟨7, 1, Mode.EXTENDED, some 1, some 2, [2, 1, 2]⟩, [-1, 7, 7]) := by
  decide

end Agent

/-! ### The search ends, with or without time-out -/

namespace Solver

theorem getPathLoop_terminates (S : Solver) (o : Oracle) (id : Nat) (chk : CheckInvalidMove)
    (cmp : CompareAstarNodes) (hWF : S.P.G.WF) (hshuf : ∀ k l, (o.shuffle k l).Perm l) :
    ∀ (fuel : Nat) (O : List AstarNode) (C : List Bool) (k : Nat),
      C.length = S.P.G.nodesSize → (∀ y ∈ O, y.v < S.P.G.nodesSize) →
      O.length + openDeg S.P.G C (List.range S.P.G.nodesSize) + 1 ≤ fuel →
      ∃ p k1, getPathLoop S o id chk cmp fuel O C k = some (p, k1) := by
  intro fuel
  induction fuel with
  | zero => intro O C k _ _ h; omega
  | succ fuel ih =>
    intro O C k hCl hOv hfuel
    unfold getPathLoop
    by_cases hO : O.isEmpty = true
    · rw [if_pos hO]
      exact ⟨_, _, rfl⟩
    · rw [if_neg hO]
      by_cases ht : o.overCompTime k = true
      · rw [if_pos ht]
        exact ⟨_, _, rfl⟩
      · rw [if_neg ht]
        have hne : O ≠ [] := fun e => hO (by simp [e])
        have hlen : 0 < O.length := List.length_pos.2 hne
        have hi : o.top k cmp O % O.length < O.length := Nat.mod_lt _ hlen
        obtain ⟨n, hn⟩ : ∃ n, O.get? (o.top k cmp O % O.length) = some n :=
          ⟨O.get ⟨_, hi⟩, List.get?_eq_get hi⟩
        simp only [hn]
        have hnO : n ∈ O := List.get?_mem hn
        have hlenE : (O.eraseIdx (o.top k cmp O % O.length)).length = O.length - 1 := by
          rw [List.length_eraseIdx, if_pos hi]
        by_cases hc : C.getD n.v false = true
        · rw [if_pos hc]
          exact ih _ C (k + 1) hCl (fun y hy => hOv y (List.mem_of_mem_eraseIdx hy)) (by omega)
        · rw [if_neg hc]
          have hc' : C.getD n.v false = false := by simpa using hc
          by_cases hg : n.v = S.P.getGoal id
          · rw [if_pos hg]
            exact ⟨_, _, rfl⟩
          · rw [if_neg hg]
            refine ih _ _ (k + 1) (by simp [hCl]) ?_ ?_
            · intro y hy
              rcases List.mem_append.1 hy with hy | hy
              · exact hOv y (List.mem_of_mem_eraseIdx hy)
              · rcases mem_expand hy with ⟨u, huL, _, _, rfl⟩
                exact hWF n.v (hOv n hnO) u ((hshuf k _).subset huL)
            · have hv : n.v < C.length := by rw [hCl]; exact hOv n hnO
              have h1 := openDeg_set_lt S.P.G C n.v hv hc' (List.range S.P.G.nodesSize)
                (List.mem_range.2 (hOv n hnO))
              have h2 := length_expand_le S id chk (C.set n.v true) n
                (o.shuffle k (S.P.G.neighbor n.v))
              have h3 : (o.shuffle k (S.P.G.neighbor n.v)).length =
                  (S.P.G.neighbor n.v).length := (hshuf k _).length_eq
              rw [List.length_append]
              omega

/-- Whatever the clock says, `getPath` returns once the budget of rounds covers the number of
moves of the graph. -/
theorem getPath_terminates (S : Solver) (o : Oracle) (id : Nat) (chk : CheckInvalidMove)
    (cmp : CompareAstarNodes) (k : Nat) (hWF : S.P.G.WF)
    (hs : S.P.getStart id < S.P.G.nodesSize) (hshuf : ∀ k l, (o.shuffle k l).Perm l)
    (fuel : Nat) (hfuel : S.P.G.degSum + 2 ≤ fuel) :
    ∃ p k1, S.getPath o fuel id chk cmp k = some (p, k1) := by
  unfold getPath
  apply getPathLoop_terminates S o id chk cmp hWF hshuf
  · simp
  · intro y hy
    rw [List.mem_singleton] at hy
    rw [hy]
    exact hs
  · rw [openDeg_replicate]
    simp only [List.length_singleton]
    unfold Graph.degSum at hfuel
    omega

end Solver

namespace DBS

/-- C19: `invoke(n, c)` returns a child `m`; its paths are those of `n` with the path of agent
`c.agent` replaced by the path `p` that the constrained search returns, its constraints are
those of `n` followed by `c`, it is invalid if and only if `p` is empty, and `m.f` is
`countsSwapConlicts(m.paths)` in either case. -/
theorem C19_invoke_valid_iff (D : DBS) (o : Oracle) (fuel : Nat) (n : HighLevelNode)
    (c : Constraint) (k : Nat) (hWF : D.S.P.G.WF)
    (hs : D.S.P.getStart c.agent < D.S.P.G.nodesSize)
    (hshuf : ∀ k l, (o.shuffle k l).Perm l) (hfuel : D.S.P.G.degSum + 2 ≤ fuel)
    (hc : c.agent < n.paths.length) :
    ∃ m k1 p,
      D.getConstrainedPath o fuel c.agent ⟨n.paths, n.constraints ++ [c], 0, true⟩ k =
        some (p, k1) ∧
      D.invoke o fuel n c k = some (m, k1) ∧
      m.paths = n.paths.set c.agent p ∧ m.constraints = n.constraints ++ [c] ∧
      (m.valid = false ↔ p = []) ∧ m.f = D.countsSwapConlicts m.paths := by
  obtain ⟨p, k1, hp⟩ := Solver.getPath_terminates D.S o c.agent
    (D.checkConstrained c.agent
      ((n.constraints ++ [c]).filter (fun c1 => c1.agent == c.agent)))
    (D.compareConstrained c.agent (D.fromToTable c.agent n.paths)) k hWF hs hshuf fuel hfuel
  have hp1 : D.getConstrainedPath o fuel c.agent ⟨n.paths, n.constraints ++ [c], 0, true⟩ k =
      some (p, k1) := hp
  refine ⟨⟨n.paths.set c.agent p, n.constraints ++ [c],
    D.countsSwapConlicts (n.paths.set c.agent p),
    !((n.paths.set c.agent p).getD c.agent []).isEmpty⟩, k1, p, hp1,
    by simp only [invoke, hp1], rfl, rfl, ?_, rfl⟩
  simp only [List.getD_eq_getElem?_getD, List.getElem?_set_self hc, Option.getD_some,
    Bool.not_eq_false', List.isEmpty_iff]

theorem C19_invoke_valid_iff_witness :
    ∃ m k1 p,
      corridorDBS.getConstrainedPath plainOracle 6 0
        ⟨[[0, 1, 2], [2, 1, 0]], [] ++ [⟨0, 1, 2⟩], 0, true⟩ 0 = some (p, k1) ∧
      corridorDBS.invoke plainOracle 6 ⟨[[0, 1, 2], [2, 1, 0]], [], 2, true⟩ ⟨0, 1, 2⟩ 0 =
        some (m, k1) ∧
      m.paths = ([[0, 1, 2], [2, 1, 0]] : Plan).set 0 p ∧ m.constraints = [] ++ [⟨0, 1, 2⟩] ∧
      (m.valid = false ↔ p = []) ∧ m.f = corridorDBS.countsSwapConlicts m.paths :=
  C19_invoke_valid_iff corridorDBS plainOracle 6 ⟨[[0, 1, 2], [2, 1, 0]], [], 2, true⟩
    ⟨0, 1, 2⟩ 0 corridor_WF (by decide) (fun _ l => List.Perm.refl l) (by decide) (by decide)

end DBS

/-! ### What `invoke` leaves as it is -/

namespace DBS

/-- C23: `invoke(n, c)` returns a child `m` whose constraints are those of `n` followed by
`c`, whose plan has as many paths as that of `n`, and whose path of every agent other than
`c.agent` is the one of `n`. The parent is an argument that the call only reads. -/
theorem C23_invoke_frame (D : DBS) (o : Oracle) (fuel : Nat) (n : HighLevelNode)
    (c : Constraint) (k : Nat) (hWF : D.S.P.G.WF)
    (hs : D.S.P.getStart c.agent < D.S.P.G.nodesSize)
    (hshuf : ∀ k l, (o.shuffle k l).Perm l) (hfuel : D.S.P.G.degSum + 2 ≤ fuel) :
    ∃ m k1, D.invoke o fuel n c k = some (m, k1) ∧
      m.constraints = n.constraints ++ [c] ∧
      m.paths.length = n.paths.length ∧
      ∀ j, j ≠ c.agent → m.paths.getD j [] = n.paths.getD j [] := by
  obtain ⟨p, k1, hp⟩ := Solver.getPath_terminates D.S o c.agent
    (D.checkConstrained c.agent
      ((n.constraints ++ [c]).filter (fun c1 => c1.agent == c.agent)))
    (D.compareConstrained c.agent (D.fromToTable c.agent n.paths)) k hWF hs hshuf fuel hfuel
  have hp1 : D.getConstrainedPath o fuel c.agent ⟨n.paths, n.constraints ++ [c], 0, true⟩ k =
      some (p, k1) := hp
  refine ⟨⟨n.paths.set c.agent p, n.constraints ++ [c],
    D.countsSwapConlicts (n.paths.set c.agent p),
    !((n.paths.set c.agent p).getD c.agent []).isEmpty⟩, k1,
    by simp only [invoke, hp1], rfl, List.length_set _ _ _, ?_⟩
  intro j hj
  show (n.paths.set c.agent p).getD j [] = n.paths.getD j []
  rw [List.getD_eq_getElem?_getD, List.getD_eq_getElem?_getD,
    List.getElem?_set_ne (Ne.symm hj)]

theorem C23_invoke_frame_witness :
    ∃ m k1, corridorDBS.invoke plainOracle 6 ⟨[[0, 1, 2], [2, 1, 0]], [], 2, true⟩
        ⟨0, 1, 2⟩ 0 = some (m, k1) ∧
      m.constraints = [] ++ [⟨0, 1, 2⟩] ∧
      m.paths.length = ([[0, 1, 2], [2, 1, 0]] : Plan).length ∧
      ∀ j, j ≠ 0 → m.paths.getD j [] = ([[0, 1, 2], [2, 1, 0]] : Plan).getD j [] :=
  C23_invoke_frame corridorDBS plainOracle 6 ⟨[[0, 1, 2], [2, 1, 0]], [], 2, true⟩
    ⟨0, 1, 2⟩ 0 corridor_WF (by decide) (fun _ l => List.Perm.refl l) (by decide)

end DBS

/-! ### The transitions of an agent -/

namespace Agent

theorem getD_set_int (occ : List Int) (v w : Nat) (x d : Int) (hv : v < occ.length) :
    (occ.set v x).getD w d = if w = v then x else occ.getD w d := by
  rw [List.getD_eq_getElem?_getD, List.getD_eq_getElem?_getD]
  by_cases h : w = v
  · subst h
    rw [if_pos rfl, List.getElem?_set_self hv]
    rfl
  · rw [if_neg h, List.getElem?_set_ne (Ne.symm h)]

theorem getD_set_int_ne (occ : List Int) (v w : Nat) (x d : Int) (h : w ≠ v) :
    (occ.set v x).getD w d = occ.getD w d := by
  rw [List.getD_eq_getElem?_getD, List.getD_eq_getElem?_getD,
    List.getElem?_set_ne (Ne.symm h)]

/-- C26: `activate` on a contracted agent whose path goes on with `v = path[t + 1]`: if
`occupancy[v]` is `NIL` the agent becomes extended with head `v`, the same tail and `t + 1`,
and `occupancy[v]` becomes its id, no other entry changing; otherwise neither the agent nor
the occupancy vector changes. On an extended agent `activate` yields a contracted agent whose
tail is the old head, with no head and the same `t`, and it sets `occupancy[old tail]` to
`NIL`, no other entry changing. -/
theorem C26_activate_transitions (NIL : Int) (a : Agent) (occ : List Int) :
    (a.mode = Mode.CONTRACTED → ∀ v, a.path.get? (a.t + 1) = some v → v < occ.length →
      (occ.getD v NIL = NIL →
        activate NIL a occ =
          some ({ a with mode := Mode.EXTENDED, head := some v, t := a.t + 1 },
            occ.set v a.id) ∧
        (occ.set v a.id).getD v NIL = a.id ∧
        ∀ w, w ≠ v → (occ.set v a.id).getD w NIL = occ.getD w NIL) ∧
      (occ.getD v NIL ≠ NIL → activate NIL a occ = some (a, occ))) ∧
    (a.mode = Mode.EXTENDED → ∀ tl, a.tail = some tl → tl < occ.length →
      activate NIL a occ =
        some ({ a with mode := Mode.CONTRACTED, tail := a.head, head := none },
          occ.set tl NIL) ∧
      (occ.set tl NIL).getD tl NIL = NIL ∧
      ∀ w, w ≠ tl → (occ.set tl NIL).getD w NIL = occ.getD w NIL) := by
  constructor
  · intro hm v hv hvl
    have hlt : a.t + 1 < a.path.length := by
      by_contra h
      rw [List.get?_eq_none.2 (by omega)] at hv
      cases hv
    have hfin : a.isFinished = false := by
      unfold isFinished
      simp only [Bool.and_eq_false_iff, decide_eq_false_iff_not]
      right
      omega
    have hnext : a.getNextNode = some v := by
      unfold getNextNode
      rw [if_pos (by omega)]
      exact hv
    have hne : ¬ a.mode = Mode.EXTENDED := by rw [hm]; decide
    constructor
    · intro hocc
      refine ⟨?_, ?_, fun w hw => getD_set_int_ne occ v w a.id NIL hw⟩
      · unfold activate
        rw [hfin]
        simp only [Bool.false_eq_true, if_false, if_neg hne, hnext, hocc, if_true]
      · rw [getD_set_int occ v v a.id NIL hvl, if_pos rfl]
    · intro hocc
      unfold activate
      rw [hfin]
      simp only [Bool.false_eq_true, if_false, if_neg hne, hnext, if_neg hocc]
  · intro hm tl htl htll
    have hfin : a.isFinished = false := by
      unfold isFinished
      rw [hm]
      rfl
    refine ⟨?_, ?_, fun w hw => getD_set_int_ne occ tl w NIL NIL hw⟩
    · unfold activate
      rw [hfin]
      simp only [Bool.false_eq_true, if_false, if_pos hm, htl]
    · rw [getD_set_int occ tl tl NIL NIL htll, if_pos rfl]

theorem C26_activate_transitions_witness :
    activate (-1) ⟨7, 0, Mode.CONTRACTED, none, some 0, [0, 1, 2]⟩ [7, -1, -1] =
      some (⟨7, 1, Mode.EXTENDED, some 1, some 0, [0, 1, 2]⟩, [7, 7, -1]) ∧
    activate (-1) ⟨7, 0, Mode.CONTRACTED, none, some 0, [0, 1, 2]⟩ [7, 3, -1] =
      some (⟨7, 0, Mode.CONTRACTED, none, some 0, [0, 1, 2]⟩, [7, 3, -1]) ∧
    activate (-1) ⟨7, 1, Mode.EXTENDED, some 1, some 0, [0, 1, 2]⟩ [7, 7, -1] =
      some (⟨7, 1, Mode.CONTRACTED, none, some 1, [0, 1, 2]⟩, [-1, 7, -1]) :=
  ⟨(((C26_activate_transitions (-1) ⟨7, 0, Mode.CONTRACTED, none, some 0, [0, 1, 2]⟩
      [7, -1, -1]).1 rfl 1 rfl (by decide)).1 (by decide)).1,
    ((C26_activate_transitions (-1) ⟨7, 0, Mode.CONTRACTED, none, some 0, [0, 1, 2]⟩
      [7, 3, -1]).1 rfl 1 rfl (by decide)).2 (by decide),
    ((C26_activate_transitions (-1) ⟨7, 1, Mode.EXTENDED, some 1, some 0, [0, 1, 2]⟩
      [7, 7, -1]).2 rfl 0 rfl (by decide)).1⟩

end Agent

/-! ### The shape of the returned constraints -/

namespace ICBS

theorem mem_events (paths : Plan) (mdds : List MDD) (L : List (Nat × Nat × Nat)) (e : Event)
    (he : e ∈ events paths mdds L) :
    ∃ t i j, (t, i, j) ∈ L ∧
      ((get paths i t = get paths j t ∧
          e.pair = [⟨i, t, get paths i t, none⟩, ⟨j, t, get paths j t, none⟩]) ∨
       (get paths i t = get paths j (t - 1) ∧ get paths j t = get paths i (t - 1) ∧
          e.pair = [⟨i, t, get paths i t, some (get paths i (t - 1))⟩,
            ⟨j, t, get paths j t, some (get paths j (t - 1))⟩])) := by
  simp only [events, List.mem_flatMap, List.mem_append, Option.mem_toList] at he
  obtain ⟨⟨t, i, j⟩, hmem, h | h⟩ := he
  · refine ⟨t, i, j, hmem, Or.inl ?_⟩
    unfold vertexEvent at h
    simp only at h
    split at h
    · rename_i hc
      simp only [Option.mem_def, Option.some.injEq] at h
      exact ⟨hc, by rw [← h]⟩
    · cases h
  · refine ⟨t, i, j, hmem, Or.inr ?_⟩
    unfold swapEvent at h
    simp only at h
    split at h
    · rename_i hc
      simp only [Option.mem_def, Option.some.injEq] at h
      exact ⟨hc.1, hc.2, by rw [← h]⟩
    · cases h

/-- C27: a non-empty result of `getPrioritizedConflict` is a pair of constraints on two
agents `i < j` at one time `t` in `[1, makespan]`; either both constraints have no `u` and name
the vertex on which both agents stand at `t`, or each names the vertex of its agent at `t`
as `v` and the vertex of its agent at `t - 1` as `u`, the two agents having exchanged their
vertices. -/
theorem C27_result_shape (num : Nat) (paths : Plan) (mdds : List MDD)
    (h : getPrioritizedConflict num paths mdds ≠ []) :
    ∃ t i j, 1 ≤ t ∧ t ≤ getMakespan paths ∧ i < j ∧ j < num ∧
      ((get paths i t = get paths j t ∧
          getPrioritizedConflict num paths mdds =
            [⟨i, t, get paths i t, none⟩, ⟨j, t, get paths j t, none⟩]) ∨
       (get paths i t = get paths j (t - 1) ∧ get paths j t = get paths i (t - 1) ∧
          getPrioritizedConflict num paths mdds =
            [⟨i, t, get paths i t, some (get paths i (t - 1))⟩,
              ⟨j, t, get paths j t, some (get paths j (t - 1))⟩])) := by
  have hne : events paths mdds (scanOrder num (getMakespan paths)) ≠ [] := by
    intro he
    apply h
    rw [getPrioritizedConflict_eq_choice, he]
    rfl
  obtain ⟨e, he, hch⟩ := choice_mem _ hne
  obtain ⟨t, i, j, hmem, hcase⟩ := mem_events paths mdds _ e he
  obtain ⟨h1, h2, h3, h4⟩ := (mem_scanOrder_iff num _ t i j).1 hmem
  refine ⟨t, i, j, h1, h2, h3, h4, ?_⟩
  rw [getPrioritizedConflict_eq_choice, hch]
  exact hcase

theorem C27_result_shape_witness :
    ∃ t i j, 1 ≤ t ∧ t ≤ getMakespan [[0, 1, 2], [4, 5, 2]] ∧ i < j ∧ j < 2 ∧
      ((get [[0, 1, 2], [4, 5, 2]] i t = get [[0, 1, 2], [4, 5, 2]] j t ∧
          getPrioritizedConflict 2 [[0, 1, 2], [4, 5, 2]] [] =
            [⟨i, t, get [[0, 1, 2], [4, 5, 2]] i t, none⟩,
              ⟨j, t, get [[0, 1, 2], [4, 5, 2]] j t, none⟩]) ∨
       (get [[0, 1, 2], [4, 5, 2]] i t = get [[0, 1, 2], [4, 5, 2]] j (t - 1) ∧
          get [[0, 1, 2], [4, 5, 2]] j t = get [[0, 1, 2], [4, 5, 2]] i (t - 1) ∧
          getPrioritizedConflict 2 [[0, 1, 2], [4, 5, 2]] [] =
            [⟨i, t, get [[0, 1, 2], [4, 5, 2]] i t,
                some (get [[0, 1, 2], [4, 5, 2]] i (t - 1))⟩,
              ⟨j, t, get [[0, 1, 2], [4, 5, 2]] j t,
                some (get [[0, 1, 2], [4, 5, 2]] j (t - 1))⟩])) :=
  C27_result_shape 2 [[0, 1, 2], [4, 5, 2]] [] (by decide)

end ICBS

/-! ### The count of opposite moves -/

namespace DBS

end DBS

/-! ### The order of the queue of the deadlock-avoiding search -/

namespace Solver

theorem comparePrioritized_iff (table : TableFragment) (a b : AstarNode) :
    comparePrioritized table a b = true ↔
      b.f < a.f ∨ (a.f = b.f ∧
        ((table.fromAt b.v).length < (table.fromAt a.v).length ∨
          ((table.fromAt a.v).length = (table.fromAt b.v).length ∧
            (a.g < b.g ∨ (a.g = b.g ∧ a.v < b.v))))) := by
  unfold comparePrioritized
  by_cases hf : a.f = b.f
  · by_cases hfr : (table.fromAt a.v).length = (table.fromAt b.v).length
    · by_cases hg : a.g = b.g
      · simp [hf, hfr, hg]
      · simp [hf, hfr, hg]
    · simp [hf, hfr]
  · simp [hf]

theorem comparePrioritized_iff_false (table : TableFragment) (a b : AstarNode) :
    comparePrioritized table a b = false ↔
      ¬ (b.f < a.f ∨ (a.f = b.f ∧
        ((table.fromAt b.v).length < (table.fromAt a.v).length ∨
          ((table.fromAt a.v).length = (table.fromAt b.v).length ∧
            (a.g < b.g ∨ (a.g = b.g ∧ a.v < b.v)))))) := by
  rw [← comparePrioritized_iff]
  simp

theorem plainOracle_topRespects_prioritized (table : TableFragment) :
    TopRespects plainOracle (comparePrioritized table) := by
  intro k O n hn y hy
  have hne : O ≠ [] := by
    intro e
    subst e
    simp at hy
  obtain ⟨i, a, hb, hg, hall⟩ := bestIdx_spec (comparePrioritized table)
    (fun a => by rw [comparePrioritized_iff_false]; omega)
    (fun a x b h1 h2 => by
      rw [comparePrioritized_iff] at h1
      rw [comparePrioritized_iff_false] at h2 ⊢
      omega) O hne
  have hi : i < O.length := by
    rcases List.get?_eq_some.1 hg with ⟨h, _⟩
    exact h
  have htop : plainOracle.top k (comparePrioritized table) O = i := by
    simp [plainOracle, hb]
  rw [htop, Nat.mod_eq_of_lt hi, hg] at hn
  cases hn
  exact hall y hy

/-- C25 (as amended): the comparator of `getPrioritizedPath` ranks an entry `a` below an
entry `b` exactly when `b` has the smaller `f`, or with equal `f` the vertex of `b` has fewer
outbound fragments, or with these equal `b` has the larger `g`, or with these equal `b` has
the larger vertex id. Hence the entry that a queue honouring the comparator pops has the
least `f`; among the entries of least `f` the fewest outbound fragments; among those the
largest `g`; among those the largest vertex id. -/
theorem C25_prioritized_order (table : TableFragment) :
    (∀ a b : AstarNode, comparePrioritized table a b = true ↔
      b.f < a.f ∨ (a.f = b.f ∧
        ((table.fromAt b.v).length < (table.fromAt a.v).length ∨
          ((table.fromAt a.v).length = (table.fromAt b.v).length ∧
            (a.g < b.g ∨ (a.g = b.g ∧ a.v < b.v)))))) ∧
    ∀ o : Oracle, TopRespects o (comparePrioritized table) →
      ∀ (k : Nat) (O : List AstarNode) (n : AstarNode),
        O.get? (o.top k (comparePrioritized table) O % O.length) = some n →
        ∀ y ∈ O, n.f ≤ y.f ∧ (n.f = y.f →
          (table.fromAt n.v).length ≤ (table.fromAt y.v).length ∧
          ((table.fromAt n.v).length = (table.fromAt y.v).length →
            y.g ≤ n.g ∧ (y.g = n.g → y.v ≤ n.v))) := by
  refine ⟨comparePrioritized_iff table, fun o ho k O n hn y hy => ?_⟩
  have h := ho k O n hn y hy
  have hiff := comparePrioritized_iff table n y
  have hnot : ¬ (y.f < n.f ∨ (n.f = y.f ∧
      ((table.fromAt y.v).length < (table.fromAt n.v).length ∨
        ((table.fromAt n.v).length = (table.fromAt y.v).length ∧
          (n.g < y.g ∨ (n.g = y.g ∧ n.v < y.v)))))) := by
    intro hc
    rw [hiff.2 hc] at h
    cases h
  refine ⟨?_, fun hf => ⟨?_, fun hfr => ⟨?_, fun hg => ?_⟩⟩⟩
  · by_contra hlt
    exact hnot (Or.inl (by omega))
  · by_contra hlt
    exact hnot (Or.inr ⟨hf, Or.inl (by omega)⟩)
  · by_contra hlt
    exact hnot (Or.inr ⟨hf, Or.inr ⟨hfr, Or.inl (by omega)⟩⟩)
  · by_contra hlt
    exact hnot (Or.inr ⟨hf, Or.inr ⟨hfr, Or.inr ⟨hg.symm, by omega⟩⟩⟩)

theorem C25_prioritized_order_witness :
    [AstarNode.mk 1 1 2 none, AstarNode.mk 5 1 2 none].get?
      (plainOracle.top 0 (comparePrioritized (TableFragment.new grid3 (-1)))
        [AstarNode.mk 1 1 2 none, AstarNode.mk 5 1 2 none] % 2) =
          some (AstarNode.mk 5 1 2 none) ∧
    (AstarNode.mk 5 1 2 none).f ≤ (AstarNode.mk 1 1 2 none).f ∧
    ((AstarNode.mk 5 1 2 none).f = (AstarNode.mk 1 1 2 none).f →
      ((TableFragment.new grid3 (-1)).fromAt (AstarNode.mk 5 1 2 none).v).length ≤
        ((TableFragment.new grid3 (-1)).fromAt (AstarNode.mk 1 1 2 none).v).length ∧
      (((TableFragment.new grid3 (-1)).fromAt (AstarNode.mk 5 1 2 none).v).length =
          ((TableFragment.new grid3 (-1)).fromAt (AstarNode.mk 1 1 2 none).v).length →
        (AstarNode.mk 1 1 2 none).g ≤ (AstarNode.mk 5 1 2 none).g ∧
          ((AstarNode.mk 1 1 2 none).g = (AstarNode.mk 5 1 2 none).g →
            (AstarNode.mk 1 1 2 none).v ≤ (AstarNode.mk 5 1 2 none).v))) :=
  ⟨rfl, (C25_prioritized_order (TableFragment.new grid3 (-1))).2 plainOracle
    (plainOracle_topRespects_prioritized _) 0 [AstarNode.mk 1 1 2 none, AstarNode.mk 5 1 2 none]
    (AstarNode.mk 5 1 2 none) rfl (AstarNode.mk 1 1 2 none) (by simp)⟩

/-- Counterexample to C25 as stated, on the demo instance for agent 0 (goal `2`). The entry
`a` on vertex 1 with `g = 5` has `h = 1`, the entry `b` on vertex 0 with `g = 0` has `h = 2`;
the comparator ranks `a` below `b`, so no queue that honours it pops `a` while `b` waits,
although `a` has the smaller `h`. And of two entries that agree in `f`, fragments and `g`,
the one with the larger vertex id is popped. -/
theorem C25_counterexample :
    demoSolver.pathDist 0 1 < demoSolver.pathDist 0 0 ∧
    (AstarNode.mk 1 5 (5 + demoSolver.pathDist 0 1) none).f = 6 ∧
    (AstarNode.mk 0 0 (0 + demoSolver.pathDist 0 0) none).f = 2 ∧
    comparePrioritized (TableFragment.new grid3 (-1))
      (AstarNode.mk 1 5 (5 + demoSolver.pathDist 0 1) none)
      (AstarNode.mk 0 0 (0 + demoSolver.pathDist 0 0) none) = true ∧
    (∀ o : Oracle, TopRespects o (comparePrioritized (TableFragment.new grid3 (-1))) →
      ∀ k, [AstarNode.mk 1 5 (5 + demoSolver.pathDist 0 1) none,
          AstarNode.mk 0 0 (0 + demoSolver.pathDist 0 0) none].get?
        (o.top k (comparePrioritized (TableFragment.new grid3 (-1)))
          [AstarNode.mk 1 5 (5 + demoSolver.pathDist 0 1) none,
            AstarNode.mk 0 0 (0 + demoSolver.pathDist 0 0) none] %
          [AstarNode.mk 1 5 (5 + demoSolver.pathDist 0 1) none,
            AstarNode.mk 0 0 (0 + demoSolver.pathDist 0 0) none].length) ≠
        some (AstarNode.mk 1 5 (5 + demoSolver.pathDist 0 1) none)) ∧
    [AstarNode.mk 1 1 2 none, AstarNode.mk 5 1 2 none].get?
      (plainOracle.top 0 (comparePrioritized (TableFragment.new grid3 (-1)))
        [AstarNode.mk 1 1 2 none, AstarNode.mk 5 1 2 none] % 2) =
          some (AstarNode.mk 5 1 2 none) := by
  refine ⟨by decide, rfl, rfl, rfl, fun o ho k hpop => ?_, rfl⟩
  have h := ho k _ _ hpop (AstarNode.mk 0 0 (0 + demoSolver.pathDist 0 0) none) (by simp)
  have h2 : comparePrioritized (TableFragment.new grid3 (-1))
      (AstarNode.mk 1 5 (5 + demoSolver.pathDist 0 1) none)
      (AstarNode.mk 0 0 (0 + demoSolver.pathDist 0 0) none) = true := rfl
  rw [h2] at h
  cases h

end Solver

/-! ### Returned paths are simple -/

namespace Solver

/-- Whatever the clock, the queue and the predicate do, a returned path lists no vertex twice
and consists of vertices of the graph. -/
theorem getPath_nodup (S : Solver) (o : Oracle) (fuel id : Nat) (chk : CheckInvalidMove)
    (cmp : CompareAstarNodes) (k : Nat) (p : Path) (k1 : Nat) (hWF : S.P.G.WF)
    (hs : S.P.getStart id < S.P.G.nodesSize) (hshuf : ∀ k l, (o.shuffle k l).Perm l)
    (h : S.getPath o fuel id chk cmp k = some (p, k1)) :
    p.Nodup ∧ ∀ x ∈ p, x < S.P.G.nodesSize := by
  have hrun := getPathLoop_partial S o id chk cmp
    (fun O C => C.length = S.P.G.nodesSize ∧ ∀ y ∈ O, y.v < S.P.G.nodesSize ∧ Simple C y)
    (fun O C k n hI hn hc => ⟨hI.1, fun y hy => hI.2 y (List.mem_of_mem_eraseIdx hy)⟩)
    (fun O C k n hI hn _ _ => by
      have hnO := List.get?_mem hn
      have hv : n.v < C.length := by rw [hI.1]; exact (hI.2 n hnO).1
      refine ⟨by simp [hI.1], fun y hy => ⟨?_, ?_⟩⟩
      · rcases List.mem_append.1 hy with hy | hy
        · exact (hI.2 y (List.mem_of_mem_eraseIdx hy)).1
        · rcases mem_expand hy with ⟨u, huL, _, _, rfl⟩
          exact hWF n.v (hI.2 n hnO).1 u ((hshuf k _).subset huL)
      · exact simple_expand S id chk O C _ n _ hv (fun y hy => (hI.2 y hy).2) hn y hy)
    fuel _ _ k p k1
    ⟨by simp, fun y hy => by
      rw [List.mem_singleton] at hy
      rw [hy]
      exact ⟨hs, by simp [Simple, AstarNode.backtrack], by simp [AstarNode.backtrack]⟩⟩ h
  rcases hrun with rfl | ⟨O1, C1, k0, n, hI, hn, _, _, rfl⟩
  · exact ⟨List.nodup_nil, fun x hx => by cases hx⟩
  · obtain ⟨hnv, hnd, hcl⟩ := hI.2 n (List.get?_mem hn)
    refine ⟨List.nodup_reverse.2 hnd, fun x hx => ?_⟩
    rw [List.mem_reverse] at hx
    have hhead := AstarNode.backtrack_head n
    cases hb : n.backtrack with
    | nil => rw [hb] at hx; cases hx
    | cons a t =>
      rw [hb] at hx hhead hcl
      simp only [List.head?_cons, Option.some.injEq] at hhead
      rcases List.mem_cons.1 hx with e | e
      · rw [e, hhead]; exact hnv
      · have := getD_true_lt C1 x (hcl x e)
        rw [hI.1] at this
        exact this

end Solver

theorem mem_moves_iff (p : Path) (u v : Nat) :
    (u, v) ∈ TableFragment.moves p ↔ ∃ t, p[t]? = some u ∧ p[t + 1]? = some v := by
  unfold TableFragment.moves
  rw [List.mem_iff_getElem?]
  refine exists_congr fun t => ?_
  rw [List.getElem?_zip_eq_some, List.getElem?_tail]

namespace Solver

/-- C28: a path that `getPath` returns lists no vertex twice, for every predicate, comparator,
shuffle order and clock; hence it never stays on a vertex, never uses a move together with
its reverse, and has at most `|V|` entries. -/
theorem C28_getPath_simple (S : Solver) (o : Oracle) (fuel id : Nat)
    (checkInvalidNode : CheckInvalidMove) (compare : CompareAstarNodes) (k : Nat) (p : Path)
    (k1 : Nat) (hWF : S.P.G.WF) (hs : S.P.getStart id < S.P.G.nodesSize)
    (hshuf : ∀ k l, (o.shuffle k l).Perm l)
    (h : S.getPath o fuel id checkInvalidNode compare k = some (p, k1)) :
    p.Nodup ∧
    (∀ t, t + 1 < p.length → p.getD t 0 ≠ p.getD (t + 1) 0) ∧
    (∀ uv ∈ TableFragment.moves p, (uv.2, uv.1) ∉ TableFragment.moves p) ∧
    p.length ≤ S.P.G.nodesSize := by
  obtain ⟨hnd, hrange⟩ := getPath_nodup S o fuel id checkInvalidNode compare k p k1 hWF hs
    hshuf h
  refine ⟨hnd, fun t ht heq => ?_, ?_, ?_⟩
  · have h1 : p[t]? = p[t + 1]? := by
      rw [List.getD_eq_getElem?_getD, List.getD_eq_getElem?_getD,
        List.getElem?_eq_getElem (by omega), List.getElem?_eq_getElem ht] at heq
      simp only [Option.getD_some] at heq
      rw [List.getElem?_eq_getElem (by omega), List.getElem?_eq_getElem ht, heq]
    have := List.getElem?_inj (by omega) hnd h1
    omega
  · rintro ⟨u, v⟩ huv hvu
    obtain ⟨t, ht1, ht2⟩ := (mem_moves_iff p u v).1 huv
    obtain ⟨s, hs1, hs2⟩ := (mem_moves_iff p v u).1 hvu
    have htl : t + 1 < p.length := by
      by_contra hc
      rw [List.getElem?_eq_none (by omega)] at ht2
      cases ht2
    have hsl : s + 1 < p.length := by
      by_contra hc
      rw [List.getElem?_eq_none (by omega)] at hs2
      cases hs2
    have e1 : t = s + 1 := List.getElem?_inj (by omega) hnd (ht1.trans hs2.symm)
    have e2 : t + 1 = s := List.getElem?_inj htl hnd (ht2.trans hs1.symm)
    omega
  · have hsub : p ⊆ List.range S.P.G.nodesSize := fun x hx =>
      List.mem_range.2 (hrange x hx)
    have := (List.subperm_of_subset hnd hsub).length_le
    rwa [List.length_range] at this

theorem C28_getPath_simple_witness :
    demoSolver.getPath plainOracle 40 0 (fun child _ => child == 1) compareAstarNodesDefault 0
      = some ([0, 3, 4, 5, 2], 5) ∧
    ([0, 3, 4, 5, 2] : Path).Nodup ∧
    (∀ t, t + 1 < ([0, 3, 4, 5, 2] : Path).length →
      ([0, 3, 4, 5, 2] : Path).getD t 0 ≠ ([0, 3, 4, 5, 2] : Path).getD (t + 1) 0) ∧
    (∀ uv ∈ TableFragment.moves [0, 3, 4, 5, 2],
      (uv.2, uv.1) ∉ TableFragment.moves [0, 3, 4, 5, 2]) ∧
    ([0, 3, 4, 5, 2] : Path).length ≤ demoSolver.P.G.nodesSize :=
  ⟨by decide, C28_getPath_simple demoSolver plainOracle 40 0 (fun child _ => child == 1)
    compareAstarNodesDefault 0 [0, 3, 4, 5, 2] 5 grid3_WF (by decide)
    (fun _ l => List.Perm.refl l) (by decide)⟩

end Solver

/-! ### The cost escalation of `ICBS::getConstrainedPath` -/

namespace ICBS

theorem escalate_first (ops : MDDOps) (id : Nat) (constraints : List Constraint) (c1 : Nat)
    (hvalid : ops.valid (ops.build c1 id constraints) = true) :
    ∀ (fuel c : Nat), c < c1 → c1 - c ≤ fuel →
      (∀ c2, c < c2 → c2 < c1 → ops.valid (ops.build c2 id constraints) = false) →
      escalate ops id constraints fuel c = some (ops.build c1 id constraints) := by
  intro fuel
  induction fuel with
  | zero => intro c h1 h2 _; omega
  | succ fuel ih =>
    intro c h1 h2 hmin
    simp only [escalate]
    by_cases hc : c + 1 = c1
    · rw [hc, hvalid]
      rfl
    · rw [hmin (c + 1) (by omega) (by omega)]
      simp only [Bool.false_eq_true, if_false]
      exact ih (c + 1) (by omega) (by omega) (fun c2 h3 h4 => hmin c2 (by omega) h4)

theorem escalate_never (ops : MDDOps) (id : Nat) (constraints : List Constraint) :
    ∀ (fuel c : Nat),
      (∀ c2, c < c2 → ops.valid (ops.build c2 id constraints) = false) →
      escalate ops id constraints fuel c = none := by
  intro fuel
  induction fuel with
  | zero => intro c _; rfl
  | succ fuel ih =>
    intro c hall
    simp only [escalate]
    rw [hall (c + 1) (by omega)]
    simp only [Bool.false_eq_true, if_false]
    exact ih (c + 1) (fun c2 h => hall c2 (by omega))

/-- C21: let the last constraint of the node make the current MDD of the agent invalid, and
let `c0 = max(MDD.c, t)` for the time `t` of that constraint. If some cost above `c0` has a
valid MDD under the constraints of the node, then there is a least such cost `c1`, and with a
budget of `c1 - c0` rounds of the loop the call returns the path of the MDD for `c1` and
stores that MDD in the slot of the agent. If no cost above `c0` has a valid MDD, the call
returns under no budget. -/
theorem C21_escalation (ops : MDDOps) (h_node : HighLevelNode) (mdds : List MDD) (id : Nat)
    (lc : Constraint) (hlast : h_node.constraints.getLast? = some lc)
    (hinv : ops.valid (ops.update (mdds.getD id ⟨0, []⟩) [lc]) = false) :
    ((∃ c, max (ops.update (mdds.getD id ⟨0, []⟩) [lc]).c lc.t < c ∧
        ops.valid (ops.build c id h_node.constraints) = true) →
      ∃ c1, max (ops.update (mdds.getD id ⟨0, []⟩) [lc]).c lc.t < c1 ∧
        ops.valid (ops.build c1 id h_node.constraints) = true ∧
        (∀ c2, max (ops.update (mdds.getD id ⟨0, []⟩) [lc]).c lc.t < c2 → c2 < c1 →
          ops.valid (ops.build c2 id h_node.constraints) = false) ∧
        ∀ fuel, c1 - max (ops.update (mdds.getD id ⟨0, []⟩) [lc]).c lc.t ≤ fuel →
          getConstrainedPath ops fuel h_node mdds id =
            some (ops.getPath (ops.build c1 id h_node.constraints),
              mdds.set id (ops.build c1 id h_node.constraints))) ∧
    ((∀ c, max (ops.update (mdds.getD id ⟨0, []⟩) [lc]).c lc.t < c →
        ops.valid (ops.build c id h_node.constraints) = false) →
      ∀ fuel, getConstrainedPath ops fuel h_node mdds id = none) := by
  constructor
  · intro hex
    classical
    have hfind := Nat.find_spec hex
    refine ⟨Nat.find hex, hfind.1, hfind.2, fun c2 h1 h2 => ?_, fun fuel hfuel => ?_⟩
    · have := Nat.find_min hex h2
      cases hv : ops.valid (ops.build c2 id h_node.constraints)
      · rfl
      · exact absurd ⟨h1, hv⟩ this
    · have hesc := escalate_first ops id h_node.constraints (Nat.find hex) hfind.2 fuel _
        hfind.1 hfuel (fun c2 h1 h2 => by
          have := Nat.find_min hex h2
          cases hv : ops.valid (ops.build c2 id h_node.constraints)
          · rfl
          · exact absurd ⟨h1, hv⟩ this)
      simp only [getConstrainedPath, hlast, hinv, Bool.false_eq_true, if_false, hesc]
  · intro hall fuel
    have hesc := escalate_never ops id h_node.constraints fuel _ hall
    simp only [getConstrainedPath, hlast, hinv, Bool.false_eq_true, if_false, hesc]

theorem C21_escalation_witness :
    ((∃ c, max (countingOps.update (([⟨2, []⟩] : List MDD).getD 0 ⟨0, []⟩)
          [⟨0, 1, 5, none⟩]).c (Constraint.mk 0 1 5 none).t < c ∧
        countingOps.valid (countingOps.build c 0 [⟨0, 1, 5, none⟩]) = true) →
      ∃ c1, max (countingOps.update (([⟨2, []⟩] : List MDD).getD 0 ⟨0, []⟩)
          [⟨0, 1, 5, none⟩]).c (Constraint.mk 0 1 5 none).t < c1 ∧
        countingOps.valid (countingOps.build c1 0 [⟨0, 1, 5, none⟩]) = true ∧
        (∀ c2, max (countingOps.update (([⟨2, []⟩] : List MDD).getD 0 ⟨0, []⟩)
            [⟨0, 1, 5, none⟩]).c (Constraint.mk 0 1 5 none).t < c2 → c2 < c1 →
          countingOps.valid (countingOps.build c2 0 [⟨0, 1, 5, none⟩]) = false) ∧
        ∀ fuel, c1 - max (countingOps.update (([⟨2, []⟩] : List MDD).getD 0 ⟨0, []⟩)
            [⟨0, 1, 5, none⟩]).c (Constraint.mk 0 1 5 none).t ≤ fuel →
          getConstrainedPath countingOps fuel ⟨0, [[0, 1, 2]], [⟨0, 1, 5, none⟩], 2, 2, 1, true⟩
              [⟨2, []⟩] 0 =
            some (countingOps.getPath (countingOps.build c1 0 [⟨0, 1, 5, none⟩]),
              ([⟨2, []⟩] : List MDD).set 0 (countingOps.build c1 0 [⟨0, 1, 5, none⟩]))) ∧
    getConstrainedPath countingOps 2 ⟨0, [[0, 1, 2]], [⟨0, 1, 5, none⟩], 2, 2, 1, true⟩
      [⟨2, []⟩] 0 = some ([0, 1, 2, 3, 4], [⟨4, []⟩]) :=
  ⟨(C21_escalation countingOps ⟨0, [[0, 1, 2]], [⟨0, 1, 5, none⟩], 2, 2, 1, true⟩ [⟨2, []⟩] 0
    ⟨0, 1, 5, none⟩ rfl (by decide)).1, by decide⟩

end ICBS

/-! ### The constraints that `getConstraints` returns -/

namespace DBS

theorem regOut_zero (o : Oracle) (paths : Plan) (a : Nat) (T : TableFragment) (k : Nat) :
    regOut o paths 0 a T k =
      (T.registerNewPath a (paths.getD a []) false (fun t => o.deadline (k + t))).1 := rfl

theorem regOut_succ (o : Oracle) (paths : Plan) (j a : Nat) (T : TableFragment) (k : Nat) :
    regOut o paths (j + 1) a T k =
      regOut o paths j (a + 1)
        (T.registerNewPath a (paths.getD a []) false (fun t => o.deadline (k + t))).2
        (k + (paths.getD a []).length) := by
  unfold regOut
  have h : a + (j + 1) = a + 1 + j := by omega
  rw [h]
  rfl

theorem getConstraintsLoop_spec (o : Oracle) (paths : Plan) :
    ∀ (len a : Nat) (T : TableFragment) (k : Nat),
      ((∀ j, j < len → regOut o paths j a T k = none) →
        (getConstraintsLoop o paths (List.range' a len) T k).1 = []) ∧
      (∀ j c, j < len → (∀ j1, j1 < j → regOut o paths j1 a T k = none) →
        regOut o paths j a T k = some c →
        (getConstraintsLoop o paths (List.range' a len) T k).1 = constraintsOf c) := by
  intro len
  induction len with
  | zero =>
    intro a T k
    exact ⟨fun _ => rfl, fun j c hj => by omega⟩
  | succ len ih =>
    intro a T k
    rw [List.range'_succ]
    have h0 := regOut_zero o paths a T k
    rcases hreg : T.registerNewPath a (paths.getD a []) false (fun t => o.deadline (k + t))
      with ⟨r, T1⟩
    rw [hreg] at h0
    have hs : ∀ j, regOut o paths (j + 1) a T k =
        regOut o paths j (a + 1) T1 (k + (paths.getD a []).length) := by
      intro j
      rw [regOut_succ, hreg]
    simp only [getConstraintsLoop, hreg]
    cases r with
    | some c0 =>
      simp only
      constructor
      · intro hall
        have := hall 0 (by omega)
        rw [h0] at this
        cases this
      · intro j c hj hbefore hc
        cases j with
        | zero =>
          rw [h0] at hc
          simp only [Option.some.injEq] at hc
          rw [hc]
        | succ j =>
          have := hbefore 0 (by omega)
          rw [h0] at this
          cases this
    | none =>
      simp only
      obtain ⟨ihA, ihB⟩ := ih (a + 1) T1 (k + (paths.getD a []).length)
      constructor
      · intro hall
        exact ihA (fun j hj => by rw [← hs]; exact hall (j + 1) (by omega))
      · intro j c hj hbefore hc
        cases j with
        | zero =>
          rw [h0] at hc
          cases hc
        | succ j =>
          exact ihB j c (by omega)
            (fun j1 hj1 => by rw [← hs]; exact hbefore (j1 + 1) (by omega))
            (by rw [← hs]; exact hc)

theorem regState_congr (o : Oracle) (paths paths2 : Plan) :
    ∀ (j a : Nat) (T : TableFragment) (k : Nat),
      (∀ i, a ≤ i → i < a + j → paths2.getD i [] = paths.getD i []) →
      regState o paths2 j a T k = regState o paths j a T k := by
  intro j
  induction j with
  | zero => intro a T k _; rfl
  | succ j ih =>
    intro a T k h
    simp only [regState]
    rw [h a (by omega) (by omega)]
    exact ih (a + 1) _ _ (fun i h1 h2 => h i (by omega) (by omega))

theorem regOut_congr (o : Oracle) (paths paths2 : Plan) (j a : Nat) (T : TableFragment)
    (k : Nat) (h : ∀ i, a ≤ i → i ≤ a + j → paths2.getD i [] = paths.getD i []) :
    regOut o paths2 j a T k = regOut o paths j a T k := by
  unfold regOut
  rw [regState_congr o paths paths2 j a T k (fun i h1 h2 => h i h1 (by omega)),
    h (a + j) (by omega) (by omega)]

theorem constraintsOf_get? (c : Fragment) (t : Nat) (ht : t < c.agents.length) :
    (constraintsOf c).get? t =
      some ⟨c.agents.getD t 0, c.path.getD t 0, c.path.getD (t + 1) 0⟩ := by
  unfold constraintsOf
  rw [List.get?_eq_getElem?, List.getElem?_map, List.getElem?_range ht]
  rfl

/-- C22: `getConstraints(paths)` registers the paths in index order with `force = false` into
a fresh table. If every registration reports nothing, the result is empty. Otherwise, for the
fragment `c` that the first reporting registration returns, the result has `|c.agents|`
constraints, the `t`-th being `(c.agents[t], c.path[t], c.path[t+1])`, and it does not
depend on the paths of the agents after that registration. -/
theorem C22_getConstraints_shape (D : DBS) (o : Oracle) (paths : Plan) (k : Nat) :
    ((∀ i, i < D.S.P.getNum →
        regOut o paths i 0 (TableFragment.new D.S.P.G D.max_fragment_size) k = none) →
      (D.getConstraints o paths k).1 = []) ∧
    (∀ i c, i < D.S.P.getNum →
      (∀ j, j < i →
        regOut o paths j 0 (TableFragment.new D.S.P.G D.max_fragment_size) k = none) →
      regOut o paths i 0 (TableFragment.new D.S.P.G D.max_fragment_size) k = some c →
      (D.getConstraints o paths k).1.length = c.agents.length ∧
      (∀ t, t < c.agents.length → (D.getConstraints o paths k).1.get? t =
        some ⟨c.agents.getD t 0, c.path.getD t 0, c.path.getD (t + 1) 0⟩) ∧
      ∀ paths2 : Plan, (∀ j, j ≤ i → paths2.getD j [] = paths.getD j []) →
        (D.getConstraints o paths2 k).1 = (D.getConstraints o paths k).1) := by
  have hrange : List.range D.S.P.getNum = List.range' 0 D.S.P.getNum :=
    List.range_eq_range' _
  constructor
  · intro hall
    unfold getConstraints
    rw [hrange]
    exact (getConstraintsLoop_spec o paths _ 0 _ k).1 hall
  · intro i c hi hbefore hc
    have hres : (D.getConstraints o paths k).1 = constraintsOf c := by
      unfold getConstraints
      rw [hrange]
      exact (getConstraintsLoop_spec o paths _ 0 _ k).2 i c hi hbefore hc
    refine ⟨?_, fun t ht => ?_, fun paths2 hagree => ?_⟩
    · rw [hres]
      simp [constraintsOf]
    · rw [hres]
      exact constraintsOf_get? c t ht
    · rw [hres]
      unfold getConstraints
      rw [hrange]
      refine (getConstraintsLoop_spec o paths2 _ 0 _ k).2 i c hi (fun j hj => ?_) ?_
      · rw [regOut_congr o paths paths2 j 0 _ k (fun i1 _ h2 => hagree i1 (by omega))]
        exact hbefore j hj
      · rw [regOut_congr o paths paths2 i 0 _ k (fun i1 _ h2 => hagree i1 (by omega))]
        exact hc

theorem C22_getConstraints_shape_witness :
    (corridorDBS.getConstraints plainOracle [[0, 1, 2], [2, 1, 0]] 0).1 =
      [⟨0, 1, 2⟩, ⟨1, 2, 1⟩] ∧
    (corridorDBS.getConstraints plainOracle [[0, 1, 2], [2, 1, 0]] 0).1.length =
      (Fragment.mk [1, 2, 1] [0, 1]).agents.length ∧
    (∀ t, t < (Fragment.mk [1, 2, 1] [0, 1]).agents.length →
      (corridorDBS.getConstraints plainOracle [[0, 1, 2], [2, 1, 0]] 0).1.get? t =
        some ⟨(Fragment.mk [1, 2, 1] [0, 1]).agents.getD t 0,
          (Fragment.mk [1, 2, 1] [0, 1]).path.getD t 0,
          (Fragment.mk [1, 2, 1] [0, 1]).path.getD (t + 1) 0⟩) ∧
    ∀ paths2 : Plan,
      (∀ j, j ≤ 1 → paths2.getD j [] = ([[0, 1, 2], [2, 1, 0]] : Plan).getD j []) →
      (corridorDBS.getConstraints plainOracle paths2 0).1 =
        (corridorDBS.getConstraints plainOracle [[0, 1, 2], [2, 1, 0]] 0).1 :=
  ⟨by decide,
    (C22_getConstraints_shape corridorDBS plainOracle [[0, 1, 2], [2, 1, 0]] 0).2 1
      ⟨[1, 2, 1], [0, 1]⟩ (by decide) (by decide) (by decide)⟩

end DBS

/-! ### A team of agents on one occupancy vector -/

namespace Agent

theorem get?_set_cases (agents : List Agent) (i j : Nat) (a1 b : Agent)
    (h : (agents.set i a1).get? j = some b) :
    (j = i ∧ b = a1) ∨ (j ≠ i ∧ agents.get? j = some b) := by
  rw [List.get?_eq_getElem?] at h ⊢
  by_cases hji : j = i
  · subst hji
    left
    by_cases hl : j < agents.length
    · rw [List.getElem?_set_self hl] at h
      exact ⟨rfl, (Option.some.inj h).symm⟩
    · rw [List.getElem?_eq_none (by simp; omega)] at h
      cases h
  · right
    rw [List.getElem?_set_ne (Ne.symm hji)] at h
    exact ⟨hji, h⟩

theorem SysInv.of_entries {NIL : Int} {agents agents1 : List Agent} {occ : List Int}
    (h : SysInv NIL agents occ)
    (he : ∀ j b, agents1.get? j = some b → agents.get? j = some b) :
    SysInv NIL agents1 occ :=
  ⟨fun i a ha => h.agentOK i a (he i a ha),
    fun i j a b ha hb => h.idsDistinct i j a b (he i a ha) (he j b hb),
    fun i a v ha => h.occOK i a v (he i a ha)⟩

/-- A call that leaves the agent and the vector as they are keeps the invariant. -/
theorem SysInv.same {NIL : Int} {agents : List Agent} {occ : List Int} {i : Nat} {a : Agent}
    (h : SysInv NIL agents occ) (ha : agents.get? i = some a) :
    SysInv NIL (agents.set i a) occ :=
  h.of_entries (fun j b hb => by
    rcases get?_set_cases agents i j a b hb with ⟨rfl, rfl⟩ | ⟨_, h1⟩
    · exact ha
    · exact h1)

/-- An extended agent draws in its tail. -/
theorem SysInv.contract {NIL : Int} {agents : List Agent} {occ : List Int} {i : Nat}
    {a : Agent} {tl : Nat} (h : SysInv NIL agents occ) (ha : agents.get? i = some a)
    (hm : a.mode = Mode.EXTENDED) (htl : a.tail = some tl) :
    SysInv NIL (agents.set i { a with mode := Mode.CONTRACTED, tail := a.head, head := none })
      (occ.set tl NIL) := by
  obtain ⟨hid, hr, ht, _, hE⟩ := h.agentOK i a ha
  obtain ⟨_, htail, hhead, hne⟩ := hE hm
  have htlN : tl < occ.length := by
    rw [htl] at htail
    exact hr tl (List.get?_mem htail.symm)
  have hlen : (occ.set tl NIL).length = occ.length := List.length_set _ _ _
  have hocc_a := h.occOK i a
  refine ⟨fun j b hb => ?_, fun j1 j2 b1 b2 hb1 hb2 hj => ?_, fun j b v hb hv => ?_⟩
  · rw [hlen]
    rcases get?_set_cases agents i j _ b hb with ⟨_, rfl⟩ | ⟨_, h1⟩
    · exact ⟨hid, hr, ht, fun _ => ⟨hhead, rfl⟩, fun hc => by cases hc⟩
    · exact h.agentOK j b h1
  · rcases get?_set_cases agents i j1 _ b1 hb1 with ⟨rfl, rfl⟩ | ⟨hj1, h1⟩
    · rcases get?_set_cases agents j1 j2 _ b2 hb2 with ⟨e, _⟩ | ⟨_, h2⟩
      · exact absurd e.symm hj
      · exact h.idsDistinct j1 j2 a b2 ha h2 hj
    · rcases get?_set_cases agents i j2 _ b2 hb2 with ⟨rfl, rfl⟩ | ⟨_, h2⟩
      · exact h.idsDistinct j1 j2 b1 a h1 ha hj
      · exact h.idsDistinct j1 j2 b1 b2 h1 h2 hj
  · rw [hlen] at hv
    rw [getD_set_int occ tl v NIL NIL htlN]
    rcases get?_set_cases agents i j _ b hb with ⟨_, rfl⟩ | ⟨hji, h1⟩
    · show (if v = tl then NIL else occ.getD v NIL) = a.id ↔ (a.head = some v ∨ none = some v)
      by_cases hvt : v = tl
      · rw [if_pos hvt]
        constructor
        · intro e; exact absurd e.symm hid
        · rintro (e | e)
          · rw [hvt, ← htl] at e
            exact absurd e hne
          · cases e
      · rw [if_neg hvt, hocc_a v ha hv]
        constructor
        · rintro (e | e)
          · rw [htl] at e
            exact absurd (Option.some.inj e).symm hvt
          · exact Or.inl e
        · rintro (e | e)
          · exact Or.inr e
          · cases e
    · by_cases hvt : v = tl
      · rw [if_pos hvt]
        have hnot : ¬ (b.tail = some v ∨ b.head = some v) := by
          intro hb2
          have e1 := (h.occOK j b v h1 hv).2 hb2
          have e2 := (hocc_a v ha hv).2 (Or.inl (by rw [htl, hvt]))
          exact h.idsDistinct j i b a h1 ha hji (e1.symm.trans e2)
        constructor
        · intro e; exact absurd e.symm (h.agentOK j b h1).1
        · intro e; exact absurd e hnot
      · rw [if_neg hvt]
        exact h.occOK j b v h1 hv

/-- A contracted agent reaches out to the free vertex `v`, the next on its path. -/
theorem SysInv.extend {NIL : Int} {agents : List Agent} {occ : List Int} {i : Nat}
    {a : Agent} {v : Nat} (h : SysInv NIL agents occ) (ha : agents.get? i = some a)
    (hm : a.mode = Mode.CONTRACTED) (hnext : a.path.get? (a.t + 1) = some v)
    (hfree : occ.getD v NIL = NIL) :
    SysInv NIL (agents.set i { a with mode := Mode.EXTENDED, head := some v, t := a.t + 1 })
      (occ.set v a.id) := by
  obtain ⟨hid, hr, ht, hC, _⟩ := h.agentOK i a ha
  obtain ⟨htail, hhead⟩ := hC hm
  have hvN : v < occ.length := hr v (List.get?_mem hnext)
  have hlt : a.t + 1 < a.path.length := by
    by_contra hc
    rw [List.get?_eq_none.2 (by omega)] at hnext
    cases hnext
  have hlen : (occ.set v a.id).length = occ.length := List.length_set _ _ _
  have hocc_a := h.occOK i a
  have hvtail : a.tail ≠ some v := by
    intro e
    have := (hocc_a v ha hvN).2 (Or.inl e)
    rw [hfree] at this
    exact hid this.symm
  refine ⟨fun j b hb => ?_, fun j1 j2 b1 b2 hb1 hb2 hj => ?_, fun j b w hb hw => ?_⟩
  · rw [hlen]
    rcases get?_set_cases agents i j _ b hb with ⟨_, rfl⟩ | ⟨_, h1⟩
    · refine ⟨hid, hr, hlt, fun hc => (by cases hc), fun _ => ⟨Nat.le_add_left _ _, ?_, ?_, ?_⟩⟩
      · show a.tail = a.path.get? (a.t + 1 - 1)
        rw [Nat.add_sub_cancel]
        exact htail
      · exact hnext.symm
      · exact fun e => hvtail e.symm
    · exact h.agentOK j b h1
  · rcases get?_set_cases agents i j1 _ b1 hb1 with ⟨rfl, rfl⟩ | ⟨hj1, h1⟩
    · rcases get?_set_cases agents j1 j2 _ b2 hb2 with ⟨e, _⟩ | ⟨_, h2⟩
      · exact absurd e.symm hj
      · exact h.idsDistinct j1 j2 a b2 ha h2 hj
    · rcases get?_set_cases agents i j2 _ b2 hb2 with ⟨rfl, rfl⟩ | ⟨_, h2⟩
      · exact h.idsDistinct j1 j2 b1 a h1 ha hj
      · exact h.idsDistinct j1 j2 b1 b2 h1 h2 hj
  · rw [hlen] at hw
    rw [getD_set_int occ v w a.id NIL hvN]
    rcases get?_set_cases agents i j _ b hb with ⟨_, rfl⟩ | ⟨hji, h1⟩
    · show (if w = v then a.id else occ.getD w NIL) = a.id ↔ (a.tail = some w ∨ some v = some w)
      by_cases hwv : w = v
      · rw [if_pos hwv, hwv]
        exact ⟨fun _ => Or.inr rfl, fun _ => rfl⟩
      · rw [if_neg hwv, hocc_a w ha hw, hhead]
        constructor
        · rintro (e | e)
          · exact Or.inl e
          · cases e
        · rintro (e | e)
          · exact Or.inl e
          · exact absurd (Option.some.inj e).symm hwv
    · by_cases hwv : w = v
      · rw [if_pos hwv]
        have hnot : ¬ (b.tail = some w ∨ b.head = some w) := by
          intro hb2
          have e1 := (h.occOK j b w h1 hw).2 hb2
          rw [hwv, hfree] at e1
          exact (h.agentOK j b h1).1 e1.symm
        constructor
        · intro e; exact absurd e.symm (h.idsDistinct j i b a h1 ha hji)
        · intro e; exact absurd e hnot
      · rw [if_neg hwv]
        exact h.occOK j b w h1 hw

theorem SysInv.advance {NIL : Int} {agents agents1 : List Agent} {occ occ1 : List Int} {i : Nat}
    (h : SysInv NIL agents occ) (hstep : activateAt NIL agents occ i = some (agents1, occ1)) :
    SysInv NIL agents1 occ1 := by
  unfold activateAt at hstep
  cases ha : agents.get? i with
  | none => rw [ha] at hstep; cases hstep
  | some a =>
    rw [ha] at hstep
    simp only at hstep
    cases hact : activate NIL a occ with
    | none => rw [hact] at hstep; cases hstep
    | some r =>
      obtain ⟨a1, o1⟩ := r
      rw [hact] at hstep
      simp only [Option.some.injEq, Prod.mk.injEq] at hstep
      obtain ⟨rfl, rfl⟩ := hstep
      unfold activate at hact
      by_cases hfin : a.isFinished = true
      · rw [if_pos hfin] at hact
        simp only [Option.some.injEq, Prod.mk.injEq] at hact
        obtain ⟨rfl, rfl⟩ := hact
        exact h.same ha
      · rw [if_neg hfin] at hact
        by_cases hm : a.mode = Mode.EXTENDED
        · rw [if_pos hm] at hact
          cases htl : a.tail with
          | none => rw [htl] at hact; cases hact
          | some tl =>
            rw [htl] at hact
            simp only [Option.some.injEq, Prod.mk.injEq] at hact
            obtain ⟨rfl, rfl⟩ := hact
            exact h.contract ha hm htl
        · rw [if_neg hm] at hact
          have hmC : a.mode = Mode.CONTRACTED := by
            cases hmode : a.mode with
            | CONTRACTED => rfl
            | EXTENDED => exact absurd hmode hm
          cases hnext : a.getNextNode with
          | none => rw [hnext] at hact; cases hact
          | some v =>
            rw [hnext] at hact
            simp only at hact
            have hget : a.path.get? (a.t + 1) = some v := by
              unfold getNextNode at hnext
              split at hnext
              · exact hnext
              · cases hnext
            by_cases hfree : occ.getD v NIL = NIL
            · rw [if_pos hfree] at hact
              simp only [Option.some.injEq, Prod.mk.injEq] at hact
              obtain ⟨rfl, rfl⟩ := hact
              exact h.extend ha hmC hget hfree
            · rw [if_neg hfree] at hact
              simp only [Option.some.injEq, Prod.mk.injEq] at hact
              obtain ⟨rfl, rfl⟩ := hact
              exact h.same ha

/-- In a state that satisfies the invariant `activate` dereferences no null pointer. -/
theorem SysInv.activate_some {NIL : Int} {agents : List Agent} {occ : List Int} {i : Nat}
    {a : Agent} (h : SysInv NIL agents occ) (ha : agents.get? i = some a) :
    ∃ r, activateAt NIL agents occ i = some r := by
  obtain ⟨_, _, ht, hC, hE⟩ := h.agentOK i a ha
  have hsome : ∃ r, activate NIL a occ = some r := by
    unfold activate
    by_cases hfin : a.isFinished = true
    · rw [if_pos hfin]; exact ⟨_, rfl⟩
    · rw [if_neg hfin]
      by_cases hm : a.mode = Mode.EXTENDED
      · rw [if_pos hm]
        obtain ⟨h1, htail, _, _⟩ := hE hm
        rw [htail, List.get?_eq_get (by omega : a.t - 1 < a.path.length)]
        exact ⟨_, rfl⟩
      · rw [if_neg hm]
        have hmC : a.mode = Mode.CONTRACTED := by
          cases hmode : a.mode with
          | CONTRACTED => rfl
          | EXTENDED => exact absurd hmode hm
        have hlt : a.t + 1 < a.path.length := by
          unfold isFinished at hfin
          rw [hmC] at hfin
          simp only [beq_self_eq_true, Bool.true_and, decide_eq_true_eq] at hfin
          omega
        have hnext : a.getNextNode = some (a.path.get ⟨a.t + 1, hlt⟩) := by
          unfold getNextNode
          rw [if_pos (by omega), List.get?_eq_get hlt]
        rw [hnext]
        simp only
        split <;> exact ⟨_, rfl⟩
  obtain ⟨r, hr⟩ := hsome
  unfold activateAt
  rw [ha]
  simp only [hr]
  exact ⟨_, rfl⟩

/-- The invariant holds at the start: freshly built agents with pairwise different ids other
than `NIL`, non-empty paths inside the vector, and a vector that carries the id of each agent
on its start vertex and `NIL` elsewhere. -/
theorem sysInv_init (NIL : Int) (agents0 : List Agent) (occ0 : List Int)
    (hnew : ∀ a ∈ agents0, a = Agent.new a.id a.path ∧ a.path ≠ [] ∧
      (∀ x ∈ a.path, x < occ0.length) ∧ a.id ≠ NIL)
    (hids : ∀ i j a b, agents0.get? i = some a → agents0.get? j = some b → i ≠ j →
      a.id ≠ b.id)
    (hocc1 : ∀ a ∈ agents0, ∀ s, a.path.head? = some s → occ0.getD s NIL = a.id)
    (hocc2 : ∀ v, v < occ0.length → (∀ a ∈ agents0, a.path.head? ≠ some v) →
      occ0.getD v NIL = NIL) :
    SysInv NIL agents0 occ0 := by
  have hfresh : ∀ a ∈ agents0, a.t = 0 ∧ a.mode = Mode.CONTRACTED ∧ a.head = none ∧
      a.tail = a.path.head? := by
    intro a ha
    have := (hnew a ha).1
    rw [this]
    exact ⟨rfl, rfl, rfl, rfl⟩
  refine ⟨fun i a ha => ?_, hids, fun i a v ha hv => ?_⟩
  · have hmem := List.get?_mem ha
    obtain ⟨_, hne, hr, hid⟩ := hnew a hmem
    obtain ⟨ht, hm, hh, htl⟩ := hfresh a hmem
    refine ⟨hid, hr, (by rw [ht]; exact List.length_pos.2 hne), fun _ => ⟨?_, hh⟩,
      fun hc => by rw [hm] at hc; cases hc⟩
    rw [htl, ht]
    cases a.path with
    | nil => rfl
    | cons x l => rfl
  · have hmem := List.get?_mem ha
    obtain ⟨_, hm, hh, htl⟩ := hfresh a hmem
    rw [hh, htl]
    constructor
    · intro e
      left
      by_contra hne
      by_cases hex : ∃ b ∈ agents0, b.path.head? = some v
      · obtain ⟨b, hb, hbv⟩ := hex
        have e2 := hocc1 b hb v hbv
        obtain ⟨j, hj⟩ := List.mem_iff_get?.1 hb
        by_cases hij : i = j
        · subst hij
          rw [ha] at hj
          cases hj
          exact hne hbv
        · exact hids i j a b ha hj hij (e.symm.trans e2)
      · have := hocc2 v hv (fun b hb hbv => hex ⟨b, hb, hbv⟩)
        rw [this] at e
        exact (hnew a hmem).2.2.2 e.symm
    · rintro (e | e)
      · exact hocc1 a hmem v e
      · cases e

/-- C29: a team of freshly built agents with pairwise different ids other than `NIL` and
non-empty paths inside the occupancy vector, the vector carrying the id of each agent on its
start vertex and `NIL` elsewhere. After any calls of `activate` on any of the agents, a
vertex carries the id of an agent exactly when it is the tail or the head of that agent, so
no vertex is the tail or head of two agents; every agent has `t ≤ |path| - 1`, its tail on
`path[t]` when contracted, its tail on `path[t-1]` and its head on `path[t]` when extended;
and every further call of `activate` finds the pointers it dereferences. -/
theorem C29_occupancy_exclusion (NIL : Int) (agents0 : List Agent) (occ0 : List Int)
    (hnew : ∀ a ∈ agents0, a = Agent.new a.id a.path ∧ a.path ≠ [] ∧
      (∀ x ∈ a.path, x < occ0.length) ∧ a.id ≠ NIL)
    (hids : ∀ i j a b, agents0.get? i = some a → agents0.get? j = some b → i ≠ j →
      a.id ≠ b.id)
    (hocc1 : ∀ a ∈ agents0, ∀ s, a.path.head? = some s → occ0.getD s NIL = a.id)
    (hocc2 : ∀ v, v < occ0.length → (∀ a ∈ agents0, a.path.head? ≠ some v) →
      occ0.getD v NIL = NIL)
    (agents : List Agent) (occ : List Int) (hreach : ReachAll NIL agents0 occ0 agents occ) :
    (∀ i a v, agents.get? i = some a → v < occ.length →
      (occ.getD v NIL = a.id ↔ (a.tail = some v ∨ a.head = some v))) ∧
    (∀ i j a b v, agents.get? i = some a → agents.get? j = some b → i ≠ j →
      ¬ ((a.tail = some v ∨ a.head = some v) ∧ (b.tail = some v ∨ b.head = some v))) ∧
    (∀ i a, agents.get? i = some a → a.t + 1 ≤ a.path.length ∧
      (a.mode = Mode.CONTRACTED → a.tail = a.path.get? a.t ∧ a.head = none) ∧
      (a.mode = Mode.EXTENDED → 1 ≤ a.t ∧ a.tail = a.path.get? (a.t - 1) ∧
        a.head = a.path.get? a.t)) ∧
    (∀ i a, agents.get? i = some a → ∃ r, activateAt NIL agents occ i = some r) := by
  have hinv : SysInv NIL agents occ := by
    induction hreach with
    | init => exact sysInv_init NIL agents0 occ0 hnew hids hocc1 hocc2
    | step _ hstep ih => exact ih.advance hstep
  refine ⟨hinv.occOK, fun i j a b v ha hb hij hboth => ?_, fun i a ha => ?_,
    fun i a ha => hinv.activate_some ha⟩
  · obtain ⟨_, hr, ht, hC, hE⟩ := hinv.agentOK i a ha
    have hv : v < occ.length := by
      have hmemv : v ∈ a.path := by
        cases hmode : a.mode with
        | CONTRACTED =>
          obtain ⟨h1, h2⟩ := hC hmode
          rcases hboth.1 with e | e
          · rw [h1] at e; exact List.get?_mem e
          · rw [h2] at e; cases e
        | EXTENDED =>
          obtain ⟨_, h1, h2, _⟩ := hE hmode
          rcases hboth.1 with e | e
          · rw [h1] at e; exact List.get?_mem e
          · rw [h2] at e; exact List.get?_mem e
      exact hr v hmemv
    have e1 := (hinv.occOK i a v ha hv).2 hboth.1
    have e2 := (hinv.occOK j b v hb hv).2 hboth.2
    exact hinv.idsDistinct i j a b ha hb hij (e1.symm.trans e2)
  · obtain ⟨_, _, ht, hC, hE⟩ := hinv.agentOK i a ha
    exact ⟨ht, hC, fun hm => ⟨(hE hm).1, (hE hm).2.1, (hE hm).2.2.1⟩⟩

end Agent
namespace Agent

theorem C29_occupancy_exclusion_witness :
    (([0, 0, 1] : List Int).getD 1 (-1) = (Agent.mk 0 1 Mode.EXTENDED (some 1) (some 0) [0, 1]).id ↔
      ((Agent.mk 0 1 Mode.EXTENDED (some 1) (some 0) [0, 1]).tail = some 1 ∨
        (Agent.mk 0 1 Mode.EXTENDED (some 1) (some 0) [0, 1]).head = some 1)) ∧
    ∃ r, activateAt (-1) [⟨0, 1, Mode.EXTENDED, some 1, some 0, [0, 1]⟩, Agent.new 1 [2, 1]]
      [0, 0, 1] 1 = some r :=
  have h := C29_occupancy_exclusion (-1) [Agent.new 0 [0, 1], Agent.new 1 [2, 1]] [0, -1, 1]
    (by decide)
    (fun i j a b ha hb hij => by
      rcases i with _ | _ | i <;> rcases j with _ | _ | j <;>
        simp only [List.get?_cons_zero, List.get?_cons_succ, List.get?_nil,
          Option.some.injEq] at ha hb
      · exact absurd rfl hij
      · subst ha; subst hb; decide
      · cases hb
      · subst ha; subst hb; decide
      · exact absurd rfl hij
      · cases hb
      · cases ha
      · cases ha
      · cases ha)
    (fun a ha s hs => by
      simp only [List.mem_cons, List.mem_singleton, List.not_mem_nil, or_false] at ha
      rcases ha with rfl | rfl
      · simp only [Agent.new, List.head?_cons, Option.some.injEq] at hs
        subst hs; rfl
      · simp only [Agent.new, List.head?_cons, Option.some.injEq] at hs
        subst hs; rfl)
    (by decide)
    [⟨0, 1, Mode.EXTENDED, some 1, some 0, [0, 1]⟩, Agent.new 1 [2, 1]] [0, 0, 1]
    (@ReachAll.step (-1) [Agent.new 0 [0, 1], Agent.new 1 [2, 1]] [0, -1, 1]
      [Agent.new 0 [0, 1], Agent.new 1 [2, 1]]
      [⟨0, 1, Mode.EXTENDED, some 1, some 0, [0, 1]⟩, Agent.new 1 [2, 1]]
      [0, -1, 1] [0, 0, 1] 0 ReachAll.init (by decide))
  ⟨h.1 0 ⟨0, 1, Mode.EXTENDED, some 1, some 0, [0, 1]⟩ 1 rfl (by decide),
    h.2.2.2 1 (Agent.new 1 [2, 1]) rfl⟩

end Agent

/-! ## Paths of the deadlock-avoiding search on a table of registered paths -/

namespace TableFragment

/-- With `force = true` the candidates of a unit are all processed: the early-stop flag stays
down. -/
theorem processCandidates_forced_flag :
    ∀ (cs : List Fragment) (res : Option Fragment) (T : TableFragment),
      (processCandidates true cs res T).2.2 = false
  | [], res, T => rfl
  | c :: cs, res, T => by
    simp only [processCandidates]
    rcases hgp : T.getPotentialDeadlockIfExist c.path c.agents with ⟨r0, T0⟩
    cases r0 with
    | none => exact processCandidates_forced_flag cs res T0
    | some d =>
      simp only [if_true]
      exact processCandidates_forced_flag cs _ T0

/-- When the candidates of a unit are all processed, each of them is rejected, is a potential
deadlock, or is in the table afterwards. -/
theorem processCandidates_covers (force : Bool) :
    ∀ (cs : List Fragment) (T : TableFragment) (res r : Option Fragment) (T1 : TableFragment)
      (b : Bool), T.WFT → (∀ c ∈ cs, c.EndsIn T.G.nodesSize) →
      processCandidates force cs res T = (r, T1, b) → b = false →
      ∀ c ∈ cs, T.rejected c.path c.agents = true ∨ c.isCycle = true ∨ T1.Has c := by
  intro cs
  induction cs with
  | nil =>
    intro T res r T1 b _ _ _ _ c hc
    cases hc
  | cons c0 cs ih =>
    intro T res r T1 b hT hends h hb x hx
    unfold processCandidates at h
    rcases hgp : T.getPotentialDeadlockIfExist c0.path c0.agents with ⟨r0, T0⟩
    rw [hgp] at h
    obtain ⟨hsub0, hT0, hmax0, hG0, hsome, hnone⟩ :=
      getPotentialDeadlockIfExist_spec hT c0.path c0.agents
        (hends c0 (List.mem_cons_self _ _)) r0 T0 hgp
    have hends0 : ∀ c ∈ cs, c.EndsIn T0.G.nodesSize := fun c hc => by
      rw [hG0]; exact hends c (List.mem_cons_of_mem _ hc)
    have hrest : ∀ res0, processCandidates force cs res0 T0 = (r, T1, b) →
        (x ∈ cs → T.rejected x.path x.agents = true ∨ x.isCycle = true ∨ T1.Has x) ∧
        T0.Sub T1 := by
      intro res0 h0
      refine ⟨fun hxc => ?_, (processCandidates_spec force cs T0 res0 r T1 b hT0 hends0 h0).1⟩
      rcases ih T0 res0 r T1 b hT0 hends0 h0 hb x hxc with h1 | h1
      · left
        rw [← rejected_congr hmax0]
        exact h1
      · exact Or.inr h1
    cases r0 with
    | none =>
      simp only at h
      obtain ⟨hr1, hsub1⟩ := hrest res h
      rcases List.mem_cons.1 hx with rfl | hxc
      · rcases hnone rfl with h1 | ⟨_, h1⟩
        · exact Or.inl h1
        · exact Or.inr (Or.inr (has_mono hsub1 h1))
      · exact hr1 hxc
    | some d =>
      simp only at h
      cases force with
      | false =>
        simp only [Bool.false_eq_true, if_false, Prod.mk.injEq] at h
        rw [← h.2.2] at hb
        cases hb
      | true =>
        simp only [if_true] at h
        obtain ⟨hr1, _⟩ := hrest _ h
        rcases List.mem_cons.1 hx with rfl | hxc
        · obtain ⟨hd, hcyc⟩ := hsome d rfl
          right; left
          rw [hd] at hcyc
          exact hcyc
        · exact hr1 hxc

/-- A registration with `force = true` that is not abandoned enters every unit of the path,
and every candidate that the units produce from the table before the call is rejected, is a
potential deadlock, or is in the table afterwards. -/
theorem registerUnits_forced (id : Nat) (expired : Nat → Bool) (hexp : ∀ t, expired t = false) :
    ∀ (ms : List (Nat × Nat)) (T : TableFragment) (t : Nat) (res r : Option Fragment)
      (T1 : TableFragment), T.WFT →
      (∀ uv ∈ ms, uv.1 < T.G.nodesSize ∧ uv.2 < T.G.nodesSize) →
      registerUnits id true expired ms t res T = (r, T1) →
      T.Sub T1 ∧ T1.WFT ∧ T1.max_fragment_size = T.max_fragment_size ∧ T1.G = T.G ∧
      ∀ uv ∈ ms, T1.Has ⟨[uv.1, uv.2], [id]⟩ ∧
        ∀ c ∈ T.candidates id uv.1 uv.2,
          T.rejected c.path c.agents = true ∨ c.isCycle = true ∨ T1.Has c := by
  intro ms
  induction ms with
  | nil =>
    intro T t res r T1 hT _ h
    simp only [registerUnits, Prod.mk.injEq] at h
    obtain ⟨rfl, rfl⟩ := h
    exact ⟨Sub.refl _, hT, rfl, rfl, fun uv huv => (by cases huv)⟩
  | cons m ms ih =>
    intro T t res r T1 hT hrange h
    obtain ⟨u, v⟩ := m
    have huv := hrange (u, v) (List.mem_cons_self _ _)
    simp only at huv
    unfold registerUnits at h
    rw [if_neg (by rw [hexp t]; exact Bool.false_ne_true)] at h
    have hcands : ∀ c ∈ T.candidates id u v, c.EndsIn T.G.nodesSize :=
      fun c hc => candidates_endsIn hT id u v huv.1 huv.2 c hc
    rcases hpc : processCandidates true (T.candidates id u v) res T with ⟨res1, T0, b⟩
    have hb : b = false := by
      have := processCandidates_forced_flag (T.candidates id u v) res T
      rw [hpc] at this
      exact this
    subst hb
    rw [hpc] at h
    simp only at h
    obtain ⟨hsub, hT0, hmax, hG, _, _, _⟩ :=
      processCandidates_spec true _ T res _ _ _ hT hcands hpc
    have hall := processCandidates_covers true _ T res _ _ _ hT hcands hpc rfl
    obtain ⟨hsubU, hTU, hmaxU, hGU, hhasU⟩ :=
      registerUnit_spec hT0 id u v (by rw [hG]; exact huv.1) (by rw [hG]; exact huv.2)
    obtain ⟨hsub2, hT1, hmax2, hG2, hrest⟩ := ih _ (t + 1) res1 r T1 hTU
      (fun x hx => by
        rw [hGU, hG]; exact hrange x (List.mem_cons_of_mem _ hx)) h
    have hsubT : T.Sub (T0.registerUnit id u v) := Sub.trans hsub hsubU
    refine ⟨Sub.trans hsubT hsub2, hT1, by rw [hmax2, hmaxU, hmax], by rw [hG2, hGU, hG], ?_⟩
    intro x hx
    rcases List.mem_cons.1 hx with rfl | hx
    · refine ⟨has_mono hsub2 hhasU, ?_⟩
      intro c hc
      rcases hall c hc with h1 | h1 | h1
      · exact Or.inl h1
      · exact Or.inr (Or.inl h1)
      · exact Or.inr (Or.inr (has_mono (Sub.trans hsubU hsub2) h1))
    · obtain ⟨h1, h2⟩ := hrest x hx
      refine ⟨h1, ?_⟩
      intro c hc
      rcases h2 c (candidates_mono hsubT id x.1 x.2 c hc) with h3 | h3
      · left
        rw [← rejected_congr (show (T0.registerUnit id u v).max_fragment_size =
          T.max_fragment_size by rw [hmaxU, hmax])]
        exact h3
      · exact Or.inr h3

/-- A registration that is not abandoned, and is made with `force = true` or ends without a
report, enters every unit of the path, and every candidate that the units produce from the
table before the call is rejected, is a potential deadlock, or is in the table afterwards. -/
theorem registerUnits_done (id : Nat) (force : Bool) (expired : Nat → Bool)
    (hexp : ∀ t, expired t = false) (ms : List (Nat × Nat)) (T : TableFragment)
    (r : Option Fragment) (T1 : TableFragment) (hT : T.WFT)
    (hrange : ∀ uv ∈ ms, uv.1 < T.G.nodesSize ∧ uv.2 < T.G.nodesSize)
    (h : registerUnits id force expired ms 0 none T = (r, T1))
    (hdone : force = true ∨ r = none) :
    T.Sub T1 ∧ T1.WFT ∧ T1.max_fragment_size = T.max_fragment_size ∧ T1.G = T.G ∧
    ∀ uv ∈ ms, T1.Has ⟨[uv.1, uv.2], [id]⟩ ∧
      ∀ c ∈ T.candidates id uv.1 uv.2,
        T.rejected c.path c.agents = true ∨ c.isCycle = true ∨ T1.Has c := by
  cases force with
  | true => exact registerUnits_forced id expired hexp ms T 0 none r T1 hT hrange h
  | false =>
    have hr : r = none := by
      rcases hdone with h1 | h1
      · cases h1
      · exact h1
    obtain ⟨h1, h2, h3, h4, _, h6⟩ := registerUnits_spec id expired ms T 0 none r T1 hT hrange h
    refine ⟨h1, h2, h3, h4, fun uv huv => ?_⟩
    obtain ⟨h7, h8⟩ := h6 hexp rfl hr uv huv
    refine ⟨h7, fun c hc => ?_⟩
    rcases h8 c hc with h9 | ⟨_, h9⟩
    · exact Or.inl h9
    · exact Or.inr (Or.inr h9)

end TableFragment

namespace TableFragment

/-- A non-empty sequence of moves ends at the target of one of them. -/
theorem endOf_mem : ∀ (ms : List Move) (x : Nat), ms ≠ [] → endOf x ms ∈ ms.map Move.dst
  | [], _, h => absurd rfl h
  | [m], _, _ => by simp [endOf]
  | m :: m2 :: ms, _, _ => by
    have ih := endOf_mem (m2 :: ms) m.dst (by simp)
    show endOf m.dst (m2 :: ms) ∈ (m :: m2 :: ms).map Move.dst
    rw [List.map_cons]
    exact List.mem_cons_of_mem _ ih

/-- A sequence of moves that visits no vertex twice does not spell out a potential
deadlock. -/
theorem simple_not_cycle (x : Nat) (ms : List Move) (hne : ms ≠ [])
    (hv : (x :: ms.map Move.dst).Nodup) : (chainFrag x ms).isCycle = false := by
  unfold Fragment.isCycle
  rw [chainFrag_head?, chainFrag_getLast?]
  have hx : x ∉ ms.map Move.dst := (List.nodup_cons.1 hv).1
  have he := endOf_mem ms x hne
  have hxe : x ≠ endOf x ms := fun e => hx (by rw [e]; exact he)
  simpa using hxe

/-- Registering one more path, with `force = true` or without a report, keeps the table closed
under chaining of registered moves along sequences that visit no vertex twice. -/
theorem simpleClosed_register {T : TableFragment} (hT : T.WFT) (hmax : T.max_fragment_size ≤ 0)
    (regs : List (Nat × Path)) (hcl : T.SimpleClosed regs) (a : Nat) (p : Path)
    (hp : ∀ x ∈ p, x < T.G.nodesSize) (force : Bool) (expired : Nat → Bool)
    (hexp : ∀ t, expired t = false)
    (hdone : force = true ∨ (T.registerNewPath a p force expired).1 = none) :
    (T.registerNewPath a p force expired).2.SimpleClosed (regs ++ [(a, p)]) := by
  obtain ⟨hsub, _, _, _, hspec⟩ := registerUnits_done a force expired hexp (moves p) T
    (T.registerNewPath a p force expired).1 (T.registerNewPath a p force expired).2 hT
    (mem_moves_range p _ hp) rfl hdone
  intro x ms hne hlink hnd hvs hin
  by_cases ha : a ∈ ms.map Move.agent
  · obtain ⟨l1, m, l2, rfl, hma, hl1, hl2⟩ := split_at_agent ms a ha hnd
    have hinm := hin m (by simp)
    obtain ⟨p1, hp1, hmv⟩ := hinm
    have hin1 : ∀ y ∈ l1, InRegs regs y := fun y hy =>
      inRegs_of_ne (hin y (by simp [hy])) (hl1 y hy)
    have hin2 : ∀ y ∈ l2, InRegs regs y := fun y hy =>
      inRegs_of_ne (hin y (by simp [hy])) (hl2 y hy)
    rcases List.mem_append.1 hp1 with hold | hnew
    · refine has_mono hsub (hcl x _ hne hlink hnd hvs ?_)
      intro y hy
      simp only [List.mem_append, List.mem_singleton] at hy
      rcases hy with (hy | hy) | hy
      · exact hin1 y hy
      · rw [hy]; exact ⟨p1, hold, hmv⟩
      · exact hin2 y hy
    · simp only [List.mem_singleton, Prod.mk.injEq] at hnew
      obtain ⟨_, rfl⟩ := hnew
      obtain ⟨hunit, hcands⟩ := hspec (m.src, m.dst) hmv
      have hlink' := hlink
      rw [Linked.append, Linked.append] at hlink'
      obtain ⟨⟨hk1, hkm⟩, hk2⟩ := hlink'
      simp only [Linked, and_true] at hkm
      have hend : endOf x (l1 ++ [m]) = m.dst := by
        rw [endOf_append]
        rfl
      rw [hend] at hk2
      have hnd1 : (l1.map Move.agent).Nodup := by
        simp only [List.map_append, List.append_assoc] at hnd
        exact (List.nodup_append.1 hnd).1
      have hnd2 : (l2.map Move.agent).Nodup := by
        simp only [List.map_append, List.append_assoc] at hnd
        exact (List.nodup_append.1 (List.nodup_append.1 hnd).2.1).2.1
      have hv1 : (x :: l1.map Move.dst).Nodup := by
        refine hvs.sublist ?_
        simp only [List.map_append, List.append_assoc]
        exact (List.sublist_append_left _ _).cons₂ x
      have hv2 : (m.dst :: l2.map Move.dst).Nodup := by
        refine hvs.sublist ?_
        simp only [List.map_append, List.append_assoc, List.map_cons, List.map_nil]
        exact (List.sublist_append_right _ _).cons x
      by_cases hboth : l1 = [] ∧ l2 = []
      · obtain ⟨rfl, rfl⟩ := hboth
        simp only [endOf] at hkm
        have : chainFrag x ([] ++ [m] ++ []) = ⟨[m.src, m.dst], [m.agent]⟩ := by
          simp [chainFrag, hkm]
        rw [this, hma]
        exact hunit
      · have hne2 : l1 ≠ [] ∨ l2 ≠ [] := by
          by_contra hc
          push_neg at hc
          exact hboth hc
        have hc := chain_is_candidate T x l1 l2 m hlink hnd
          (fun e => hcl x l1 e hk1 hnd1 hv1 hin1) (fun e => hcl m.dst l2 e hk2 hnd2 hv2 hin2)
          hne2
        rw [hma] at hc
        rcases hcands _ hc with hrej | hcyc | hhas
        · have hnr := rejected_unbounded hmax (chainFrag x (l1 ++ [m] ++ l2)).path
            (chainFrag x (l1 ++ [m] ++ l2)).agents hnd
          rw [hnr] at hrej
          cases hrej
        · rw [simple_not_cycle x _ hne hvs] at hcyc
          cases hcyc
        · exact hhas
  · refine has_mono hsub (hcl x ms hne hlink hnd hvs ?_)
    intro y hy
    exact inRegs_of_ne (hin y hy) (fun e => ha (List.mem_map.2 ⟨y, hy, e⟩))

end TableFragment

namespace TableFragment

/-- A property of fragments that units and candidates have is kept by a registration, and a
reported fragment is a closed candidate of one of the units, built from a table that has the
property. -/
theorem registerUnits_reported {P : Fragment → Prop} (id : Nat) (force : Bool)
    (expired : Nat → Bool) :
    ∀ (ms : List (Nat × Nat)) (t : Nat) (res : Option Fragment) (T : TableFragment),
      T.WFT → T.All P → (∀ uv ∈ ms, uv.1 < T.G.nodesSize ∧ uv.2 < T.G.nodesSize) →
      (∀ uv ∈ ms, P ⟨[uv.1, uv.2], [id]⟩) →
      (∀ T0 : TableFragment, T0.WFT → T0.All P → ∀ uv ∈ ms,
        ∀ c ∈ T0.candidates id uv.1 uv.2, c.agents.Nodup → P c) →
      (registerUnits id force expired ms t res T).2.All P ∧
      ∀ d, (registerUnits id force expired ms t res T).1 = some d → res = some d ∨
        ∃ uv ∈ ms, ∃ T0 : TableFragment, T0.WFT ∧ T0.All P ∧
          d ∈ T0.candidates id uv.1 uv.2 ∧ d.agents.Nodup ∧ d.isCycle = true
  | [], t, res, T, _, h, _, _, _ => by
    simp only [registerUnits]
    exact ⟨h, fun d hd => Or.inl hd⟩
  | (u, v) :: rest, t, res, T, hT, h, hr, hunit, hcand => by
    simp only [registerUnits]
    by_cases he : expired t = true
    · rw [if_pos he]
      exact ⟨h, fun d hd => by cases hd⟩
    · rw [if_neg he]
      have huv := hr (u, v) (List.mem_cons_self _ _)
      have hends : ∀ c ∈ T.candidates id u v, c.EndsIn T.G.nodesSize :=
        fun c hc => candidates_endsIn hT id u v huv.1 huv.2 c hc
      have hpc := all_processCandidates (P := P) force (T.candidates id u v) res T h
        (fun c hc hn => hcand T hT h (u, v) (List.mem_cons_self _ _) c hc hn)
      rcases hpr : processCandidates force (T.candidates id u v) res T with ⟨r1, T1, b⟩
      rw [hpr] at hpc
      obtain ⟨_, hT1, _, hG1, hsome, _, _⟩ :=
        processCandidates_spec force _ T res r1 T1 b hT hends hpr
      have hr1 : ∀ d, r1 = some d → res = some d ∨
          ∃ uv ∈ (u, v) :: rest, ∃ T0 : TableFragment, T0.WFT ∧ T0.All P ∧
            d ∈ T0.candidates id uv.1 uv.2 ∧ d.agents.Nodup ∧ d.isCycle = true := by
        intro d hd
        rcases hpc.2 d hd with h1 | ⟨h1, h2⟩
        · exact Or.inl h1
        · rcases hsome d hd with h3 | ⟨_, h4⟩
          · exact Or.inl h3
          · exact Or.inr ⟨(u, v), List.mem_cons_self _ _, T, hT, h, h1, h2, h4⟩
      cases b with
      | true => exact ⟨hpc.1, hr1⟩
      | false =>
        simp only
        obtain ⟨_, hTU, _, hGU, _⟩ :=
          registerUnit_spec hT1 id u v (by rw [hG1]; exact huv.1) (by rw [hG1]; exact huv.2)
        have ih := registerUnits_reported id force expired rest (t + 1) r1
          (T1.registerUnit id u v) hTU
          (all_registerUnit hpc.1 id u v (hunit (u, v) (List.mem_cons_self _ _)))
          (fun uv huv1 => by rw [hGU, hG1]; exact hr uv (List.mem_cons_of_mem _ huv1))
          (fun uv huv1 => hunit uv (List.mem_cons_of_mem _ huv1))
          (fun T0 hT0 hA0 uv huv1 => hcand T0 hT0 hA0 uv (List.mem_cons_of_mem _ huv1))
        refine ⟨ih.1, fun d hd => ?_⟩
        rcases ih.2 d hd with h1 | ⟨uv, huv1, hrest⟩
        · exact hr1 d h1
        · exact Or.inr ⟨uv, List.mem_cons_of_mem _ huv1, hrest⟩

theorem isChain_mono {regs regs2 : List (Nat × Path)} (h : ∀ r ∈ regs, r ∈ regs2)
    {c : Fragment} (hc : c.IsChain regs) : c.IsChain regs2 := by
  obtain ⟨x, ms, hne, hceq, hlink, hin⟩ := hc
  exact ⟨x, ms, hne, hceq, hlink, fun m hm => inRegs_mono h (hin m hm)⟩

theorem isChain_unit (regs : List (Nat × Path)) (a u v : Nat) (p : Path)
    (hp : (a, p) ∈ regs) (huv : (u, v) ∈ moves p) :
    Fragment.IsChain regs ⟨[u, v], [a]⟩ := by
  refine ⟨u, [⟨a, u, v⟩], by simp, rfl, ⟨rfl, trivial⟩, fun m hm => ?_⟩
  simp only [List.mem_singleton] at hm
  subst hm
  exact ⟨p, hp, huv⟩

/-- The candidates of a registered unit that are built from chains of registered moves are
chains of registered moves. -/
theorem isChain_candidate {regs : List (Nat × Path)} {T0 : TableFragment} (hT0 : T0.WFT)
    (hAll : T0.All (Fragment.IsChain regs)) (a u v : Nat) (p : Path) (hp : (a, p) ∈ regs)
    (huv : (u, v) ∈ moves p) (c : Fragment) (hc : c ∈ T0.candidates a u v) :
    c.IsChain regs := by
  have hm0 : InRegs regs ⟨a, u, v⟩ := ⟨p, hp, huv⟩
  have hleft : ∀ L ∈ T0.toAt u, ∃ x ms, ms ≠ [] ∧ L = chainFrag x ms ∧ Linked x ms ∧
      (∀ m ∈ ms, InRegs regs m) ∧ endOf x ms = u := by
    intro L hL
    obtain ⟨x, ms, hne, rfl, hlink, hin⟩ := hAll.2 u L hL
    have h1 := (hT0.to_ok u _ hL).1
    rw [chainFrag_getLast?] at h1
    exact ⟨x, ms, hne, rfl, hlink, hin, Option.some.inj h1⟩
  have hright : ∀ R ∈ T0.fromAt v, ∃ ms, ms ≠ [] ∧ R = chainFrag v ms ∧ Linked v ms ∧
      (∀ m ∈ ms, InRegs regs m) := by
    intro R hR
    obtain ⟨x, ms, hne, rfl, hlink, hin⟩ := hAll.1 v R hR
    have h1 := (hT0.from_ok v _ hR).1
    rw [chainFrag_head?] at h1
    have hx : x = v := Option.some.inj h1
    subst hx
    exact ⟨ms, hne, rfl, hlink, hin⟩
  rcases (mem_candidates T0 a u v c).1 hc with ⟨L, hL, _, rfl⟩ | ⟨R, hR, _, rfl⟩ |
    ⟨L, hL, R, hR, _, _, rfl⟩
  · obtain ⟨x, ms, hne, rfl, hlink, hin, hend⟩ := hleft L hL
    refine ⟨x, ms ++ [⟨a, u, v⟩], by simp, by simp [chainFrag], ?_, ?_⟩
    · rw [Linked.append]
      exact ⟨hlink, hend.symm, trivial⟩
    · intro m hm
      rcases List.mem_append.1 hm with h1 | h1
      · exact hin m h1
      · simp only [List.mem_singleton] at h1
        rw [h1]; exact hm0
  · obtain ⟨ms, hne, rfl, hlink, hin⟩ := hright R hR
    refine ⟨u, ⟨a, u, v⟩ :: ms, by simp, by simp [chainFrag], ⟨rfl, hlink⟩, ?_⟩
    intro m hm
    rcases List.mem_cons.1 hm with h1 | h1
    · rw [h1]; exact hm0
    · exact hin m h1
  · obtain ⟨x, ms, hne, rfl, hlink, hin, hend⟩ := hleft L hL
    obtain ⟨ms2, hne2, rfl, hlink2, hin2⟩ := hright R hR
    refine ⟨x, ms ++ [⟨a, u, v⟩] ++ ms2, by simp, by simp [chainFrag], ?_, ?_⟩
    · rw [Linked.append, Linked.append]
      refine ⟨⟨hlink, hend.symm, trivial⟩, ?_⟩
      rw [endOf_append]
      exact hlink2
    · intro m hm
      simp only [List.mem_append, List.mem_singleton] at hm
      rcases hm with (h1 | h1) | h1
      · exact hin m h1
      · rw [h1]; exact hm0
      · exact hin2 m h1

/-- The unbounded tables that hold the fragments of registered paths are well-formed, made of
chains of registered moves, and closed under chaining along sequences that visit no vertex
twice. -/
theorem registered_inv {G : Graph} {m : Int} {regs : List (Nat × Path)} {T : TableFragment}
    (h : TableFragment.Registered G m regs T) (hm : m ≤ 0) :
    T.WFT ∧ T.max_fragment_size = m ∧ T.G = G ∧ T.All (Fragment.IsChain regs) ∧
    T.SimpleClosed regs := by
  induction h with
  | fresh =>
    refine ⟨WFT.new G m, rfl, rfl, all_new _ G m, ?_⟩
    intro x ms hne _ _ _ hin
    cases ms with
    | nil => exact absurd rfl hne
    | cons m0 ms =>
      obtain ⟨p, hp, _⟩ := hin m0 (List.mem_cons_self _ _)
      cases hp
  | @register regs T a p force expired _ hp hexp hdone ih =>
    obtain ⟨hT, hmax, hG, hall, hcl⟩ := ih
    have hpT : ∀ x ∈ p, x < T.G.nodesSize := by rw [hG]; exact hp
    obtain ⟨_, hT1, hmax1, hG1, _⟩ := registerUnits_done a force expired hexp (moves p) T
      (T.registerNewPath a p force expired).1 (T.registerNewPath a p force expired).2 hT
      (mem_moves_range p _ hpT) rfl hdone
    have hmem : (a, p) ∈ regs ++ [(a, p)] := by simp
    have hall1 := (registerUnits_reported (P := Fragment.IsChain (regs ++ [(a, p)])) a force
      expired (moves p) 0 none T hT
      ⟨fun v c hc => isChain_mono (fun r hr => List.mem_append_left _ hr) (hall.1 v c hc),
        fun v c hc => isChain_mono (fun r hr => List.mem_append_left _ hr) (hall.2 v c hc)⟩
      (mem_moves_range p _ hpT)
      (fun uv huv => isChain_unit _ a uv.1 uv.2 p hmem huv)
      (fun T0 hT0 hA0 uv huv c hc _ =>
        isChain_candidate hT0 hA0 a uv.1 uv.2 p hmem huv c hc)).1
    exact ⟨hT1, hmax1.trans hmax, hG1.trans hG, hall1,
      simpleClosed_register hT (by rw [hmax]; exact hm) regs hcl a p hpT force expired hexp
        hdone⟩

/-- From a vertex on a sequence of moves that visits no vertex twice, the rest of the sequence
leads to the same end. -/
theorem chain_suffix_from : ∀ (ms : List Move) (y x : Nat), Linked y ms →
    (y :: ms.map Move.dst).Nodup → x ∈ y :: ms.map Move.dst →
    ∃ s : List Move, s.Sublist ms ∧ Linked x s ∧ endOf x s = endOf y ms ∧
      (x :: s.map Move.dst).Nodup := by
  intro ms
  induction ms with
  | nil =>
    intro y x _ hn hx
    simp only [List.map_nil, List.mem_singleton] at hx
    subst hx
    exact ⟨[], List.Sublist.refl _, trivial, rfl, hn⟩
  | cons m r ih =>
    intro y x hl hn hx
    by_cases hxy : x = y
    · subst hxy
      exact ⟨m :: r, List.Sublist.refl _, hl, rfl, hn⟩
    · have hx2 : x ∈ m.dst :: r.map Move.dst := by
        rcases List.mem_cons.1 hx with h1 | h1
        · exact absurd h1 hxy
        · exact h1
      obtain ⟨s, h1, h2, h3, h4⟩ := ih m.dst x hl.2 (List.nodup_cons.1 hn).2 hx2
      exact ⟨s, h1.cons m, h2, h3, h4⟩

/-- A linked sequence of moves contains a linked subsequence with the same ends that visits no
vertex twice. -/
theorem chain_shortcut : ∀ (ms : List Move) (x : Nat), Linked x ms →
    ∃ s : List Move, s.Sublist ms ∧ Linked x s ∧ endOf x s = endOf x ms ∧
      (x :: s.map Move.dst).Nodup := by
  intro ms
  induction ms with
  | nil =>
    intro x _
    exact ⟨[], List.Sublist.refl _, trivial, rfl, List.nodup_singleton x⟩
  | cons m r ih =>
    intro x hl
    obtain ⟨s, hs, hls, hes, hns⟩ := ih m.dst hl.2
    by_cases hx : x ∈ m.dst :: s.map Move.dst
    · obtain ⟨s2, h1, h2, h3, h4⟩ := chain_suffix_from s m.dst x hls hns hx
      exact ⟨s2, (h1.trans hs).cons m, h2, h3.trans hes, h4⟩
    · exact ⟨m :: s, hs.cons₂ m, ⟨hl.1, hls⟩, hes, List.nodup_cons.2 ⟨hx, hns⟩⟩

end TableFragment

namespace TableFragment

/-- On a table that holds the fragments of registered paths, a path without repeated vertices none of whose
moves `u → v` meets a fragment of `t_to[u]` that starts at `v` is registered without a
report. -/
theorem no_report_of_not_blocked {G : Graph} {m : Int} {regs : List (Nat × Path)}
    {T : TableFragment} (hF : TableFragment.Registered G m regs T) (hm : m ≤ 0) (id : Nat)
    (p : Path) (hp : ∀ x ∈ p, x < G.nodesSize) (hnd : p.Nodup)
    (hfree : ∀ uv ∈ moves p, ∀ c ∈ T.toAt uv.1, c.path.head? ≠ some uv.2)
    (expired : Nat → Bool) : (T.registerNewPath id p false expired).1 = none := by
  obtain ⟨hT, hmax, hG, hall, hcl⟩ := registered_inv hF hm
  cases hres : (T.registerNewPath id p false expired).1 with
  | none => rfl
  | some d =>
    exfalso
    have hP : T.All (fun c => id ∈ c.agents ∨ T.Has c) := by
      refine ⟨fun v c hc => Or.inr ?_, fun v c hc => Or.inr ?_⟩
      · obtain ⟨h1, w, h2, h3⟩ := hT.from_ok v c hc
        exact ⟨v, w, h1, h2, hc, h3⟩
      · obtain ⟨h1, w, h2, h3⟩ := hT.to_ok v c hc
        exact ⟨w, v, h2, h1, h3, hc⟩
    have key := (registerUnits_reported (P := fun c => id ∈ c.agents ∨ T.Has c) id false
      expired (moves p) 0 none T hT hP (mem_moves_range p _ (by rw [hG]; exact hp))
      (fun uv _ => Or.inl (by simp))
      (fun T0 _ _ uv _ c hc _ => Or.inl (candidates_agent T0 id uv.1 uv.2 c hc))).2 d hres
    rcases key with h0 | ⟨⟨u, v⟩, huv, T0, hT0, hA0, hdc, hdn, hcyc⟩
    · cases h0
    have hne : u ≠ v := by
      intro e
      obtain ⟨t, ht1, ht2⟩ := (mem_moves_iff p u v).1 huv
      have htl : t + 1 < p.length := by
        by_contra hc
        rw [List.getElem?_eq_none (by omega)] at ht2
        cases ht2
      rw [e] at ht1
      have := List.getElem?_inj (by omega) hnd (ht1.trans ht2.symm)
      omega
    have hblock := hfree (u, v) huv
    simp only at hblock hdc
    have toT : ∀ w L, L ∈ T0.toAt w → id ∉ L.agents → L ∈ T.toAt w := by
      intro w L hL hid
      rcases hA0.2 w L hL with h1 | ⟨a, b, _, hb, _, hbt⟩
      · exact absurd h1 hid
      · have h2 := (hT0.to_ok w L hL).1
        rw [hb] at h2
        rw [← Option.some.inj h2]
        exact hbt
    have fromT : ∀ w R, R ∈ T0.fromAt w → id ∉ R.agents → R ∈ T.fromAt w := by
      intro w R hR hid
      rcases hA0.1 w R hR with h1 | ⟨a, b, ha, _, haf, _⟩
      · exact absurd h1 hid
      · have h2 := (hT0.from_ok w R hR).1
        rw [ha] at h2
        rw [← Option.some.inj h2]
        exact haf
    unfold Fragment.isCycle at hcyc
    rcases (mem_candidates T0 id u v d).1 hdc with ⟨L, hL, hLid, rfl⟩ | ⟨R, hR, hRid, rfl⟩ |
      ⟨L, hL, R, hR, hLid, hRid, rfl⟩
    · have hL1 := toT u L hL hLid
      obtain ⟨hlast, w, hhead, _⟩ := hT.to_ok u L hL1
      simp only at hcyc
      rw [head?_append_of_head? hhead, getLast?_append_of_getLast? (show [v].getLast? = some v
        from rfl)] at hcyc
      have hwv : w = v := by simpa using hcyc
      rw [hwv] at hhead
      exact hblock L hL1 hhead
    · have hR1 := fromT v R hR hRid
      obtain ⟨hhead, w, hlast, hto⟩ := hT.from_ok v R hR1
      simp only at hcyc
      have h1 : (u :: R.path).getLast? = some w :=
        getLast?_append_of_getLast? hlast [u]
      rw [h1] at hcyc
      have huw : u = w := by simpa using hcyc
      rw [← huw] at hto
      exact hblock R hto hhead
    · have hL1 := toT u L hL hLid
      have hR1 := fromT v R hR hRid
      obtain ⟨x, msL, hneL, rfl, hlinkL, hinL⟩ := hall.2 u L hL1
      obtain ⟨y, msR, hneR, rfl, hlinkR, hinR⟩ := hall.1 v R hR1
      have hendL : endOf x msL = u := by
        have h1 := (hT.to_ok u _ hL1).1
        rw [chainFrag_getLast?] at h1
        exact Option.some.inj h1
      have hy : y = v := by
        have h1 := (hT.from_ok v _ hR1).1
        rw [chainFrag_head?] at h1
        exact Option.some.inj h1
      subst hy
      have hd : (⟨((chainFrag x msL).path ++ [y]) ++ (chainFrag y msR).path.tail,
          ((chainFrag x msL).agents ++ [id]) ++ (chainFrag y msR).agents⟩ : Fragment) =
          chainFrag x (msL ++ [⟨id, u, y⟩] ++ msR) := by
        simp [chainFrag]
      rw [hd, chainFrag_head?, chainFrag_getLast?, endOf_append, endOf_append] at hcyc
      have hx : x = endOf y msR := by simpa [endOf] using hcyc
      have hnd2 : ((msR ++ msL).map Move.agent).Nodup := by
        simp only [chainFrag] at hdn
        rw [List.map_append]
        refine List.nodup_append_comm.1 (hdn.sublist ?_)
        exact List.Sublist.append (List.sublist_append_left _ _) (List.Sublist.refl _)
      have hlink : Linked y (msR ++ msL) := by
        rw [Linked.append, ← hx]
        exact ⟨hlinkR, hlinkL⟩
      have hend : endOf y (msR ++ msL) = u := by
        rw [endOf_append, ← hx]
        exact hendL
      obtain ⟨s, hs, hls, hes, hns⟩ := chain_shortcut (msR ++ msL) y hlink
      have hsne : s ≠ [] := by
        intro e
        rw [e, hend] at hes
        exact hne hes.symm
      have hhas := hcl y s hsne hls ((hs.map Move.agent).nodup hnd2) hns
        (fun m0 hm0 => by
          rcases List.mem_append.1 (hs.subset hm0) with h1 | h1
          · exact hinR m0 h1
          · exact hinL m0 h1)
      have hto := (Has.from_to hhas).2
      rw [hes, hend] at hto
      exact hblock _ hto (chainFrag_head? s y)

end TableFragment

namespace Solver

/-- C24: on every table that holds the fragments of the paths registered before (each with
`force = true`, as `getInitialNode` registers them, or without a report; unbounded fragment
size), a path `p` returned by `getPrioritizedPath` has no move `p[t] → p[t+1]` that meets a fragment of
`t_to[p[t]]` whose path starts at `p[t+1]`, and registering `p` for the agent in that table
with `force = false` reports no potential deadlock, whatever the deadline. -/
theorem C24_prioritized_path_no_deadlock (S : Solver) (o : Oracle) (fuel id : Nat)
    (paths : Plan) (m : Int) (regs : List (Nat × Path)) (table : TableFragment) (k : Nat)
    (p : Path) (k1 : Nat) (hWF : S.P.G.WF) (hs : S.P.getStart id < S.P.G.nodesSize)
    (hshuf : ∀ k l, (o.shuffle k l).Perm l) (hm : m ≤ 0)
    (htable : TableFragment.Registered S.P.G m regs table)
    (h : S.getPrioritizedPath o fuel id paths table k = some (p, k1)) :
    (∀ t, t + 1 < p.length → ∀ c ∈ table.toAt (p.getD t 0),
      c.path.head? ≠ some (p.getD (t + 1) 0)) ∧
    ∀ expired, (table.registerNewPath id p false expired).1 = none := by
  unfold getPrioritizedPath at h
  obtain ⟨hnd, hrange⟩ := getPath_nodup S o fuel id _ _ k p k1 hWF hs hshuf h
  have hchain := getPath_chain_not_blocked S o fuel id _ _ k p k1 h
  have hfree : ∀ t, t + 1 < p.length → ∀ c ∈ table.toAt (p.getD t 0),
      c.path.head? ≠ some (p.getD (t + 1) 0) := by
    intro t ht c hc hhead
    have h1 := chain_getD hchain t ht
    unfold checkPrioritized at h1
    split at h1
    · cases h1
    · rw [List.any_eq_false] at h1
      exact h1 c hc (by simpa using hhead)
  refine ⟨hfree, fun expired => ?_⟩
  refine TableFragment.no_report_of_not_blocked htable hm id p hrange hnd ?_ expired
  rintro ⟨u, v⟩ huv
  obtain ⟨t, ht1, ht2⟩ := (mem_moves_iff p u v).1 huv
  have htl : t + 1 < p.length := by
    by_contra hc
    rw [List.getElem?_eq_none (by omega)] at ht2
    cases ht2
  have e1 : p.getD t 0 = u := by rw [List.getD_eq_getElem?_getD, ht1]; rfl
  have e2 : p.getD (t + 1) 0 = v := by rw [List.getD_eq_getElem?_getD, ht2]; rfl
  have := hfree t htl
  rw [e1, e2] at this
  exact this

end Solver

namespace Solver

/-- Witness for C24: on the 3x3 grid agent 0 has registered `0 → 1 → 2`; agent 1 then goes
from 2 to 0 around it. -/
theorem C24_prioritized_path_no_deadlock_witness :
    demoSolver.getPrioritizedPath plainOracle 40 1 []
      ((TableFragment.new grid3 (-1)).registerNewPath 0 [0, 1, 2] true (fun _ => false)).2 0
      = some ([2, 5, 4, 3, 0], 5) ∧
    ((∀ t, t + 1 < ([2, 5, 4, 3, 0] : Path).length →
      ∀ c ∈ ((TableFragment.new grid3 (-1)).registerNewPath 0 [0, 1, 2] true
          (fun _ => false)).2.toAt (([2, 5, 4, 3, 0] : Path).getD t 0),
        c.path.head? ≠ some (([2, 5, 4, 3, 0] : Path).getD (t + 1) 0)) ∧
    ∀ expired, (((TableFragment.new grid3 (-1)).registerNewPath 0 [0, 1, 2] true
      (fun _ => false)).2.registerNewPath 1 [2, 5, 4, 3, 0] false expired).1 = none) :=
  ⟨by decide, C24_prioritized_path_no_deadlock demoSolver plainOracle 40 1 [] (-1)
    ([] ++ [(0, [0, 1, 2])]) _ 0 [2, 5, 4, 3, 0] 5 grid3_WF (by decide)
    (fun _ l => List.Perm.refl l) (by decide)
    (TableFragment.Registered.register 0 [0, 1, 2] true (fun _ => false)
      TableFragment.Registered.fresh (by decide) (fun _ => rfl) (Or.inl rfl))
    (by decide)⟩

end Solver

/-! ## The queue of the search and the root node -/

namespace Solver

/-- The record of the queue does not change the search: the traced loop returns what
`getPathLoop` returns. -/
theorem getPathLoopTraced_result (S : Solver) (o : Oracle) (id : Nat) (chk : CheckInvalidMove)
    (cmp : CompareAstarNodes) :
    ∀ (fuel : Nat) (OPEN : List AstarNode) (CLOSE : List Bool) (k : Nat),
      (getPathLoopTraced S o id chk cmp fuel OPEN CLOSE k).2 =
        getPathLoop S o id chk cmp fuel OPEN CLOSE k := by
  intro fuel
  induction fuel with
  | zero => intro OPEN CLOSE k; rfl
  | succ fuel ih =>
    intro OPEN CLOSE k
    unfold getPathLoopTraced getPathLoop
    split
    · rfl
    · split
      · rfl
      · simp only
        split
        · rfl
        · split
          · exact ih _ _ _
          · split
            · rfl
            · exact ih _ _ _

theorem mem_afterPushes {Q X R : List AstarNode} (h : R ∈ afterPushes Q X) :
    ∀ a ∈ R, a ∈ Q ∨ a ∈ X := by
  unfold afterPushes at h
  obtain ⟨j, _, rfl⟩ := List.mem_map.1 h
  intro a ha
  rcases List.mem_append.1 ha with h1 | h1
  · exact Or.inl h1
  · exact Or.inr (List.mem_of_mem_take h1)

/-- Once every entry of the queue has a parent, the queue never holds an entry without one. -/
theorem getPathLoopTraced_parents (S : Solver) (o : Oracle) (id : Nat) (chk : CheckInvalidMove)
    (cmp : CompareAstarNodes) :
    ∀ (fuel : Nat) (OPEN : List AstarNode) (CLOSE : List Bool) (k : Nat),
      (∀ a ∈ OPEN, ∃ q, a.p = some q) →
      ∀ Q ∈ (getPathLoopTraced S o id chk cmp fuel OPEN CLOSE k).1, ∀ a ∈ Q, ∃ q, a.p = some q := by
  intro fuel
  induction fuel with
  | zero =>
    intro OPEN CLOSE k _ Q hQ
    simp [getPathLoopTraced] at hQ
  | succ fuel ih =>
    intro OPEN CLOSE k hO Q hQ
    unfold getPathLoopTraced at hQ
    split at hQ
    · simp at hQ
    · split at hQ
      · simp at hQ
      · simp only at hQ
        split at hQ
        · simp only [List.mem_singleton] at hQ
          rw [hQ]; exact hO
        · rename_i n hn
          have hO1 : ∀ a ∈ OPEN.eraseIdx (o.top k cmp OPEN % OPEN.length), ∃ q, a.p = some q :=
            fun a ha => hO a (List.mem_of_mem_eraseIdx ha)
          have hX : ∀ (C : List Nat), ∀ a ∈ expand S id chk (CLOSE.set n.v true) n C,
              ∃ q, a.p = some q := by
            intro C a ha
            obtain ⟨u, _, _, _, rfl⟩ := mem_expand ha
            exact ⟨n, rfl⟩
          split at hQ
          · rcases List.mem_cons.1 hQ with h1 | h1
            · rw [h1]; exact hO
            · exact ih _ _ _ hO1 Q h1
          · split at hQ
            · simp only [List.mem_singleton] at hQ
              rw [hQ]; exact hO
            · rcases List.mem_cons.1 hQ with h1 | h1
              · rw [h1]; exact hO
              · rcases List.mem_append.1 h1 with h2 | h2
                · intro a ha
                  rcases mem_afterPushes h2 a ha with h3 | h3
                  · exact hO1 a h3
                  · exact hX _ a h3
                · refine ih _ _ _ ?_ Q h2
                  intro a ha
                  rcases List.mem_append.1 ha with h3 | h3
                  · exact hO1 a h3
                  · exact hX _ a h3

/-- The first round of the search: the queue holds the root alone when it is popped, and
every later content of the queue consists of entries with a parent. -/
theorem getPathLoopTraced_first (S : Solver) (o : Oracle) (id : Nat) (chk : CheckInvalidMove)
    (cmp : CompareAstarNodes) (fuel : Nat) (k : Nat) :
    (getPathLoopTraced S o id chk cmp fuel [S.rootNode id]
      (List.replicate S.P.G.nodesSize false) k).1 = [] ∨
    ∃ later, (getPathLoopTraced S o id chk cmp fuel [S.rootNode id]
      (List.replicate S.P.G.nodesSize false) k).1 = [S.rootNode id] :: later ∧
      ∀ Q ∈ later, ∀ a ∈ Q, ∃ q, a.p = some q := by
  cases fuel with
  | zero => left; rfl
  | succ fuel =>
    unfold getPathLoopTraced
    rw [if_neg (by simp)]
    split
    · left; rfl
    · right
      have hi : o.top k cmp [S.rootNode id] % [S.rootNode id].length = 0 := by
        simp only [List.length_singleton, Nat.mod_one]
      simp only [hi, List.get?_cons_zero, List.eraseIdx_cons_zero, List.nil_append]
      have hc : (List.replicate S.P.G.nodesSize false).getD (S.rootNode id).v false = false := by
        simp only [List.getD_eq_getElem?_getD, List.getElem?_replicate]
        split <;> rfl
      rw [if_neg (by rw [hc]; exact Bool.false_ne_true)]
      have hX : ∀ (C : List Nat) (CL : List Bool), ∀ a ∈ expand S id chk CL (S.rootNode id) C,
          ∃ q, a.p = some q := by
        intro C CL a ha
        obtain ⟨u, _, _, _, rfl⟩ := mem_expand ha
        exact ⟨_, rfl⟩
      split
      · exact ⟨[], rfl, fun Q hQ => by cases hQ⟩
      · refine ⟨_, rfl, fun Q hQ => ?_⟩
        rcases List.mem_append.1 hQ with h2 | h2
        · intro a ha
          rcases mem_afterPushes h2 a ha with h3 | h3
          · cases h3
          · exact hX _ _ a h3
        · exact getPathLoopTraced_parents S o id chk cmp fuel _ _ _ (hX _ _) Q h2

end Solver

namespace DBS

/-- On two entries with parents the comparator reads defined values, and its value is the one
of `compareConstrained`. -/
theorem compareConstrainedRead_some (D : DBS) (id : Nat) (tbl : List (List Nat))
    (a b qa qb : AstarNode) (ha : a.p = some qa) (hb : b.p = some qb) :
    D.compareConstrainedRead id tbl a b = some (D.compareConstrained id tbl a b) := by
  unfold compareConstrainedRead compareConstrained parentV
  rw [ha, hb]
  simp only
  split
  · rfl
  · split
    · rfl
    · split <;> rfl

/-- C31: in every run of `Solver::getPath`, for every predicate, comparator, oracle and
clock, the queue holds the root (the node with null parent) alone after the first push and
when the first iteration pops it, and every content of the queue after that consists of nodes
with a non-null parent; the record of the queue leaves the result of the search as it is.
Hence, whatever two entries the queue hands to the comparator of `DBS::getConstrainedPath`,
both have a parent, and the reads `a->p->v`, `b->p->v` are defined. -/
theorem C31_root_alone_until_popped (D : DBS) (o : Oracle) (fuel id : Nat)
    (checkInvalidNode : CheckInvalidMove) (compare : CompareAstarNodes) (k : Nat) :
    (D.S.getPathTraced o fuel id checkInvalidNode compare k).2 =
      D.S.getPath o fuel id checkInvalidNode compare k ∧
    (D.S.rootNode id).p = none ∧
    (∃ rest, (D.S.getPathTraced o fuel id checkInvalidNode compare k).1 =
        [D.S.rootNode id] :: rest ∧
      (rest = [] ∨ ∃ later, rest = [D.S.rootNode id] :: later ∧
        ∀ Q ∈ later, ∀ a ∈ Q, ∃ q, a.p = some q)) ∧
    ∀ Q ∈ (D.S.getPathTraced o fuel id checkInvalidNode compare k).1,
      ∀ a b, MayCompare Q a b →
        (∃ q, a.p = some q) ∧ (∃ q, b.p = some q) ∧
        ∀ from_to_table, D.compareConstrainedRead id from_to_table a b =
          some (D.compareConstrained id from_to_table a b) := by
  have hshape : ∃ rest, (D.S.getPathTraced o fuel id checkInvalidNode compare k).1 =
        [D.S.rootNode id] :: rest ∧
      (rest = [] ∨ ∃ later, rest = [D.S.rootNode id] :: later ∧
        ∀ Q ∈ later, ∀ a ∈ Q, ∃ q, a.p = some q) :=
    ⟨_, rfl, Solver.getPathLoopTraced_first D.S o id checkInvalidNode compare fuel k⟩
  refine ⟨Solver.getPathLoopTraced_result D.S o id checkInvalidNode compare fuel _ _ k, rfl,
    hshape, ?_⟩
  intro Q hQ a b hab
  obtain ⟨hlen, ha, hb⟩ := hab
  obtain ⟨rest, hrest, hcases⟩ := hshape
  rw [hrest] at hQ
  have hpar : ∀ x ∈ Q, ∃ q, x.p = some q := by
    rcases List.mem_cons.1 hQ with h1 | h1
    · rw [h1] at hlen
      simp at hlen
    · rcases hcases with h2 | ⟨later, h2, h3⟩
      · rw [h2] at h1; cases h1
      · rw [h2] at h1
        rcases List.mem_cons.1 h1 with h4 | h4
        · rw [h4] at hlen
          simp at hlen
        · exact h3 Q h4
  obtain ⟨qa, hqa⟩ := hpar a ha
  obtain ⟨qb, hqb⟩ := hpar b hb
  exact ⟨⟨qa, hqa⟩, ⟨qb, hqb⟩, fun tbl => compareConstrainedRead_some D id tbl a b qa qb hqa hqb⟩

/-- Witness for C31: agent 0 of the demo instance replans under the constraint that forbids
`0 → 1`; the record lists the vertices of the queue entries at each queue operation. -/
theorem C31_root_alone_until_popped_witness :
    (demoDBS.S.getPathTraced plainOracle 40 0 (demoDBS.checkConstrained 0 [⟨0, 0, 1⟩])
      (demoDBS.compareConstrained 0 (demoDBS.fromToTable 0 [[0, 1, 2], [2, 1, 0]])) 0).1.map
        (List.map AstarNode.v) =
      [[0], [0], [3], [3], [4], [4, 6], [4, 6], [6, 1], [6, 1, 5], [6, 1, 5, 7], [6, 1, 5, 7],
        [6, 1, 7, 2], [6, 1, 7, 2, 8], [6, 1, 7, 2, 8]] ∧
    ((demoDBS.S.getPathTraced plainOracle 40 0 (demoDBS.checkConstrained 0 [⟨0, 0, 1⟩])
      (demoDBS.compareConstrained 0 (demoDBS.fromToTable 0 [[0, 1, 2], [2, 1, 0]])) 0).2 =
      demoDBS.S.getPath plainOracle 40 0 (demoDBS.checkConstrained 0 [⟨0, 0, 1⟩])
        (demoDBS.compareConstrained 0 (demoDBS.fromToTable 0 [[0, 1, 2], [2, 1, 0]])) 0 ∧
    (demoDBS.S.rootNode 0).p = none ∧
    (∃ rest, (demoDBS.S.getPathTraced plainOracle 40 0 (demoDBS.checkConstrained 0 [⟨0, 0, 1⟩])
        (demoDBS.compareConstrained 0 (demoDBS.fromToTable 0 [[0, 1, 2], [2, 1, 0]])) 0).1 =
        [demoDBS.S.rootNode 0] :: rest ∧
      (rest = [] ∨ ∃ later, rest = [demoDBS.S.rootNode 0] :: later ∧
        ∀ Q ∈ later, ∀ a ∈ Q, ∃ q, a.p = some q)) ∧
    ∀ Q ∈ (demoDBS.S.getPathTraced plainOracle 40 0 (demoDBS.checkConstrained 0 [⟨0, 0, 1⟩])
        (demoDBS.compareConstrained 0 (demoDBS.fromToTable 0 [[0, 1, 2], [2, 1, 0]])) 0).1,
      ∀ a b, MayCompare Q a b →
        (∃ q, a.p = some q) ∧ (∃ q, b.p = some q) ∧
        ∀ from_to_table, demoDBS.compareConstrainedRead 0 from_to_table a b =
          some (demoDBS.compareConstrained 0 from_to_table a b)) :=
  ⟨by decide, C31_root_alone_until_popped demoDBS plainOracle 40 0
    (demoDBS.checkConstrained 0 [⟨0, 0, 1⟩])
    (demoDBS.compareConstrained 0 (demoDBS.fromToTable 0 [[0, 1, 2], [2, 1, 0]])) 0⟩

end DBS

end Otimapp
